import Mathlib

/-!
# NTree: the traversal engine `NTree::VisitAllNTreeNodes`, the child array of a node,
the tree object, the binary record of a node and the sample spell checker

A shallow embedding of `src/NTree/NTree.cpp`, `src/NTree/NTreeNode.cpp` and
`src/Sample/SpellChecker.cpp`.

* A node pointer (`NTreeNodePtr`) is a natural number, `nullptr` is `none`.
* The heap maps a pointer to the fields of the node stored there.  Reading
  through a pointer that holds no node is undefined behaviour in the source and
  is modelled as "no result" (`none`).
* `fChildren`/`fNumChildren` are one list: `MoreChildren`/`LessChildren` keep the
  count equal to the number of slots of the array, so `GetNumChildren` is the
  length of the list and `GetChild i` is its `i`-th element.  The functions that
  change the array (`InsertChild`, `RemoveChild`, `Move`) work on the count and
  the slots themselves, see the section on the child array.
* The visited bits of the tree are a stack of byte buffers (`VisitedBits` linked
  through `next`); a buffer is a map from byte offset to the byte stored there
  (a value in `[0, 256)`, the bit pattern of the `char`).
* The function-local `static short entryCount` is a field of the program state.
* `while (node != nullptr)` is run with a fuel bound on the number of
  iterations: running out of fuel is "no result".
* Whether the two `malloc` calls of `PushVisitedBits` return a block is an
  argument of the functions that reach them (`pushOk`); where it is not written
  it is `true`.
* The walk also hands back the record of the calls of the callback it made
  (`Trace`), which the source does not build: the theorems speak through it
  about the nodes the callback ran on, and in which order.
-/

set_option autoImplicit false

/-- Fields of `class NTreeNode` (`NTreeNode.h`, private section). -/
structure NTreeNode where
  fType : Nat
  fID : Nat
  fFlags : Int
  fParent : Option Nat
  fChildren : List Nat
deriving DecidableEq, Repr

/-- Conversion of an integer to `short` (two's complement, 16 bits). -/
def toShort (x : Int) : Int := (x + 32768) % 65536 - 32768

/-- The constant `kMaxRecursion` of `NTree.h`. -/
def kMaxRecursion : Int := 32

/-- The enumerator `NTree::kNumVisitedBytes`. -/
def kNumVisitedBytes : Nat := 8192

/-- The enumerator `NTreeNodeRoot::kID`. -/
def kRootID : Nat := 0xFFFF

/-- The enumerator `NTreeNode::kUnassignedID`. -/
def kUnassignedID : Nat := 0

/-- Program state seen by the tree: the node heap, the members `fRoot` and
`fVisitedBits` of `class NTree`, the static `entryCount` of
`VisitAllNTreeNodes`, and the block behind `inNodeActionParm`. -/
structure World (σ : Type) where
  heap : Nat → Option NTreeNode
  fRoot : Nat
  fVisitedBits : List (Nat → Nat)
  entryCount : Int
  parm : σ

/-- The type `NTreeNodeActionFunc`: the callback gets the node and the
parameter block, may change the whole program state (it may edit the tree or
start another walk), and returns `true` to abort.  `none`: the callback itself
has no result. -/
abbrev NTreeNodeActionFunc (σ : Type) := Nat → World σ → Option (Bool × World σ)

/-- Record of the callback invocations of one walk: the node and the value the
callback returned, oldest first. -/
abbrev Trace := List (Nat × Bool)

namespace NTreeNode

/-- `NTreeNode::GetNumChildren`. -/
def GetNumChildren (nd : NTreeNode) : Int := (nd.fChildren.length : Int)

/-- `NTreeNode::GetChild`: `*(fChildren + inChildIndex)`; an index outside the
array has no result. -/
def GetChild (nd : NTreeNode) (inChildIndex : Int) : Option Nat :=
  if 0 ≤ inChildIndex then nd.fChildren[inChildIndex.toNat]? else none

end NTreeNode

namespace NTree

variable {σ : Type}

/-- `byteNum` of `SetVisitedBit`/`Visited`. -/
def byteNum (inNodeID : Nat) : Nat := inNodeID / 8

/-- `bitNum` of `SetVisitedBit`/`Visited`, with its casts to `short`. -/
def bitNum (inNodeID : Nat) : Int :=
  toShort (toShort (inNodeID : Int) - toShort ((byteNum inNodeID * 8 : Nat) : Int))

/-- `mask` of `SetVisitedBit`/`Visited`: the bit pattern of `char(1 << (7 - bitNum))`. -/
def mask (inNodeID : Nat) : Nat := (1 <<< (7 - bitNum inNodeID).toNat) % 256

/-- `NTree::ClearVisitedBits`: zeroes the `kNumVisitedBytes` bytes of the top
buffer, nothing when `fVisitedBits` is null. -/
def ClearVisitedBits (w : World σ) : World σ :=
  match w.fVisitedBits with
  | [] => w
  | vb :: next =>
    { w with fVisitedBits := (fun i => if i < kNumVisitedBytes then 0 else vb i) :: next }

/-- `NTree::PushVisitedBits`: a new buffer becomes the top, then it is cleared.
When one of the two `malloc` calls returns null (`pushOk = false`) nothing is
pushed and nothing is cleared; the function then returns -1, which none of its
callers looks at. -/
def PushVisitedBits (w : World σ) (pushOk : Bool := true) : World σ :=
  if pushOk then ClearVisitedBits { w with fVisitedBits := (fun _ => 0) :: w.fVisitedBits }
  else w

/-- `NTree::PopVisitedBits`: drops the top buffer, nothing when there is none. -/
def PopVisitedBits (w : World σ) : World σ :=
  match w.fVisitedBits with
  | [] => w
  | _ :: next => { w with fVisitedBits := next }

/-- `NTree::SetVisitedBit`; reading `fVisitedBits->bits` through null has no result. -/
def SetVisitedBit (w : World σ) (inNodeID : Nat) (inState : Bool) : Option (World σ) :=
  match w.fVisitedBits with
  | [] => none
  | vb :: next =>
    let b := byteNum inNodeID
    let m := mask inNodeID
    let v := if inState then (vb b ||| m) % 256 else vb b &&& (255 ^^^ m)
    some { w with fVisitedBits := (fun i => if i = b then v else vb i) :: next }

/-- `NTree::Visited`; reading `fVisitedBits->bits` through null has no result. -/
def Visited (w : World σ) (inNodeID : Nat) : Option Bool :=
  match w.fVisitedBits with
  | [] => none
  | vb :: _ => some (decide (vb (byteNum inNodeID) &&& mask inNodeID ≠ 0))

/-- One call `(*inNodeActionProc)(node, inNodeActionParm)`, recorded in the trace. -/
def invoke (act : NTreeNodeActionFunc σ) (node : Nat) (w : World σ) (tr : Trace) :
    Option (Bool × World σ × Trace) :=
  match act node w with
  | none => none
  | some (abort, w1) => some (abort, w1, tr ++ [(node, abort)])

/-- Outcome of one iteration of `while (node != nullptr)`: the loop goes on with
a new cursor, or control jumps to `Exit:` with the values of `abort` and
`endOfBranchCausedAbort`. -/
inductive Step (σ : Type) where
  | next (w : World σ) (node : Option Nat) (tr : Trace)
  | exit (w : World σ) (abort : Bool) (endOfBranchCausedAbort : Bool) (tr : Trace)

/-- The first inner loop: `while ((childIndex >= 0) && !found)`, searching
backward for a visited child.  The first argument is `childIndex + 1`.
Result: `childIndex`, `found`, `child`. -/
def scanBackward (w : World σ) (nd : NTreeNode) :
    Nat → Option Nat → Option (Int × Bool × Option Nat)
  | 0, child => some (-1, false, child)
  | k + 1, _ =>
    match nd.GetChild (k : Int) with
    | none => none
    | some c =>
      match w.heap c with
      | none => none
      | some cn =>
        match Visited w cn.fID with
        | none => none
        | some true => some ((k : Int), true, some c)
        | some false => scanBackward w nd k (some c)

/-- The second inner loop: `while ((childIndex < numChildren) && !found)`,
searching forward for a child that is not visited.  The first argument is the
distance `numChildren - childIndex`.  Result: `childIndex`, `found`, `child`. -/
def scanForward (w : World σ) (nd : NTreeNode) :
    Nat → Int → Option Nat → Option (Int × Bool × Option Nat)
  | 0, childIndex, child => some (childIndex, false, child)
  | k + 1, childIndex, _ =>
    match nd.GetChild childIndex with
    | none => none
    | some c =>
      match w.heap c with
      | none => none
      | some cn =>
        match Visited w cn.fID with
        | none => none
        | some false => some (childIndex, true, some c)
        | some true => scanForward w nd k (childIndex + 1) (some c)

/-- The branch `if (Visited(node->GetID()) == true)` of the loop body. -/
def visitedBranch (inStartNode : Option Nat) (inNodeActionProc : Option (NTreeNodeActionFunc σ))
    (inActionOnEntry inDoOnlyThisBranch : Bool)
    (w : World σ) (node : Nat) (nd : NTreeNode) (tr : Trace) : Option (Step σ) :=
  let parent := nd.fParent
  let nodeIsStartNode := decide (some node = inStartNode)
  let called : Option (Bool × World σ × Trace) :=
    if !inActionOnEntry then
      match inNodeActionProc with
      | some act => invoke act node w tr
      | none => some (false, w, tr)
    else some (false, w, tr)
  match called with
  | none => none
  | some (true, w1, tr1) => some (Step.exit w1 true false tr1)
  | some (false, w1, tr1) =>
    if nodeIsStartNode && inDoOnlyThisBranch then some (Step.exit w1 true true tr1)
    else some (Step.next w1 parent tr1)

/-- The part of the `else` branch after the leaf action: both scans, the entry
action before dropping to the first child, then the descent or the visited mark.
`nd` is the cursor node as it is in `w`. -/
def findAndVisit (inNodeActionProc : Option (NTreeNodeActionFunc σ)) (inActionOnEntry : Bool)
    (w : World σ) (node : Nat) (nd : NTreeNode) (tr : Trace)
    (didAction : Bool) (numChildren childIndex : Int) : Option (Step σ) :=
  match scanBackward w nd (childIndex + 1).toNat none with
  | none => none
  | some (idx, found, child) =>
    let childIndex1 : Int :=
      if found then (if idx + 1 ≥ numChildren then 0 else idx + 1) else 0
    match scanForward w nd (numChildren - childIndex1).toNat childIndex1 child with
    | none => none
    | some (childIndex2, found2, child2) =>
      let called : Option (Bool × World σ × Trace) :=
        if found2 && decide (childIndex2 = 0) && !didAction && inActionOnEntry then
          match inNodeActionProc with
          | some act => invoke act node w tr
          | none => some (false, w, tr)
        else some (false, w, tr)
      match called with
      | none => none
      | some (true, w1, tr1) => some (Step.exit w1 true false tr1)
      | some (false, w1, tr1) =>
        if found2 then some (Step.next w1 child2 tr1)
        else
          match w1.heap node with
          | none => none
          | some nd1 =>
            match SetVisitedBit w1 nd1.fID true with
            | none => none
            | some w2 => some (Step.next w2 (some node) tr1)

/-- The `else` branch of the loop body (the cursor is not visited). -/
def unvisitedBranch (inNodeActionProc : Option (NTreeNodeActionFunc σ)) (inActionOnEntry : Bool)
    (w : World σ) (node : Nat) (nd : NTreeNode) (tr : Trace) : Option (Step σ) :=
  let numChildren : Int := nd.GetNumChildren
  let childIndex : Int := toShort (numChildren - 1)
  if numChildren = 0 && inActionOnEntry then
    match inNodeActionProc with
    | some act =>
      match invoke act node w tr with
      | none => none
      | some (true, w1, tr1) => some (Step.exit w1 true false tr1)
      | some (false, w1, tr1) =>
        match w1.heap node with
        | none => none
        | some nd1 =>
          findAndVisit inNodeActionProc inActionOnEntry w1 node nd1 tr1 true
            nd1.GetNumChildren childIndex
    | none => findAndVisit inNodeActionProc inActionOnEntry w node nd tr false numChildren childIndex
  else findAndVisit inNodeActionProc inActionOnEntry w node nd tr false numChildren childIndex

/-- One iteration of the body of `while (node != nullptr)` with the cursor at `node`. -/
def loopBody (inStartNode : Option Nat) (inNodeActionProc : Option (NTreeNodeActionFunc σ))
    (inActionOnEntry inDoOnlyThisBranch : Bool)
    (w : World σ) (node : Nat) (tr : Trace) : Option (Step σ) :=
  match w.heap node with
  | none => none
  | some nd =>
    match Visited w nd.fID with
    | none => none
    | some true =>
      visitedBranch inStartNode inNodeActionProc inActionOnEntry inDoOnlyThisBranch w node nd tr
    | some false => unvisitedBranch inNodeActionProc inActionOnEntry w node nd tr

/-- The loop `while (node != nullptr)`.  Result: the state at `Exit:` with
`abort`, `endOfBranchCausedAbort` and the trace. -/
def walkLoop (inStartNode : Option Nat) (inNodeActionProc : Option (NTreeNodeActionFunc σ))
    (inActionOnEntry inDoOnlyThisBranch : Bool) :
    Nat → World σ → Option Nat → Trace → Option (World σ × Bool × Bool × Trace)
  | _, w, none, tr => some (w, false, false, tr)
  | 0, _, some _, _ => none
  | fuel + 1, w, some node, tr =>
    match loopBody inStartNode inNodeActionProc inActionOnEntry inDoOnlyThisBranch w node tr with
    | none => none
    | some (Step.exit w1 abort eob tr1) => some (w1, abort, eob, tr1)
    | some (Step.next w1 node1 tr1) =>
      walkLoop inStartNode inNodeActionProc inActionOnEntry inDoOnlyThisBranch fuel w1 node1 tr1

/-- The code from the label `Exit:` to the `return`. -/
def exitPath (w : World σ) (abort endOfBranchCausedAbort : Bool) (tr : Trace) :
    Bool × World σ × Trace :=
  let w1 : World σ :=
    if w.entryCount > 0 then
      let wp := if w.entryCount > 1 then PopVisitedBits w else w
      { wp with entryCount := toShort (wp.entryCount - 1) }
    else w
  (if abort then (if endOfBranchCausedAbort then false else true) else false, w1, tr)

/-- `NTree::VisitAllNTreeNodes`.  Result: the returned flag, the program state
on return, and the record of the callback invocations the call made.  The
result of `PushVisitedBits` is not looked at: when the push fails the loop runs
on the buffer that is on top. -/
def VisitAllNTreeNodes (fuel : Nat) (inStartNode : Option Nat)
    (inNodeActionProc : Option (NTreeNodeActionFunc σ))
    (inActionOnEntry inDoOnlyThisBranch : Bool) (w : World σ) (pushOk : Bool := true) :
    Option (Bool × World σ × Trace) :=
  let w1 : World σ := { w with entryCount := toShort (w.entryCount + 1) }
  if w1.entryCount > kMaxRecursion then some (exitPath w1 false false [])
  else
    let w2 := if w1.entryCount > 1 then PushVisitedBits w1 pushOk else ClearVisitedBits w1
    match walkLoop inStartNode inNodeActionProc inActionOnEntry inDoOnlyThisBranch
        fuel w2 inStartNode [] with
    | none => none
    | some (w3, abort, eob, tr) => some (exitPath w3 abort eob tr)

end NTree

/-! ## Trees laid out in the heap -/

/-- A finite ordered tree: the pointer and the id of the node, and the subtrees
under it in child-array order. -/
inductive Shape where
  | node (ptr : Nat) (id : Nat) (kids : List Shape)

namespace Shape

/-- Pointer of the top node. -/
def ptr : Shape → Nat
  | node p _ _ => p

/-- Id of the top node. -/
def id : Shape → Nat
  | node _ i _ => i

/-- Subtrees under the top node. -/
def kids : Shape → List Shape
  | node _ _ ks => ks

mutual
/-- Pointers of all nodes in pre-order: a node, then its children's subtrees in
child-array order. -/
def pre : Shape → List Nat
  | node p _ ks => p :: preList ks
/-- Pre-order of a list of subtrees, one after the other. -/
def preList : List Shape → List Nat
  | [] => []
  | k :: ks => pre k ++ preList ks
end

mutual
/-- Pointers of all nodes in post-order: the children's subtrees in child-array
order, then the node. -/
def post : Shape → List Nat
  | node p _ ks => postList ks ++ [p]
/-- Post-order of a list of subtrees, one after the other. -/
def postList : List Shape → List Nat
  | [] => []
  | k :: ks => post k ++ postList ks
end

mutual
/-- Ids of all nodes (in pre-order). -/
def ids : Shape → List Nat
  | node _ i ks => i :: idsList ks
/-- Ids of all nodes of a list of subtrees. -/
def idsList : List Shape → List Nat
  | [] => []
  | k :: ks => ids k ++ idsList ks
end

mutual
/-- All subtrees of a tree, the tree itself first: one per node. -/
def subtrees : Shape → List Shape
  | node p i ks => node p i ks :: subtreesList ks
/-- All subtrees of a list of trees. -/
def subtreesList : List Shape → List Shape
  | [] => []
  | k :: ks => subtrees k ++ subtreesList ks
end

mutual
/-- The heap holds the tree: every node is stored at its pointer with its id (an
`unsigned short`), its parent link is the node above (`par` for the top), and
its child array lists the pointers of its subtrees in order (their number fits
the `short` `fNumChildren`). -/
def layout (h : Nat → Option NTreeNode) : Option Nat → Shape → Bool
  | par, node p i ks =>
    match h p with
    | none => false
    | some nd =>
      decide (nd.fID = i) && decide (i < 65536) && decide (nd.fParent = par)
        && decide (nd.fChildren = ks.map ptr) && decide (ks.length < 32768)
        && layoutList h (some p) ks
/-- The heap holds every tree of the list, each with parent link `par`. -/
def layoutList (h : Nat → Option NTreeNode) : Option Nat → List Shape → Bool
  | _, [] => true
  | par, k :: ks => layout h par k && layoutList h par ks
end

mutual
/-- Number of loop iterations the walk spends on a subtree, from the first
arrival of the cursor at its top to the iteration that marks the top visited. -/
def cost : Shape → Nat
  | node _ _ ks => costList ks + 1
/-- Iterations spent on a list of subtrees: each costs its own iterations, one
descent from the parent and one ascent back. -/
def costList : List Shape → Nat
  | [] => 0
  | k :: ks => costList ks + (cost k + 2)
end

end Shape

namespace NTree

variable {σ : Type}

/-! ## Notions used in the statements -/

/-- Bit of id `inNodeID` in the buffer `vb`, as `Visited` reads it. -/
def vbit (vb : Nat → Nat) (inNodeID : Nat) : Bool :=
  decide (vb (byteNum inNodeID) &&& mask inNodeID ≠ 0)

/-- Visited bit of an id in the active (top) buffer; `false` without a buffer. -/
def vis (w : World σ) (inNodeID : Nat) : Bool :=
  match w.fVisitedBits with
  | [] => false
  | vb :: _ => vbit vb inNodeID

/-- The callback does not abort and does not touch the tree when it runs on the
heap `h` with `c` walks active: it returns `false` and leaves the heap, the
visited-bit stack and the count of active walks as they were (it may change
its parameter block). -/
def Framed (act : NTreeNodeActionFunc σ) (h : Nat → Option NTreeNode) (c : Int) : Prop :=
  ∀ (n : Nat) (w : World σ), w.heap = h → w.entryCount = c → w.fVisitedBits ≠ [] →
    ∃ w1, act n w = some (false, w1) ∧ w1.heap = h ∧ w1.entryCount = c ∧
      w1.fVisitedBits = w.fVisitedBits

/-- Trace of a run in which the callback ran on the nodes `ps` in this order and
never aborted. -/
def calm (ps : List Nat) : Trace := ps.map (fun p => (p, false))

/-- What a scan reads at slot `j` of the child array of `nd`: the child pointer
and the visited bit of the child's id. -/
def childVis (w : World σ) (nd : NTreeNode) (j : Nat) : Option (Nat × Bool) :=
  match nd.fChildren[j]? with
  | none => none
  | some c =>
    match w.heap c with
    | none => none
    | some cn =>
      match Visited w cn.fID with
      | none => none
      | some v => some (c, v)

/-- Relation between the state before and after the walk has worked through
the nodes with ids `l`: the heap, the count of active walks and the buffers
below the top are the same, and the top buffer has the bits of `l` set in
addition. -/
def Marked (w w1 : World σ) (l : List Nat) : Prop :=
  w1.heap = w.heap ∧ w1.entryCount = w.entryCount ∧ w1.fVisitedBits ≠ [] ∧
    w1.fVisitedBits.tail = w.fVisitedBits.tail ∧
    ∀ b, b < 65536 → vis w1 b = (decide (b ∈ l) || vis w b)

/-- Nodes on which the callback runs between the arrival of the cursor at the
top of a subtree and the iteration that marks the top visited. -/
def inTrace (onEntry : Bool) (S : Shape) : List Nat :=
  if onEntry then S.pre else Shape.postList S.kids

/-- Nodes of a list of subtrees in the order of the chosen timing. -/
def restTrace (onEntry : Bool) (ks : List Shape) : List Nat :=
  if onEntry then Shape.preList ks else Shape.postList ks

/-- The entry call on the parent, made when the cursor drops to the first child
(or finds no child at all). -/
def headTrace (onEntry : Bool) (done : List Shape) (p : Nat) : List Nat :=
  if onEntry && done.isEmpty then [p] else []

/-- Order in which a walk with the chosen timing runs the callback on a tree. -/
def order (onEntry : Bool) (S : Shape) : List Nat :=
  if onEntry then S.pre else S.post

/-- Relation between the state at the call of a walk and the state on its
return when the walk has left the tree alone: same heap, same count of active
walks, same buffers below the top; a nested walk (`entryCount > 0` at the call)
also leaves the top buffer as it was. -/
def Returned (w w1 : World σ) : Prop :=
  w1.heap = w.heap ∧ w1.entryCount = w.entryCount ∧
    w1.fVisitedBits.length = w.fVisitedBits.length ∧
    w1.fVisitedBits.tail = w.fVisitedBits.tail ∧
    (0 < w.entryCount → w1.fVisitedBits = w.fVisitedBits)

/-- A callback that starts a walk of its own on the same tree, from the node
`startOf n`, with callback `inner`, and hands the result of that walk back;
`pushOk` says whether the push of the buffer for that walk succeeds. -/
def nested (fuel : Nat) (inner : NTreeNodeActionFunc σ) (startOf : Nat → Option Nat)
    (inActionOnEntry inDoOnlyThisBranch : Bool) (pushOk : Bool) : NTreeNodeActionFunc σ :=
  fun n w =>
    match VisitAllNTreeNodes fuel (startOf n) (some inner) inActionOnEntry inDoOnlyThisBranch w
        pushOk with
    | none => none
    | some (r, w1, _) => some (r, w1)

/-- A callback that does nothing and never aborts. -/
def noAction : NTreeNodeActionFunc Unit := fun _ w => some (false, w)

/-- A node with type 0 and flags 0. -/
def mkNode (id : Nat) (parent : Option Nat) (children : List Nat) : NTreeNode :=
  { fType := 0, fID := id, fFlags := 0, fParent := parent, fChildren := children }

/-- Sample heap: the root (pointer 0, id `0xFFFF`) with children 1, 2 and 4;
node 1 has the child 3. -/
def sampleHeap : Nat → Option NTreeNode
  | 0 => some (mkNode 0xFFFF none [1, 2, 4])
  | 1 => some (mkNode 1 (some 0) [3])
  | 2 => some (mkNode 2 (some 0) [])
  | 3 => some (mkNode 3 (some 1) [])
  | 4 => some (mkNode 40000 (some 0) [])
  | _ => none

/-- The tree stored in `sampleHeap`. -/
def sampleTree : Shape :=
  Shape.node 0 0xFFFF
    [Shape.node 1 1 [Shape.node 3 3 []], Shape.node 2 2 [], Shape.node 4 40000 []]

/-- The subtree of `sampleTree` under node 1. -/
def sampleBranch : Shape := Shape.node 1 1 [Shape.node 3 3 []]

/-- The sample tree between walks: one visited-bit buffer, no walk active. -/
def sampleWorld : World Unit :=
  { heap := sampleHeap, fRoot := 0, fVisitedBits := [fun _ => 0], entryCount := 0, parm := () }

/-- What a caller sees of a walk: the returned flag and the callback record. -/
def observe {σ : Type} (r : Option (Bool × World σ × Trace)) : Option (Bool × Trace) :=
  r.map (fun x => (x.1, x.2.2))

/-- The ways one iteration of the loop with the cursor at `p` can end: it makes
at most one call of the callback, and marks at most one id. -/
inductive StepOf (proc : Option (NTreeNodeActionFunc σ)) (w : World σ) (p : Nat) (tr : Trace) :
    Step σ → Prop where
  | move (n : Option Nat) : StepOf proc w p tr (Step.next w n tr)
  | mark (i : Nat) (w2 : World σ) (h : SetVisitedBit w i true = some w2) :
      StepOf proc w p tr (Step.next w2 (some p) tr)
  | endBranch : StepOf proc w p tr (Step.exit w true true tr)
  | callAbort (act : NTreeNodeActionFunc σ) (w1 : World σ) (hp : proc = some act)
      (h : act p w = some (true, w1)) :
      StepOf proc w p tr (Step.exit w1 true false (tr ++ [(p, true)]))
  | callMove (act : NTreeNodeActionFunc σ) (w1 : World σ) (n : Option Nat) (hp : proc = some act)
      (h : act p w = some (false, w1)) :
      StepOf proc w p tr (Step.next w1 n (tr ++ [(p, false)]))
  | callMark (act : NTreeNodeActionFunc σ) (w1 : World σ) (i : Nat) (w2 : World σ)
      (hp : proc = some act) (h : act p w = some (false, w1))
      (hm : SetVisitedBit w1 i true = some w2) :
      StepOf proc w p tr (Step.next w2 (some p) (tr ++ [(p, false)]))
  | callEnd (act : NTreeNodeActionFunc σ) (w1 : World σ) (hp : proc = some act)
      (h : act p w = some (false, w1)) :
      StepOf proc w p tr (Step.exit w1 true true (tr ++ [(p, false)]))

/-- No recorded call has aborted. -/
def Quiet (tr : Trace) : Prop := ∀ x ∈ tr, x.2 = false

/-- The record at `Exit:`: either no call has aborted, and then `abort` is set
only together with `endOfBranchCausedAbort`; or the last call, and only the
last, has aborted, and then `abort` is set and `endOfBranchCausedAbort` is not. -/
def AbortLast (tr : Trace) (abort eob : Bool) : Prop :=
  (Quiet tr ∧ (abort = true → eob = true)) ∨
    (∃ tr0 n, tr = tr0 ++ [(n, true)] ∧ Quiet tr0 ∧ abort = true ∧ eob = false)

/-- The callback returns with the count of active walks it was called with. -/
def KeepsCount (act : NTreeNodeActionFunc σ) : Prop :=
  ∀ (n : Nat) (w w1 : World σ) (r : Bool), act n w = some (r, w1) → w1.entryCount = w.entryCount

/-- A callback that aborts on the node `k` and on no other node. -/
def abortAt (k : Nat) : NTreeNodeActionFunc Unit := fun n w => some (decide (n = k), w)

/-- The sample tree while 32 walks are active: 32 buffers, `entryCount` 32. -/
def ceilingWorld : World Unit :=
  { heap := sampleHeap, fRoot := 0, fVisitedBits := List.replicate 32 (fun _ => 0),
    entryCount := 32, parm := () }

/-- Callbacks nested `d` deep: each starts a walk of its own (from `startOf n`,
with the same timing and scope) whose callback is the next one; the innermost
is `base`.  `pushOk` says whether the pushes of the buffers for these walks
succeed. -/
def tower (fuel : Nat) (base : NTreeNodeActionFunc σ) (startOf : Nat → Option Nat)
    (inActionOnEntry inDoOnlyThisBranch : Bool) (pushOk : Bool) : Nat → NTreeNodeActionFunc σ
  | 0 => base
  | d + 1 =>
    nested fuel (tower fuel base startOf inActionOnEntry inDoOnlyThisBranch pushOk d) startOf
      inActionOnEntry inDoOnlyThisBranch pushOk

/-- State in which `VisitAllNTreeNodes` starts its loop when the call is not
refused: `entryCount` incremented, a new buffer pushed (nested call) or the top
buffer cleared (outermost call). -/
def loopEntry (w : World σ) (pushOk : Bool := true) : World σ :=
  let w1 : World σ := { w with entryCount := toShort (w.entryCount + 1) }
  if w1.entryCount > 1 then PushVisitedBits w1 pushOk else ClearVisitedBits w1

/-- State of the loop `while (node != nullptr)` after `k` iterations (world,
cursor, record); no result if the loop has ended or failed before. -/
def walkState (inStartNode : Option Nat) (inNodeActionProc : Option (NTreeNodeActionFunc σ))
    (inActionOnEntry inDoOnlyThisBranch : Bool) :
    Nat → World σ → Option Nat → Trace → Option (World σ × Option Nat × Trace)
  | 0, w, node, tr => some (w, node, tr)
  | _ + 1, _, none, _ => none
  | k + 1, w, some p, tr =>
    match loopBody inStartNode inNodeActionProc inActionOnEntry inDoOnlyThisBranch w p tr with
    | some (Step.next w1 node1 tr1) =>
      walkState inStartNode inNodeActionProc inActionOnEntry inDoOnlyThisBranch k w1 node1 tr1
    | _ => none

/-- Invariants of the node types on a heap: ids are `unsigned short`, child
counts are `short`, and no two nodes share an id. -/
def WellFormed (h : Nat → Option NTreeNode) : Prop :=
  (∀ q nd, h q = some nd → nd.fID < 65536 ∧ nd.fChildren.length < 32768) ∧
    (∀ q1 q2 n1 n2, h q1 = some n1 → h q2 = some n2 → n1.fID = n2.fID → q1 = q2)

/-- The heap `h1` is the heap `h` after children were inserted into node `n`:
every other node of `h` is as it was, `n` has the same fields and still all its
old children (at any position among the new ones), and every node of `h1` that
is not in `h` is a leaf. -/
def GrowsAt (h h1 : Nat → Option NTreeNode) (n : Nat) : Prop :=
  (∀ q nd, h q = some nd → q ≠ n → h1 q = some nd) ∧
    (∀ nd, h n = some nd → ∃ cs, h1 n = some { nd with fChildren := cs } ∧
      ∀ c ∈ nd.fChildren, c ∈ cs) ∧
    (∀ q nq, h q = none → h1 q = some nq → nq.fChildren = [])

/-- A callback that only inserts new children into the node it is called on:
on a heap satisfying the caller's invariant `I` it never aborts, leaves the
visited-bit stack and the count of active walks alone, and the heap it returns
satisfies `I` again and is the old heap grown at that node. -/
def Growing (I : (Nat → Option NTreeNode) → Prop) (act : NTreeNodeActionFunc σ) : Prop :=
  ∀ (n : Nat) (w w1 : World σ) (r : Bool), I w.heap → act n w = some (r, w1) →
    r = false ∧ w1.fVisitedBits = w.fVisitedBits ∧ w1.entryCount = w.entryCount ∧
      I w1.heap ∧ GrowsAt w.heap w1.heap n

/-- Loop invariant of an entry-timed walk with a growing callback; `h0` is the
heap at the call.  Every marked id belongs to a node; a marked node has only
marked children; a node inserted since the call is marked only after the
callback ran on it, and has no children before the callback ran on it. -/
def GrowInv (h0 : Nat → Option NTreeNode) (w : World σ) (tr : Trace) : Prop :=
  w.fVisitedBits ≠ [] ∧
    (∀ i, i < 65536 → vis w i = true → ∃ q nd, w.heap q = some nd ∧ nd.fID = i) ∧
    (∀ q nd, w.heap q = some nd → vis w nd.fID = true →
      ∀ c ∈ nd.fChildren, ∃ cn, w.heap c = some cn ∧ vis w cn.fID = true) ∧
    (∀ c cn, w.heap c = some cn → h0 c = none → vis w cn.fID = true →
      c ∈ tr.map Prod.fst) ∧
    (∀ c cn, w.heap c = some cn → h0 c = none → c ∉ tr.map Prod.fst → cn.fChildren = [])

/-- In every state the loop of an entry-timed walk reaches with the cursor on a
node that is already marked visited (the iteration that moves the cursor up to
the parent, or ends the walk), the callback has run on each child of that node
that was not in the heap when the walk was called. -/
def InsertedCalledBeforeAscent (act : NTreeNodeActionFunc σ) (start : Option Nat)
    (branch pushOk : Bool) (w : World σ) : Prop :=
  ∀ (k : Nat) (wk : World σ) (X : Nat) (trk : Trace) (nd : NTreeNode),
    walkState start (some act) true branch k (loopEntry w pushOk) start []
      = some (wk, some X, trk) →
    wk.heap X = some nd → vis wk nd.fID = true →
    ∀ c ∈ nd.fChildren, w.heap c = none → c ∈ trk.map Prod.fst

/-- Ids in the sample heap with room for one more node: node 5 gets id 5. -/
def sampleID : Nat → Nat
  | 0 => 0xFFFF
  | 4 => 40000
  | q => q

/-- Invariant kept by `growAction`: only the pointers 0 to 5 hold nodes, each
with the id `sampleID` gives it and at most three children. -/
def sampleInv (h : Nat → Option NTreeNode) : Prop :=
  ∀ q nd, h q = some nd → q ≤ 5 ∧ nd.fID = sampleID q ∧ nd.fChildren.length ≤ 3

/-- The sample heap after `InsertChild` has made a new node 5 (id 5) the only
child of node 2, whose fields are `nd`. -/
def growHeap (h : Nat → Option NTreeNode) (nd : NTreeNode) : Nat → Option NTreeNode :=
  fun q =>
    if q = 2 then some { nd with fChildren := [5] }
    else if q = 5 then some (mkNode 5 (some 2) [])
    else h q

/-- A callback that, called on node 2 while it has no children and pointer 5 is
free, creates node 5 and inserts it as a child of node 2; on every other call
it does nothing. -/
def growAction : NTreeNodeActionFunc Unit := fun n w =>
  match w.heap 2, w.heap 5 with
  | some nd, none =>
    if n = 2 ∧ nd.fChildren = [] then
      some (false, { w with heap := growHeap w.heap nd })
    else some (false, w)
  | _, _ => some (false, w)

/-- What is looked at in a loop state of the sample walks: the cursor and the
record, and the child array and visited bit of node 2. -/
def glimpse (s : Option (World Unit × Option Nat × Trace)) :
    Option ((Option Nat × Trace) × (List Nat × Bool)) :=
  s.bind (fun x =>
    (x.1.heap 2).map (fun nd => ((x.2.1, x.2.2), (nd.fChildren, vis x.1 nd.fID))))

end NTree

/-! ## The child array of a node (`NTreeNode.cpp`)

`MoreChildren`, `LessChildren`, `InsertChild`, `RemoveChild`,
`FindChildIndexByAddress` and `Move` work on the members `fNumChildren` (a
`short`) and `fChildren` (a pointer to an array of node pointers).  While one
of them runs, the two members are held in a `ChildArray`: the count and the
slots of the array, a slot holding a node pointer or the null pointer
(`none`, what `calloc` and an uninitialised `malloc` block are taken to
hold).  Reading or writing a slot outside the array is undefined behaviour
and gives no result (`none`).  Whether `calloc` / `malloc` return a block is
an argument of the operation (`callocOk`, `mallocOk`).  When the function
returns, the array is stored back as the child list of the node; a state in
which the count differs from the number of slots, or in which a slot is
null, is not a node of this model and gives no result either. -/

/-- The members `fNumChildren` and `fChildren` of one node while a member
function works on them. -/
structure ChildArray where
  fNumChildren : Int
  fChildren : List (Option Nat)
deriving DecidableEq, Repr

namespace ChildArray

/-- Read of `*(fChildren + i)`: no result outside the array. -/
def getSlot (a : List (Option Nat)) (i : Int) : Option (Option Nat) :=
  if 0 ≤ i then a[i.toNat]? else none

/-- Write of `*(fChildren + i) = v`: no result outside the array. -/
def setSlot (a : List (Option Nat)) (i : Int) (v : Option Nat) :
    Option (List (Option Nat)) :=
  if 0 ≤ i ∧ i.toNat < a.length then some (a.set i.toNat v) else none

/-- The loop `for (i = ...; i < n; i += 1) *(newArray + i) = *(fChildren + i);`
of `MoreChildren` and `LessChildren`; the first argument counts the
iterations that are left, the second is `i`. -/
def copySlots (src : List (Option Nat)) :
    Nat → Int → List (Option Nat) → Option (List (Option Nat))
  | 0, _, dst => some dst
  | k + 1, i, dst =>
    match getSlot src i with
    | none => none
    | some v =>
      match setSlot dst i v with
      | none => none
      | some dst1 => copySlots src k (i + 1) dst1

/-- The loop `for (i = fNumChildren - 1; i > inAtIndex; i -= 1)
*(fChildren + i) = *(fChildren + i - 1);` of `InsertChild`; the first argument
counts the iterations that are left, the second is `i`. -/
def shiftUp : Nat → Int → List (Option Nat) → Option (List (Option Nat))
  | 0, _, a => some a
  | k + 1, i, a =>
    match getSlot a (i - 1) with
    | none => none
    | some v =>
      match setSlot a i v with
      | none => none
      | some a1 => shiftUp k (i - 1) a1

/-- The loop `for (i = inChildIndex; i < fNumChildren - 1; i += 1)
*(fChildren + i) = *(fChildren + i + 1);` of `RemoveChild`; the first argument
counts the iterations that are left, the second is `i`. -/
def shiftDown : Nat → Int → List (Option Nat) → Option (List (Option Nat))
  | 0, _, a => some a
  | k + 1, i, a =>
    match getSlot a (i + 1) with
    | none => none
    | some v =>
      match setSlot a i v with
      | none => none
      | some a1 => shiftDown k (i + 1) a1

/-- The loop `while ((i < fNumChildren) && (*(fChildren + i) != inChild))
i += 1;` of `FindChildIndexByAddress`: the value of `i` when it ends.  The
first argument is `fNumChildren - i`. -/
def findSlot (a : List (Option Nat)) (inChild : Nat) : Nat → Int → Option Int
  | 0, i => some i
  | k + 1, i =>
    match getSlot a i with
    | none => none
    | some v => if v ≠ some inChild then findSlot a inChild k (i + 1) else some i

/-- All slots as node pointers, if none of them is null. -/
def allSome : List (Option Nat) → Option (List Nat)
  | [] => some []
  | none :: _ => none
  | some p :: rest =>
    match allSome rest with
    | none => none
    | some ps => some (p :: ps)

/-- The child list that a node with these two members has in the heap. -/
def toChildren (ca : ChildArray) : Option (List Nat) :=
  if ca.fNumChildren = (ca.fChildren.length : Int) then allSome ca.fChildren else none

/-- `NTreeNode::MoreChildren(short)`: the error code and the two members
afterwards. -/
def MoreChildren (ca : ChildArray) (inNumChildrenToAdd : Int) (callocOk : Bool) :
    Option (Int × ChildArray) :=
  if callocOk then
    let newArray : List (Option Nat) :=
      List.replicate (ca.fNumChildren + inNumChildrenToAdd).toNat none
    let copied :=
      if ca.fNumChildren > 0 then copySlots ca.fChildren ca.fNumChildren.toNat 0 newArray
      else some newArray
    match copied with
    | none => none
    | some arr =>
      some (0, { fNumChildren := toShort (ca.fNumChildren + inNumChildrenToAdd),
                 fChildren := arr })
  else some (-1, ca)

/-- `NTreeNode::LessChildren(short)`: the error code and the two members
afterwards. -/
def LessChildren (ca : ChildArray) (inNumChildrenToReduce : Int) (mallocOk : Bool) :
    Option (Int × ChildArray) :=
  if ca.fNumChildren > 0 then
    let numChildren := toShort (ca.fNumChildren - inNumChildrenToReduce)
    if numChildren ≤ 0 then some (0, { fNumChildren := 0, fChildren := [] })
    else if mallocOk then
      match copySlots ca.fChildren numChildren.toNat 0
          (List.replicate numChildren.toNat none) with
      | none => none
      | some arr => some (0, { fNumChildren := numChildren, fChildren := arr })
    else some (-1, ca)
  else some (0, ca)

/-- The part of `InsertChild(NTreeNodePtr, short)` between `MoreChildren(1)`
and `SetParent`: the three ways in which the new child is stored. -/
def placeChild (ca : ChildArray) (inNewChild : Nat) (inAtIndex : Int) :
    Option ChildArray :=
  if ca.fNumChildren = 1 then
    (setSlot ca.fChildren 0 (some inNewChild)).map
      (fun arr => { ca with fChildren := arr })
  else if inAtIndex ≥ ca.fNumChildren then
    (setSlot ca.fChildren (toShort (ca.fNumChildren - 1)) (some inNewChild)).map
      (fun arr => { ca with fChildren := arr })
  else
    match shiftUp (ca.fNumChildren - 1 - inAtIndex).toNat (ca.fNumChildren - 1)
        ca.fChildren with
    | none => none
    | some arr =>
      (setSlot arr inAtIndex (some inNewChild)).map
        (fun arr1 => { ca with fChildren := arr1 })

/-- The body of `RemoveChild(short)`.  The value that `LessChildren` returns
is dropped, as in the source: the function answers `error`, which is still
0. -/
def dropChild (ca : ChildArray) (inChildIndex : Int) (mallocOk : Bool) :
    Option (Int × ChildArray) :=
  if ca.fNumChildren > 0 ∧ inChildIndex ≥ 0 ∧ inChildIndex < ca.fNumChildren then
    if ca.fNumChildren = 1 ∨ inChildIndex = ca.fNumChildren - 1 then
      match LessChildren ca 1 mallocOk with
      | none => none
      | some r => some (0, r.2)
    else
      match shiftDown (ca.fNumChildren - 1 - inChildIndex).toNat inChildIndex
          ca.fChildren with
      | none => none
      | some arr =>
        match LessChildren { ca with fChildren := arr } 1 mallocOk with
        | none => none
        | some r => some (0, r.2)
  else some (0, ca)

/-- The body of `FindChildIndexByAddress`. -/
def findIndex (ca : ChildArray) (inChild : Nat) : Option Int :=
  if ca.fNumChildren > 0 then
    match findSlot ca.fChildren inChild ca.fNumChildren.toNat 0 with
    | none => none
    | some i => if i < ca.fNumChildren then some i else some (-1)
  else some (-1)

end ChildArray

namespace NTreeNode

/-- The two members of a node of the heap. -/
def childArray (nd : NTreeNode) : ChildArray :=
  { fNumChildren := (nd.fChildren.length : Int), fChildren := nd.fChildren.map some }

/-- The heap with the node `nd` stored at `p`. -/
def setNode (h : Nat → Option NTreeNode) (p : Nat) (nd : NTreeNode) :
    Nat → Option NTreeNode :=
  fun q => if q = p then some nd else h q

/-- `NTreeNode::Initialize` followed by the two assignments of the
constructor `NTreeNode(NTreeNodeType, NTreeNodeID)`; the id is an
`unsigned short`. -/
def create (inType inID : Nat) : NTreeNode :=
  { fType := inType, fID := inID % 65536, fFlags := 0, fParent := none, fChildren := [] }

/-- `NTreeNode::InsertChild(NTreeNodePtr, short)` called on the node at
`this`. -/
def InsertChild (h : Nat → Option NTreeNode) (this inNewChild : Nat) (inAtIndex : Int)
    (callocOk : Bool) : Option (Int × (Nat → Option NTreeNode)) :=
  match h this with
  | none => none
  | some nd =>
    match ChildArray.MoreChildren nd.childArray 1 callocOk with
    | none => none
    | some (error, ca) =>
      if error ≠ 0 then some (error, h)
      else
        match ChildArray.placeChild ca inNewChild inAtIndex with
        | none => none
        | some ca1 =>
          match ca1.toChildren with
          | none => none
          | some cs =>
            let h1 := setNode h this { nd with fChildren := cs }
            match h1 inNewChild with
            | none => none
            | some cn => some (error, setNode h1 inNewChild { cn with fParent := some this })

/-- `NTreeNode::InsertChild(NTreeNodePtr)`: `InsertChild(inNewChild,
fNumChildren)`. -/
def InsertChildLast (h : Nat → Option NTreeNode) (this inNewChild : Nat)
    (callocOk : Bool) : Option (Int × (Nat → Option NTreeNode)) :=
  match h this with
  | none => none
  | some nd => InsertChild h this inNewChild nd.GetNumChildren callocOk

/-- `NTreeNode::RemoveChild(short)` called on the node at `this`. -/
def RemoveChild (h : Nat → Option NTreeNode) (this : Nat) (inChildIndex : Int)
    (mallocOk : Bool) : Option (Int × (Nat → Option NTreeNode)) :=
  match h this with
  | none => none
  | some nd =>
    match ChildArray.dropChild nd.childArray inChildIndex mallocOk with
    | none => none
    | some (error, ca) =>
      match ca.toChildren with
      | none => none
      | some cs => some (error, setNode h this { nd with fChildren := cs })

/-- `NTreeNode::FindChildIndexByAddress` called on the node at `this`. -/
def FindChildIndexByAddress (h : Nat → Option NTreeNode) (this inChild : Nat) :
    Option Int :=
  match h this with
  | none => none
  | some nd => ChildArray.findIndex nd.childArray inChild

/-- `NTreeNode::RemoveChild(NTreeNodePtr)`:
`RemoveChild(FindChildIndexByAddress(inChild))`. -/
def RemoveChildByAddress (h : Nat → Option NTreeNode) (this inChild : Nat)
    (mallocOk : Bool) : Option (Int × (Nat → Option NTreeNode)) :=
  match FindChildIndexByAddress h this inChild with
  | none => none
  | some index => RemoveChild h this index mallocOk

/-- `NTreeNode::Move(NTreeNodePtr, short)` called on the node at `this`. -/
def Move (h : Nat → Option NTreeNode) (this inNewParent : Nat) (inIndex : Int)
    (mallocOk callocOk : Bool) : Option (Int × (Nat → Option NTreeNode)) :=
  match h this with
  | none => none
  | some nd =>
    match nd.fParent with
    | none => some (0, h)
    | some parent =>
      match RemoveChildByAddress h parent this mallocOk with
      | none => none
      | some (error, h1) =>
        if error ≠ 0 then some (error, h1)
        else InsertChild h1 inNewParent this inIndex callocOk

end NTreeNode

/-- The enumerator `NTreeNodeRoot::kType`, the character constant `'ROOT'`. -/
def kRootType : Nat := 0x524F4F54

/-! ## Notions used in the statements about the child array -/

/-- One call of a child-array operation on a node, with the outcome of the
allocations it makes. -/
inductive TreeCall where
  | insertAt (node child : Nat) (atIndex : Int) (callocOk : Bool)
  | insertLast (node child : Nat) (callocOk : Bool)
  | removeAt (node : Nat) (index : Int) (mallocOk : Bool)
  | removeNode (node child : Nat) (mallocOk : Bool)
  | move (node newParent : Nat) (index : Int) (mallocOk callocOk : Bool)
deriving DecidableEq, Repr

namespace TreeCall

/-- The call made on the heap `h`. -/
def run (h : Nat → Option NTreeNode) : TreeCall → Option (Int × (Nat → Option NTreeNode))
  | insertAt node child atIndex callocOk => NTreeNode.InsertChild h node child atIndex callocOk
  | insertLast node child callocOk => NTreeNode.InsertChildLast h node child callocOk
  | removeAt node index mallocOk => NTreeNode.RemoveChild h node index mallocOk
  | removeNode node child mallocOk => NTreeNode.RemoveChildByAddress h node child mallocOk
  | move node newParent index mallocOk callocOk =>
    NTreeNode.Move h node newParent index mallocOk callocOk

/-- The calls made one after the other, whatever error codes they return. -/
def runAll : List TreeCall → (Nat → Option NTreeNode) → Option (Nat → Option NTreeNode)
  | [], h => some h
  | c :: rest, h =>
    match run h c with
    | none => none
    | some r => runAll rest r.2

end TreeCall

namespace NTreeNode

/-- The child list with `c` put in front of position `m`. -/
def insertedAt (cs : List Nat) (m : Nat) (c : Nat) : List Nat :=
  cs.take m ++ c :: cs.drop m

/-- Child list and parent link of the node at `p`. -/
def links (h : Nat → Option NTreeNode) (p : Nat) : Option (List Nat × Option Nat) :=
  (h p).map (fun nd => (nd.fChildren, nd.fParent))

/-- Error code of a call, with the links of the nodes at `ps` afterwards. -/
def outcome (r : Option (Int × (Nat → Option NTreeNode))) (ps : List Nat) :
    Option (Int × List (Option (List Nat × Option Nat))) :=
  r.map (fun x => (x.1, ps.map (links x.2)))

/-- No two nodes of the heap have the same id. -/
def IdsUnique (h : Nat → Option NTreeNode) : Prop :=
  ∀ q1 q2 n1 n2, h q1 = some n1 → h q2 = some n2 → n1.fID = n2.fID → q1 = q2

/-- Only the node at `root` has the id of a root. -/
def RootIdReserved (h : Nat → Option NTreeNode) (root : Nat) : Prop :=
  ∀ q nd, h q = some nd → nd.fID = kRootID → q = root

/-- The sample heap with one more node, made by the constructor with the id
5, that is in no tree yet. -/
def workHeap : Nat → Option NTreeNode
  | 5 => some (create 0 5)
  | q => NTree.sampleHeap q

/-- A tree as `NTree::NTree()` makes it, the root alone (pointer 0), and
three nodes made by the constructor `NTreeNode(type, id)` that are in no tree
yet: two with the id 7 and one with the id of a root. -/
def freshHeap : Nat → Option NTreeNode
  | 0 => some (create kRootType kRootID)
  | 1 => some (create 0 7)
  | 2 => some (create 0 7)
  | 3 => some (create 0 0xFFFF)
  | _ => none

/-- The ids of the children of the node at `p`, in the order of the child
list. -/
def childIds (h : Nat → Option NTreeNode) (p : Nat) : Option (List (Option Nat)) :=
  (h p).map (fun nd => nd.fChildren.map (fun c => (h c).map (fun x => x.fID)))

end NTreeNode

/-! ## The binary record of a node (`NTreeNode::Write`, `NTreeNode::Read`)

A file is a value of any type `φ`; the two callbacks get it and hand it back.
The call `(*inWriteCB)(inFile, &x, count, 1, ioOffset)` is modelled as
`inWriteCB file x count ioOffset`: the callback gets the number held in the
`count` bytes at `&x` and returns the error code.  The call
`(*inReadCB)(inFile, &x, count, 1, ioOffset)` is modelled as
`inReadCB file count ioOffset`, returning the error code and the number it
has put into the `count` bytes at `&x`; a callback that reports an error is
taken to have stored nothing.  The offset is a `long`, taken as an integer
without bound.  `Write` also hands back the record of the calls of the
callback it made (the number, the size and the offset of each), which the
source does not build. -/

/-- The type `NTreeNodeWriteCB`. -/
abbrev NTreeNodeWriteCB (φ : Type) := φ → Nat → Nat → Int → Int × φ

/-- The type `NTreeNodeReadCB`. -/
abbrev NTreeNodeReadCB (φ : Type) := φ → Nat → Int → Int × Nat × φ

/-- The type `NTreeNodeReanimateFunc`: the factory gets the type and the id
and returns the new node (or null); it may put new objects into the heap. -/
abbrev NTreeNodeReanimateFunc :=
  (Nat → Option NTreeNode) → Nat → Nat → Option Nat × (Nat → Option NTreeNode)

/-- Record of the calls of the write callback: number written, size,
offset. -/
abbrev WriteLog := List (Nat × Nat × Int)

namespace NTreeNode

variable {φ : Type}

/-- One step of `Write`: the call of the callback on a member, and
`ioOffset += count` when it returned 0.  The state is the file, `ioOffset`
and the record of the calls. -/
def writeField (inWriteCB : NTreeNodeWriteCB φ) (st : φ × Int × WriteLog)
    (value count : Nat) : Int × (φ × Int × WriteLog) :=
  let r := inWriteCB st.1 value count st.2.1
  (r.1, (r.2, (if r.1 = 0 then st.2.1 + (count : Int) else st.2.1),
    st.2.2 ++ [(value, count, st.2.1)]))

/-- The loop `for (i = 0; i < fNumChildren; i += 1)` of `Write`, which writes
the type of each child; the first argument counts the iterations that are
left, the second is `i`. -/
def writeChildTypes (h : Nat → Option NTreeNode) (nd : NTreeNode)
    (inWriteCB : NTreeNodeWriteCB φ) :
    Nat → Int → φ × Int × WriteLog → Option (Int × (φ × Int × WriteLog))
  | 0, _, st => some (0, st)
  | k + 1, i, st =>
    match nd.GetChild i with
    | none => none
    | some c =>
      match h c with
      | none => none
      | some cn =>
        let r := writeField inWriteCB st cn.fType 4
        if r.1 ≠ 0 then some r
        else writeChildTypes h nd inWriteCB k (i + 1) r.2

/-- `NTreeNode::Write` called on the node at `this`: error code, file,
`ioOffset` and the record of the calls of the callback. -/
def Write (h : Nat → Option NTreeNode) (this : Nat) (inFile : φ) (ioOffset : Int)
    (inWriteCB : NTreeNodeWriteCB φ) : Option (Int × φ × Int × WriteLog) :=
  match h this with
  | none => none
  | some nd =>
    let r1 := writeField inWriteCB (inFile, ioOffset, []) nd.fType 4
    if r1.1 ≠ 0 then some r1
    else
      let r2 := writeField inWriteCB r1.2 nd.fID 2
      if r2.1 ≠ 0 then some r2
      else
        let r3 := writeField inWriteCB r2.2 (nd.fFlags % 65536).toNat 2
        if r3.1 ≠ 0 then some r3
        else
          let r4 := writeField inWriteCB r3.2 (nd.GetNumChildren % 65536).toNat 2
          if r4.1 ≠ 0 then some r4
          else writeChildTypes h nd inWriteCB nd.fChildren.length 0 r4.2

/-- One step of `Read`: the call of the callback for a member of `count`
bytes.  Result: error code, the number read, the file, and `ioOffset`,
moved on when the callback returned 0. -/
def readField (inReadCB : NTreeNodeReadCB φ) (file : φ) (ioOffset : Int) (count : Nat) :
    Int × Nat × φ × Int :=
  let r := inReadCB file count ioOffset
  (r.1, r.2.1, r.2.2, if r.1 = 0 then ioOffset + (count : Int) else ioOffset)

/-- The loop `for (i = 0; i < numChildren; i += 1)` of `Read`, which reads the
type of a child, has the factory make it, gives it the flags of the node and
appends it; the first argument counts the iterations that are left. -/
def readChildren (this : Nat) (inReanimateNodeFunc : NTreeNodeReanimateFunc)
    (inReadCB : NTreeNodeReadCB φ) (callocOk : Bool) :
    Nat → (Nat → Option NTreeNode) → φ → Int → Option (Int × (Nat → Option NTreeNode) × φ × Int)
  | 0, h, file, ioOffset => some (0, h, file, ioOffset)
  | k + 1, h, file, ioOffset =>
    let r := readField inReadCB file ioOffset 4
    if r.1 ≠ 0 then some (r.1, h, r.2.2.1, r.2.2.2)
    else
      match inReanimateNodeFunc h r.2.1 0 with
      | (none, h1) => some (-1, h1, r.2.2.1, r.2.2.2)
      | (some child, h1) =>
        match h1 this, h1 child with
        | some nd, some cn =>
          match InsertChildLast (setNode h1 child { cn with fFlags := nd.fFlags }) this child
              callocOk with
          | none => none
          | some (error, h2) =>
            if error ≠ 0 then some (error, h2, r.2.2.1, r.2.2.2)
            else readChildren this inReanimateNodeFunc inReadCB callocOk k h2 r.2.2.1 r.2.2.2
        | _, _ => none

/-- `NTreeNode::Read` called on the node at `this`: error code, heap, file
and `ioOffset`.  `numChildren` is set from `fNumChildren` where it is
declared, before anything is read. -/
def Read (h : Nat → Option NTreeNode) (this : Nat) (inFile : φ) (ioOffset : Int)
    (inReanimateNodeFunc : NTreeNodeReanimateFunc) (inReadCB : NTreeNodeReadCB φ)
    (callocOk : Bool) : Option (Int × (Nat → Option NTreeNode) × φ × Int) :=
  match h this with
  | none => none
  | some nd =>
    let numChildren : Int := nd.GetNumChildren
    let r1 := readField inReadCB inFile ioOffset 4
    if r1.1 ≠ 0 then some (r1.1, h, r1.2.2.1, r1.2.2.2)
    else
      let nd1 := { nd with fType := r1.2.1 }
      let r2 := readField inReadCB r1.2.2.1 r1.2.2.2 2
      if r2.1 ≠ 0 then some (r2.1, setNode h this nd1, r2.2.2.1, r2.2.2.2)
      else
        let nd2 := { nd1 with fID := r2.2.1 % 65536 }
        let r3 := readField inReadCB r2.2.2.1 r2.2.2.2 2
        if r3.1 ≠ 0 then some (r3.1, setNode h this nd2, r3.2.2.1, r3.2.2.2)
        else
          let nd3 := { nd2 with fFlags := toShort (r3.2.1 : Int) }
          let r4 := readField inReadCB r3.2.2.1 r3.2.2.2 2
          if r4.1 ≠ 0 then some (r4.1, setNode h this nd3, r4.2.2.1, r4.2.2.2)
          else
            let nd4 := { nd3 with fChildren := [] }
            readChildren this inReanimateNodeFunc inReadCB callocOk numChildren.toNat
              (setNode h this nd4) r4.2.2.1 r4.2.2.2

end NTreeNode

/-! ## The tree object (`NTree.cpp`)

The members `fRoot` and `fVisitedBits` of a tree are in the `World`.  The
member `fTree` of the objects of class `NTreeNodeRoot` is kept in a table
beside the heap: it maps the address of such an object to its `fTree` (a tree
address or null).  `new` and `delete` take the address from their caller;
`delete` empties the address in the heap, so that any later use of the node
has no result. -/

namespace NTree

variable {σ : Type} {φ : Type}

/-- The same program state with another parameter block. -/
def withParm {τ : Type} (w : World σ) (parm : τ) : World τ :=
  { heap := w.heap, fRoot := w.fRoot, fVisitedBits := w.fVisitedBits,
    entryCount := w.entryCount, parm := parm }

/-- `NTree::IsRoot`: the id is compared with `NTreeNodeRoot::kID`. -/
def IsRoot (h : Nat → Option NTreeNode) (inNode : Nat) : Option Bool :=
  match h inNode with
  | none => none
  | some nd => some (decide (nd.fID = kRootID))

/-- The heap after `delete` of the object at `p`. -/
def deleteNode (h : Nat → Option NTreeNode) (p : Nat) : Nat → Option NTreeNode :=
  fun q => if q = p then none else h q

/-- `NTree::DisposeNTree_ActionFunc`. -/
def DisposeNTree_ActionFunc (mallocOk : Bool) : NTreeNodeActionFunc σ := fun inNode w =>
  match IsRoot w.heap inNode with
  | none => none
  | some true => some (false, w)
  | some false =>
    match w.heap inNode with
    | none => none
    | some nd =>
      match nd.fParent with
      | none => some (false, w)
      | some parent =>
        match NTreeNode.RemoveChildByAddress w.heap parent inNode mallocOk with
        | none => none
        | some (error, h1) =>
          some (decide (error ≠ 0), { w with heap := deleteNode h1 inNode })

/-- `NTree::Prune`. -/
def Prune (fuel : Nat) (mallocOk : Bool) (inStartNode : Option Nat) (w : World σ)
    (pushOk : Bool := true) : Option (Bool × World σ × Trace) :=
  VisitAllNTreeNodes fuel inStartNode (some (DisposeNTree_ActionFunc mallocOk)) false true w
    pushOk

/-- The struct `NTree::NodeIDSearchInfo`. -/
structure NodeIDSearchInfo where
  id : Nat
  foundNode : Option Nat
deriving DecidableEq, Repr

/-- `NTree::SearchForNodeID_ActionFunc`. -/
def SearchForNodeID_ActionFunc : NTreeNodeActionFunc NodeIDSearchInfo := fun inNode w =>
  match w.heap inNode with
  | none => none
  | some nd =>
    if nd.fID = w.parm.id then
      some (true, { w with parm := { w.parm with foundNode := some inNode } })
    else some (false, w)

/-- `NTree::FindNodeByID`: the node returned, and the program state
afterwards. -/
def FindNodeByID (fuel : Nat) (inID : Nat) (w : World σ) (pushOk : Bool := true) :
    Option (Option Nat × World σ) :=
  match VisitAllNTreeNodes fuel (some w.fRoot) (some SearchForNodeID_ActionFunc) true false
      (withParm w { id := inID, foundNode := none }) pushOk with
  | none => none
  | some (_, w1, _) => some (w1.parm.foundNode, withParm w1 w.parm)

/-- The loop `while (node->GetParent() != nullptr) node = node->GetParent();`
of `FindRoot`: the node at which it ends.  The first argument bounds the
number of tests. -/
def climb (h : Nat → Option NTreeNode) : Nat → Nat → Option Nat
  | 0, _ => none
  | fuel + 1, node =>
    match h node with
    | none => none
    | some nd =>
      match nd.fParent with
      | none => some node
      | some parent => climb h fuel parent

/-- `NTree::FindRoot`; the result `some none` is the null pointer.  With a null
argument `node->GetType()` has no result. -/
def FindRoot (h : Nat → Option NTreeNode) (fuel : Nat) (inStartNode : Option Nat) :
    Option (Option Nat) :=
  match inStartNode with
  | none => none
  | some start =>
    match climb h fuel start with
    | none => none
    | some node =>
      match h node with
      | none => none
      | some nd => some (if nd.fType = kRootType then some node else none)

/-- `NTree::GetTreeFromNode`; `fTree` is the table of the members `fTree`.  A
node of type `'ROOT'` that is no object of `NTreeNodeRoot` has no `fTree`. -/
def GetTreeFromNode (h : Nat → Option NTreeNode) (fTree : Nat → Option (Option Nat))
    (fuel : Nat) (inStartNode : Option Nat) : Option (Option Nat) :=
  match FindRoot h fuel inStartNode with
  | none => none
  | some none => some none
  | some (some node) => fTree node

/-- `new NTreeNodeRoot(inTree)` at the address `p`; `new NTreeNodeRoot()` is the
case of a null `inTree`. -/
def newRoot (h : Nat → Option NTreeNode) (fTree : Nat → Option (Option Nat))
    (p : Nat) (inTree : Option Nat) :
    (Nat → Option NTreeNode) × (Nat → Option (Option Nat)) :=
  (NTreeNode.setNode h p (NTreeNode.create kRootType kRootID),
    fun q => if q = p then some inTree else fTree q)

/-- The constructor `NTree::NTree(void)` of the tree at the address `this`;
the root it makes is put at the address `r`. -/
def construct (h : Nat → Option NTreeNode) (fTree : Nat → Option (Option Nat))
    (entryCount : Int) (this r : Nat) (pushOk : Bool := true) :
    World Unit × (Nat → Option (Option Nat)) :=
  let o := newRoot h fTree r (some this)
  let w : World Unit :=
    { heap := o.1, fRoot := r, fVisitedBits := [], entryCount := entryCount, parm := () }
  (PushVisitedBits w pushOk, o.2)

/-- The constructor `NTree::NTree(NTreeNodeRoot*)` of the tree at the address
`this`. -/
def constructWith (h : Nat → Option NTreeNode) (fTree : Nat → Option (Option Nat))
    (entryCount : Int) (_this inRoot : Nat) (pushOk : Bool := true) :
    World Unit × (Nat → Option (Option Nat)) :=
  let w : World Unit :=
    { heap := h, fRoot := inRoot, fVisitedBits := [], entryCount := entryCount, parm := () }
  (PushVisitedBits w pushOk, fTree)

/-- The members `file` and `offset` of `NTree::TreeWriteInfo` and
`NTree::TreeReadInfo`. -/
structure TreeFileInfo (φ : Type) where
  file : φ
  offset : Int

/-- `NTree::WriteNTreeNode_ActionFunc`. -/
def WriteNTreeNode_ActionFunc (inWriteCB : NTreeNodeWriteCB φ) :
    NTreeNodeActionFunc (TreeFileInfo φ) := fun inNode w =>
  match NTreeNode.Write w.heap inNode w.parm.file w.parm.offset inWriteCB with
  | none => none
  | some (error, file, offset, _) =>
    some (decide (error ≠ 0), { w with parm := { file := file, offset := offset } })

/-- `NTree::Write`: the value returned (`error` is never set, so it is 0), the
file, `ioOffset` and the program state. -/
def Write (fuel : Nat) (inFile : φ) (ioOffset : Int) (inWriteCB : NTreeNodeWriteCB φ)
    (w : World σ) (pushOk : Bool := true) : Option (Int × φ × Int × World σ) :=
  match VisitAllNTreeNodes fuel (some w.fRoot) (some (WriteNTreeNode_ActionFunc inWriteCB))
      true false (withParm w { file := inFile, offset := ioOffset }) pushOk with
  | none => none
  | some (_, w1, _) => some (0, w1.parm.file, w1.parm.offset, withParm w1 w.parm)

/-- `NTree::ReadNTreeNode_ActionFunc`. -/
def ReadNTreeNode_ActionFunc (inNodeReanimateFunc : NTreeNodeReanimateFunc)
    (inReadCB : NTreeNodeReadCB φ) (callocOk : Bool) :
    NTreeNodeActionFunc (TreeFileInfo φ) := fun inNode w =>
  match w.heap inNode with
  | none => none
  | some nd =>
    if nd.fID = kUnassignedID then
      match NTreeNode.Read w.heap inNode w.parm.file w.parm.offset inNodeReanimateFunc
          inReadCB callocOk with
      | none => none
      | some (error, h1, file, offset) =>
        some (decide (error ≠ 0),
          { w with heap := h1, parm := { file := file, offset := offset } })
    else some (false, w)

/-- The loop `while (fRoot->GetNumChildren() > 0) fRoot->RemoveChild(0);` of
`NTree::Read`; the first argument bounds the number of rounds. -/
def removeChildren (mallocOk : Bool) (root : Nat) :
    Nat → (Nat → Option NTreeNode) → Option (Nat → Option NTreeNode)
  | 0, _ => none
  | fuel + 1, h =>
    match h root with
    | none => none
    | some nd =>
      if nd.GetNumChildren > 0 then
        match NTreeNode.RemoveChild h root 0 mallocOk with
        | none => none
        | some (_, h1) => removeChildren mallocOk root fuel h1
      else some h

/-- `NTree::Read`: the value returned (`error` is never set, so it is 0),
the file, `ioOffset` and the program state. -/
def Read (fuel : Nat) (inFile : φ) (ioOffset : Int)
    (inNodeReanimateFunc : NTreeNodeReanimateFunc) (inReadCB : NTreeNodeReadCB φ)
    (mallocOk callocOk : Bool) (w : World σ) (pushOk : Bool := true) :
    Option (Int × φ × Int × World σ) :=
  match removeChildren mallocOk w.fRoot fuel w.heap with
  | none => none
  | some h1 =>
    match h1 w.fRoot with
    | none => none
    | some nd =>
      let h2 := NTreeNode.setNode h1 w.fRoot { nd with fID := kUnassignedID }
      match VisitAllNTreeNodes fuel (some w.fRoot)
          (some (ReadNTreeNode_ActionFunc inNodeReanimateFunc inReadCB callocOk)) true false
          (withParm { w with heap := h2 } { file := inFile, offset := ioOffset }) pushOk with
      | none => none
      | some (_, w1, _) => some (0, w1.parm.file, w1.parm.offset, withParm w1 w.parm)

end NTree

/-! ## Notions used in the statements about the tree object -/

namespace NTree

variable {σ : Type}

/-- A callback that does nothing and never aborts, for any parameter block. -/
def idle : NTreeNodeActionFunc σ := fun _ w => some (false, w)

/-- The record of a step of the loop. -/
def Step.record : Step σ → Trace
  | Step.next _ _ tr => tr
  | Step.exit _ _ _ tr => tr

/-- The program state after a step of the loop. -/
def Step.world : Step σ → World σ
  | Step.next w _ _ => w
  | Step.exit w _ _ _ => w

/-- The outcome of an iteration in terms of the callback: `fixed` when the
iteration makes no call, `calls` when it calls the callback once, on the
cursor and in the state of the loop head. -/
inductive CallShape (start : Option Nat) (onEntry branch : Bool) (w : World σ) (p : Nat)
    (tr : Trace) : Prop where
  | fixed (R : Option (Step σ))
      (h : ∀ act : NTreeNodeActionFunc σ, loopBody start (some act) onEntry branch w p tr = R)
      (hr : ∀ s, R = some s → s.record = tr) : CallShape start onEntry branch w p tr
  | calls (K : World σ → Option (Step σ))
      (h : ∀ act : NTreeNodeActionFunc σ, loopBody start (some act) onEntry branch w p tr =
        match act p w with
        | none => none
        | some (true, w1) => some (Step.exit w1 true false (tr ++ [(p, true)]))
        | some (false, w1) => K w1)
      (hr : ∀ w1 s, K w1 = some s → s.record = tr ++ [(p, false)]) :
      CallShape start onEntry branch w p tr

/-- The node `t` is reached from `n` by `k` parent links. -/
inductive Ascends (h : Nat → Option NTreeNode) : Nat → Nat → Nat → Prop where
  | here (n : Nat) : Ascends h n n 0
  | up (n p t k : Nat) (nd : NTreeNode) (hn : h n = some nd) (hp : nd.fParent = some p)
      (hrest : Ascends h p t k) : Ascends h n t (k + 1)

/-- The calls that write the type tags of the children `cs`, 4 bytes each,
one after the other from the offset `o` on. -/
def childTypeCalls (h : Nat → Option NTreeNode) : List Nat → Int → WriteLog
  | [], _ => []
  | c :: cs, o => (((h c).map (fun cn => cn.fType)).getD 0, 4, o) :: childTypeCalls h cs (o + 4)

/-- The node `q` is `n` or below `n`: it is reached from `n` through child
lists. -/
inductive Below (h : Nat → Option NTreeNode) (n : Nat) : Nat → Prop where
  | self : Below h n n
  | child (p c : Nat) (nd : NTreeNode) (hb : Below h n p) (hp : h p = some nd)
      (hc : c ∈ nd.fChildren) : Below h n c

/-- The child lists of the heap form a strict hierarchy: every node of a child
list is a live node whose parent link names the owner of the list, no child
list holds a node twice, and there is no cycle (a rank grows along every link
from a node to a child). -/
def StrictHierarchy (h : Nat → Option NTreeNode) : Prop :=
  (∀ p pn c, h p = some pn → c ∈ pn.fChildren → ∃ cn, h c = some cn ∧ cn.fParent = some p) ∧
    (∀ p pn, h p = some pn → pn.fChildren.Nodup) ∧
    (∃ rank : Nat → Nat, ∀ p pn c, h p = some pn → c ∈ pn.fChildren → rank p < rank c)

/-- The sample heap with a root of type `'ROOT'`. -/
def rootedHeap : Nat → Option NTreeNode
  | 0 => some { fType := kRootType, fID := kRootID, fFlags := 0, fParent := none,
                fChildren := [1, 2, 4] }
  | q => sampleHeap q

/-- The root of `rootedHeap`. -/
def rootedTop : NTreeNode :=
  { fType := kRootType, fID := kRootID, fFlags := 0, fParent := none, fChildren := [1, 2, 4] }

/-- The tree of `rootedHeap` between walks. -/
def rootedWorld : World Unit :=
  { heap := rootedHeap, fRoot := 0, fVisitedBits := [fun _ => 0], entryCount := 0, parm := () }

/-- A file of bytes: the bytes written so far, each with its position, the
last one written first; a position never written holds 0. -/
abbrev Bytes := List (Nat × Nat)

/-- The byte at a position of the file. -/
def byteAt (m : Bytes) (pos : Nat) : Nat :=
  match m.find? (fun e => e.1 = pos) with
  | some e => e.2
  | none => 0

/-- The file with the number `value` stored in `count` bytes from `pos` on,
lowest byte first. -/
def putBytes (m : Bytes) (pos : Nat) : Nat → Nat → Bytes
  | 0, _ => m
  | count + 1, value => putBytes ((pos + count, (value / 256 ^ count) % 256) :: m) pos count value

/-- The number held in `count` bytes from `pos` on, lowest byte first. -/
def getBytes (m : Bytes) (pos : Nat) : Nat → Nat
  | 0 => 0
  | count + 1 => getBytes m pos count + byteAt m (pos + count) * 256 ^ count

/-- A write callback that stores the bytes at the offset. -/
def memWrite : NTreeNodeWriteCB Bytes := fun file value count offset =>
  if offset < 0 then (-1, file) else (0, putBytes file offset.toNat count value)

/-- A read callback that fetches the bytes at the offset. -/
def memRead : NTreeNodeReadCB Bytes := fun file count offset =>
  if offset < 0 then (-1, 0, file) else (0, getBytes file offset.toNat count, file)

/-- A read callback that reports an error on every call. -/
def failRead : NTreeNodeReadCB Bytes := fun file _ _ => (-1, 0, file)

/-- A factory that makes a node of the type asked for at the first free
address from 10 on (at most 10 addresses are tried). -/
def plainFactory : NTreeNodeReanimateFunc := fun h inType inID =>
  match (List.range 10).find? (fun k => (h (10 + k)).isNone) with
  | none => (none, h)
  | some k => (some (10 + k), NTreeNode.setNode h (10 + k) (NTreeNode.create inType inID))

/-- What is looked at in a tree after a call: id and type of the root, and the
child lists of the nodes at `ps`. -/
def rootView (w : World σ) (ps : List Nat) : Option (Nat × Nat) × List (Option (List Nat)) :=
  ((w.heap w.fRoot).map (fun nd => (nd.fID, nd.fType)),
    ps.map (fun p => (w.heap p).map (fun nd => nd.fChildren)))

/-- Relation between the state in which the cursor of `Prune` arrives at the
node `p` (with fields `nd`) and the state in which `p` is marked visited: the
nodes `gone` are deleted, `p` has no children any more, every other node is as
it was, and the ids `l` are marked in addition. -/
def Pruned (w w1 : World σ) (p : Nat) (nd : NTreeNode) (gone l : List Nat) : Prop :=
  (∀ q, w1.heap q = if q = p then some { nd with fChildren := [] }
      else if q ∈ gone then none else w.heap q) ∧
    w1.entryCount = w.entryCount ∧ w1.fRoot = w.fRoot ∧ w1.fVisitedBits ≠ [] ∧
    w1.fVisitedBits.tail = w.fVisitedBits.tail ∧
    ∀ b, b < 65536 → vis w1 b = (decide (b ∈ l) || vis w b)

/-- The heap after the disposal callback has run on the node `c`, a child of
the node `p` with fields `pn`: `c` has left the child list and is deleted. -/
def disposed (h : Nat → Option NTreeNode) (p c : Nat) (pn : NTreeNode) :
    Nat → Option NTreeNode :=
  deleteNode (NTreeNode.setNode h p { pn with fChildren := pn.fChildren.erase c }) c

/-- A write callback that accepts every call and leaves the file alone. -/
def acceptWrite : NTreeNodeWriteCB Unit := fun file _ _ _ => (0, file)

/-- The table of the members `fTree` in which no object has one. -/
def noTrees : Nat → Option (Option Nat) := fun _ => none

/-- The heap without any object. -/
def emptyHeap : Nat → Option NTreeNode := fun _ => none

end NTree

/-! ## The teardown of a tree, and notions used in the statements about walks in
general and about writing a tree -/

namespace NTree

variable {σ : Type} {φ : Type}

/-- Calls of `NTreeNode::Write` on the nodes `qs` one after the other, each
from the file and the offset that the call before it left. -/
def writeNodes (h : Nat → Option NTreeNode) (cb : NTreeNodeWriteCB φ) :
    List Nat → φ × Int → Option (φ × Int)
  | [], st => some st
  | q :: qs, st =>
    match NTreeNode.Write h q st.1 st.2 cb with
    | none => none
    | some r => writeNodes h cb qs (r.2.1, r.2.2.1)

/-- Number of bytes of the records of the nodes `qs`: 10 for each node and 4
for each of its children. -/
def recordBytes (h : Nat → Option NTreeNode) : List Nat → Int
  | [] => 0
  | q :: qs =>
    10 + 4 * ((((h q).map (fun nd => nd.fChildren.length)).getD 0 : Nat) : Int)
      + recordBytes h qs

/-- What `WriteNTreeNode_ActionFunc` does to the parameter block when it is
called on the node `q` of the heap `h`. -/
def writeStep (h : Nat → Option NTreeNode) (cb : NTreeNodeWriteCB φ) (q : Nat)
    (p : TreeFileInfo φ) : TreeFileInfo φ :=
  match NTreeNode.Write h q p.file p.offset cb with
  | none => p
  | some r => { file := r.2.1, offset := r.2.2.1 }

/-- The callback `act` on the nodes `ps`, and a callback that does nothing on
every other node. -/
def onNodes (ps : List Nat) (act : NTreeNodeActionFunc σ) : NTreeNodeActionFunc σ :=
  fun n w => if n ∈ ps then act n w else some (false, w)

/-- A write callback that accepts every call and keeps the calls made: the
file is the list of the calls (number, size, offset). -/
def logWrite : NTreeNodeWriteCB WriteLog := fun file value count offset =>
  (0, file ++ [(value, count, offset)])

/-- The callback leaves the tree alone: when it returns, the heap and `fRoot`
are as they were. -/
def KeepsTree (act : NTreeNodeActionFunc σ) : Prop :=
  ∀ (n : Nat) (w w1 : World σ) (r : Bool), act n w = some (r, w1) →
    w1.heap = w.heap ∧ w1.fRoot = w.fRoot

/-- The callback returns and leaves the tree alone when it runs on a node of
`ps` on the heap `h` with `c` walks active: whatever flag it returns, the heap,
the visited-bit stack and the count of active walks are as they were (it may
change its parameter block, and it may abort). -/
def Harmless (ps : List Nat) (act : NTreeNodeActionFunc σ) (h : Nat → Option NTreeNode)
    (c : Int) : Prop :=
  ∀ (n : Nat) (w : World σ), n ∈ ps → w.heap = h → w.entryCount = c → w.fVisitedBits ≠ [] →
    ∃ r w1, act n w = some (r, w1) ∧ w1.heap = h ∧ w1.entryCount = c ∧
      w1.fVisitedBits = w.fVisitedBits

/-- The second state has the heap, the count of active walks and the visited
bits of the first. -/
def Kept (w w1 : World σ) : Prop :=
  w1.heap = w.heap ∧ w1.entryCount = w.entryCount ∧ w1.fVisitedBits = w.fVisitedBits

/-- Number of ids of the list that are not marked visited in the active buffer. -/
def unvisited (w : World σ) (l : List Nat) : Nat := (l.filter (fun i => !vis w i)).length

/-- A number that every iteration of the loop makes smaller, with the cursor at
the top of the subtree `X` of the tree `T`: the ids not yet marked count most;
below an unmarked cursor the walk can only go down, above a marked one only up. -/
def potential (w : World σ) (T X : Shape) : Nat :=
  unvisited w T.ids * (2 * T.pre.length + 2)
    + (if vis w X.id then 2 * T.pre.length + 1 - X.pre.length else X.pre.length)

/-- A number of iterations within which the loop over the tree `T` ends. -/
def stepBound (T : Shape) : Nat := (T.pre.length + 1) * (2 * T.pre.length + 2) + 1

/-- A callback that, called on the node at pointer 0 while pointer 5 holds no
node, makes a node with the id 5 there (`new NTreeNode(0, 5)`) and inserts it
at index 0 of the node it was called on (`InsertChild(child, 0)`); on every
other call it does nothing.  It never aborts. -/
def insertFirst : NTreeNodeActionFunc Unit := fun n w =>
  if n = 0 then
    match w.heap 5 with
    | none =>
      match NTreeNode.InsertChild (NTreeNode.setNode w.heap 5 (NTreeNode.create 0 5)) 0 5 0
          true with
      | none => none
      | some r => some (false, { w with heap := r.2 })
    | some _ => some (false, w)
  else some (false, w)

/-- What is looked at in a node after `NTreeNode::Read`: type, id, flags and
the child list. -/
def nodeView (h : Nat → Option NTreeNode) (p : Nat) : Option (Nat × Nat × Int × List Nat) :=
  (h p).map (fun nd => (nd.fType, nd.fID, nd.fFlags, nd.fChildren))

/-- The loop `while (fVisitedBits != nullptr) PopVisitedBits();` of
`NTree::~NTree`; the first argument bounds the number of rounds. -/
def popAll : Nat → World σ → Option (World σ)
  | 0, w =>
    match w.fVisitedBits with
    | [] => some w
    | _ :: _ => none
  | fuel + 1, w =>
    match w.fVisitedBits with
    | [] => some w
    | _ :: _ => popAll fuel (PopVisitedBits w)

/-- `NTree::~NTree`: the exit-timed walk over the entire tree with the disposal
callback, the release of the visited-bit buffers, and `delete fRoot`, whose
destructor reads the root object.  Result: the program state afterwards (the
member `fRoot` goes with the tree object). -/
def destructor (fuel : Nat) (mallocOk : Bool) (w : World σ) (pushOk : Bool := true) :
    Option (World σ) :=
  match VisitAllNTreeNodes fuel (some w.fRoot) (some (DisposeNTree_ActionFunc mallocOk))
      false false w pushOk with
  | none => none
  | some (_, w1, _) =>
    match popAll fuel w1 with
    | none => none
    | some w2 =>
      match w2.heap w2.fRoot with
      | none => none
      | some _ => some { w2 with heap := deleteNode w2.heap w2.fRoot }

/-- What one iteration of an exit-timed walk does at a cursor that is marked
visited, given the node `nd` read at the cursor before the call and the result
`r`, `w1` of the call: nothing of the node is read again. -/
def afterExitCall (start : Option Nat) (branch : Bool) (p : Nat) (nd : NTreeNode) (tr : Trace)
    (r : Bool) (w1 : World σ) : Step σ :=
  if r then Step.exit w1 true false (tr ++ [(p, true)])
  else if decide (some p = start) && branch then Step.exit w1 true true (tr ++ [(p, false)])
  else Step.next w1 nd.fParent (tr ++ [(p, false)])

/-- The write callback `cb` together with a record of what it returned: the
file is paired with the list of the codes returned by the calls made so far,
in the order of the calls. -/
def codesWrite (cb : NTreeNodeWriteCB φ) : NTreeNodeWriteCB (φ × List Int) :=
  fun file value count offset =>
    ((cb file.1 value count offset).1,
      ((cb file.1 value count offset).2, file.2 ++ [(cb file.1 value count offset).1]))

/-- The read callback `cb` together with a record of what it returned: the
file is paired with the list of the codes returned by the calls made so far,
in the order of the calls. -/
def codesRead (cb : NTreeNodeReadCB φ) : NTreeNodeReadCB (φ × List Int) :=
  fun file count offset =>
    ((cb file.1 count offset).1, (cb file.1 count offset).2.1,
      ((cb file.1 count offset).2.2, file.2 ++ [(cb file.1 count offset).1]))

/-- Every call on the record succeeded. -/
def AllZero (codes : List Int) : Prop := ∀ z ∈ codes, z = 0

/-- No call was made after a call that failed: every call on the record but
the last returned 0. -/
def StopsAtFailure (codes : List Int) : Prop :=
  ∀ j, j + 1 < codes.length → codes[j]? = some 0

/-- A write callback that refuses every call with the code `e`. -/
def refuseWrite (e : Int) : NTreeNodeWriteCB Unit := fun file _ _ _ => (e, file)

/-- A read callback that refuses every call with the code `e`. -/
def refuseRead (e : Int) : NTreeNodeReadCB Unit := fun file _ _ => (e, 0, file)

end NTree

/-! ## The sample spell checker (`Sample/SpellChecker.cpp`)

The spell checker keeps its dictionary in a tree: a path of `LetterNode`s from
the root spells a prefix, and a `WordNode` under the last letter of a word
marks the word.  The members `letter` and `word` that the two subclasses add
to a node are kept in tables beside the heap, by the address of the object.
A character is kept as its byte (the bit pattern of a `char`), a string as the
list of its characters; where the program uses the value of a `char`, a signed
number, it is `asChar` of the byte.
The parameter block of the walk holds, besides `AddWordData`, the tables, the
global `_nextNodeId` and the address the next `new` returns. -/

namespace SpellChecker

open NTree

set_option linter.dupNamespace false

/-- The type tag `'LETR'` of a `LetterNode`. -/
def kLetterType : Nat := 0x4C455452

/-- The type tag `'WORD'` of a `WordNode`. -/
def kWordType : Nat := 0x574F5244

/-- The characters of a string, as `char` codes. -/
def codes (s : String) : List Nat := s.toList.map Char.toNat

/-- Modelled from the spec: the struct `AddWordData` of `AddWordData.h`, which
is not among the sources.  Its members are the two that `SpellChecker.cpp`
uses: `word`, the word being added, and `index`, the number of letters of the
word that are already on the path. -/
structure AddWordData where
  word : List Nat
  index : Int

/-- What the callback `AddWord` works on: `*_addWordData`, the members `letter`
of the `LetterNode`s and `word` of the `WordNode`s by address, the global
`_nextNodeId`, and the address at which the next `new` puts its object. -/
structure SpellState where
  data : AddWordData
  letters : List (Nat × Nat)
  words : List (Nat × List Nat)
  nextNodeId : Nat
  nextAddr : Nat

/-- Value of the `char` with the bit pattern `b`: `char` is signed, so a byte
from `0x80` on is a negative number. -/
def asChar (b : Nat) : Int :=
  if b % 256 < 128 then ((b % 256 : Nat) : Int) else ((b % 256 : Nat) : Int) - 256

/-- `tolower` of `<ctype.h>` in the "C" locale, on the `int` it is handed: an
upper-case letter gives its lower-case letter, any other value of an
`unsigned char` and `EOF` (-1) is given back as it is.  For every other
argument, that is for a `char` from `0x80` to `0xFE` passed as it is, the
behaviour is undefined: no result. -/
def tolower (c : Int) : Option Int :=
  if 65 ≤ c ∧ c ≤ 90 then some (c + 32)
  else if -1 ≤ c ∧ c ≤ 255 then some c
  else none

/-- `word->c_str()[i]`: a character of the word, the terminating 0 at the end;
reading behind it has no result. -/
def charAt (word : List Nat) (i : Nat) : Option Nat :=
  if i < word.length then word[i]? else if i = word.length then some 0 else none

/-- The member `letter` of the `LetterNode` at an address; an object that is
no `LetterNode` has none. -/
def letterOf (letters : List (Nat × Nat)) (p : Nat) : Option Nat :=
  (letters.find? (fun e => e.1 = p)).map (fun e => e.2)

/-- The member `word` of the `WordNode` at an address. -/
def wordOf (words : List (Nat × List Nat)) (p : Nat) : Option (List Nat) :=
  (words.find? (fun e => e.1 = p)).map (fun e => e.2)

/-- `NTreeNode::IsRoot()`: the type is compared with `'ROOT'`. -/
def IsRoot (h : Nat → Option NTreeNode) (node : Nat) : Option Bool :=
  (h node).map (fun nd => decide (nd.fType = kRootType))

/-- `GetNextNodeId`: the global is incremented (an `unsigned short`) and
returned. -/
def GetNextNodeId (s : SpellState) : Nat × SpellState :=
  ((s.nextNodeId + 1) % 65536, { s with nextNodeId := (s.nextNodeId + 1) % 65536 })

/-- The loop of `IsCorrectLineage`; the first argument is `i + 1`.  Result: the
node at which the loop ends.  The comparison is one of `int`s: the result of
`tolower` on the character of the word, and the member `letter`, both `char`s
promoted. -/
def climbLetters (h : Nat → Option NTreeNode) (letters : List (Nat × Nat)) (word : List Nat) :
    Nat → Nat → Option Nat
  | 0, node => some node
  | i + 1, node =>
    match IsRoot h node with
    | none => none
    | some true => some node
    | some false =>
      match charAt word i, letterOf letters node with
      | some c, some l =>
        match tolower (asChar c) with
        | none => none
        | some t =>
          if t = asChar l then
            match h node with
            | none => none
            | some nd =>
              match nd.fParent with
              | none => none
              | some parent => climbLetters h letters word i parent
          else some node
      | _, _ => none

/-- `SpellChecker::IsCorrectLineage`. -/
def IsCorrectLineage (h : Nat → Option NTreeNode) (letters : List (Nat × Nat))
    (startNode : Option Nat) (word : List Nat) (index : Int) : Option Bool :=
  match startNode with
  | none => some false
  | some start =>
    match h start with
    | none => none
    | some nd =>
      if nd.fType = kWordType then some false
      else if nd.fType = kRootType then some true
      else
        match climbLetters h letters word (toShort (index - 1) + 1).toNat start with
        | none => none
        | some node => IsRoot h node

/-- The loop of `FindChildWithLetter` over the child array. -/
def scanLetters (h : Nat → Option NTreeNode) (letters : List (Nat × Nat)) (letter : Nat) :
    List Nat → Option (Option Nat)
  | [] => some none
  | child :: rest =>
    match h child with
    | none => none
    | some cn =>
      if cn.fType = kLetterType then
        match letterOf letters child with
        | none => none
        | some l => if l = letter then some (some child) else scanLetters h letters letter rest
      else scanLetters h letters letter rest

/-- `SpellChecker::FindChildWithLetter`. -/
def FindChildWithLetter (h : Nat → Option NTreeNode) (letters : List (Nat × Nat))
    (parent : Nat) (letter : Nat) : Option (Option Nat) :=
  match h parent with
  | none => none
  | some nd => scanLetters h letters letter nd.fChildren

/-- The loop of `FindChildWithWord` over the child array. -/
def scanWords (h : Nat → Option NTreeNode) (words : List (Nat × List Nat)) (word : List Nat) :
    List Nat → Option (Option Nat)
  | [] => some none
  | child :: rest =>
    match h child with
    | none => none
    | some cn =>
      if cn.fType = kWordType then
        match wordOf words child with
        | none => none
        | some x => if x = word then some (some child) else scanWords h words word rest
      else scanWords h words word rest

/-- `SpellChecker::FindChildWithWord`. -/
def FindChildWithWord (h : Nat → Option NTreeNode) (words : List (Nat × List Nat))
    (parent : Nat) (word : List Nat) : Option (Option Nat) :=
  match h parent with
  | none => none
  | some nd => scanWords h words word nd.fChildren

/-- `node->InsertChild(new LetterNode(letter))`: the object is made at the
address `nextAddr`, which must be free, and appended to the children of `node`;
the result of `InsertChild` is dropped. -/
def insertLetter (callocOk : Bool) (node letter : Nat) (w : World SpellState) :
    Option (World SpellState) :=
  match w.heap w.parm.nextAddr with
  | some _ => none
  | none =>
    let g := GetNextNodeId w.parm
    let h1 := NTreeNode.setNode w.heap w.parm.nextAddr (NTreeNode.create kLetterType g.1)
    match NTreeNode.InsertChildLast h1 node w.parm.nextAddr callocOk with
    | none => none
    | some r =>
      some { w with heap := r.2,
                    parm := { g.2 with letters := (w.parm.nextAddr, letter) :: w.parm.letters,
                                       nextAddr := w.parm.nextAddr + 1 } }

/-- `node->InsertChild(new WordNode(word))`. -/
def insertWord (callocOk : Bool) (node : Nat) (word : List Nat) (w : World SpellState) :
    Option (World SpellState) :=
  match w.heap w.parm.nextAddr with
  | some _ => none
  | none =>
    let g := GetNextNodeId w.parm
    let h1 := NTreeNode.setNode w.heap w.parm.nextAddr (NTreeNode.create kWordType g.1)
    match NTreeNode.InsertChildLast h1 node w.parm.nextAddr callocOk with
    | none => none
    | some r =>
      some { w with heap := r.2,
                    parm := { g.2 with words := (w.parm.nextAddr, word) :: w.parm.words,
                                       nextAddr := w.parm.nextAddr + 1 } }

/-- `SpellChecker::AddWord`, the callback of the walk that adds a word. -/
def AddWord (callocOk : Bool) : NTreeNodeActionFunc SpellState := fun node w =>
  match w.heap node with
  | none => none
  | some nd =>
    if nd.fType = kWordType then some (false, w)
    else
      let word := w.parm.data.word
      let index := toShort w.parm.data.index
      match IsCorrectLineage w.heap w.parm.letters (some node) word index with
      | none => none
      | some false => some (false, w)
      | some true =>
        if index = (word.length : Int) then
          match FindChildWithWord w.heap w.parm.words node word with
          | none => none
          | some (some _) => some (true, w)
          | some none => (insertWord callocOk node word w).map (fun w1 => (true, w1))
        else
          match charAt word index.toNat with
          | none => none
          | some letter =>
            match FindChildWithLetter w.heap w.parm.letters node letter with
            | none => none
            | some found =>
              let grown : Option (World SpellState) :=
                match found with
                | some _ => some w
                | none => insertLetter callocOk node letter w
              grown.map (fun w1 =>
                (false, { w1 with parm := { w1.parm with
                  data := { w1.parm.data with index := w1.parm.data.index + 1 } } }))

/-- The loop of `MakeStringVector` with `strtok_s` and the delimiter `" "`;
the second argument is the token being read, if any. -/
def tokens : List Nat → Option (List Nat) → List (List Nat)
  | [], none => []
  | [], some cur => [cur]
  | c :: cs, none => if c = 32 then tokens cs none else tokens cs (some [c])
  | c :: cs, some cur => if c = 32 then cur :: tokens cs none else tokens cs (some (cur ++ [c]))

/-- `SpellChecker::MakeStringVector`. -/
def MakeStringVector (text : List Nat) : List (List Nat) := tokens text none

/-- The loop of the constructor: one entry-timed walk over the entire tree for
every word, with `index` reset to 0; the result of the walk is dropped. -/
def addWords (fuel : Nat) (callocOk pushOk : Bool) :
    List (List Nat) → World SpellState → Option (World SpellState)
  | [], w => some w
  | word :: rest, w =>
    match VisitAllNTreeNodes fuel (some w.fRoot) (some (AddWord callocOk)) true false
        { w with parm := { w.parm with data := { word := word, index := 0 } } } pushOk with
    | none => none
    | some r => addWords fuel callocOk pushOk rest r.2.1

/-- The constructor `SpellChecker::SpellChecker(dictionary)`: `Initialize`
resets `_nextNodeId`, the tree is made by `NTree::NTree()` (its root is put at
the address 0, the next objects from the address 1 on), and every word of the
dictionary is added.  Result: the tree with the tables. -/
def SpellChecker (fuel : Nat) (callocOk : Bool) (dictionary : List Nat)
    (pushOk : Bool := true) : Option (World SpellState) :=
  addWords fuel callocOk pushOk (MakeStringVector dictionary)
    (withParm (construct emptyHeap noTrees 0 100 0 pushOk).1
      { data := { word := [], index := 0 }, letters := [], words := [], nextNodeId := 0,
        nextAddr := 1 })

/-- The loop of `CheckSpelling`: from `node` down along the letters of the
word. -/
def followLetters (h : Nat → Option NTreeNode) (letters : List (Nat × Nat)) :
    List Nat → Nat → Option (Option Nat)
  | [], node => some (some node)
  | letter :: rest, node =>
    match FindChildWithLetter h letters node letter with
    | none => none
    | some none => some none
    | some (some child) => followLetters h letters rest child

/-- `SpellChecker::CheckSpelling`. -/
def CheckSpelling (w : World SpellState) (word : List Nat) : Option Bool :=
  match followLetters w.heap w.parm.letters word w.fRoot with
  | none => none
  | some none => some false
  | some (some node) =>
    (FindChildWithWord w.heap w.parm.words node word).map (fun r => r.isSome)

/-- What is looked at in a node of the dictionary tree: the type, the parent
and the children. -/
def look (w : World SpellState) (p : Nat) : Option (Nat × Option Nat × List Nat) :=
  (w.heap p).map (fun nd => (nd.fType, nd.fParent, nd.fChildren))

end SpellChecker

/-! ## Notions used in the statement about callbacks that insert children -/

namespace NTree

variable {σ : Type}

/-- The heap is a forest whose nodes carry their depth: `level` gives every
node a number not above `D`; a child in the child list of a node is a node of
the heap, names that node as its parent and is one level below it; and the
parent that a node names is a node of the heap, one level above it. -/
def Levelled (level : Nat → Nat) (D : Nat) (h : Nat → Option NTreeNode) : Prop :=
  (∀ q nd, h q = some nd → level q ≤ D) ∧
    (∀ p pn c, h p = some pn → c ∈ pn.fChildren →
      ∃ cn, h c = some cn ∧ cn.fParent = some p ∧ level c = level p + 1) ∧
    (∀ q nd p, h q = some nd → nd.fParent = some p →
      ∃ pn, h p = some pn ∧ level q = level p + 1)

/-- `Above h X p`: the node `X` is `p` itself, or is reached from `p` by going
up along the parent links. -/
inductive Above (h : Nat → Option NTreeNode) (X : Nat) : Nat → Prop where
  | self : Above h X X
  | up (p q : Nat) (nd : NTreeNode) (hp : h p = some nd) (hq : nd.fParent = some q)
      (ha : Above h X q) : Above h X p

/-- What an iteration with the cursor on `p` has done when it moves the cursor
or sets the mark: it has made no call, or it has called the callback on `p`,
once, and the callback has not aborted. -/
def Called (act : NTreeNodeActionFunc σ) (w : World σ) (p : Nat) (tr : Trace)
    (w1 : World σ) (tr1 : Trace) : Prop :=
  (w1 = w ∧ tr1 = tr) ∨ (act p w = some (false, w1) ∧ tr1 = tr ++ [(p, false)])

/-- A number that every iteration of an entry-timed walk makes smaller while the
callback only inserts children: the ids not yet marked count most; from an
unmarked cursor the walk can only go down, from a marked one only up. -/
def growPotential (level : Nat → Nat) (D : Nat) (w : World σ) (p : Nat) : Nat :=
  unvisited w (List.range 65536) * (2 * D + 2) +
    (match w.heap p with
     | some nd => if vis w nd.fID then D + 1 + level p else D - level p
     | none => 0)

/-- A number of iterations within which an entry-timed walk ends on a heap of
depth at most `D`, whatever children the callback inserts. -/
def growBound (D : Nat) : Nat := 65537 * (2 * D + 2)

/-- The walk returns `false` with every fuel from `N` on. -/
def WalkReturnsFalse (act : NTreeNodeActionFunc σ) (start : Nat) (branch pushOk : Bool)
    (w : World σ) (N : Nat) : Prop :=
  ∀ fuel, N ≤ fuel → ∃ w1 tr,
    VisitAllNTreeNodes fuel (some start) (some act) true branch w pushOk = some (false, w1, tr)

/-- Every call of the callback that inserts a child is followed by the call on
that child, before the cursor leaves the node.  In words: when iteration `j`
of the loop, with the cursor on `X`, calls the callback on `X`, and after the
call `c` is a child of `X` that was not in the heap before the call, then `c`
has had no call so far, and the loop reaches a later state `k` with the cursor
on `X` and `X` marked visited (the state from which the cursor moves up to the
parent of `X`, or the walk ends), in which the callback has been called on `c`;
in all states between `j` and `k` the node `X` is not yet marked, so that the
cursor has not moved up from it. -/
def InsertedCalledAfterInsertion (act : NTreeNodeActionFunc σ) (start : Nat)
    (branch pushOk : Bool) (w : World σ) : Prop :=
  ∀ (j : Nat) (wj : World σ) (X : Nat) (trj : Trace) (s : Step σ) (nd1 : NTreeNode) (c : Nat),
    walkState (some start) (some act) true branch j (loopEntry w pushOk) (some start) []
      = some (wj, some X, trj) →
    loopBody (some start) (some act) true branch wj X trj = some s →
    s.record = trj ++ [(X, false)] →
    s.world.heap X = some nd1 → c ∈ nd1.fChildren → wj.heap c = none →
    c ∉ trj.map Prod.fst ∧
      ∃ (k : Nat) (wk : World σ) (trk : Trace) (ndk : NTreeNode),
        j < k ∧
        walkState (some start) (some act) true branch k (loopEntry w pushOk) (some start) []
          = some (wk, some X, trk) ∧
        wk.heap X = some ndk ∧ vis wk ndk.fID = true ∧ c ∈ ndk.fChildren ∧
        c ∈ trk.map Prod.fst ∧
        ∀ (i : Nat) (wi : World σ) (ni : Option Nat) (tri : Trace), j < i → i < k →
          walkState (some start) (some act) true branch i (loopEntry w pushOk) (some start) []
            = some (wi, ni, tri) →
          ∃ ndi, wi.heap X = some ndi ∧ vis wi ndi.fID = false

/-- Depth of the nodes of the sample heap with room for node 5 under node 2. -/
def sampleLevel : Nat → Nat
  | 0 => 0
  | 3 => 2
  | 5 => 2
  | _ => 1

/-- The two heaps that a walk of the sample tree with `growAction` goes
through: the sample heap, and the sample heap with node 5 under node 2. -/
def grownInv (h : Nat → Option NTreeNode) : Prop :=
  h = sampleHeap ∨ h = growHeap sampleHeap (mkNode 2 (some 0) [])

end NTree

/-! ## The visited bits -/

namespace NTree

variable {σ : Type}

theorem bitNum_eq (a : Nat) : bitNum a = ((a % 8 : Nat) : Int) := by
  unfold bitNum toShort byteNum
  push_cast
  omega

theorem mask_eq (a : Nat) : mask a = 2 ^ (7 - a % 8) := by
  unfold mask
  rw [bitNum_eq a, Nat.one_shiftLeft]
  have h1 : (7 - ((a % 8 : Nat) : Int)).toNat = 7 - a % 8 := by omega
  rw [h1]
  apply Nat.mod_eq_of_lt
  have h2 : 7 - a % 8 < 8 := by omega
  calc 2 ^ (7 - a % 8) < 2 ^ 8 := Nat.pow_lt_pow_right (by decide) h2
    _ = 256 := by norm_num

theorem vbit_eq_testBit (vb : Nat → Nat) (a : Nat) (_h : a < 65536) :
    vbit vb a = (vb (a / 8)).testBit (7 - a % 8) := by
  unfold vbit
  rw [mask_eq a, Nat.and_two_pow]
  unfold byteNum
  cases hb : (vb (a / 8)).testBit (7 - a % 8) <;> simp

theorem vbit_clear (vb : Nat → Nat) (a : Nat) (h : a < 65536) :
    vbit (fun i => if i < kNumVisitedBytes then 0 else vb i) a = false := by
  rw [vbit_eq_testBit _ a h]
  have : a / 8 < kNumVisitedBytes := by unfold kNumVisitedBytes; omega
  simp [this]

theorem vbit_set (vb : Nat → Nat) (a b : Nat) (ha : a < 65536) (hb : b < 65536) :
    vbit (fun i => if i = byteNum a then (vb (byteNum a) ||| mask a) % 256 else vb i) b
      = (decide (b = a) || vbit vb b) := by
  rw [vbit_eq_testBit _ b hb, vbit_eq_testBit _ b hb, mask_eq a]
  unfold byteNum
  by_cases hbyte : b / 8 = a / 8
  · rw [if_pos hbyte, show (256 : Nat) = 2 ^ 8 from rfl, Nat.testBit_mod_two_pow,
      Nat.testBit_or, Nat.testBit_two_pow, hbyte]
    have h8 : 7 - b % 8 < 8 := by omega
    by_cases hab : b = a
    · subst hab
      simp [h8]
    · have hne : ¬ (7 - a % 8 = 7 - b % 8) := by omega
      simp [h8, hab, hne]
  · rw [if_neg hbyte]
    have hab : ¬ (b = a) := fun h => hbyte (by rw [h])
    simp [hab]

theorem Visited_eq_vis (w : World σ) (a : Nat) (h : w.fVisitedBits ≠ []) :
    Visited w a = some (vis w a) := by
  unfold Visited vis
  cases hv : w.fVisitedBits with
  | nil => exact absurd hv h
  | cons vb next => rfl

end NTree

/-! ## The two scans over the child array -/

namespace NTree

variable {σ : Type}

theorem childVis_back_true (w : World σ) (nd : NTreeNode) (k c : Nat) (ch : Option Nat)
    (h : childVis w nd k = some (c, true)) :
    scanBackward w nd (k + 1) ch = some ((k : Int), true, some c) := by
  unfold childVis at h
  unfold scanBackward NTreeNode.GetChild
  simp only [Int.toNat_ofNat, Int.natCast_nonneg, if_true]
  cases h1 : nd.fChildren[k]? with
  | none => simp [h1] at h
  | some c1 =>
    simp only [h1] at h ⊢
    cases h2 : w.heap c1 with
    | none => simp [h2] at h
    | some cn =>
      simp only [h2] at h ⊢
      cases h3 : Visited w cn.fID with
      | none => simp [h3] at h
      | some v =>
        simp only [h3, Option.some.injEq, Prod.mk.injEq] at h ⊢
        obtain ⟨rfl, rfl⟩ := h
        rfl

theorem childVis_back_false (w : World σ) (nd : NTreeNode) (k c : Nat) (ch : Option Nat)
    (h : childVis w nd k = some (c, false)) :
    scanBackward w nd (k + 1) ch = scanBackward w nd k (some c) := by
  unfold childVis at h
  conv_lhs => unfold scanBackward NTreeNode.GetChild
  simp only [Int.toNat_ofNat, Int.natCast_nonneg, if_true]
  cases h1 : nd.fChildren[k]? with
  | none => simp [h1] at h
  | some c1 =>
    simp only [h1] at h ⊢
    cases h2 : w.heap c1 with
    | none => simp [h2] at h
    | some cn =>
      simp only [h2] at h ⊢
      cases h3 : Visited w cn.fID with
      | none => simp [h3] at h
      | some v =>
        simp only [h3, Option.some.injEq, Prod.mk.injEq] at h ⊢
        obtain ⟨rfl, rfl⟩ := h
        rfl

theorem childVis_fwd_false (w : World σ) (nd : NTreeNode) (r k c : Nat) (ch : Option Nat)
    (h : childVis w nd k = some (c, false)) :
    scanForward w nd (r + 1) (k : Int) ch = some ((k : Int), true, some c) := by
  unfold childVis at h
  unfold scanForward NTreeNode.GetChild
  simp only [Int.toNat_ofNat, Int.natCast_nonneg, if_true]
  cases h1 : nd.fChildren[k]? with
  | none => simp [h1] at h
  | some c1 =>
    simp only [h1] at h ⊢
    cases h2 : w.heap c1 with
    | none => simp [h2] at h
    | some cn =>
      simp only [h2] at h ⊢
      cases h3 : Visited w cn.fID with
      | none => simp [h3] at h
      | some v =>
        simp only [h3, Option.some.injEq, Prod.mk.injEq] at h ⊢
        obtain ⟨rfl, rfl⟩ := h
        rfl

theorem childVis_fwd_true (w : World σ) (nd : NTreeNode) (r k c : Nat) (ch : Option Nat)
    (h : childVis w nd k = some (c, true)) :
    scanForward w nd (r + 1) (k : Int) ch = scanForward w nd r ((k + 1 : Nat) : Int) (some c) := by
  unfold childVis at h
  conv_lhs => unfold scanForward NTreeNode.GetChild
  simp only [Int.toNat_ofNat, Int.natCast_nonneg, if_true]
  cases h1 : nd.fChildren[k]? with
  | none => simp [h1] at h
  | some c1 =>
    simp only [h1] at h ⊢
    cases h2 : w.heap c1 with
    | none => simp [h2] at h
    | some cn =>
      simp only [h2] at h ⊢
      cases h3 : Visited w cn.fID with
      | none => simp [h3] at h
      | some v =>
        simp only [h3, Option.some.injEq, Prod.mk.injEq] at h ⊢
        obtain ⟨rfl, rfl⟩ := h
        simp

/-- Backward scan: above index `m` nothing is visited and the child just below
`m` (if any) is, so the scan stops there. -/
theorem scanBackward_spec (w : World σ) (nd : NTreeNode) (m : Nat) :
    ∀ (k : Nat) (ch : Option Nat), m ≤ k →
      (∀ j, m ≤ j → j < k → ∃ c, childVis w nd j = some (c, false)) →
      (0 < m → ∃ c, childVis w nd (m - 1) = some (c, true)) →
      ∃ ch1, scanBackward w nd k ch = some ((m : Int) - 1, decide (0 < m), ch1) := by
  intro k
  induction k with
  | zero =>
    intro ch hm _ _
    have : m = 0 := by omega
    subst this
    exact ⟨ch, rfl⟩
  | succ k ih =>
    intro ch hm hun hvis
    by_cases hk : m = k + 1
    · subst hk
      obtain ⟨c, hc⟩ := hvis (by omega)
      refine ⟨some c, ?_⟩
      have hc1 : childVis w nd k = some (c, true) := by simpa using hc
      rw [childVis_back_true w nd k c ch hc1]
      simp
    · obtain ⟨c, hc⟩ := hun k (by omega) (by omega)
      rw [childVis_back_false w nd k c ch hc]
      exact ih (some c) (by omega) (fun j h1 h2 => hun j h1 (by omega)) hvis

/-- Forward scan over children that are all visited: it runs to the end. -/
theorem scanForward_miss (w : World σ) (nd : NTreeNode) :
    ∀ (r i : Nat) (ch : Option Nat),
      (∀ j, i ≤ j → j < i + r → ∃ c, childVis w nd j = some (c, true)) →
      ∃ ch1, scanForward w nd r (i : Int) ch = some (((i + r : Nat) : Int), false, ch1) := by
  intro r
  induction r with
  | zero =>
    intro i ch _
    exact ⟨ch, rfl⟩
  | succ r ih =>
    intro i ch h
    obtain ⟨c, hc⟩ := h i (by omega) (by omega)
    rw [childVis_fwd_true w nd r i c ch hc]
    obtain ⟨ch1, h1⟩ := ih (i + 1) (some c) (fun j h1 h2 => h j (by omega) (by omega))
    refine ⟨ch1, ?_⟩
    rw [h1]
    have : i + 1 + r = i + (r + 1) := by omega
    rw [this]

end NTree

/-! ## Single iterations of the loop -/

namespace NTree

variable {σ : Type}

theorem findAndVisit_mark (proc : Option (NTreeNodeActionFunc σ)) (onEntry : Bool)
    (w w2 : World σ) (p : Nat) (nd : NTreeNode) (tr : Trace) (didAction : Bool) (n : Nat)
    (hall : ∀ j, j < n → ∃ c, childVis w nd j = some (c, true))
    (hheap : w.heap p = some nd)
    (hset : SetVisitedBit w nd.fID true = some w2) :
    findAndVisit proc onEntry w p nd tr didAction (n : Int) ((n : Int) - 1)
      = some (Step.next w2 (some p) tr) := by
  unfold findAndVisit
  have e1 : ((n : Int) - 1 + 1).toNat = n := by omega
  obtain ⟨ch1, hb⟩ := scanBackward_spec w nd n n none (le_refl n)
    (fun j h1 h2 => absurd h1 (by omega))
    (fun h0 => hall (n - 1) (by omega))
  rw [e1, hb]
  simp only []
  have e2 : (if decide (0 < n) = true then (if (n : Int) - 1 + 1 ≥ (n : Int) then (0 : Int)
      else (n : Int) - 1 + 1) else 0) = ((0 : Nat) : Int) := by
    split_ifs <;> first | rfl | omega
  rw [e2]
  have e3 : ((n : Int) - ((0 : Nat) : Int)).toNat = n := by omega
  obtain ⟨ch2, hf⟩ := scanForward_miss w nd n 0 ch1 (fun j _ h2 => hall j (by omega))
  rw [e3, hf]
  simp [hheap, hset]

theorem findAndVisit_descend (proc : Option (NTreeNodeActionFunc σ)) (onEntry : Bool)
    (w : World σ) (p : Nat) (nd : NTreeNode) (tr : Trace) (n m c : Nat)
    (hm : m < n)
    (hun : ∀ j, m ≤ j → j < n → ∃ c, childVis w nd j = some (c, false))
    (hvis : 0 < m → ∃ c, childVis w nd (m - 1) = some (c, true))
    (hc : childVis w nd m = some (c, false))
    (hquiet : m = 0 → onEntry = false) :
    findAndVisit proc onEntry w p nd tr false (n : Int) ((n : Int) - 1)
      = some (Step.next w (some c) tr) := by
  unfold findAndVisit
  have e1 : ((n : Int) - 1 + 1).toNat = n := by omega
  obtain ⟨ch1, hb⟩ := scanBackward_spec w nd m n none (le_of_lt hm) hun hvis
  rw [e1, hb]
  simp only []
  have e2 : (if decide (0 < m) = true then (if (m : Int) - 1 + 1 ≥ (n : Int) then (0 : Int)
      else (m : Int) - 1 + 1) else 0) = (m : Int) := by
    split_ifs with h1 h2 <;> simp at h1 <;> omega
  rw [e2]
  have e3 : ((n : Int) - (m : Int)).toNat = (n - m - 1) + 1 := by omega
  rw [e3, childVis_fwd_false w nd _ m c ch1 hc]
  by_cases h0 : m = 0
  · simp [hquiet h0]
  · have : ¬ ((m : Int) = 0) := by omega
    simp [this]

theorem findAndVisit_descend_entry (act : NTreeNodeActionFunc σ)
    (w w1 : World σ) (p : Nat) (nd : NTreeNode) (tr : Trace) (n c : Nat)
    (hm : 0 < n)
    (hun : ∀ j, j < n → ∃ c, childVis w nd j = some (c, false))
    (hc : childVis w nd 0 = some (c, false))
    (hact : act p w = some (false, w1)) :
    findAndVisit (some act) true w p nd tr false (n : Int) ((n : Int) - 1)
      = some (Step.next w1 (some c) (tr ++ [(p, false)])) := by
  unfold findAndVisit
  have e1 : ((n : Int) - 1 + 1).toNat = n := by omega
  obtain ⟨ch1, hb⟩ := scanBackward_spec w nd 0 n none (Nat.zero_le n)
    (fun j _ h2 => hun j h2) (fun h => absurd h (by omega))
  rw [e1, hb]
  simp only []
  have e3 : ((n : Int) - (0 : Int)).toNat = (n - 1) + 1 := by omega
  simp only [Nat.lt_irrefl, decide_False, Bool.false_eq_true, if_false]
  rw [e3]
  have hf := childVis_fwd_false w nd (n - 1) 0 c ch1 hc
  simp only [Nat.cast_zero] at hf
  rw [hf]
  simp [invoke, hact]

theorem toShort_pred (n : Nat) (h : n < 32768) : toShort ((n : Int) - 1) = (n : Int) - 1 := by
  unfold toShort
  omega

theorem loopBody_ascend_entry (start : Option Nat) (proc : Option (NTreeNodeActionFunc σ))
    (branch : Bool) (w : World σ) (p : Nat) (nd : NTreeNode) (tr : Trace)
    (hheap : w.heap p = some nd) (hst : w.fVisitedBits ≠ []) (hv : vis w nd.fID = true)
    (hns : (decide (some p = start) && branch) = false) :
    loopBody start proc true branch w p tr = some (Step.next w nd.fParent tr) := by
  unfold loopBody
  rw [hheap]
  simp only []
  rw [Visited_eq_vis w _ hst, hv]
  simp only []
  unfold visitedBranch
  simp [hns]

theorem loopBody_ascend_exit (start : Option Nat) (act : NTreeNodeActionFunc σ)
    (branch : Bool) (w w1 : World σ) (p : Nat) (nd : NTreeNode) (tr : Trace)
    (hheap : w.heap p = some nd) (hst : w.fVisitedBits ≠ []) (hv : vis w nd.fID = true)
    (hact : act p w = some (false, w1))
    (hns : (decide (some p = start) && branch) = false) :
    loopBody start (some act) false branch w p tr
      = some (Step.next w1 nd.fParent (tr ++ [(p, false)])) := by
  unfold loopBody
  rw [hheap]
  simp only []
  rw [Visited_eq_vis w _ hst, hv]
  simp only []
  unfold visitedBranch
  simp [hns, invoke, hact]

theorem loopBody_mark (start : Option Nat) (proc : Option (NTreeNodeActionFunc σ))
    (onEntry branch : Bool) (w w2 : World σ) (p : Nat) (nd : NTreeNode) (tr : Trace)
    (hheap : w.heap p = some nd) (hst : w.fVisitedBits ≠ []) (hv : vis w nd.fID = false)
    (hlen : nd.fChildren.length < 32768)
    (hleaf : nd.fChildren.length = 0 → onEntry = false)
    (hall : ∀ j, j < nd.fChildren.length → ∃ c, childVis w nd j = some (c, true))
    (hset : SetVisitedBit w nd.fID true = some w2) :
    loopBody start proc onEntry branch w p tr = some (Step.next w2 (some p) tr) := by
  unfold loopBody
  rw [hheap]
  simp only []
  rw [Visited_eq_vis w _ hst, hv]
  simp only []
  unfold unvisitedBranch NTreeNode.GetNumChildren
  simp only []
  rw [toShort_pred _ hlen]
  have hfind := findAndVisit_mark proc onEntry w w2 p nd tr false nd.fChildren.length hall hheap hset
  by_cases h0 : nd.fChildren.length = 0
  · have he := hleaf h0
    subst he
    simp only [Bool.and_false, Bool.false_eq_true, if_false]
    exact hfind
  · have : ¬ ((nd.fChildren.length : Int) = 0) := by omega
    simp only [this, decide_False, Bool.false_and, Bool.false_eq_true, if_false]
    exact hfind

theorem loopBody_leaf_entry (start : Option Nat) (act : NTreeNodeActionFunc σ)
    (branch : Bool) (w w1 w2 : World σ) (p : Nat) (nd : NTreeNode) (tr : Trace)
    (hheap : w.heap p = some nd) (hst : w.fVisitedBits ≠ []) (hv : vis w nd.fID = false)
    (hleaf : nd.fChildren = [])
    (hact : act p w = some (false, w1))
    (hheap1 : w1.heap p = some nd)
    (hset : SetVisitedBit w1 nd.fID true = some w2) :
    loopBody start (some act) true branch w p tr
      = some (Step.next w2 (some p) (tr ++ [(p, false)])) := by
  unfold loopBody
  rw [hheap]
  simp only []
  rw [Visited_eq_vis w _ hst, hv]
  simp only []
  unfold unvisitedBranch NTreeNode.GetNumChildren
  simp only [hleaf, List.length_nil, Nat.cast_zero, decide_True, Bool.and_self, if_true,
    invoke, hact, hheap1]
  have hfind := findAndVisit_mark (some act) true w1 w2 p nd (tr ++ [(p, false)]) true 0
    (fun j h => absurd h (by omega)) hheap1 hset
  have e : toShort ((0 : Int) - 1) = ((0 : Nat) : Int) - 1 := by decide
  rw [e]
  simpa using hfind

theorem loopBody_descend (start : Option Nat) (proc : Option (NTreeNodeActionFunc σ))
    (onEntry branch : Bool) (w : World σ) (p : Nat) (nd : NTreeNode) (tr : Trace) (m c : Nat)
    (hheap : w.heap p = some nd) (hst : w.fVisitedBits ≠ []) (hv : vis w nd.fID = false)
    (hlen : nd.fChildren.length < 32768)
    (hm : m < nd.fChildren.length)
    (hun : ∀ j, m ≤ j → j < nd.fChildren.length → ∃ c, childVis w nd j = some (c, false))
    (hvis : 0 < m → ∃ c, childVis w nd (m - 1) = some (c, true))
    (hc : childVis w nd m = some (c, false))
    (hquiet : m = 0 → onEntry = false) :
    loopBody start proc onEntry branch w p tr = some (Step.next w (some c) tr) := by
  unfold loopBody
  rw [hheap]
  simp only []
  rw [Visited_eq_vis w _ hst, hv]
  simp only []
  unfold unvisitedBranch NTreeNode.GetNumChildren
  simp only []
  rw [toShort_pred _ hlen]
  have : ¬ ((nd.fChildren.length : Int) = 0) := by omega
  simp only [this, decide_False, Bool.false_and, Bool.false_eq_true, if_false]
  exact findAndVisit_descend proc onEntry w p nd tr _ m c hm hun hvis hc hquiet

theorem loopBody_descend_entry (start : Option Nat) (act : NTreeNodeActionFunc σ)
    (branch : Bool) (w w1 : World σ) (p : Nat) (nd : NTreeNode) (tr : Trace) (c : Nat)
    (hheap : w.heap p = some nd) (hst : w.fVisitedBits ≠ []) (hv : vis w nd.fID = false)
    (hlen : nd.fChildren.length < 32768)
    (hm : 0 < nd.fChildren.length)
    (hun : ∀ j, j < nd.fChildren.length → ∃ c, childVis w nd j = some (c, false))
    (hc : childVis w nd 0 = some (c, false))
    (hact : act p w = some (false, w1)) :
    loopBody start (some act) true branch w p tr
      = some (Step.next w1 (some c) (tr ++ [(p, false)])) := by
  unfold loopBody
  rw [hheap]
  simp only []
  rw [Visited_eq_vis w _ hst, hv]
  simp only []
  unfold unvisitedBranch NTreeNode.GetNumChildren
  simp only []
  rw [toShort_pred _ hlen]
  have : ¬ ((nd.fChildren.length : Int) = 0) := by omega
  simp only [this, decide_False, Bool.false_and, Bool.false_eq_true, if_false]
  exact findAndVisit_descend_entry act w w1 p nd tr _ c hm hun hc hact

theorem walkLoop_next (start : Option Nat) (proc : Option (NTreeNodeActionFunc σ))
    (onEntry branch : Bool) (fuel : Nat) (w w1 : World σ) (p : Nat) (n1 : Option Nat)
    (tr tr1 : Trace)
    (h : loopBody start proc onEntry branch w p tr = some (Step.next w1 n1 tr1)) :
    walkLoop start proc onEntry branch (fuel + 1) w (some p) tr
      = walkLoop start proc onEntry branch fuel w1 n1 tr1 := by
  conv_lhs => unfold walkLoop
  simp only [h]

theorem walkLoop_exit (start : Option Nat) (proc : Option (NTreeNodeActionFunc σ))
    (onEntry branch : Bool) (fuel : Nat) (w w1 : World σ) (p : Nat) (a e : Bool)
    (tr tr1 : Trace)
    (h : loopBody start proc onEntry branch w p tr = some (Step.exit w1 a e tr1)) :
    walkLoop start proc onEntry branch (fuel + 1) w (some p) tr = some (w1, a, e, tr1) := by
  conv_lhs => unfold walkLoop
  simp only [h]

theorem walkLoop_null (start : Option Nat) (proc : Option (NTreeNodeActionFunc σ))
    (onEntry branch : Bool) (fuel : Nat) (w : World σ) (tr : Trace) :
    walkLoop start proc onEntry branch fuel w none tr = some (w, false, false, tr) := by
  cases fuel <;> rfl

end NTree

/-! ## Trees in the heap -/

namespace Shape

theorem layout_spec (h : Nat → Option NTreeNode) (par : Option Nat) (S : Shape)
    (hl : layout h par S = true) :
    ∃ nd, h S.ptr = some nd ∧ nd.fID = S.id ∧ S.id < 65536 ∧ nd.fParent = par ∧
      nd.fChildren = S.kids.map ptr ∧ S.kids.length < 32768 ∧
      layoutList h (some S.ptr) S.kids = true := by
  cases S with
  | node p i ks =>
    unfold layout at hl
    simp only [ptr, id, kids]
    cases hp : h p with
    | none => simp [hp] at hl
    | some nd =>
      simp only [hp, Bool.and_eq_true, decide_eq_true_eq] at hl
      obtain ⟨⟨⟨⟨⟨h1, h2⟩, h3⟩, h4⟩, h5⟩, h6⟩ := hl
      exact ⟨nd, rfl, h1, h2, h3, h4, h5, h6⟩

theorem layoutList_cons (h : Nat → Option NTreeNode) (par : Option Nat) (k : Shape)
    (ks : List Shape) :
    layoutList h par (k :: ks) = (layout h par k && layoutList h par ks) := by
  simp [layoutList]

theorem layoutList_mem (h : Nat → Option NTreeNode) (par : Option Nat) :
    ∀ (ks : List Shape), layoutList h par ks = true → ∀ k ∈ ks, layout h par k = true := by
  intro ks
  induction ks with
  | nil => intro _ k hk; cases hk
  | cons a ks ih =>
    intro hl k hk
    rw [layoutList_cons, Bool.and_eq_true] at hl
    rcases List.mem_cons.mp hk with rfl | hk1
    · exact hl.1
    · exact ih hl.2 k hk1

theorem id_mem_ids (S : Shape) : S.id ∈ S.ids := by
  cases S with
  | node p i ks => simp [ids, id]

theorem ptr_mem_pre (S : Shape) : S.ptr ∈ S.pre := by
  cases S with
  | node p i ks => simp [pre, ptr]

theorem ids_subset_idsList (ks : List Shape) : ∀ k ∈ ks, ∀ i ∈ k.ids, i ∈ idsList ks := by
  induction ks with
  | nil => intro k hk; cases hk
  | cons a ks ih =>
    intro k hk i hi
    simp only [idsList, List.mem_append]
    rcases List.mem_cons.mp hk with rfl | hk1
    · exact Or.inl hi
    · exact Or.inr (ih k hk1 i hi)

theorem pre_subset_preList (ks : List Shape) : ∀ k ∈ ks, ∀ q ∈ k.pre, q ∈ preList ks := by
  induction ks with
  | nil => intro k hk; cases hk
  | cons a ks ih =>
    intro k hk i hi
    simp only [preList, List.mem_append]
    rcases List.mem_cons.mp hk with rfl | hk1
    · exact Or.inl hi
    · exact Or.inr (ih k hk1 i hi)

mutual
theorem ids_lt (h : Nat → Option NTreeNode) :
    ∀ (S : Shape) (par : Option Nat), layout h par S = true → ∀ i ∈ S.ids, i < 65536
  | node p j ks, par, hl, i, hi => by
    obtain ⟨nd, _, _, h3, _, _, _, h7⟩ := layout_spec h par _ hl
    simp only [ids, List.mem_cons] at hi
    rcases hi with rfl | hi
    · exact h3
    · exact idsList_lt h ks (some p) h7 i hi
theorem idsList_lt (h : Nat → Option NTreeNode) :
    ∀ (ks : List Shape) (par : Option Nat), layoutList h par ks = true →
      ∀ i ∈ idsList ks, i < 65536
  | [], _, _, i, hi => by simp [idsList] at hi
  | k :: ks, par, hl, i, hi => by
    rw [layoutList_cons, Bool.and_eq_true] at hl
    simp only [idsList, List.mem_append] at hi
    rcases hi with hi | hi
    · exact ids_lt h k par hl.1 i hi
    · exact idsList_lt h ks par hl.2 i hi
end

end Shape

namespace NTree

variable {σ : Type}

theorem childVis_layout (w : World σ) (nd : NTreeNode) (par : Option Nat) (ks : List Shape)
    (hst : w.fVisitedBits ≠ []) (hch : nd.fChildren = ks.map Shape.ptr)
    (hlay : Shape.layoutList w.heap par ks = true) (j : Nat) (k : Shape)
    (hk : ks[j]? = some k) :
    childVis w nd j = some (k.ptr, vis w k.id) := by
  have hmem : k ∈ ks := List.getElem?_mem hk
  obtain ⟨knd, h1, h2, _⟩ := Shape.layout_spec _ _ _ (Shape.layoutList_mem _ _ ks hlay k hmem)
  unfold childVis
  rw [hch, List.getElem?_map, hk]
  simp only [Option.map_some', h1]
  rw [Visited_eq_vis w _ hst, h2]

theorem Marked.refl_frame (w w1 : World σ) (h1 : w1.heap = w.heap)
    (h2 : w1.entryCount = w.entryCount) (h3 : w1.fVisitedBits = w.fVisitedBits)
    (hst : w.fVisitedBits ≠ []) : Marked w w1 [] := by
  refine ⟨h1, h2, by rw [h3]; exact hst, by rw [h3], ?_⟩
  intro b _
  simp [vis, h3]

theorem Marked.trans (w w1 w2 : World σ) (l1 l2 l : List Nat)
    (h1 : Marked w w1 l1) (h2 : Marked w1 w2 l2)
    (hl : ∀ b, b ∈ l ↔ (b ∈ l1 ∨ b ∈ l2)) : Marked w w2 l := by
  obtain ⟨a1, a2, _, a4, a5⟩ := h1
  obtain ⟨b1, b2, b3, b4, b5⟩ := h2
  refine ⟨b1.trans a1, b2.trans a2, b3, b4.trans a4, ?_⟩
  intro b hb
  rw [b5 b hb, a5 b hb]
  by_cases m1 : b ∈ l1 <;> by_cases m2 : b ∈ l2 <;> simp [hl, m1, m2]

theorem SetVisitedBit_marked (w : World σ) (a : Nat) (hst : w.fVisitedBits ≠ [])
    (ha : a < 65536) : ∃ w2, SetVisitedBit w a true = some w2 ∧ Marked w w2 [a] := by
  unfold SetVisitedBit
  cases hv : w.fVisitedBits with
  | nil => exact absurd hv hst
  | cons vb next =>
    refine ⟨_, rfl, rfl, rfl, by simp, by simp [hv], ?_⟩
    intro b hb
    simp only [vis, hv, if_true, List.mem_singleton]
    exact vbit_set vb a b ha hb

end NTree

/-! ## The walk over a subtree -/

namespace NTree

variable {σ : Type}

theorem calm_append (a b : List Nat) : calm (a ++ b) = calm a ++ calm b := by
  simp [calm]

theorem calm_singleton (p : Nat) : calm [p] = [(p, false)] := rfl

theorem calm_nil : calm [] = [] := rfl

mutual
/-- From the arrival of the cursor at the top of a subtree none of whose ids is
marked, the loop works through the subtree and comes back to its top with all
ids of the subtree marked. -/
theorem sub_walk (start : Option Nat) (act : NTreeNodeActionFunc σ) (onEntry branch : Bool) :
    ∀ (S : Shape) (w : World σ) (par : Option Nat) (tr : Trace),
      Framed act w.heap w.entryCount →
      Shape.layout w.heap par S = true →
      S.ids.Nodup →
      w.fVisitedBits ≠ [] →
      (∀ i ∈ S.ids, vis w i = false) →
      (branch = true → ∀ q ∈ Shape.preList S.kids, some q ≠ start) →
      ∃ w1, Marked w w1 S.ids ∧ ∀ fuel,
        walkLoop start (some act) onEntry branch (fuel + S.cost) w (some S.ptr) tr
          = walkLoop start (some act) onEntry branch fuel w1 (some S.ptr)
              (tr ++ calm (inTrace onEntry S))
  | .node p i ks, w, par, tr, hfr, hlay, hnd, hst, hun, hstart => by
    obtain ⟨nd, h1, h2, h3, h4, h5, h6, h7⟩ := Shape.layout_spec _ _ _ hlay
    simp only [Shape.ptr, Shape.id, Shape.kids] at h1 h2 h3 h5 h6 h7 hstart
    have hun0 : vis w nd.fID = false := by rw [h2]; exact hun i (by simp [Shape.ids])
    obtain ⟨w1, hm, hw⟩ := kids_walk start act onEntry branch ks [] w p nd tr hfr h1
      (by simpa using h5) (by simpa using h6) (by rw [h2]; exact h3) hun0 (by simpa using h7)
      (by rw [h2]; simpa [Shape.ids] using hnd) hst (by intro k hk; cases hk)
      (fun j hj => hun j (by simp [Shape.ids, hj])) hstart
    refine ⟨w1, ?_, ?_⟩
    · rw [h2] at hm; simpa [Shape.ids] using hm
    · intro fuel
      have := hw fuel
      simp only [Shape.cost, Shape.ptr]
      rw [this]
      cases onEntry <;> simp [inTrace, headTrace, restTrace, Shape.pre, Shape.kids]
/-- The same for the children of a node: `done` are the children already worked
through, `rest` those still to come; the loop ends with the node itself marked. -/
theorem kids_walk (start : Option Nat) (act : NTreeNodeActionFunc σ) (onEntry branch : Bool) :
    ∀ (rest done : List Shape) (w : World σ) (p : Nat) (nd : NTreeNode) (tr : Trace),
      Framed act w.heap w.entryCount →
      w.heap p = some nd →
      nd.fChildren = (done ++ rest).map Shape.ptr →
      (done ++ rest).length < 32768 →
      nd.fID < 65536 →
      vis w nd.fID = false →
      Shape.layoutList w.heap (some p) (done ++ rest) = true →
      (nd.fID :: Shape.idsList rest).Nodup →
      w.fVisitedBits ≠ [] →
      (∀ k ∈ done, vis w k.id = true) →
      (∀ i ∈ Shape.idsList rest, vis w i = false) →
      (branch = true → ∀ q ∈ Shape.preList rest, some q ≠ start) →
      ∃ w1, Marked w w1 (nd.fID :: Shape.idsList rest) ∧ ∀ fuel,
        walkLoop start (some act) onEntry branch (fuel + (Shape.costList rest + 1)) w (some p) tr
          = walkLoop start (some act) onEntry branch fuel w1 (some p)
              (tr ++ calm (headTrace onEntry done p ++ restTrace onEntry rest))
  | [], done, w, p, nd, tr, hfr, hheap, hch, hlen, hid, hv, hlay, hnd, hst, hdone, hun,
      hstart => by
    simp only [List.append_nil] at hch hlen hlay
    have hclen : nd.fChildren.length = done.length := by rw [hch, List.length_map]
    have hall : ∀ j, j < nd.fChildren.length → ∃ c, childVis w nd j = some (c, true) := by
      intro j hj
      rw [hclen] at hj
      have hk : done[j]? = some done[j] := List.getElem?_eq_getElem hj
      refine ⟨done[j].ptr, ?_⟩
      rw [childVis_layout w nd (some p) done hst hch hlay j _ hk,
        hdone _ (List.getElem_mem hj)]
    by_cases hcase : onEntry = true ∧ done = []
    · obtain ⟨he, hd⟩ := hcase
      subst he
      subst hd
      obtain ⟨w1, ha1, ha2, ha3, ha4⟩ := hfr p w rfl rfl hst
      have hst1 : w1.fVisitedBits ≠ [] := by rw [ha4]; exact hst
      obtain ⟨w2, hs1, hs2⟩ := SetVisitedBit_marked w1 nd.fID hst1 hid
      have hb := loopBody_leaf_entry start act branch w w1 w2 p nd tr hheap hst hv
        (by simpa using hch) ha1 (by rw [ha2]; exact hheap) hs1
      refine ⟨w2, ?_, ?_⟩
      · exact Marked.trans w w1 w2 [] [nd.fID] _ (Marked.refl_frame w w1 ha2 ha3 ha4 hst) hs2
          (by intro b; simp [Shape.idsList])
      · intro fuel
        simp only [Shape.costList, Nat.zero_add]
        rw [walkLoop_next _ _ _ _ fuel w w2 p (some p) tr _ hb]
        simp [headTrace, restTrace, Shape.preList, calm]
    · obtain ⟨w2, hs1, hs2⟩ := SetVisitedBit_marked w nd.fID hst hid
      have hleaf : nd.fChildren.length = 0 → onEntry = false := by
        intro h0
        rw [hclen] at h0
        have hd : done = [] := List.length_eq_zero.mp h0
        cases onEntry
        · rfl
        · exact absurd ⟨rfl, hd⟩ hcase
      have hb := loopBody_mark start (some act) onEntry branch w w2 p nd tr hheap hst hv
        (by rw [hclen]; exact hlen) hleaf hall hs1
      refine ⟨w2, ?_, ?_⟩
      · simpa [Shape.idsList] using hs2
      · intro fuel
        simp only [Shape.costList, Nat.zero_add]
        rw [walkLoop_next _ _ _ _ fuel w w2 p (some p) tr _ hb]
        have hh : headTrace onEntry done p = [] := by
          unfold headTrace
          cases onEntry
          · simp
          · have : done ≠ [] := fun hd => hcase ⟨rfl, hd⟩
            cases done with
            | nil => exact absurd rfl this
            | cons a l => simp
        rw [hh]
        cases onEntry <;> simp [restTrace, Shape.preList, Shape.postList, calm]
  | k :: rest, done, w, p, nd, tr, hfr, hheap, hch, hlen, hid, hv, hlay, hnd, hst, hdone, hun,
      hstart => by
    -- facts about the child array
    have hclen : nd.fChildren.length = (done ++ k :: rest).length := by
      rw [hch, List.length_map]
    have hlenc : nd.fChildren.length < 32768 := by rw [hclen]; exact hlen
    have hmlt : done.length < nd.fChildren.length := by
      rw [hclen, List.length_append, List.length_cons]; omega
    have hkmem : k ∈ done ++ k :: rest := by simp
    have hklay : Shape.layout w.heap (some p) k = true :=
      Shape.layoutList_mem _ _ _ hlay k hkmem
    obtain ⟨knd, k1, k2, k3, k4, k5, k6, k7⟩ := Shape.layout_spec _ _ _ hklay
    have hkun : vis w k.id = false :=
      hun k.id (by simp [Shape.idsList, Shape.id_mem_ids])
    have hcv : ∀ j (x : Shape), (done ++ k :: rest)[j]? = some x →
        childVis w nd j = some (x.ptr, vis w x.id) :=
      fun j x hx => childVis_layout w nd (some p) _ hst hch hlay j x hx
    have hc : childVis w nd done.length = some (k.ptr, false) := by
      rw [hcv done.length k (by rw [List.getElem?_append_right (le_refl _)]; simp), hkun]
    have hunv : ∀ j, done.length ≤ j → j < nd.fChildren.length →
        ∃ c, childVis w nd j = some (c, false) := by
      intro j h1 h2
      rw [hclen] at h2
      have hx : (done ++ k :: rest)[j]? = some (done ++ k :: rest)[j] :=
        List.getElem?_eq_getElem h2
      refine ⟨(done ++ k :: rest)[j].ptr, ?_⟩
      rw [hcv j _ hx]
      have hmem : (done ++ k :: rest)[j] ∈ k :: rest := by
        rw [List.getElem_append_right h1]
        exact List.getElem_mem _
      rw [hun _ (Shape.ids_subset_idsList (k :: rest) _ hmem _ (Shape.id_mem_ids _))]
    have hvisd : 0 < done.length → ∃ c, childVis w nd (done.length - 1) = some (c, true) := by
      intro h0
      have hlt : done.length - 1 < done.length := by omega
      have hx : (done ++ k :: rest)[done.length - 1]? = some done[done.length - 1] := by
        rw [List.getElem?_append_left hlt]
        exact List.getElem?_eq_getElem hlt
      refine ⟨done[done.length - 1].ptr, ?_⟩
      rw [hcv _ _ hx, hdone _ (List.getElem_mem hlt)]
    -- first iteration: the cursor drops to `k`
    have step1 : ∃ w1, w1.heap = w.heap ∧ w1.entryCount = w.entryCount ∧
        w1.fVisitedBits = w.fVisitedBits ∧ ∀ fuel,
        walkLoop start (some act) onEntry branch (fuel + 1) w (some p) tr
          = walkLoop start (some act) onEntry branch fuel w1 (some k.ptr)
              (tr ++ calm (headTrace onEntry done p)) := by
      by_cases hcase : onEntry = true ∧ done = []
      · obtain ⟨he, hd⟩ := hcase
        subst he
        subst hd
        obtain ⟨w1, ha1, ha2, ha3, ha4⟩ := hfr p w rfl rfl hst
        refine ⟨w1, ha2, ha3, ha4, ?_⟩
        intro fuel
        have hb := loopBody_descend_entry start act branch w w1 p nd tr k.ptr hheap hst hv
          hlenc (by simpa using hmlt) (fun j hj => hunv j (by simp) hj)
          (by simpa using hc) ha1
        rw [walkLoop_next _ _ _ _ fuel w w1 p (some k.ptr) tr _ hb]
        simp [headTrace, calm]
      · refine ⟨w, rfl, rfl, rfl, ?_⟩
        intro fuel
        have hquiet : done.length = 0 → onEntry = false := by
          intro h0
          have hd : done = [] := List.length_eq_zero.mp h0
          cases onEntry
          · rfl
          · exact absurd ⟨rfl, hd⟩ hcase
        have hb := loopBody_descend start (some act) onEntry branch w p nd tr done.length k.ptr
          hheap hst hv hlenc hmlt hunv hvisd hc hquiet
        rw [walkLoop_next _ _ _ _ fuel w w p (some k.ptr) tr _ hb]
        have hh : headTrace onEntry done p = [] := by
          unfold headTrace
          cases onEntry
          · simp
          · have : done ≠ [] := fun hd => hcase ⟨rfl, hd⟩
            cases done with
            | nil => exact absurd rfl this
            | cons a l => simp
        rw [hh]
        simp [calm]
    obtain ⟨w1, f1, f2, f3, hw1⟩ := step1
    have hst1 : w1.fVisitedBits ≠ [] := by rw [f3]; exact hst
    have hvis1 : ∀ b, vis w1 b = vis w b := by intro b; simp [vis, f3]
    -- the subtree under `k`
    have hndk : (Shape.idsList (k :: rest)).Nodup := (List.nodup_cons.mp hnd).2
    have hndk1 : k.ids.Nodup := by
      simp only [Shape.idsList] at hndk
      exact (List.nodup_append.mp hndk).1
    obtain ⟨w2, hm2, hw2⟩ := sub_walk start act onEntry branch k w1 (some p)
      (tr ++ calm (headTrace onEntry done p))
      (by rw [f1, f2]; exact hfr) (by rw [f1]; exact hklay) hndk1 hst1
      (by
        intro i hi
        rw [hvis1]
        exact hun i (by simp [Shape.idsList, hi]))
      (by
        intro hb q hq
        apply hstart hb
        simp only [Shape.preList, List.mem_append]
        left
        cases k with
        | node kp ki kks =>
          simp only [Shape.kids] at hq
          simp [Shape.pre, hq])
    obtain ⟨g1, g2, g3, g4, g5⟩ := hm2
    -- the ascent from `k`
    have hkv2 : vis w2 knd.fID = true := by
      rw [k2, g5 _ k3]
      simp [Shape.id_mem_ids]
    have hns : (decide (some k.ptr = start) && branch) = false := by
      cases hb : branch
      · simp
      · have := hstart hb k.ptr (by simp [Shape.preList, Shape.ptr_mem_pre])
        simp [this]
    have step3 : ∃ w3, w3.heap = w2.heap ∧ w3.entryCount = w2.entryCount ∧
        w3.fVisitedBits = w2.fVisitedBits ∧ ∀ fuel,
        walkLoop start (some act) onEntry branch (fuel + 1) w2 (some k.ptr)
            (tr ++ calm (headTrace onEntry done p) ++ calm (inTrace onEntry k))
          = walkLoop start (some act) onEntry branch fuel w3 (some p)
              (tr ++ calm (headTrace onEntry done p) ++ calm (restTrace onEntry [k])) := by
      have hk2 : w2.heap k.ptr = some knd := by rw [g1, f1]; exact k1
      cases onEntry
      · obtain ⟨w3, ha1, ha2, ha3, ha4⟩ := hfr k.ptr w2 (by rw [g1, f1])
          (by rw [g2, f2]) g3
        refine ⟨w3, by rw [ha2, g1, f1], by rw [ha3, g2, f2], ha4, ?_⟩
        intro fuel
        have hb := loopBody_ascend_exit start act branch w2 w3 k.ptr knd
          (tr ++ calm (headTrace false done p) ++ calm (inTrace false k)) hk2 g3 hkv2 ha1 hns
        rw [walkLoop_next _ _ _ _ fuel w2 w3 k.ptr _ _ _ hb, k4]
        cases k with
        | node kp ki kks =>
          simp [inTrace, restTrace, Shape.postList, Shape.post, Shape.kids, Shape.ptr, calm]
      · refine ⟨w2, rfl, rfl, rfl, ?_⟩
        intro fuel
        have hb := loopBody_ascend_entry start (some act) branch w2 k.ptr knd
          (tr ++ calm (headTrace true done p) ++ calm (inTrace true k)) hk2 g3 hkv2 hns
        rw [walkLoop_next _ _ _ _ fuel w2 w2 k.ptr _ _ _ hb, k4]
        simp [inTrace, restTrace, Shape.preList]
    obtain ⟨w3, e1, e2, e3, hw3⟩ := step3
    have hst3 : w3.fVisitedBits ≠ [] := by rw [e3]; exact g3
    have hheap3 : w3.heap = w.heap := by rw [e1, g1, f1]
    have hcnt3 : w3.entryCount = w.entryCount := by rw [e2, g2, f2]
    have hvis3 : ∀ b, b < 65536 → vis w3 b = (decide (b ∈ k.ids) || vis w b) := by
      intro b hb
      have : vis w3 b = vis w2 b := by simp [vis, e3]
      rw [this, g5 b hb, hvis1]
    have hidk : nd.fID ∉ k.ids := by
      have := (List.nodup_cons.mp hnd).1
      simp only [Shape.idsList, List.mem_append, not_or] at this
      exact this.1
    have hlayids : ∀ x ∈ done ++ k :: rest, x.id < 65536 := by
      intro x hx
      obtain ⟨_, _, _, h3, _⟩ := Shape.layout_spec _ _ _ (Shape.layoutList_mem _ _ _ hlay x hx)
      exact h3
    -- the remaining children
    obtain ⟨w4, hm4, hw4⟩ := kids_walk start act onEntry branch rest (done ++ [k]) w3 p nd
      (tr ++ calm (headTrace onEntry done p) ++ calm (restTrace onEntry [k]))
      (by rw [hheap3, hcnt3]; exact hfr) (by rw [hheap3]; exact hheap)
      (by rw [hch]; simp) (by simpa using hlen) hid
      (by rw [hvis3 _ hid, hv]; simp [hidk])
      (by rw [hheap3]; simpa using hlay)
      (by
        have h1 := List.nodup_cons.mp hnd
        simp only [Shape.idsList, List.mem_append, not_or] at h1
        exact List.nodup_cons.mpr ⟨h1.1.2, (List.nodup_append.mp h1.2).2.1⟩)
      hst3
      (by
        intro x hx
        rw [hvis3 _ (hlayids x (by
          rcases List.mem_append.mp hx with h | h
          · exact List.mem_append.mpr (Or.inl h)
          · simp at h; subst h; exact hkmem))]
        rcases List.mem_append.mp hx with h | h
        · rw [hdone x h]; simp
        · simp at h; subst h; simp [Shape.id_mem_ids])
      (by
        intro i hi
        have hi65 : i < 65536 :=
          Shape.idsList_lt w.heap (done ++ k :: rest) (some p) hlay i
            (by
              have : ∀ (a b : List Shape), ∀ j ∈ Shape.idsList b, j ∈ Shape.idsList (a ++ b) := by
                intro a b
                induction a with
                | nil => intro j hj; simpa using hj
                | cons x a ih => intro j hj; simp [Shape.idsList, ih j hj]
              exact this done (k :: rest) i (by simp [Shape.idsList, hi]))
        rw [hvis3 i hi65, hun i (by simp [Shape.idsList, hi])]
        have hdis := (List.nodup_append.mp hndk).2.2
        have : i ∉ k.ids := fun h => hdis h hi
        simp [this])
      (by
        intro hb q hq
        exact hstart hb q (by simp [Shape.preList, hq]))
    refine ⟨w4, ?_, ?_⟩
    · obtain ⟨m1, m2, m3, m4, m5⟩ := hm4
      refine ⟨m1.trans hheap3, m2.trans hcnt3, m3, ?_, ?_⟩
      · rw [m4, e3, g4, f3]
      · intro b hb
        rw [m5 b hb, hvis3 b hb]
        by_cases x1 : b = nd.fID <;> by_cases x2 : b ∈ k.ids <;>
          by_cases x3 : b ∈ Shape.idsList rest <;> simp [Shape.idsList, x1, x2, x3]
    · intro fuel
      have hfuel : fuel + (Shape.costList (k :: rest) + 1)
          = (((fuel + (Shape.costList rest + 1)) + 1) + k.cost) + 1 := by
        simp only [Shape.costList]
        omega
      rw [hfuel, hw1, hw2, hw3, hw4]
      congr 1
      cases onEntry <;>
        simp [restTrace, headTrace, Shape.preList, Shape.postList, calm, List.append_assoc]
end

end NTree

/-! ## Whole walks -/

namespace Shape

mutual
theorem pre_map_id (h : Nat → Option NTreeNode) :
    ∀ (S : Shape) (par : Option Nat), layout h par S = true →
      S.pre.map (fun q => (h q).map NTreeNode.fID) = S.ids.map some
  | node p i ks, par, hl => by
    obtain ⟨nd, h1, h2, _, _, _, _, h7⟩ := layout_spec h par _ hl
    simp only [ptr, id, kids] at h1 h2 h7
    simp only [pre, ids, List.map_cons, h1, Option.map_some', h2]
    rw [preList_map_id h ks (some p) h7]
theorem preList_map_id (h : Nat → Option NTreeNode) :
    ∀ (ks : List Shape) (par : Option Nat), layoutList h par ks = true →
      (preList ks).map (fun q => (h q).map NTreeNode.fID) = (idsList ks).map some
  | [], _, _ => by simp [preList, idsList]
  | k :: ks, par, hl => by
    rw [layoutList_cons, Bool.and_eq_true] at hl
    simp only [preList, idsList, List.map_append]
    rw [pre_map_id h k par hl.1, preList_map_id h ks par hl.2]
end

theorem pre_nodup (h : Nat → Option NTreeNode) (S : Shape) (par : Option Nat)
    (hl : layout h par S = true) (hn : S.ids.Nodup) : S.pre.Nodup := by
  have h1 : (S.ids.map some).Nodup := hn.map (Option.some_injective Nat)
  rw [← pre_map_id h S par hl] at h1
  exact List.Nodup.of_map _ h1

theorem top_not_below (h : Nat → Option NTreeNode) (S : Shape) (par : Option Nat)
    (hl : layout h par S = true) (hn : S.ids.Nodup) :
    ∀ q ∈ preList S.kids, q ≠ S.ptr := by
  have h1 := pre_nodup h S par hl hn
  cases S with
  | node p i ks =>
    simp only [pre, List.nodup_cons] at h1
    intro q hq he
    simp only [kids] at hq
    simp only [ptr] at he
    exact h1.1 (he ▸ hq)

mutual
theorem post_perm_pre : ∀ (S : Shape), List.Perm S.post S.pre
  | node p i ks => by
    simp only [post, pre]
    exact (List.perm_append_singleton p (postList ks)).trans
      ((postList_perm_preList ks).cons p)
theorem postList_perm_preList : ∀ (ks : List Shape), List.Perm (postList ks) (preList ks)
  | [] => by simp [postList, preList]
  | k :: ks => by
    simp only [postList, preList]
    exact (post_perm_pre k).append (postList_perm_preList ks)
end

mutual
theorem subtree_layout (h : Nat → Option NTreeNode) :
    ∀ (S : Shape) (par : Option Nat), layout h par S = true →
      ∀ X ∈ S.subtrees, ∃ par1, layout h par1 X = true
  | node p i ks, par, hl, X, hX => by
    simp only [subtrees, List.mem_cons] at hX
    rcases hX with rfl | hX
    · exact ⟨par, hl⟩
    · obtain ⟨nd, _, _, _, _, _, _, h7⟩ := layout_spec h par _ hl
      exact subtreeList_layout h ks (some p) h7 X hX
theorem subtreeList_layout (h : Nat → Option NTreeNode) :
    ∀ (ks : List Shape) (par : Option Nat), layoutList h par ks = true →
      ∀ X ∈ subtreesList ks, ∃ par1, layout h par1 X = true
  | [], _, _, X, hX => by simp [subtreesList] at hX
  | k :: ks, par, hl, X, hX => by
    rw [layoutList_cons, Bool.and_eq_true] at hl
    simp only [subtreesList, List.mem_append] at hX
    rcases hX with hX | hX
    · exact subtree_layout h k par hl.1 X hX
    · exact subtreeList_layout h ks par hl.2 X hX
end

mutual
theorem subtree_ids_sublist : ∀ (S : Shape), ∀ X ∈ S.subtrees, List.Sublist X.ids S.ids
  | node p i ks, X, hX => by
    simp only [subtrees, List.mem_cons] at hX
    rcases hX with rfl | hX
    · exact List.Sublist.refl _
    · simp only [ids]
      exact (subtreeList_ids_sublist ks X hX).cons i
theorem subtreeList_ids_sublist : ∀ (ks : List Shape), ∀ X ∈ subtreesList ks,
    List.Sublist X.ids (idsList ks)
  | [], X, hX => by simp [subtreesList] at hX
  | k :: ks, X, hX => by
    simp only [subtreesList, List.mem_append] at hX
    simp only [idsList]
    rcases hX with hX | hX
    · exact (subtree_ids_sublist k X hX).trans (List.sublist_append_left _ _)
    · exact (subtreeList_ids_sublist ks X hX).trans (List.sublist_append_right _ _)
end

end Shape

namespace NTree

variable {σ : Type}

theorem loopBody_end_entry (proc : Option (NTreeNodeActionFunc σ))
    (w : World σ) (p : Nat) (nd : NTreeNode) (tr : Trace)
    (hheap : w.heap p = some nd) (hst : w.fVisitedBits ≠ []) (hv : vis w nd.fID = true) :
    loopBody (some p) proc true true w p tr = some (Step.exit w true true tr) := by
  unfold loopBody
  rw [hheap]
  simp only []
  rw [Visited_eq_vis w _ hst, hv]
  simp only []
  unfold visitedBranch
  simp

theorem loopBody_end_exit (act : NTreeNodeActionFunc σ)
    (w w1 : World σ) (p : Nat) (nd : NTreeNode) (tr : Trace)
    (hheap : w.heap p = some nd) (hst : w.fVisitedBits ≠ []) (hv : vis w nd.fID = true)
    (hact : act p w = some (false, w1)) :
    loopBody (some p) (some act) false true w p tr
      = some (Step.exit w1 true true (tr ++ [(p, false)])) := by
  unfold loopBody
  rw [hheap]
  simp only []
  rw [Visited_eq_vis w _ hst, hv]
  simp only []
  unfold visitedBranch
  simp [invoke, hact]

theorem toShort_small (x : Int) (h1 : -32768 ≤ x) (h2 : x < 32768) : toShort x = x := by
  unfold toShort
  omega

/-- State in which the loop starts when the call is not refused. -/
theorem enter_world (w : World σ) (h0 : 0 ≤ w.entryCount) (h1 : w.entryCount < 32)
    (hst : w.fVisitedBits ≠ []) :
    ∃ w2, (let w1 : World σ := { w with entryCount := toShort (w.entryCount + 1) }
        if w1.entryCount > 1 then PushVisitedBits w1 else ClearVisitedBits w1) = w2 ∧
      w2.heap = w.heap ∧ w2.entryCount = w.entryCount + 1 ∧ w2.fVisitedBits ≠ [] ∧
      (∀ b, b < 65536 → vis w2 b = false) ∧
      (w.entryCount = 0 → w2.fVisitedBits.tail = w.fVisitedBits.tail) ∧
      (0 < w.entryCount → w2.fVisitedBits.tail = w.fVisitedBits) := by
  refine ⟨_, rfl, ?_⟩
  have e1 : toShort (w.entryCount + 1) = w.entryCount + 1 := toShort_small _ (by omega) (by omega)
  simp only [e1]
  cases hv : w.fVisitedBits with
  | nil => exact absurd hv hst
  | cons vb next =>
    by_cases hc : w.entryCount + 1 > 1
    · simp only [hc, if_true, PushVisitedBits, ClearVisitedBits]
      refine ⟨by first | rfl | trivial, by first | rfl | trivial, by simp, ?_, ?_, ?_⟩
      · intro b hb
        simp only [vis]
        exact vbit_clear _ b hb
      · intro h; omega
      · intro _; simp
    · simp only [hc, if_false, ClearVisitedBits, hv]
      refine ⟨by first | rfl | trivial, by first | rfl | trivial, by simp, ?_, ?_, ?_⟩
      · intro b hb
        simp only [vis]
        exact vbit_clear _ b hb
      · intro _; simp
      · intro h; omega

/-- State on return when the loop has left the tree alone. -/
theorem exitPath_returned (w w2 w3 : World σ) (a e : Bool) (tr : Trace)
    (h0 : 0 ≤ w.entryCount) (h1 : w.entryCount < 32)
    (g1 : w3.heap = w.heap) (g2 : w3.entryCount = w.entryCount + 1)
    (g3 : w3.fVisitedBits ≠ []) (g4 : w3.fVisitedBits.tail = w2.fVisitedBits.tail)
    (g6 : w.entryCount = 0 → w2.fVisitedBits.tail = w.fVisitedBits.tail)
    (g7 : 0 < w.entryCount → w2.fVisitedBits.tail = w.fVisitedBits)
    (hst : w.fVisitedBits ≠ []) :
    ∃ w4, exitPath w3 a e tr = ((if a then (if e then false else true) else false), w4, tr) ∧
      Returned w w4 := by
  refine ⟨_, rfl, ?_⟩
  have hpos : w3.entryCount > 0 := by omega
  cases hv3 : w3.fVisitedBits with
  | nil => exact absurd hv3 g3
  | cons vb3 next3 =>
    cases hv : w.fVisitedBits with
    | nil => exact absurd hv hst
    | cons vb next =>
      rw [hv3] at g4
      simp only [List.tail_cons] at g4
      by_cases hc : w3.entryCount > 1
      · have hw : 0 < w.entryCount := by omega
        have e1 : toShort (w3.entryCount - 1) = w.entryCount := by
          have e0 : w3.entryCount - 1 = w.entryCount := by omega
          rw [e0]; exact toShort_small _ (by omega) (by omega)
        have g7a := g7 hw
        simp only [hpos, hc, if_true, PopVisitedBits, hv3, e1]
        refine ⟨g1, rfl, ?_, ?_, ?_⟩
        · simp only [g4, g7a]
        · simp only [g4, g7a]
        · intro _; simp only [g4, g7a]
      · have hw : w.entryCount = 0 := by omega
        have e1 : toShort (w3.entryCount - 1) = w.entryCount := by
          have e0 : w3.entryCount - 1 = w.entryCount := by omega
          rw [e0]; exact toShort_small _ (by omega) (by omega)
        have g6a := g6 hw
        rw [hv] at g6a
        simp only [List.tail_cons] at g6a
        simp only [hpos, hc, if_true, if_false, e1]
        refine ⟨g1, rfl, ?_, ?_, ?_⟩
        · simp [hv3, hv, g4, g6a]
        · simp [hv3, hv, g4, g6a]
        · intro h; omega

/-- A walk over a subtree laid out in the heap, with a callback that leaves the
tree alone: the callback runs on the nodes of the subtree in the order of the
timing, and the call returns `false`.  The scope is the branch, or the subtree
is the whole tree. -/
theorem walk_run (act : NTreeNodeActionFunc σ) (onEntry branch : Bool) (S : Shape)
    (w : World σ) (par : Option Nat) (fuel : Nat)
    (h0 : 0 ≤ w.entryCount) (h1 : w.entryCount < 32) (hst : w.fVisitedBits ≠ [])
    (hlay : Shape.layout w.heap par S = true) (hnd : S.ids.Nodup)
    (hfr : Framed act w.heap (w.entryCount + 1))
    (hroot : branch = false → par = none)
    (hfuel : S.cost + 1 ≤ fuel) :
    ∃ w1, VisitAllNTreeNodes fuel (some S.ptr) (some act) onEntry branch w
        = some (false, w1, calm (order onEntry S)) ∧ Returned w w1 := by
  obtain ⟨w2, hw2, a1, a2, a3, a4, a5, a6⟩ := enter_world w h0 h1 hst
  have hnot : ¬ (toShort (w.entryCount + 1) > kMaxRecursion) := by
    rw [toShort_small _ (by omega) (by omega)]
    unfold kMaxRecursion
    omega
  obtain ⟨w3, hm, hw3⟩ := sub_walk (some S.ptr) act onEntry branch S w2 par []
    (by rw [a1, a2]; exact hfr) (by rw [a1]; exact hlay) hnd a3
    (fun i hi => a4 i (Shape.ids_lt w.heap S par hlay i hi))
    (fun _ q hq he => Shape.top_not_below w.heap S par hlay hnd q hq (Option.some.inj he))
  obtain ⟨g1, g2, g3, g4, g5⟩ := hm
  obtain ⟨nd, n1, n2, n3, n4, _⟩ := Shape.layout_spec _ _ _ hlay
  have hk3 : w3.heap S.ptr = some nd := by rw [g1, a1]; exact n1
  have hv3 : vis w3 nd.fID = true := by
    rw [n2, g5 _ n3]; simp [Shape.id_mem_ids]
  have hf : fuel = (fuel - S.cost - 1 + 1) + S.cost := by omega
  -- the last iteration
  have hlast : ∃ w4 a e, walkLoop (some S.ptr) (some act) onEntry branch (fuel - S.cost - 1 + 1)
        w3 (some S.ptr) ([] ++ calm (inTrace onEntry S))
        = some (w4, a, e, calm (order onEntry S)) ∧ (a = true → e = true) ∧
        w4.heap = w3.heap ∧ w4.entryCount = w3.entryCount ∧
        w4.fVisitedBits = w3.fVisitedBits := by
    cases hb : branch
    · have hpar : nd.fParent = none := by rw [n4]; exact hroot hb
      have hns : (decide (some S.ptr = some S.ptr) && false) = false := by simp
      cases onEntry
      · obtain ⟨w4, c1, c2, c3, c4⟩ := hfr S.ptr w3 (by rw [g1, a1]) (by rw [g2, a2]) g3
        refine ⟨w4, false, false, ?_, by simp, by rw [c2, g1, a1], by rw [c3, g2, a2], c4⟩
        have hbody := loopBody_ascend_exit (some S.ptr) act false w3 w4 S.ptr nd
          ([] ++ calm (inTrace false S)) hk3 g3 hv3 c1 hns
        rw [walkLoop_next _ _ _ _ _ w3 w4 S.ptr _ _ _ hbody, hpar, walkLoop_null]
        cases S with
        | node p i ks => simp [inTrace, order, Shape.post, Shape.kids, Shape.ptr, calm]
      · refine ⟨w3, false, false, ?_, by simp, rfl, rfl, rfl⟩
        have hbody := loopBody_ascend_entry (some S.ptr) (some act) false w3 S.ptr nd
          ([] ++ calm (inTrace true S)) hk3 g3 hv3 hns
        rw [walkLoop_next _ _ _ _ _ w3 w3 S.ptr _ _ _ hbody, hpar, walkLoop_null]
        simp [inTrace, order]
    · cases onEntry
      · obtain ⟨w4, c1, c2, c3, c4⟩ := hfr S.ptr w3 (by rw [g1, a1]) (by rw [g2, a2]) g3
        refine ⟨w4, true, true, ?_, by simp, by rw [c2, g1, a1], by rw [c3, g2, a2], c4⟩
        have hbody := loopBody_end_exit act w3 w4 S.ptr nd
          ([] ++ calm (inTrace false S)) hk3 g3 hv3 c1
        rw [walkLoop_exit _ _ _ _ _ w3 w4 S.ptr _ _ _ _ hbody]
        cases S with
        | node p i ks => simp [inTrace, order, Shape.post, Shape.kids, Shape.ptr, calm]
      · refine ⟨w3, true, true, ?_, by simp, rfl, rfl, rfl⟩
        have hbody := loopBody_end_entry (some act) w3 S.ptr nd
          ([] ++ calm (inTrace true S)) hk3 g3 hv3
        rw [walkLoop_exit _ _ _ _ _ w3 w3 S.ptr _ _ _ _ hbody]
        simp [inTrace, order]
  obtain ⟨w4, a, e, hl1, hl2, hl3, hl4, hl5⟩ := hlast
  obtain ⟨w5, hx1, hx2⟩ := exitPath_returned w w2 w4 a e (calm (order onEntry S)) h0 h1
    (by rw [hl3, g1, a1]) (by rw [hl4, g2, a2]) (by rw [hl5]; exact g3)
    (by rw [hl5]; exact g4) a5 a6 hst
  refine ⟨w5, ?_, hx2⟩
  unfold VisitAllNTreeNodes
  simp only [hnot, if_false]
  simp only [] at hw2
  rw [hw2, hf, hw3, hl1]
  simp only [hx1]
  cases a
  · rfl
  · simp [hl2 rfl]

end NTree

/-! ## Traversal order -/

namespace NTree

variable {σ : Type}

theorem framed_noAction (h : Nat → Option NTreeNode) (c : Int) : Framed noAction h c := by
  intro n w h1 h2 _
  exact ⟨w, rfl, h1, h2, rfl⟩

/-- C1: on a tree with pairwise distinct ids, an entry-timed whole-tree walk
from the root with a callback that neither aborts nor touches the tree runs the
callback exactly once on every node, in pre-order, and returns `false`. -/
theorem walk_entry_wholeTree_preorder (act : NTreeNodeActionFunc σ) (T : Shape)
    (w : World σ) (fuel : Nat)
    (hcount0 : 0 ≤ w.entryCount) (hcount : w.entryCount < 32)
    (hbits : w.fVisitedBits ≠ [])
    (hlay : Shape.layout w.heap none T = true) (hids : T.ids.Nodup)
    (hact : Framed act w.heap (w.entryCount + 1)) (hfuel : T.cost + 1 ≤ fuel) :
    T.pre.Nodup ∧
      ∃ w1, VisitAllNTreeNodes fuel (some T.ptr) (some act) true false w
        = some (false, w1, calm T.pre) := by
  refine ⟨Shape.pre_nodup w.heap T none hlay hids, ?_⟩
  obtain ⟨w1, h1, _⟩ := walk_run act true false T w none fuel hcount0 hcount hbits hlay hids
    hact (fun _ => rfl) hfuel
  exact ⟨w1, h1⟩

theorem walk_entry_wholeTree_preorder_witness :
    sampleTree.pre.Nodup ∧
      ∃ w1, VisitAllNTreeNodes 20 (some sampleTree.ptr) (some noAction) true false sampleWorld
        = some (false, w1, calm sampleTree.pre) :=
  walk_entry_wholeTree_preorder noAction sampleTree sampleWorld 20 (by decide) (by decide)
    (by simp [sampleWorld]) (by decide) (by decide) (framed_noAction _ _) (by decide)

/-- C2: on a tree with pairwise distinct ids, an exit-timed whole-tree walk from
the root with a callback that neither aborts nor touches the tree runs the
callback exactly once on every node, in post-order (the post-order of the tree
whose pre-order the entry-timed walk produces), and returns `false`. -/
theorem walk_exit_wholeTree_postorder (act : NTreeNodeActionFunc σ) (T : Shape)
    (w : World σ) (fuel : Nat)
    (hcount0 : 0 ≤ w.entryCount) (hcount : w.entryCount < 32)
    (hbits : w.fVisitedBits ≠ [])
    (hlay : Shape.layout w.heap none T = true) (hids : T.ids.Nodup)
    (hact : Framed act w.heap (w.entryCount + 1)) (hfuel : T.cost + 1 ≤ fuel) :
    T.post.Nodup ∧ List.Perm T.post T.pre ∧
      (∃ w1, VisitAllNTreeNodes fuel (some T.ptr) (some act) false false w
        = some (false, w1, calm T.post)) ∧
      (∃ w2, VisitAllNTreeNodes fuel (some T.ptr) (some act) true false w
        = some (false, w2, calm T.pre)) := by
  have hpre := Shape.pre_nodup w.heap T none hlay hids
  have hperm := Shape.post_perm_pre T
  refine ⟨hperm.nodup_iff.mpr hpre, hperm, ?_, ?_⟩
  · obtain ⟨w1, h1, _⟩ := walk_run act false false T w none fuel hcount0 hcount hbits hlay hids
      hact (fun _ => rfl) hfuel
    exact ⟨w1, h1⟩
  · obtain ⟨w1, h1, _⟩ := walk_run act true false T w none fuel hcount0 hcount hbits hlay hids
      hact (fun _ => rfl) hfuel
    exact ⟨w1, h1⟩

theorem walk_exit_wholeTree_postorder_witness :
    sampleTree.post.Nodup ∧ List.Perm sampleTree.post sampleTree.pre ∧
      (∃ w1, VisitAllNTreeNodes 20 (some sampleTree.ptr) (some noAction) false false sampleWorld
        = some (false, w1, calm sampleTree.post)) ∧
      (∃ w2, VisitAllNTreeNodes 20 (some sampleTree.ptr) (some noAction) true false sampleWorld
        = some (false, w2, calm sampleTree.pre)) :=
  walk_exit_wholeTree_postorder noAction sampleTree sampleWorld 20 (by decide) (by decide)
    (by simp [sampleWorld]) (by decide) (by decide) (framed_noAction _ _) (by decide)

/-- C3: on a tree with pairwise distinct ids, a `ThisBranchOnly` walk started at
any node `X` (either timing, callback that neither aborts nor touches the tree)
runs the callback exactly once on `X` and on each descendant of `X`, on no other
node, and returns `false`. -/
theorem walk_branch_scope (act : NTreeNodeActionFunc σ) (T X : Shape) (onEntry : Bool)
    (w : World σ) (fuel : Nat)
    (hcount0 : 0 ≤ w.entryCount) (hcount : w.entryCount < 32)
    (hbits : w.fVisitedBits ≠ [])
    (hlay : Shape.layout w.heap none T = true) (hids : T.ids.Nodup)
    (hX : X ∈ T.subtrees)
    (hact : Framed act w.heap (w.entryCount + 1)) (hfuel : X.cost + 1 ≤ fuel) :
    X.pre.Nodup ∧ List.Perm (order onEntry X) X.pre ∧
      ∃ w1, VisitAllNTreeNodes fuel (some X.ptr) (some act) onEntry true w
        = some (false, w1, calm (order onEntry X)) := by
  obtain ⟨par, hlx⟩ := Shape.subtree_layout w.heap T none hlay X hX
  have hidx : X.ids.Nodup := (Shape.subtree_ids_sublist T X hX).nodup hids
  refine ⟨Shape.pre_nodup w.heap X par hlx hidx, ?_, ?_⟩
  · cases onEntry
    · exact Shape.post_perm_pre X
    · exact List.Perm.refl _
  · obtain ⟨w1, h1, _⟩ := walk_run act onEntry true X w par fuel hcount0 hcount hbits hlx hidx
      hact (fun h => absurd h (by simp)) hfuel
    exact ⟨w1, h1⟩

theorem walk_branch_scope_witness :
    sampleBranch.pre.Nodup ∧ List.Perm (order false sampleBranch) sampleBranch.pre ∧
      ∃ w1, VisitAllNTreeNodes 20 (some sampleBranch.ptr) (some noAction) false true sampleWorld
        = some (false, w1, calm (order false sampleBranch)) :=
  walk_branch_scope noAction sampleTree sampleBranch false sampleWorld 20 (by decide) (by decide)
    (by simp [sampleWorld]) (by decide) (by decide)
    (by simp [sampleTree, sampleBranch, Shape.subtrees, Shape.subtreesList])
    (framed_noAction _ _) (by decide)

/-- C4: an entry-timed whole-tree walk started at node 1 of the sample tree (the
first child of the root) runs the callback on nodes 1, 3, 2 and 4 and never on
the root, the parent of the start node.  Started at node 2, not a first child,
the same walk does reach the root, after nodes 2 and 4; and the exit-timed walk
from node 1 runs the callback on every node. -/
theorem walk_from_first_child_skips_root :
    observe (VisitAllNTreeNodes 20 (some 1) (some noAction) true false sampleWorld)
        = some (false, calm [1, 3, 2, 4]) ∧
      observe (VisitAllNTreeNodes 20 (some 2) (some noAction) true false sampleWorld)
        = some (false, calm [2, 4, 0, 1, 3]) ∧
      observe (VisitAllNTreeNodes 20 (some 1) (some noAction) false false sampleWorld)
        = some (false, calm [3, 1, 2, 4, 0]) := by
  decide

end NTree

/-! ## What one iteration can do, for any callback -/

namespace NTree

variable {σ : Type}

theorem invoke_spec (act : NTreeNodeActionFunc σ) (p : Nat) (w w1 : World σ) (tr tr1 : Trace)
    (b : Bool) (h : invoke act p w tr = some (b, w1, tr1)) :
    act p w = some (b, w1) ∧ tr1 = tr ++ [(p, b)] := by
  unfold invoke at h
  cases ha : act p w with
  | none => simp [ha] at h
  | some r =>
    obtain ⟨b0, w0⟩ := r
    simp only [ha, Option.some.injEq, Prod.mk.injEq] at h
    obtain ⟨rfl, rfl, rfl⟩ := h
    exact ⟨rfl, rfl⟩

theorem visitedBranch_stepOf (start : Option Nat) (proc : Option (NTreeNodeActionFunc σ))
    (onEntry branch : Bool) (w : World σ) (p : Nat) (nd : NTreeNode) (tr : Trace) (s : Step σ)
    (h : visitedBranch start proc onEntry branch w p nd tr = some s) :
    StepOf proc w p tr s := by
  unfold visitedBranch at h
  simp only [] at h
  generalize (decide (some p = start) && branch) = bx at h
  cases onEntry
  · cases hp : proc with
    | none =>
      cases bx <;> simp [hp] at h <;> subst h
      · exact StepOf.move _
      · exact StepOf.endBranch
    | some act =>
      cases hi : invoke act p w tr with
      | none => simp [hp, hi] at h
      | some r =>
        obtain ⟨b, w1, tr1⟩ := r
        obtain ⟨ha, rfl⟩ := invoke_spec act p w w1 tr tr1 b hi
        cases b <;> cases bx <;> simp [hp, hi] at h <;> subst h
        · exact StepOf.callMove act w1 _ rfl ha
        · exact StepOf.callEnd act w1 rfl ha
        · exact StepOf.callAbort act w1 rfl ha
        · exact StepOf.callAbort act w1 rfl ha
  · cases bx <;> simp at h <;> subst h
    · exact StepOf.move _
    · exact StepOf.endBranch

/-- The part after the leaf call makes a call only if none was made before. -/
theorem findAndVisit_cases (proc : Option (NTreeNodeActionFunc σ)) (onEntry : Bool)
    (w : World σ) (p : Nat) (nd : NTreeNode) (tr : Trace) (didAction : Bool)
    (n ci : Int) (s : Step σ)
    (h : findAndVisit proc onEntry w p nd tr didAction n ci = some s) :
    (∃ c, s = Step.next w c tr) ∨
    (∃ i w2, SetVisitedBit w i true = some w2 ∧ s = Step.next w2 (some p) tr) ∨
    (didAction = false ∧ ∃ act w1, proc = some act ∧
      ((act p w = some (true, w1) ∧ s = Step.exit w1 true false (tr ++ [(p, true)])) ∨
       (act p w = some (false, w1) ∧ ∃ c, s = Step.next w1 c (tr ++ [(p, false)])))) := by
  unfold findAndVisit at h
  cases hb : scanBackward w nd (ci + 1).toNat none with
  | none => simp [hb] at h
  | some rb =>
    obtain ⟨idx, found, child⟩ := rb
    simp only [hb] at h
    generalize hci : (if found = true then (if idx + 1 ≥ n then (0 : Int) else idx + 1) else 0)
      = ci1 at h
    cases hf : scanForward w nd (n - ci1).toNat ci1 child with
    | none => simp [hf] at h
    | some rf =>
      obtain ⟨ci2, found2, child2⟩ := rf
      simp only [hf] at h
      generalize hbc : (found2 && decide (ci2 = 0) && !didAction && onEntry) = bc at h
      cases bc
      · cases found2
        · simp only [Bool.false_eq_true, if_false] at h
          cases hh : w.heap p with
          | none => simp [hh] at h
          | some nd1 =>
            simp only [hh] at h
            cases hs : SetVisitedBit w nd1.fID true with
            | none => simp [hs] at h
            | some w2 =>
              simp only [hs, Option.some.injEq] at h
              exact Or.inr (Or.inl ⟨nd1.fID, w2, hs, h.symm⟩)
        · simp only [Bool.false_eq_true, if_false, if_true, Option.some.injEq] at h
          exact Or.inl ⟨child2, h.symm⟩
      · have hf2 : found2 = true := by
          cases found2
          · simp at hbc
          · rfl
        have hda : didAction = false := by
          cases didAction
          · rfl
          · simp at hbc
        subst hf2
        simp only [if_true] at h
        cases hp : proc with
        | none =>
          simp only [hp, Option.some.injEq] at h
          exact Or.inl ⟨child2, h.symm⟩
        | some act =>
          simp only [hp] at h
          cases hi : invoke act p w tr with
          | none => simp [hi] at h
          | some r =>
            obtain ⟨b, w1, tr1⟩ := r
            obtain ⟨ha, rfl⟩ := invoke_spec act p w w1 tr tr1 b hi
            refine Or.inr (Or.inr ⟨hda, act, w1, rfl, ?_⟩)
            cases b
            · simp only [hi, Option.some.injEq] at h
              exact Or.inr ⟨ha, child2, h.symm⟩
            · simp only [hi, Option.some.injEq] at h
              exact Or.inl ⟨ha, h.symm⟩

theorem findAndVisit_stepOf (proc : Option (NTreeNodeActionFunc σ)) (onEntry : Bool)
    (w : World σ) (p : Nat) (nd : NTreeNode) (tr : Trace) (didAction : Bool)
    (n ci : Int) (s : Step σ)
    (h : findAndVisit proc onEntry w p nd tr didAction n ci = some s) :
    StepOf proc w p tr s := by
  rcases findAndVisit_cases proc onEntry w p nd tr didAction n ci s h with
    ⟨c, rfl⟩ | ⟨i, w2, hs, rfl⟩ | ⟨_, act, w1, hp, ⟨ha, rfl⟩ | ⟨ha, c, rfl⟩⟩
  · exact StepOf.move c
  · exact StepOf.mark i w2 hs
  · exact StepOf.callAbort act w1 hp ha
  · exact StepOf.callMove act w1 c hp ha

theorem unvisitedBranch_stepOf (proc : Option (NTreeNodeActionFunc σ)) (onEntry : Bool)
    (w : World σ) (p : Nat) (nd : NTreeNode) (tr : Trace) (s : Step σ)
    (h : unvisitedBranch proc onEntry w p nd tr = some s) :
    StepOf proc w p tr s := by
  unfold unvisitedBranch at h
  simp only [] at h
  by_cases hleaf : (decide (nd.GetNumChildren = 0) && onEntry) = true
  · simp only [hleaf, if_true] at h
    cases hp : proc with
    | none =>
      simp only [hp] at h
      have := findAndVisit_stepOf none onEntry w p nd tr false _ _ s h
      rw [hp] at *
      exact this
    | some act =>
      simp only [hp] at h
      cases hi : invoke act p w tr with
      | none => simp [hi] at h
      | some r =>
        obtain ⟨b, w1, tr1⟩ := r
        obtain ⟨ha, rfl⟩ := invoke_spec act p w w1 tr tr1 b hi
        cases b
        · simp only [hi] at h
          cases hh : w1.heap p with
          | none => simp [hh] at h
          | some nd1 =>
            simp only [hh] at h
            rcases findAndVisit_cases (some act) onEntry w1 p nd1 _ true _ _ s h with
              ⟨c, rfl⟩ | ⟨i, w2, hs, rfl⟩ | ⟨hd, _⟩
            · exact StepOf.callMove act w1 c rfl ha
            · exact StepOf.callMark act w1 i w2 rfl ha hs
            · exact absurd hd (by simp)
        · simp only [hi, Option.some.injEq] at h
          subst h
          exact StepOf.callAbort act w1 rfl ha
  · simp only [hleaf, if_false] at h
    exact findAndVisit_stepOf proc onEntry w p nd tr false _ _ s h

theorem loopBody_stepOf (start : Option Nat) (proc : Option (NTreeNodeActionFunc σ))
    (onEntry branch : Bool) (w : World σ) (p : Nat) (tr : Trace) (s : Step σ)
    (h : loopBody start proc onEntry branch w p tr = some s) :
    StepOf proc w p tr s := by
  unfold loopBody at h
  cases hh : w.heap p with
  | none => simp [hh] at h
  | some nd =>
    simp only [hh] at h
    cases hv : Visited w nd.fID with
    | none => simp [hv] at h
    | some v =>
      cases v
      · simp only [hv] at h
        exact unvisitedBranch_stepOf proc onEntry w p nd tr s h
      · simp only [hv] at h
        exact visitedBranch_stepOf start proc onEntry branch w p nd tr s h

end NTree

/-! ## Abort, the re-entrancy ceiling and nested walks -/

namespace NTree

variable {σ : Type}

theorem Quiet.snoc (tr : Trace) (p : Nat) (h : Quiet tr) : Quiet (tr ++ [(p, false)]) := by
  intro x hx
  rcases List.mem_append.mp hx with h1 | h1
  · exact h x h1
  · simp at h1
    rw [h1]

theorem walkLoop_abortLast (start : Option Nat) (proc : Option (NTreeNodeActionFunc σ))
    (onEntry branch : Bool) :
    ∀ (fuel : Nat) (w : World σ) (node : Option Nat) (tr : Trace) (w1 : World σ) (a e : Bool)
      (tr1 : Trace), Quiet tr →
      walkLoop start proc onEntry branch fuel w node tr = some (w1, a, e, tr1) →
      AbortLast tr1 a e := by
  intro fuel
  induction fuel with
  | zero =>
    intro w node tr w1 a e tr1 hq h
    cases node with
    | none =>
      rw [walkLoop_null] at h
      simp only [Option.some.injEq, Prod.mk.injEq] at h
      obtain ⟨_, rfl, rfl, rfl⟩ := h
      exact Or.inl ⟨hq, fun h => absurd h (by simp)⟩
    | some p => simp [walkLoop] at h
  | succ fuel ih =>
    intro w node tr w1 a e tr1 hq h
    cases node with
    | none =>
      rw [walkLoop_null] at h
      simp only [Option.some.injEq, Prod.mk.injEq] at h
      obtain ⟨_, rfl, rfl, rfl⟩ := h
      exact Or.inl ⟨hq, fun h => absurd h (by simp)⟩
    | some p =>
      cases hb : loopBody start proc onEntry branch w p tr with
      | none => simp [walkLoop, hb] at h
      | some s =>
        have hs := loopBody_stepOf start proc onEntry branch w p tr s hb
        cases hs with
        | move n =>
          rw [walkLoop_next _ _ _ _ _ _ _ _ _ _ _ hb] at h
          exact ih _ _ _ _ _ _ _ hq h
        | mark i w2 hm =>
          rw [walkLoop_next _ _ _ _ _ _ _ _ _ _ _ hb] at h
          exact ih _ _ _ _ _ _ _ hq h
        | endBranch =>
          rw [walkLoop_exit _ _ _ _ _ _ _ _ _ _ _ _ hb] at h
          simp only [Option.some.injEq, Prod.mk.injEq] at h
          obtain ⟨_, rfl, rfl, rfl⟩ := h
          exact Or.inl ⟨hq, fun _ => rfl⟩
        | callAbort act w2 hp ha =>
          rw [walkLoop_exit _ _ _ _ _ _ _ _ _ _ _ _ hb] at h
          simp only [Option.some.injEq, Prod.mk.injEq] at h
          obtain ⟨_, rfl, rfl, rfl⟩ := h
          exact Or.inr ⟨tr, p, rfl, hq, rfl, rfl⟩
        | callMove act w2 n hp ha =>
          rw [walkLoop_next _ _ _ _ _ _ _ _ _ _ _ hb] at h
          exact ih _ _ _ _ _ _ _ (hq.snoc tr p) h
        | callMark act w2 i w3 hp ha hm =>
          rw [walkLoop_next _ _ _ _ _ _ _ _ _ _ _ hb] at h
          exact ih _ _ _ _ _ _ _ (hq.snoc tr p) h
        | callEnd act w2 hp ha =>
          rw [walkLoop_exit _ _ _ _ _ _ _ _ _ _ _ _ hb] at h
          simp only [Option.some.injEq, Prod.mk.injEq] at h
          obtain ⟨_, rfl, rfl, rfl⟩ := h
          exact Or.inl ⟨hq.snoc tr p, fun _ => rfl⟩

/-- The returned flag and the record of any walk that returns. -/
theorem walk_abortLast (fuel : Nat) (start : Option Nat)
    (proc : Option (NTreeNodeActionFunc σ)) (onEntry branch : Bool) (w : World σ)
    (pushOk : Bool) (r : Bool) (tr : Trace)
    (h : observe (VisitAllNTreeNodes fuel start proc onEntry branch w pushOk) = some (r, tr)) :
    (r = false ∧ Quiet tr) ∨ (r = true ∧ ∃ tr0 n, tr = tr0 ++ [(n, true)] ∧ Quiet tr0) := by
  unfold observe VisitAllNTreeNodes at h
  simp only [] at h
  by_cases hc : toShort (w.entryCount + 1) > kMaxRecursion
  · simp only [hc, if_true, exitPath, Option.map_some', Option.some.injEq, Prod.mk.injEq] at h
    obtain ⟨rfl, rfl⟩ := h
    exact Or.inl ⟨by simp, by intro x hx; cases hx⟩
  · simp only [hc, if_false] at h
    generalize hw2 : (if toShort (w.entryCount + 1) > 1
      then PushVisitedBits { w with entryCount := toShort (w.entryCount + 1) } pushOk
      else ClearVisitedBits { w with entryCount := toShort (w.entryCount + 1) }) = w2 at h
    cases hl : walkLoop start proc onEntry branch fuel w2 start [] with
    | none => simp [hl] at h
    | some res =>
      obtain ⟨w3, a, e, tr1⟩ := res
      simp only [hl, exitPath, Option.map_some', Option.some.injEq, Prod.mk.injEq] at h
      obtain ⟨rfl, rfl⟩ := h
      have hq0 : Quiet ([] : Trace) := by intro x hx; cases hx
      rcases walkLoop_abortLast start proc onEntry branch fuel w2 start [] w3 a e tr1 hq0 hl with
        ⟨hq, hae⟩ | ⟨tr0, n, rfl, hq, rfl, rfl⟩
      · left
        refine ⟨?_, hq⟩
        cases a
        · rfl
        · simp [hae rfl]
      · right
        exact ⟨rfl, tr0, n, rfl, hq⟩

/-- C7 (as stated, fails): an exit-timed `ThisBranchOnly` walk from node 1 of
the sample tree whose callback aborts on node 1, the start node, returns
`true`, not `false`. -/
theorem walk_abort_at_start_returns_true :
    observe (VisitAllNTreeNodes 20 (some 1) (some (abortAt 1)) false true sampleWorld)
      = some (true, [(3, false), (1, true)]) := by
  decide

theorem SetVisitedBit_entryCount (w w2 : World σ) (i : Nat) (b : Bool)
    (h : SetVisitedBit w i b = some w2) : w2.entryCount = w.entryCount := by
  unfold SetVisitedBit at h
  cases hv : w.fVisitedBits with
  | nil => simp [hv] at h
  | cons vb next =>
    simp only [hv, Option.some.injEq] at h
    subst h
    rfl

theorem walkLoop_keepsCount (start : Option Nat) (proc : Option (NTreeNodeActionFunc σ))
    (onEntry branch : Bool) (hk : ∀ a, proc = some a → KeepsCount a) :
    ∀ (fuel : Nat) (w : World σ) (node : Option Nat) (tr : Trace) (w1 : World σ) (a e : Bool)
      (tr1 : Trace),
      walkLoop start proc onEntry branch fuel w node tr = some (w1, a, e, tr1) →
      w1.entryCount = w.entryCount := by
  intro fuel
  induction fuel with
  | zero =>
    intro w node tr w1 a e tr1 h
    cases node with
    | none =>
      rw [walkLoop_null] at h
      simp only [Option.some.injEq, Prod.mk.injEq] at h
      rw [← h.1]
    | some p => simp [walkLoop] at h
  | succ fuel ih =>
    intro w node tr w1 a e tr1 h
    cases node with
    | none =>
      rw [walkLoop_null] at h
      simp only [Option.some.injEq, Prod.mk.injEq] at h
      rw [← h.1]
    | some p =>
      cases hb : loopBody start proc onEntry branch w p tr with
      | none => simp [walkLoop, hb] at h
      | some s =>
        have hs := loopBody_stepOf start proc onEntry branch w p tr s hb
        cases hs with
        | move n =>
          rw [walkLoop_next _ _ _ _ _ _ _ _ _ _ _ hb] at h
          exact ih _ _ _ _ _ _ _ h
        | mark i w2 hm =>
          rw [walkLoop_next _ _ _ _ _ _ _ _ _ _ _ hb] at h
          rw [ih _ _ _ _ _ _ _ h, SetVisitedBit_entryCount _ _ _ _ hm]
        | endBranch =>
          rw [walkLoop_exit _ _ _ _ _ _ _ _ _ _ _ _ hb] at h
          simp only [Option.some.injEq, Prod.mk.injEq] at h
          rw [← h.1]
        | callAbort act w2 hp ha =>
          rw [walkLoop_exit _ _ _ _ _ _ _ _ _ _ _ _ hb] at h
          simp only [Option.some.injEq, Prod.mk.injEq] at h
          rw [← h.1]
          exact hk act hp p w w2 true ha
        | callMove act w2 n hp ha =>
          rw [walkLoop_next _ _ _ _ _ _ _ _ _ _ _ hb] at h
          rw [ih _ _ _ _ _ _ _ h]
          exact hk act hp p w w2 false ha
        | callMark act w2 i w3 hp ha hm =>
          rw [walkLoop_next _ _ _ _ _ _ _ _ _ _ _ hb] at h
          rw [ih _ _ _ _ _ _ _ h, SetVisitedBit_entryCount _ _ _ _ hm]
          exact hk act hp p w w2 false ha
        | callEnd act w2 hp ha =>
          rw [walkLoop_exit _ _ _ _ _ _ _ _ _ _ _ _ hb] at h
          simp only [Option.some.injEq, Prod.mk.injEq] at h
          rw [← h.1]
          exact hk act hp p w w2 false ha

theorem ClearVisitedBits_entryCount (w : World σ) :
    (ClearVisitedBits w).entryCount = w.entryCount := by
  unfold ClearVisitedBits
  cases w.fVisitedBits <;> rfl

theorem PushVisitedBits_entryCount (w : World σ) (pushOk : Bool) :
    (PushVisitedBits w pushOk).entryCount = w.entryCount := by
  unfold PushVisitedBits
  cases pushOk
  · rfl
  · simp only [if_true]
    rw [ClearVisitedBits_entryCount]

theorem PopVisitedBits_entryCount (w : World σ) :
    (PopVisitedBits w).entryCount = w.entryCount := by
  unfold PopVisitedBits
  cases w.fVisitedBits <;> rfl

/-- The count of active walks after any walk that returns is the count before
it, when the callback itself returns with the count it was called with. -/
theorem walk_keepsCount (fuel : Nat) (start : Option Nat)
    (proc : Option (NTreeNodeActionFunc σ)) (onEntry branch : Bool) (w : World σ)
    (pushOk : Bool) (h0 : 0 ≤ w.entryCount) (h1 : w.entryCount ≤ 32)
    (hk : ∀ a, proc = some a → KeepsCount a)
    (r : Bool) (w1 : World σ) (tr : Trace)
    (h : VisitAllNTreeNodes fuel start proc onEntry branch w pushOk = some (r, w1, tr)) :
    w1.entryCount = w.entryCount := by
  unfold VisitAllNTreeNodes at h
  simp only [] at h
  have e1 : toShort (w.entryCount + 1) = w.entryCount + 1 :=
    toShort_small _ (by omega) (by omega)
  rw [e1] at h
  have e2 : toShort (w.entryCount + 1 - 1) = w.entryCount := by
    have : w.entryCount + 1 - 1 = w.entryCount := by omega
    rw [this]
    exact toShort_small _ (by omega) (by omega)
  have hpos : w.entryCount + 1 > 0 := by omega
  by_cases hc : w.entryCount + 1 > kMaxRecursion
  · simp only [hc, if_true, exitPath, Option.some.injEq, Prod.mk.injEq] at h
    obtain ⟨_, rfl, _⟩ := h
    simp only [hpos, if_true]
    by_cases h2 : w.entryCount + 1 > 1
    · simp only [h2, if_true, PopVisitedBits_entryCount, e2]
    · simp only [h2, if_false, e2]
  · simp only [hc, if_false] at h
    generalize hw2 : (if w.entryCount + 1 > 1
      then PushVisitedBits { w with entryCount := w.entryCount + 1 } pushOk
      else ClearVisitedBits { w with entryCount := w.entryCount + 1 }) = w2 at h
    have hw2c : w2.entryCount = w.entryCount + 1 := by
      rw [← hw2]
      split
      · rw [PushVisitedBits_entryCount]
      · rw [ClearVisitedBits_entryCount]
    cases hl : walkLoop start proc onEntry branch fuel w2 start [] with
    | none => simp [hl] at h
    | some res =>
      obtain ⟨w3, a, e, tr1⟩ := res
      have hw3 := walkLoop_keepsCount start proc onEntry branch hk fuel w2 start [] w3 a e tr1 hl
      rw [hw2c] at hw3
      simp only [hl, exitPath, Option.some.injEq, Prod.mk.injEq] at h
      obtain ⟨_, rfl, _⟩ := h
      rw [hw3]
      simp only [hpos, if_true]
      by_cases h2 : w.entryCount + 1 > 1
      · simp only [h2, if_true, PopVisitedBits_entryCount, hw3, e2]
      · simp only [h2, if_false, hw3, e2]

/-- A call made while the ceiling is reached: no callback call, no change to
the heap or the parameter block, the count of active walks is restored, and the
result is `false`, whatever the fuel. -/
theorem walk_refused (fuel : Nat) (start : Option Nat)
    (proc : Option (NTreeNodeActionFunc σ)) (onEntry branch : Bool) (w : World σ)
    (pushOk : Bool) (h32 : w.entryCount = 32) :
    ∃ w1, VisitAllNTreeNodes fuel start proc onEntry branch w pushOk = some (false, w1, []) ∧
      w1.heap = w.heap ∧ w1.parm = w.parm ∧ w1.fRoot = w.fRoot ∧ w1.entryCount = 32 ∧
      w1.fVisitedBits = w.fVisitedBits.tail := by
  unfold VisitAllNTreeNodes
  simp only [h32]
  have e1 : toShort (32 + 1) = 33 := by decide
  have e3 : (33 : Int) > kMaxRecursion := by decide
  simp only [e1, e3, if_true, exitPath]
  refine ⟨_, rfl, ?_⟩
  have e4 : (33 : Int) > 0 := by decide
  have e5 : (33 : Int) > 1 := by decide
  simp only [e4, e5, if_true]
  unfold PopVisitedBits
  cases hv : w.fVisitedBits with
  | nil => simp [hv, show toShort 32 = 32 by decide]
  | cons vb next => simp [hv, show toShort 32 = 32 by decide]

/-- At top level (no walk active) the walk clears the top buffer and pushes
none, so the outcome of the push has no part in it. -/
theorem walk_top_level (fuel : Nat) (start : Option Nat)
    (proc : Option (NTreeNodeActionFunc σ)) (onEntry branch : Bool) (w : World σ)
    (pushOk : Bool) (h0 : w.entryCount = 0) :
    VisitAllNTreeNodes fuel start proc onEntry branch w pushOk
      = VisitAllNTreeNodes fuel start proc onEntry branch w true := by
  have e1 : toShort (w.entryCount + 1) = 1 := by rw [h0]; decide
  have e2 : ¬ ((1 : Int) > 1) := by decide
  unfold VisitAllNTreeNodes
  simp only [e1, e2, if_false]

/-- C8: a walk called while 32 walks are active returns `false` at once, with
no call of the callback and the heap as it was, whether a push would succeed or
not; a walk called while fewer than 32 are active, at top level or with the
push of its buffer succeeding, runs the callback over the whole tree; and on
every return the count of active walks is what it was at the call, whether the
push has succeeded or not. -/
theorem reentrancy_ceiling (act : NTreeNodeActionFunc σ) (T : Shape) (w wfull : World σ)
    (fuel : Nat) (start : Option Nat) (onEntry branch pushOk : Bool)
    (hfull : wfull.entryCount = 32)
    (hcount0 : 0 ≤ w.entryCount) (hcount : w.entryCount < 32)
    (hpush : w.entryCount = 0 ∨ pushOk = true)
    (hbits : w.fVisitedBits ≠ [])
    (hlay : Shape.layout w.heap none T = true) (hids : T.ids.Nodup)
    (hact : Framed act w.heap (w.entryCount + 1)) (hfuel : T.cost + 1 ≤ fuel) :
    (∃ w1, VisitAllNTreeNodes fuel start (some act) onEntry branch wfull pushOk
        = some (false, w1, []) ∧
      w1.heap = wfull.heap ∧ w1.parm = wfull.parm ∧ w1.entryCount = wfull.entryCount) ∧
    (∃ w1, VisitAllNTreeNodes fuel (some T.ptr) (some act) onEntry false w pushOk
        = some (false, w1, calm (order onEntry T)) ∧ w1.entryCount = w.entryCount) ∧
    (∀ (f : Nat) (st : Option Nat) (proc : Option (NTreeNodeActionFunc σ)) (oe br po : Bool)
      (v v1 : World σ) (r : Bool) (tr : Trace),
      0 ≤ v.entryCount → v.entryCount ≤ 32 → (∀ a, proc = some a → KeepsCount a) →
      VisitAllNTreeNodes f st proc oe br v po = some (r, v1, tr) →
      v1.entryCount = v.entryCount) := by
  refine ⟨?_, ?_, ?_⟩
  · obtain ⟨w1, h1, h2, h3, _, h5, _⟩ :=
      walk_refused fuel start (some act) onEntry branch wfull pushOk hfull
    exact ⟨w1, h1, h2, h3, by rw [h5, hfull]⟩
  · obtain ⟨w1, h1, h2⟩ := walk_run act onEntry false T w none fuel hcount0 hcount hbits hlay
      hids hact (fun _ => rfl) hfuel
    have hsame : VisitAllNTreeNodes fuel (some T.ptr) (some act) onEntry false w pushOk
        = VisitAllNTreeNodes fuel (some T.ptr) (some act) onEntry false w true := by
      rcases hpush with hz | hp
      · exact walk_top_level fuel (some T.ptr) (some act) onEntry false w pushOk hz
      · rw [hp]
    exact ⟨w1, hsame.trans h1, h2.2.1⟩
  · intro f st proc oe br po v v1 r tr g0 g1 gk gh
    exact walk_keepsCount f st proc oe br v po g0 g1 gk r v1 tr gh

theorem reentrancy_ceiling_witness :
    (∃ w1, VisitAllNTreeNodes 20 (some 0) (some noAction) true false ceilingWorld false
        = some (false, w1, []) ∧
      w1.heap = ceilingWorld.heap ∧ w1.parm = ceilingWorld.parm ∧
      w1.entryCount = ceilingWorld.entryCount) ∧
    (∃ w1, VisitAllNTreeNodes 20 (some sampleTree.ptr) (some noAction) true false sampleWorld
        false = some (false, w1, calm (order true sampleTree)) ∧
        w1.entryCount = sampleWorld.entryCount) ∧
    (∀ (f : Nat) (st : Option Nat) (proc : Option (NTreeNodeActionFunc Unit))
      (oe br po : Bool) (v v1 : World Unit) (r : Bool) (tr : Trace),
      0 ≤ v.entryCount → v.entryCount ≤ 32 → (∀ a, proc = some a → KeepsCount a) →
      VisitAllNTreeNodes f st proc oe br v po = some (r, v1, tr) →
      v1.entryCount = v.entryCount) :=
  reentrancy_ceiling noAction sampleTree sampleWorld ceilingWorld 20 (some 0) true false false
    (by decide) (by decide) (by decide) (Or.inl (by decide)) (by simp [sampleWorld])
    (by decide) (by decide) (framed_noAction _ _) (by decide)

/-- C9: called while 32 walks are active (32 buffers on the stack), the walk is
refused and returns with 31 buffers on the stack: the refusal pops a buffer it
never pushed. -/
theorem walk_refused_pops_buffer :
    ceilingWorld.fVisitedBits.length = 32 ∧
      (VisitAllNTreeNodes 20 (some 0) (some noAction) true false ceilingWorld).map
        (fun r => (r.1, r.2.1.fVisitedBits.length, r.2.1.entryCount)) = some (false, 31, 32) := by
  decide

/-- A callback that runs a walk of its own leaves the tree, the count of active
walks and the whole visited-bit stack as they were, when the callback of that
walk does. -/
theorem framed_nested (inner : NTreeNodeActionFunc σ) (T : Shape)
    (h : Nat → Option NTreeNode) (c : Int) (fuelIn : Nat) (startOf : Nat → Option Nat)
    (oeIn brIn : Bool)
    (hc1 : 1 ≤ c) (hc2 : c < 32)
    (hlay : Shape.layout h none T = true) (hids : T.ids.Nodup)
    (hsel : ∀ n, ∃ Y ∈ T.subtrees, startOf n = some Y.ptr ∧ (brIn = false → Y = T) ∧
      Y.cost + 1 ≤ fuelIn)
    (hin : Framed inner h (c + 1)) :
    Framed (nested fuelIn inner startOf oeIn brIn true) h c := by
  intro n w hh hc hst
  obtain ⟨Y, hY, hs, hscope, hf⟩ := hsel n
  have hidy : Y.ids.Nodup := (Shape.subtree_ids_sublist T Y hY).nodup hids
  have hrun : ∃ w1, VisitAllNTreeNodes fuelIn (some Y.ptr) (some inner) oeIn brIn w
      = some (false, w1, calm (order oeIn Y)) ∧ Returned w w1 := by
    cases hb : brIn
    · have hYT := hscope hb
      subst hYT
      exact walk_run inner oeIn false Y w none fuelIn (by omega) (by omega) hst
        (by rw [hh]; exact hlay) hidy (by rw [hh, hc]; exact hin) (fun _ => rfl) hf
    · obtain ⟨par, hly⟩ := Shape.subtree_layout h T none hlay Y hY
      exact walk_run inner oeIn true Y w par fuelIn (by omega) (by omega) hst
        (by rw [hh]; exact hly) hidy (by rw [hh, hc]; exact hin)
        (fun hx => absurd hx (by simp)) hf
  obtain ⟨w1, hv, r1, r2, _, _, r5⟩ := hrun
  refine ⟨w1, ?_, r1.trans hh, r2.trans hc, r5 (by omega)⟩
  unfold nested
  rw [hs, hv]

theorem framed_tower (base : NTreeNodeActionFunc σ) (T : Shape)
    (h : Nat → Option NTreeNode) (fuelIn : Nat) (startOf : Nat → Option Nat)
    (oeIn brIn : Bool)
    (hlay : Shape.layout h none T = true) (hids : T.ids.Nodup)
    (hsel : ∀ n, ∃ Y ∈ T.subtrees, startOf n = some Y.ptr ∧ (brIn = false → Y = T) ∧
      Y.cost + 1 ≤ fuelIn) :
    ∀ (d : Nat) (c : Int), 1 ≤ c → c + d ≤ 32 → Framed base h (c + d) →
      Framed (tower fuelIn base startOf oeIn brIn true d) h c := by
  intro d
  induction d with
  | zero =>
    intro c _ _ hb
    simpa [tower] using hb
  | succ d ih =>
    intro c hc1 hc2 hb
    have hc3 : c + 1 + (d : Int) ≤ 32 := by push_cast at hc2; omega
    have hb1 : Framed base h (c + 1 + (d : Int)) := by
      have : c + 1 + (d : Int) = c + ((d + 1 : Nat) : Int) := by push_cast; omega
      rw [this]; exact hb
    have hin := ih (c + 1) (by omega) hc3 hb1
    unfold tower
    exact framed_nested _ T h c fuelIn startOf oeIn brIn hc1 (by push_cast at hc2; omega)
      hlay hids hsel hin

/-- Nested walks whose pushes all succeed: when the callback of an outer walk
starts walks of its own on the same tree, `d` levels deep with at most 32 walks
active in all, every push of a buffer succeeds, and the innermost callback
leaves the tree alone, then each call of the outer callback returns with the
heap, the count of active walks and the whole visited-bit stack as they were,
and the outer walk runs its callback exactly once on every node of its scope,
in the order of a walk without nested walks. -/
theorem nested_walk_isolation (base : NTreeNodeActionFunc σ) (T X : Shape) (w : World σ)
    (fuel fuelIn : Nat) (startOf : Nat → Option Nat) (oeIn brIn oeOut brOut : Bool) (d : Nat)
    (hcount0 : 0 ≤ w.entryCount) (hdepth : w.entryCount + 1 + d ≤ 32)
    (hbits : w.fVisitedBits ≠ [])
    (hlay : Shape.layout w.heap none T = true) (hids : T.ids.Nodup)
    (hX : X ∈ T.subtrees) (hscope : brOut = false → X = T)
    (hsel : ∀ n, ∃ Y ∈ T.subtrees, startOf n = some Y.ptr ∧ (brIn = false → Y = T) ∧
      Y.cost + 1 ≤ fuelIn)
    (hbase : Framed base w.heap (w.entryCount + 1 + d))
    (hfuel : X.cost + 1 ≤ fuel) :
    Framed (tower fuelIn base startOf oeIn brIn true d) w.heap (w.entryCount + 1) ∧
      X.pre.Nodup ∧ List.Perm (order oeOut X) X.pre ∧
      ∃ w1, VisitAllNTreeNodes fuel (some X.ptr)
          (some (tower fuelIn base startOf oeIn brIn true d)) oeOut brOut w
        = some (false, w1, calm (order oeOut X)) ∧ Returned w w1 := by
  have hfr := framed_tower base T w.heap fuelIn startOf oeIn brIn hlay hids hsel d
    (w.entryCount + 1) (by omega) hdepth hbase
  have hidx : X.ids.Nodup := (Shape.subtree_ids_sublist T X hX).nodup hids
  have hperm : List.Perm (order oeOut X) X.pre := by
    cases oeOut
    · exact Shape.post_perm_pre X
    · exact List.Perm.refl _
  cases hb : brOut
  · have hXT := hscope hb
    subst hXT
    exact ⟨hfr, Shape.pre_nodup w.heap X none hlay hidx, hperm,
      walk_run _ oeOut false X w none fuel hcount0 (by omega) hbits hlay hidx hfr
        (fun _ => rfl) hfuel⟩
  · obtain ⟨par, hlx⟩ := Shape.subtree_layout w.heap T none hlay X hX
    exact ⟨hfr, Shape.pre_nodup w.heap X par hlx hidx, hperm,
      walk_run _ oeOut true X w par fuel hcount0 (by omega) hbits hlx hidx hfr
        (fun hx => absurd hx (by simp)) hfuel⟩

theorem nested_walk_isolation_witness :
    Framed (tower 20 noAction (fun _ => some 1) false true true 2) sampleWorld.heap
        (sampleWorld.entryCount + 1) ∧
      sampleTree.pre.Nodup ∧ List.Perm (order true sampleTree) sampleTree.pre ∧
      ∃ w1, VisitAllNTreeNodes 20 (some sampleTree.ptr)
          (some (tower 20 noAction (fun _ => some 1) false true true 2)) true false sampleWorld
        = some (false, w1, calm (order true sampleTree)) ∧ Returned sampleWorld w1 :=
  nested_walk_isolation noAction sampleTree sampleTree sampleWorld 20 20 (fun _ => some 1)
    false true true false 2 (by decide) (by decide) (by simp [sampleWorld]) (by decide)
    (by decide) (by simp [sampleTree, Shape.subtrees]) (fun _ => rfl)
    (fun _ => ⟨sampleBranch,
      by simp [sampleTree, sampleBranch, Shape.subtrees, Shape.subtreesList],
      rfl, fun h => absurd h (by simp), by decide⟩)
    (framed_noAction _ _) (by decide)

end NTree

/-! ## Walks whose callback inserts children -/

namespace NTree

variable {σ : Type}

theorem childVis_inv (w : World σ) (nd : NTreeNode) (j c : Nat) (v : Bool)
    (h : childVis w nd j = some (c, v)) :
    nd.fChildren[j]? = some c ∧ ∃ cn, w.heap c = some cn ∧ vis w cn.fID = v := by
  unfold childVis at h
  cases h1 : nd.fChildren[j]? with
  | none => simp [h1] at h
  | some c1 =>
    simp only [h1] at h
    cases h2 : w.heap c1 with
    | none => simp [h2] at h
    | some cn =>
      simp only [h2] at h
      cases h3 : Visited w cn.fID with
      | none => simp [h3] at h
      | some v1 =>
        simp only [h3, Option.some.injEq, Prod.mk.injEq] at h
        obtain ⟨rfl, rfl⟩ := h
        refine ⟨rfl, cn, h2, ?_⟩
        unfold Visited at h3
        unfold vis
        cases hv : w.fVisitedBits with
        | nil => simp [hv] at h3
        | cons vb next =>
          simp only [hv, Option.some.injEq] at h3
          exact h3

theorem childVis_of_scan_step (w : World σ) (nd : NTreeNode) (j : Nat) :
    childVis w nd j = none ∨ ∃ c v, childVis w nd j = some (c, v) := by
  cases h : childVis w nd j with
  | none => exact Or.inl rfl
  | some r => exact Or.inr ⟨r.1, r.2, rfl⟩

theorem scanBackward_none_step (w : World σ) (nd : NTreeNode) (k : Nat) (ch : Option Nat)
    (h : childVis w nd k = none) : scanBackward w nd (k + 1) ch = none := by
  unfold childVis at h
  unfold scanBackward NTreeNode.GetChild
  simp only [Int.toNat_ofNat, Int.natCast_nonneg, if_true]
  cases h1 : nd.fChildren[k]? with
  | none => rfl
  | some c1 =>
    simp only [h1] at h ⊢
    cases h2 : w.heap c1 with
    | none => rfl
    | some cn =>
      simp only [h2] at h ⊢
      cases h3 : Visited w cn.fID with
      | none => rfl
      | some v => simp [h3] at h

theorem scanForward_none_step (w : World σ) (nd : NTreeNode) (r k : Nat) (ch : Option Nat)
    (h : childVis w nd k = none) : scanForward w nd (r + 1) (k : Int) ch = none := by
  unfold childVis at h
  unfold scanForward NTreeNode.GetChild
  simp only [Int.toNat_ofNat, Int.natCast_nonneg, if_true]
  cases h1 : nd.fChildren[k]? with
  | none => rfl
  | some c1 =>
    simp only [h1] at h ⊢
    cases h2 : w.heap c1 with
    | none => rfl
    | some cn =>
      simp only [h2] at h ⊢
      cases h3 : Visited w cn.fID with
      | none => rfl
      | some v => simp [h3] at h

/-- Backward scan, read from its result: a found index is below the start and
every child above it was seen not visited; without a find the index is -1. -/
theorem scanBackward_inv (w : World σ) (nd : NTreeNode) :
    ∀ (k : Nat) (ch : Option Nat) (idx : Int) (found : Bool) (ch1 : Option Nat),
      scanBackward w nd k ch = some (idx, found, ch1) →
      (found = false ∧ idx = -1) ∨
      (found = true ∧ ∃ m : Nat, idx = (m : Int) ∧ m < k ∧
        ∀ j, m < j → j < k → ∃ c, childVis w nd j = some (c, false)) := by
  intro k
  induction k with
  | zero =>
    intro ch idx found ch1 h
    simp only [scanBackward, Option.some.injEq, Prod.mk.injEq] at h
    exact Or.inl ⟨h.2.1.symm, h.1.symm⟩
  | succ k ih =>
    intro ch idx found ch1 h
    rcases childVis_of_scan_step w nd k with hn | ⟨c, v, hc⟩
    · rw [scanBackward_none_step w nd k ch hn] at h
      cases h
    · cases v
      · rw [childVis_back_false w nd k c ch hc] at h
        rcases ih (some c) idx found ch1 h with h1 | ⟨h1, m, hm, hlt, hall⟩
        · exact Or.inl h1
        · refine Or.inr ⟨h1, m, hm, by omega, ?_⟩
          intro j hj1 hj2
          by_cases hjk : j = k
          · subst hjk
            exact ⟨c, hc⟩
          · exact hall j hj1 (by omega)
      · rw [childVis_back_true w nd k c ch hc] at h
        simp only [Option.some.injEq, Prod.mk.injEq] at h
        refine Or.inr ⟨h.2.1.symm, k, h.1.symm, by omega, ?_⟩
        intro j hj1 hj2
        omega

/-- Forward scan, read from its result: without a find every child in the
scanned range was seen visited. -/
theorem scanForward_inv (w : World σ) (nd : NTreeNode) :
    ∀ (r i : Nat) (ch : Option Nat) (ci : Int) (ch1 : Option Nat),
      scanForward w nd r (i : Int) ch = some (ci, false, ch1) →
      ∀ j, i ≤ j → j < i + r → ∃ c, childVis w nd j = some (c, true) := by
  intro r
  induction r with
  | zero =>
    intro i ch ci ch1 _ j h1 h2
    omega
  | succ r ih =>
    intro i ch ci ch1 h j h1 h2
    rcases childVis_of_scan_step w nd i with hn | ⟨c, v, hc⟩
    · rw [scanForward_none_step w nd r i ch hn] at h
      cases h
    · cases v
      · rw [childVis_fwd_false w nd r i c ch hc] at h
        simp at h
      · rw [childVis_fwd_true w nd r i c ch hc] at h
        by_cases hji : j = i
        · subst hji
          exact ⟨c, hc⟩
        · exact ih (i + 1) (some c) ci ch1 h j (by omega) (by omega)

theorem all_children_of_slots (w : World σ) (nd : NTreeNode)
    (h : ∀ j, j < nd.fChildren.length → ∃ c, childVis w nd j = some (c, true)) :
    ∀ c ∈ nd.fChildren, ∃ cn, w.heap c = some cn ∧ vis w cn.fID = true := by
  intro c hc
  obtain ⟨j, hj, hjc⟩ := List.getElem_of_mem hc
  obtain ⟨c1, h1⟩ := h j hj
  obtain ⟨h2, cn, h3, h4⟩ := childVis_inv w nd j c1 true h1
  rw [List.getElem?_eq_getElem hj, hjc] at h2
  simp only [Option.some.injEq] at h2
  subst h2
  exact ⟨cn, h3, h4⟩

/-- The part of the loop body after the leaf call, read from its result; when
it marks the cursor, every child of the cursor is marked already. -/
theorem findAndVisit_strong (proc : Option (NTreeNodeActionFunc σ)) (onEntry : Bool)
    (w : World σ) (p : Nat) (nd : NTreeNode) (tr : Trace) (didAction : Bool)
    (ci : Int) (s : Step σ)
    (hci : ci = (nd.fChildren.length : Int) - 1 ∨ ci = -1)
    (h : findAndVisit proc onEntry w p nd tr didAction (nd.fChildren.length : Int) ci = some s) :
    (∃ c, s = Step.next w c tr) ∨
    (∃ nd1 w2, w.heap p = some nd1 ∧ SetVisitedBit w nd1.fID true = some w2 ∧
      s = Step.next w2 (some p) tr ∧
      ∀ c ∈ nd.fChildren, ∃ cn, w.heap c = some cn ∧ vis w cn.fID = true) ∨
    (didAction = false ∧ ∃ act w1, proc = some act ∧
      ((act p w = some (true, w1) ∧ s = Step.exit w1 true false (tr ++ [(p, true)])) ∨
       (act p w = some (false, w1) ∧ ∃ c, s = Step.next w1 c (tr ++ [(p, false)])))) := by
  unfold findAndVisit at h
  cases hb : scanBackward w nd (ci + 1).toNat none with
  | none => simp [hb] at h
  | some rb =>
    obtain ⟨idx, found, child⟩ := rb
    simp only [hb] at h
    generalize hci1 : (if found = true then
        (if idx + 1 ≥ (nd.fChildren.length : Int) then (0 : Int) else idx + 1) else 0)
      = ci1 at h
    cases hf : scanForward w nd ((nd.fChildren.length : Int) - ci1).toNat ci1 child with
    | none => simp [hf] at h
    | some rf =>
      obtain ⟨ci2, found2, child2⟩ := rf
      simp only [hf] at h
      generalize hbc : (found2 && decide (ci2 = 0) && !didAction && onEntry) = bc at h
      cases bc
      · cases found2
        · simp only [Bool.false_eq_true, if_false] at h
          cases hh : w.heap p with
          | none => simp [hh] at h
          | some nd1 =>
            simp only [hh] at h
            cases hs : SetVisitedBit w nd1.fID true with
            | none => simp [hs] at h
            | some w2 =>
              simp only [hs, Option.some.injEq] at h
              refine Or.inr (Or.inl ⟨nd1, w2, rfl, hs, h.symm, ?_⟩)
              apply all_children_of_slots
              have hzero : ci1 = 0 → ∀ j, j < nd.fChildren.length →
                  ∃ c, childVis w nd j = some (c, true) := by
                intro h0 j hj
                rw [h0] at hf
                have e : ((nd.fChildren.length : Int) - 0).toNat = nd.fChildren.length := by
                  omega
                rw [e] at hf
                exact scanForward_inv w nd nd.fChildren.length 0 child ci2 child2 hf j
                  (by omega) (by omega)
              rcases scanBackward_inv w nd _ none idx found child hb with
                ⟨hfo, _⟩ | ⟨hfo, m, hm, hmk, hall⟩
              · subst hfo
                simp only [Bool.false_eq_true, if_false] at hci1
                exact hzero hci1.symm
              · subst hfo
                simp only [if_true] at hci1
                by_cases hwrap : idx + 1 ≥ (nd.fChildren.length : Int)
                · simp only [hwrap, if_true] at hci1
                  exact hzero hci1.symm
                · simp only [hwrap, if_false] at hci1
                  exfalso
                  have hk : (ci + 1).toNat = nd.fChildren.length := by
                    rcases hci with h1 | h1
                    · omega
                    · rw [h1] at hmk
                      simp at hmk
                  rw [hk] at hmk hall
                  have hm1 : m + 1 < nd.fChildren.length := by omega
                  obtain ⟨c1, hc1⟩ := hall (m + 1) (by omega) hm1
                  have e1 : ci1 = ((m + 1 : Nat) : Int) := by omega
                  rw [e1] at hf
                  have e2 : ((nd.fChildren.length : Int) - ((m + 1 : Nat) : Int)).toNat
                      = nd.fChildren.length - (m + 1) := by omega
                  rw [e2] at hf
                  obtain ⟨c2, hc2⟩ := scanForward_inv w nd _ (m + 1) child ci2 child2 hf (m + 1)
                    (by omega) (by omega)
                  rw [hc1] at hc2
                  simp at hc2
        · simp only [Bool.false_eq_true, if_false, if_true, Option.some.injEq] at h
          exact Or.inl ⟨child2, h.symm⟩
      · have hf2 : found2 = true := by
          cases found2
          · simp at hbc
          · rfl
        have hda : didAction = false := by
          cases didAction
          · rfl
          · simp at hbc
        subst hf2
        simp only [if_true] at h
        cases hp : proc with
        | none =>
          simp only [hp, Option.some.injEq] at h
          exact Or.inl ⟨child2, h.symm⟩
        | some act =>
          simp only [hp] at h
          cases hi : invoke act p w tr with
          | none => simp [hi] at h
          | some r =>
            obtain ⟨b, w1, tr1⟩ := r
            obtain ⟨ha, rfl⟩ := invoke_spec act p w w1 tr tr1 b hi
            refine Or.inr (Or.inr ⟨hda, act, w1, rfl, ?_⟩)
            cases b
            · simp only [hi, Option.some.injEq] at h
              exact Or.inr ⟨ha, child2, h.symm⟩
            · simp only [hi, Option.some.injEq] at h
              exact Or.inl ⟨ha, h.symm⟩

/-- One iteration of an entry-timed walk that goes on, read from its result:
no call and no mark; a mark of the cursor, which has children, all marked; a
call on the cursor, not yet marked; or such a call followed by the mark of the
cursor, all of whose children are marked. -/
theorem loopBody_entry_cases (start : Option Nat) (act : NTreeNodeActionFunc σ)
    (branch : Bool) (w w2 : World σ) (p : Nat) (n2 : Option Nat) (tr tr2 : Trace)
    (hlen : ∀ nd, w.heap p = some nd → nd.fChildren.length < 32768)
    (h : loopBody start (some act) true branch w p tr = some (Step.next w2 n2 tr2)) :
    (w2 = w ∧ tr2 = tr) ∨
    (∃ nd, w.heap p = some nd ∧ nd.fChildren ≠ [] ∧ tr2 = tr ∧
      SetVisitedBit w nd.fID true = some w2 ∧
      ∀ c ∈ nd.fChildren, ∃ cn, w.heap c = some cn ∧ vis w cn.fID = true) ∨
    (∃ nd, w.heap p = some nd ∧ vis w nd.fID = false ∧ act p w = some (false, w2) ∧
      tr2 = tr ++ [(p, false)]) ∨
    (∃ nd w1 nd1, w.heap p = some nd ∧ vis w nd.fID = false ∧ act p w = some (false, w1) ∧
      w1.heap p = some nd1 ∧ SetVisitedBit w1 nd1.fID true = some w2 ∧
      (∀ c ∈ nd1.fChildren, ∃ cn, w1.heap c = some cn ∧ vis w1 cn.fID = true) ∧
      tr2 = tr ++ [(p, false)]) := by
  unfold loopBody at h
  cases hh : w.heap p with
  | none => simp [hh] at h
  | some nd =>
    simp only [hh] at h
    cases hv : Visited w nd.fID with
    | none => simp [hv] at h
    | some v =>
      have hvis : vis w nd.fID = v := by
        unfold Visited at hv
        unfold vis
        cases hs : w.fVisitedBits with
        | nil => simp [hs] at hv
        | cons vb next =>
          simp only [hs, Option.some.injEq] at hv
          exact hv
      cases v
      · simp only [hv] at h
        unfold unvisitedBranch NTreeNode.GetNumChildren at h
        simp only [] at h
        have hl := hlen nd hh
        by_cases hleaf : nd.fChildren.length = 0
        · have hnil : nd.fChildren = [] := List.length_eq_zero.mp hleaf
          simp only [hleaf, Nat.cast_zero, decide_True, Bool.and_self, if_true] at h
          cases hi : invoke act p w tr with
          | none => simp [hi] at h
          | some r =>
            obtain ⟨b, w1, tr1⟩ := r
            obtain ⟨ha, rfl⟩ := invoke_spec act p w w1 tr tr1 b hi
            cases b
            · simp only [hi] at h
              cases hh1 : w1.heap p with
              | none => simp [hh1] at h
              | some nd1 =>
                simp only [hh1] at h
                have e : toShort ((0 : Int) - 1) = -1 := by decide
                rw [e] at h
                rcases findAndVisit_strong (some act) true w1 p nd1 _ true (-1) _
                  (Or.inr rfl) h with ⟨c, hs⟩ | ⟨nd2, w3, g1, g2, g3, g4⟩ | ⟨hd, _⟩
                · simp only [Step.next.injEq] at hs
                  obtain ⟨rfl, rfl, rfl⟩ := hs
                  exact Or.inr (Or.inr (Or.inl ⟨nd, rfl, hvis, ha, rfl⟩))
                · simp only [Step.next.injEq] at g3
                  obtain ⟨rfl, rfl, rfl⟩ := g3
                  rw [hh1] at g1
                  simp only [Option.some.injEq] at g1
                  subst g1
                  exact Or.inr (Or.inr (Or.inr ⟨nd, w1, nd1, rfl, hvis, ha, hh1, g2, g4, rfl⟩))
                · exact absurd hd (by simp)
            · simp [hi] at h
        · have hne : ¬ ((nd.fChildren.length : Int) = 0) := by omega
          simp only [hne, decide_False, Bool.false_and, Bool.false_eq_true, if_false] at h
          rw [toShort_pred _ hl] at h
          rcases findAndVisit_strong (some act) true w p nd tr false _ _ (Or.inl rfl) h with
            ⟨c, hs⟩ | ⟨nd2, w3, g1, g2, g3, g4⟩ | ⟨_, a, w1, hp, ⟨_, hs⟩ | ⟨ha, c, hs⟩⟩
          · simp only [Step.next.injEq] at hs
            obtain ⟨rfl, rfl, rfl⟩ := hs
            exact Or.inl ⟨rfl, rfl⟩
          · simp only [Step.next.injEq] at g3
            obtain ⟨rfl, rfl, rfl⟩ := g3
            rw [hh] at g1
            simp only [Option.some.injEq] at g1
            subst g1
            refine Or.inr (Or.inl ⟨nd, rfl, ?_, rfl, g2, g4⟩)
            intro hnil
            exact hleaf (by rw [hnil]; rfl)
          · cases hs
          · simp only [Option.some.injEq] at hp
            subst hp
            simp only [Step.next.injEq] at hs
            obtain ⟨rfl, rfl, rfl⟩ := hs
            exact Or.inr (Or.inr (Or.inl ⟨nd, rfl, hvis, ha, rfl⟩))
      · simp only [hv] at h
        unfold visitedBranch at h
        simp only [] at h
        generalize (decide (some p = start) && branch) = bx at h
        cases bx <;> simp at h
        obtain ⟨rfl, _, rfl⟩ := h
        exact Or.inl ⟨rfl, rfl⟩

theorem vis_congr (w w1 : World σ) (h : w1.fVisitedBits = w.fVisitedBits) (i : Nat) :
    vis w1 i = vis w i := by
  simp [vis, h]

/-- A node that the callback has just created carries an id that is not marked. -/
theorem fresh_unvisited (h0 : Nat → Option NTreeNode) (w w1 : World σ) (tr : Trace) (n q : Nat)
    (nq : NTreeNode)
    (hinv : GrowInv h0 w tr) (hwf1 : WellFormed w1.heap) (hg : GrowsAt w.heap w1.heap n)
    (hq0 : w.heap q = none) (hq1 : w1.heap q = some nq) :
    vis w nq.fID = false := by
  obtain ⟨_, hM, _, _, _⟩ := hinv
  obtain ⟨g1, g2, _⟩ := hg
  cases hv : vis w nq.fID with
  | false => rfl
  | true =>
    exfalso
    obtain ⟨q1, nd1, hq1a, hid⟩ := hM nq.fID (hwf1.1 q nq hq1).1 hv
    have hsame : ∃ nd2, w1.heap q1 = some nd2 ∧ nd2.fID = nq.fID := by
      by_cases hn : q1 = n
      · subst hn
        obtain ⟨cs, hcs, _⟩ := g2 nd1 hq1a
        exact ⟨_, hcs, hid⟩
      · exact ⟨nd1, g1 q1 nd1 hq1a hn, hid⟩
    obtain ⟨nd2, h2, hid2⟩ := hsame
    have := hwf1.2 q1 q nd2 nq h2 hq1 hid2
    subst this
    rw [hq0] at hq1a
    cases hq1a

/-- The invariant after a call of the callback on the cursor, not yet marked. -/
theorem growInv_call (I : (Nat → Option NTreeNode) → Prop) (act : NTreeNodeActionFunc σ)
    (h0 : Nat → Option NTreeNode) (w w1 : World σ) (tr : Trace) (p : Nat) (nd : NTreeNode)
    (hI : ∀ h, I h → WellFormed h) (hact : Growing I act)
    (hinv : GrowInv h0 w tr) (hIw : I w.heap)
    (hp : w.heap p = some nd) (hv : vis w nd.fID = false)
    (ha : act p w = some (false, w1)) :
    GrowInv h0 w1 (tr ++ [(p, false)]) ∧ I w1.heap := by
  obtain ⟨_, hbits, _, hI1, hg⟩ := hact p w w1 false hIw ha
  have hwf1 := hI _ hI1
  have hfresh := fun q nq => fresh_unvisited h0 w w1 tr p q nq hinv hwf1 hg
  obtain ⟨hst, hM, hK, hJ, hL⟩ := hinv
  obtain ⟨g1, g2, g3⟩ := hg
  have hvis : ∀ i, vis w1 i = vis w i := vis_congr w w1 hbits
  -- every node of the new heap is new, the cursor, or an untouched old node
  have hcase : ∀ q nq, w1.heap q = some nq →
      w.heap q = none ∨ (q = p ∧ nq.fID = nd.fID) ∨ (q ≠ p ∧ w.heap q = some nq) := by
    intro q nq hq
    cases hq0 : w.heap q with
    | none => exact Or.inl rfl
    | some nq0 =>
      by_cases hqp : q = p
      · subst hqp
        rw [hp] at hq0
        simp only [Option.some.injEq] at hq0
        subst hq0
        obtain ⟨cs, hcs, _⟩ := g2 nd hp
        rw [hcs] at hq
        simp only [Option.some.injEq] at hq
        subst hq
        exact Or.inr (Or.inl ⟨rfl, rfl⟩)
      · have := g1 q nq0 hq0 hqp
        rw [this] at hq
        simp only [Option.some.injEq] at hq
        subst hq
        exact Or.inr (Or.inr ⟨hqp, rfl⟩)
  have hkeep : ∀ c cn, w.heap c = some cn → ∃ cn1, w1.heap c = some cn1 ∧ cn1.fID = cn.fID := by
    intro c cn hc
    by_cases hcp : c = p
    · subst hcp
      obtain ⟨cs, hcs, _⟩ := g2 cn hc
      exact ⟨_, hcs, rfl⟩
    · exact ⟨cn, g1 c cn hc hcp, rfl⟩
  refine ⟨⟨by rw [hbits]; exact hst, ?_, ?_, ?_, ?_⟩, hI1⟩
  · intro i hi hvi
    rw [hvis] at hvi
    obtain ⟨q, nq, hq, hid⟩ := hM i hi hvi
    obtain ⟨cn1, h1, h2⟩ := hkeep q nq hq
    exact ⟨q, cn1, h1, h2.trans hid⟩
  · intro q nq hq hvq c hc
    rw [hvis] at hvq
    rcases hcase q nq hq with hnew | ⟨_, hid⟩ | ⟨_, hold⟩
    · rw [hfresh q nq hnew hq] at hvq
      cases hvq
    · rw [hid, hv] at hvq
      cases hvq
    · obtain ⟨cn, hcn, hvc⟩ := hK q nq hold hvq c hc
      obtain ⟨cn1, h1, h2⟩ := hkeep c cn hcn
      exact ⟨cn1, h1, by rw [hvis, h2]; exact hvc⟩
  · intro c cn hc hc0 hvc
    rw [hvis] at hvc
    rcases hcase c cn hc with hnew | ⟨hcp, _⟩ | ⟨_, hold⟩
    · rw [hfresh c cn hnew hc] at hvc
      cases hvc
    · subst hcp
      simp
    · have := hJ c cn hold hc0 hvc
      simp only [List.map_append, List.mem_append]
      exact Or.inl this
  · intro c cn hc hc0 hnot
    simp only [List.map_append, List.mem_append, not_or] at hnot
    rcases hcase c cn hc with hnew | ⟨hcp, _⟩ | ⟨_, hold⟩
    · exact g3 c cn hnew hc
    · subst hcp
      exact absurd (by simp) hnot.2
    · exact hL c cn hold hc0 hnot.1

/-- The invariant after the cursor is marked, all its children being marked. -/
theorem growInv_mark (h0 : Nat → Option NTreeNode) (w w2 : World σ) (tr : Trace) (p : Nat)
    (nd : NTreeNode)
    (hwf : WellFormed w.heap) (hinv : GrowInv h0 w tr)
    (hp : w.heap p = some nd)
    (hs : SetVisitedBit w nd.fID true = some w2)
    (hall : ∀ c ∈ nd.fChildren, ∃ cn, w.heap c = some cn ∧ vis w cn.fID = true)
    (hcalled : h0 p = none → p ∈ tr.map Prod.fst) :
    GrowInv h0 w2 tr ∧ w2.heap = w.heap := by
  obtain ⟨hst, hM, hK, hJ, hL⟩ := hinv
  have hid := (hwf.1 p nd hp).1
  obtain ⟨w3, hs3, m1, _, m3, _, m5⟩ := SetVisitedBit_marked w nd.fID hst hid
  rw [hs] at hs3
  simp only [Option.some.injEq] at hs3
  subst hs3
  have hmono : ∀ q nq, w.heap q = some nq → vis w nq.fID = true → vis w2 nq.fID = true := by
    intro q nq hq hv
    rw [m5 _ (hwf.1 q nq hq).1, hv]
    simp
  have hsplit : ∀ q nq, w.heap q = some nq → vis w2 nq.fID = true →
      q = p ∨ vis w nq.fID = true := by
    intro q nq hq hv
    rw [m5 _ (hwf.1 q nq hq).1] at hv
    simp only [List.mem_singleton, Bool.or_eq_true, decide_eq_true_eq] at hv
    rcases hv with h1 | h1
    · exact Or.inl (hwf.2 q p nq nd hq hp h1)
    · exact Or.inr h1
  refine ⟨⟨m3, ?_, ?_, ?_, ?_⟩, m1⟩
  · intro i hi hvi
    rw [m1]
    rw [m5 i hi] at hvi
    simp only [List.mem_singleton, Bool.or_eq_true, decide_eq_true_eq] at hvi
    rcases hvi with h1 | h1
    · exact ⟨p, nd, hp, h1.symm⟩
    · exact hM i hi h1
  · intro q nq hq hvq c hc
    rw [m1] at hq ⊢
    rcases hsplit q nq hq hvq with hqp | hold
    · subst hqp
      rw [hp] at hq
      simp only [Option.some.injEq] at hq
      subst hq
      obtain ⟨cn, h1, h2⟩ := hall c hc
      exact ⟨cn, h1, hmono c cn h1 h2⟩
    · obtain ⟨cn, h1, h2⟩ := hK q nq hq hold c hc
      exact ⟨cn, h1, hmono c cn h1 h2⟩
  · intro c cn hc hc0 hvc
    rw [m1] at hc
    rcases hsplit c cn hc hvc with hcp | hold
    · subst hcp
      exact hcalled hc0
    · exact hJ c cn hc hc0 hold
  · intro c cn hc hc0 hnot
    rw [m1] at hc
    exact hL c cn hc hc0 hnot

/-- The invariant holds in every state the loop reaches. -/
theorem growInv_walkState (I : (Nat → Option NTreeNode) → Prop) (act : NTreeNodeActionFunc σ)
    (h0 : Nat → Option NTreeNode) (start : Option Nat) (branch : Bool)
    (hI : ∀ h, I h → WellFormed h) (hact : Growing I act) :
    ∀ (k : Nat) (w : World σ) (node : Option Nat) (tr : Trace) (wk : World σ)
      (nk : Option Nat) (trk : Trace),
      GrowInv h0 w tr → I w.heap →
      walkState start (some act) true branch k w node tr = some (wk, nk, trk) →
      GrowInv h0 wk trk ∧ I wk.heap := by
  intro k
  induction k with
  | zero =>
    intro w node tr wk nk trk hinv hIw h
    simp only [walkState, Option.some.injEq, Prod.mk.injEq] at h
    obtain ⟨rfl, _, rfl⟩ := h
    exact ⟨hinv, hIw⟩
  | succ k ih =>
    intro w node tr wk nk trk hinv hIw h
    cases node with
    | none => simp [walkState] at h
    | some p =>
      unfold walkState at h
      cases hb : loopBody start (some act) true branch w p tr with
      | none => simp [hb] at h
      | some s =>
        cases s with
        | exit w1 a e tr1 => simp [hb] at h
        | next w1 n1 tr1 =>
          simp only [hb] at h
          have hwf := hI _ hIw
          have hlen : ∀ nd, w.heap p = some nd → nd.fChildren.length < 32768 :=
            fun nd hnd => (hwf.1 p nd hnd).2
          have hnext : GrowInv h0 w1 tr1 ∧ I w1.heap := by
            rcases loopBody_entry_cases start act branch w w1 p n1 tr tr1 hlen hb with
              ⟨hw, htr⟩ | ⟨nd, hp, hne, htr, hs, hall⟩ | ⟨nd, hp, hv, ha, htr⟩ |
              ⟨nd, wm, nd1, hp, hv, ha, hp1, hs, hall, htr⟩
            · rw [hw, htr]
              exact ⟨hinv, hIw⟩
            · rw [htr]
              have hcalled : h0 p = none → p ∈ List.map Prod.fst tr := by
                intro hp0
                by_contra hnot
                exact hne (hinv.2.2.2.2 p nd hp hp0 hnot)
              obtain ⟨g1, g2⟩ := growInv_mark h0 w w1 tr p nd hwf hinv hp hs hall hcalled
              exact ⟨g1, by rw [g2]; exact hIw⟩
            · rw [htr]
              exact growInv_call I act h0 w w1 tr p nd hI hact hinv hIw hp hv ha
            · rw [htr]
              obtain ⟨c1, c2⟩ := growInv_call I act h0 w wm tr p nd hI hact hinv hIw hp hv ha
              obtain ⟨g1, g2⟩ := growInv_mark h0 wm w1 (tr ++ [(p, false)]) p nd1 (hI _ c2) c1
                hp1 hs hall (fun _ => by simp)
              exact ⟨g1, by rw [g2]; exact c2⟩
          exact ih w1 n1 tr1 wk nk trk hnext.1 hnext.2 h

theorem growInv_entry (w : World σ) (hcount0 : 0 ≤ w.entryCount) (hcount : w.entryCount < 32)
    (hbits : w.fVisitedBits ≠ []) (hwf : WellFormed w.heap) :
    GrowInv w.heap (loopEntry w) [] ∧ (loopEntry w).heap = w.heap := by
  obtain ⟨w2, hw2, a1, _, a3, a4, _, _⟩ := enter_world w hcount0 hcount hbits
  have he : loopEntry w = w2 := hw2
  rw [he]
  have hno : ∀ q nq, w2.heap q = some nq → vis w2 nq.fID = true → False := by
    intro q nq hq hv
    rw [a1] at hq
    rw [a4 _ (hwf.1 q nq hq).1] at hv
    cases hv
  refine ⟨⟨a3, ?_, ?_, ?_, ?_⟩, a1⟩
  · intro i hi hv
    rw [a4 i hi] at hv
    cases hv
  · intro q nq hq hv
    exact (hno q nq hq hv).elim
  · intro c cn hc _ hv
    exact (hno c cn hc hv).elim
  · intro c cn hc hc0 _
    rw [a1, hc0] at hc
    cases hc

end NTree

namespace NTree

theorem sampleID_lt (q : Nat) (h : q ≤ 5) : sampleID q < 65536 := by
  interval_cases q <;> decide

theorem sampleID_inj (q1 q2 : Nat) (h1 : q1 ≤ 5) (h2 : q2 ≤ 5)
    (h : sampleID q1 = sampleID q2) : q1 = q2 := by
  interval_cases q1 <;> interval_cases q2 <;> first | rfl | (exfalso; revert h; decide)

theorem sampleInv_wellFormed (h : Nat → Option NTreeNode) (hs : sampleInv h) : WellFormed h := by
  refine ⟨?_, ?_⟩
  · intro q nd hq
    obtain ⟨a, b, c⟩ := hs q nd hq
    exact ⟨by rw [b]; exact sampleID_lt q a, by omega⟩
  · intro q1 q2 n1 n2 e1 e2 hid
    obtain ⟨a1, b1, _⟩ := hs q1 n1 e1
    obtain ⟨a2, b2, _⟩ := hs q2 n2 e2
    exact sampleID_inj q1 q2 a1 a2 (by rw [← b1, ← b2, hid])

theorem sampleInv_sampleHeap : sampleInv sampleWorld.heap := by
  intro q nd hq
  have hq5 : q ≤ 5 := by
    by_contra hgt
    have : sampleHeap q = none := by
      unfold sampleHeap
      split <;> first | omega | rfl
    simp [sampleWorld, this] at hq
  interval_cases q <;> simp [sampleWorld, sampleHeap, mkNode] at hq <;> subst hq <;>
    simp [sampleID]

theorem growsAt_refl (h : Nat → Option NTreeNode) (n : Nat) : GrowsAt h h n := by
  refine ⟨fun q nd hq _ => hq, ?_, ?_⟩
  · intro nd hn
    exact ⟨nd.fChildren, hn, fun c hc => hc⟩
  · intro q nq h1 h2
    rw [h1] at h2
    cases h2

theorem growing_growAction : Growing sampleInv growAction := by
  intro n w w1 r hI ha
  unfold growAction at ha
  have hstay : some (false, w) = some (r, w1) →
      r = false ∧ w1.fVisitedBits = w.fVisitedBits ∧ w1.entryCount = w.entryCount ∧
        sampleInv w1.heap ∧ GrowsAt w.heap w1.heap n := by
    intro he
    simp only [Option.some.injEq, Prod.mk.injEq] at he
    obtain ⟨rfl, rfl⟩ := he
    exact ⟨rfl, rfl, rfl, hI, growsAt_refl _ _⟩
  cases h2 : w.heap 2 with
  | none =>
    simp only [h2] at ha
    exact hstay ha
  | some nd =>
    cases h5 : w.heap 5 with
    | some n5 =>
      simp only [h2, h5] at ha
      exact hstay ha
    | none =>
      simp only [h2, h5] at ha
      by_cases hc : n = 2 ∧ nd.fChildren = []
      · simp only [hc, and_self, if_true, Option.some.injEq, Prod.mk.injEq] at ha
        obtain ⟨rfl, rfl⟩ := ha
        obtain ⟨hn, hleaf⟩ := hc
        subst hn
        obtain ⟨_, hid2, _⟩ := hI 2 nd h2
        refine ⟨rfl, rfl, rfl, ?_, ?_, ?_, ?_⟩
        · intro q nq hq
          simp only [growHeap] at hq
          by_cases hq2 : q = 2
          · subst hq2
            simp only [if_true, Option.some.injEq] at hq
            subst hq
            exact ⟨by omega, hid2, by simp⟩
          · by_cases hq5 : q = 5
            · subst hq5
              simp only [hq2, if_false, if_true, Option.some.injEq] at hq
              subst hq
              exact ⟨by omega, rfl, by simp [mkNode]⟩
            · simp only [hq2, hq5, if_false] at hq
              exact hI q nq hq
        · intro q nq hq hne
          simp only [growHeap, hne, if_false]
          by_cases hq5 : q = 5
          · subst hq5
            rw [h5] at hq
            cases hq
          · simp only [hq5, if_false]
            exact hq
        · intro nd1 hn1
          rw [h2] at hn1
          simp only [Option.some.injEq] at hn1
          subst hn1
          refine ⟨[5], by simp [growHeap], ?_⟩
          intro c hc
          rw [hleaf] at hc
          cases hc
        · intro q nq hq0 hq1
          simp only [growHeap] at hq1
          by_cases hq2 : q = 2
          · subst hq2
            rw [h2] at hq0
            cases hq0
          · by_cases hq5 : q = 5
            · subst hq5
              simp only [hq2, if_false, if_true, Option.some.injEq] at hq1
              subst hq1
              rfl
            · simp only [hq2, hq5, if_false] at hq1
              rw [hq0] at hq1
              cases hq1
      · simp only [hc, if_false] at ha
        exact hstay ha

/-- The whole-tree walk on the sample tree with `growAction`: node 5, inserted
under node 2 by the call on node 2, gets its call right after node 2 and before
node 4, the next child of the root. -/
theorem growAction_walk :
    observe (VisitAllNTreeNodes 30 (some 0) (some growAction) true false sampleWorld)
      = some (false, calm [0, 1, 3, 2, 5, 4]) := by
  decide

/-- The state the premise of `InsertedCalledBeforeAscent` speaks of is reached
in that walk: pointer 5 is free at the call, and after 11 iterations the cursor
is on node 2, which is marked visited and has the inserted child 5, and the
record holds the call on 5. -/
theorem growAction_reaches_ascent :
    sampleWorld.heap 5 = none ∧
      glimpse (walkState (some 0) (some growAction) true false 11 (loopEntry sampleWorld)
          (some 0) [])
        = some ((some 2, calm [0, 1, 3, 2, 5]), ([5], true)) := by
  decide

end NTree

/-! ## The loops over the child array -/

namespace ChildArray

theorem getSlot_nat (a : List (Option Nat)) (i : Nat) : getSlot a (i : Int) = a[i]? := by
  simp [getSlot]

theorem setSlot_nat (a : List (Option Nat)) (i : Nat) (v : Option Nat) (h : i < a.length) :
    setSlot a (i : Int) v = some (a.set i v) := by
  simp [setSlot, h]

theorem getSlot_neg (a : List (Option Nat)) (i : Int) (h : i < 0) : getSlot a i = none := by
  unfold getSlot
  rw [if_neg (by omega)]

theorem allSome_map (l : List Nat) : allSome (l.map some) = some l := by
  induction l with
  | nil => rfl
  | cons p rest ih => simp [allSome, ih]

/-- The copy loop copies the slots `i` to `i + k - 1`. -/
theorem copySlots_spec (src : List (Option Nat)) :
    ∀ (k i : Nat) (dst : List (Option Nat)), i + k ≤ src.length → i + k ≤ dst.length →
      ∃ r, copySlots src k (i : Int) dst = some r ∧ r.length = dst.length ∧
        ∀ j, r[j]? = if i ≤ j ∧ j < i + k then src[j]? else dst[j]? := by
  intro k
  induction k with
  | zero =>
    intro i dst _ _
    refine ⟨dst, rfl, rfl, ?_⟩
    intro j
    rw [if_neg (by omega)]
  | succ k ih =>
    intro i dst h1 h2
    have hi : i < src.length := by omega
    obtain ⟨r, hr, hlen, hget⟩ := ih (i + 1) (dst.set i src[i]) (by omega)
      (by rw [List.length_set]; omega)
    refine ⟨r, ?_, ?_, ?_⟩
    · rw [copySlots, getSlot_nat, List.getElem?_eq_getElem hi]
      simp only []
      rw [setSlot_nat _ _ _ (by omega)]
      simp only []
      exact_mod_cast hr
    · rw [hlen, List.length_set]
    · intro j
      rw [hget j, List.getElem?_set]
      by_cases c1 : i = j
      · subst c1
        rw [if_neg (by omega), if_pos rfl, if_pos (by omega), if_pos (by omega)]
        exact (List.getElem?_eq_getElem hi).symm
      · by_cases c2 : i + 1 ≤ j ∧ j < i + 1 + k
        · rw [if_pos c2, if_pos (by omega)]
        · rw [if_neg c2, if_neg c1, if_neg (by omega)]

/-- The loop of `InsertChild` moves the slots `i - k` to `i - 1` up by one. -/
theorem shiftUp_spec :
    ∀ (k i : Nat) (a : List (Option Nat)), k ≤ i → i < a.length →
      ∃ r, shiftUp k (i : Int) a = some r ∧ r.length = a.length ∧
        ∀ j, r[j]? = if i - k < j ∧ j ≤ i then a[j - 1]? else a[j]? := by
  intro k
  induction k with
  | zero =>
    intro i a _ _
    refine ⟨a, rfl, rfl, ?_⟩
    intro j
    rw [if_neg (by omega)]
  | succ k ih =>
    intro i a h1 h2
    have hi : i - 1 < a.length := by omega
    have hcast : ((i : Int) - 1) = ((i - 1 : Nat) : Int) := by omega
    obtain ⟨r, hr, hlen, hget⟩ := ih (i - 1) (a.set i a[i - 1]) (by omega)
      (by rw [List.length_set]; omega)
    refine ⟨r, ?_, ?_, ?_⟩
    · rw [shiftUp, hcast, getSlot_nat, List.getElem?_eq_getElem hi]
      simp only []
      rw [setSlot_nat _ _ _ h2]
      simp only []
      exact hr
    · rw [hlen, List.length_set]
    · intro j
      rw [hget j]
      by_cases c1 : i = j
      · subst c1
        rw [if_neg (by omega), if_pos (by omega), List.getElem?_set, if_pos rfl, if_pos h2]
        exact (List.getElem?_eq_getElem hi).symm
      · by_cases c2 : i - 1 - k < j ∧ j ≤ i - 1
        · rw [if_pos c2, if_pos (by omega), List.getElem?_set, if_neg (by omega)]
        · rw [if_neg c2, if_neg (by omega), List.getElem?_set, if_neg c1]

/-- The loop of `RemoveChild` moves the slots `i + 1` to `i + k` down by
one. -/
theorem shiftDown_spec :
    ∀ (k i : Nat) (a : List (Option Nat)), i + k < a.length →
      ∃ r, shiftDown k (i : Int) a = some r ∧ r.length = a.length ∧
        ∀ j, r[j]? = if i ≤ j ∧ j < i + k then a[j + 1]? else a[j]? := by
  intro k
  induction k with
  | zero =>
    intro i a _
    refine ⟨a, rfl, rfl, ?_⟩
    intro j
    rw [if_neg (by omega)]
  | succ k ih =>
    intro i a h1
    have hi : i + 1 < a.length := by omega
    obtain ⟨r, hr, hlen, hget⟩ := ih (i + 1) (a.set i a[i + 1])
      (by rw [List.length_set]; omega)
    refine ⟨r, ?_, ?_, ?_⟩
    · have hc : ((i : Int) + 1) = ((i + 1 : Nat) : Int) := by omega
      rw [shiftDown, hc, getSlot_nat, List.getElem?_eq_getElem hi]
      simp only []
      rw [setSlot_nat _ _ _ (by omega)]
      simp only []
      exact hr
    · rw [hlen, List.length_set]
    · intro j
      rw [hget j]
      by_cases c1 : i = j
      · subst c1
        rw [if_neg (by omega), if_pos (by omega), List.getElem?_set, if_pos rfl,
          if_pos (by omega)]
        exact (List.getElem?_eq_getElem hi).symm
      · by_cases c2 : i + 1 ≤ j ∧ j < i + 1 + k
        · rw [if_pos c2, if_pos (by omega), List.getElem?_set, if_neg (by omega)]
        · rw [if_neg c2, if_neg (by omega), List.getElem?_set, if_neg c1]

end ChildArray

/-! ## The child array after one operation -/

namespace ChildArray

/-- The search loop stops at the first slot that holds the node looked for. -/
theorem findSlot_spec (c : Nat) :
    ∀ (l pre : List Nat),
      findSlot ((pre ++ l).map some) c l.length (pre.length : Int)
        = some ((pre.length + l.indexOf c : Nat) : Int) := by
  intro l
  induction l with
  | nil => intro pre; simp [findSlot]
  | cons x rest ih =>
    intro pre
    have hx : ((pre ++ x :: rest).map some)[pre.length]? = some (some x) := by
      rw [List.getElem?_map, List.getElem?_append_right (le_refl _)]
      simp
    rw [List.length_cons, findSlot, getSlot_nat, hx]
    simp only []
    by_cases hxc : x = c
    · subst hxc
      simp [List.indexOf_cons]
    · have h1 : (some x : Option Nat) ≠ some c := by
        intro e
        exact hxc (Option.some.inj e)
      rw [if_pos h1]
      have h2 := ih (pre ++ [x])
      have h3 : pre ++ [x] ++ rest = pre ++ x :: rest := by simp
      rw [h3] at h2
      have h4 : (((pre ++ [x]).length : Nat) : Int) = (pre.length : Int) + 1 := by simp
      rw [h4] at h2
      rw [h2]
      have h5 : (x == c) = false := by simpa using hxc
      simp [List.indexOf_cons, h5]
      omega

/-- `FindChildIndexByAddress` on a well-formed array: the first index of the
node, or -1. -/
theorem findIndex_spec (cs : List Nat) (c : Nat) :
    findIndex { fNumChildren := (cs.length : Int), fChildren := cs.map some } c
      = some (if c ∈ cs then (cs.indexOf c : Int) else -1) := by
  unfold findIndex
  by_cases h0 : cs.length = 0
  · have : cs = [] := List.length_eq_zero.mp h0
    subst this
    simp
  · have hpos : ((cs.length : Int) > 0) := by omega
    simp only []
    rw [if_pos hpos]
    have h1 := findSlot_spec c cs []
    simp only [List.nil_append, List.length_nil, Nat.zero_add] at h1
    have h2 : ((cs.length : Int)).toNat = cs.length := by simp
    rw [h2]
    have h3 : (((0 : Nat) : Int)) = 0 := rfl
    rw [h3] at h1
    rw [h1]
    simp only []
    by_cases hm : c ∈ cs
    · have := List.indexOf_lt_length.mpr hm
      rw [if_pos hm, if_pos (by omega)]
    · have : cs.indexOf c = cs.length := List.indexOf_eq_length.mpr hm
      rw [if_neg hm, if_neg (by omega)]

/-- `MoreChildren(1)` with a block from `calloc`: one more slot, null, after
the old ones. -/
theorem MoreChildren_ok (a : List (Option Nat)) (h : a.length + 1 < 32768) :
    MoreChildren { fNumChildren := (a.length : Int), fChildren := a } 1 true
      = some (0, { fNumChildren := (a.length : Int) + 1, fChildren := a ++ [none] }) := by
  unfold MoreChildren
  simp only [if_true]
  have hs : toShort ((a.length : Int) + 1) = (a.length : Int) + 1 :=
    NTree.toShort_small _ (by omega) (by omega)
  have hn : ((a.length : Int) + 1).toNat = a.length + 1 := by omega
  rw [hs, hn]
  by_cases h0 : a.length = 0
  · have : a = [] := List.length_eq_zero.mp h0
    subst this
    simp
  · have hpos : ((a.length : Int) > 0) := by omega
    rw [if_pos hpos]
    have ht : ((a.length : Int)).toNat = a.length := by simp
    rw [ht]
    obtain ⟨r, hr, hlen, hget⟩ := copySlots_spec a a.length 0
      (List.replicate (a.length + 1) none) (by omega) (by simp)
    have h3 : (((0 : Nat) : Int)) = 0 := rfl
    rw [h3] at hr
    rw [hr]
    simp only []
    have : r = a ++ [none] := by
      apply List.ext_getElem?
      intro j
      rw [hget j, List.getElem?_replicate, List.getElem?_append]
      by_cases c1 : j < a.length
      · rw [if_pos (by omega), if_pos c1]
      · rw [if_neg (by omega), if_neg c1]
        by_cases c2 : j < a.length + 1
        · rw [if_pos c2]
          have : j - a.length = 0 := by omega
          rw [this]
          rfl
        · rw [if_neg c2]
          symm
          apply List.getElem?_eq_none
          simp
          omega
    rw [this]

/-- `MoreChildren` without a block from `calloc`: error -1, nothing
changed. -/
theorem MoreChildren_fail (ca : ChildArray) (add : Int) :
    MoreChildren ca add false = some (-1, ca) := by
  simp [MoreChildren]

/-- `LessChildren(1)` with a block from `malloc` (not needed when one slot is
left): the last slot is cut off. -/
theorem LessChildren_ok (a : List (Option Nat)) (h0 : 0 < a.length) (h : a.length < 32769) :
    LessChildren { fNumChildren := (a.length : Int), fChildren := a } 1 true
      = some (0, { fNumChildren := (a.length : Int) - 1,
                   fChildren := a.take (a.length - 1) }) := by
  unfold LessChildren
  have hpos : ((a.length : Int) > 0) := by omega
  simp only []
  rw [if_pos hpos]
  have hs : toShort ((a.length : Int) - 1) = (a.length : Int) - 1 :=
    NTree.toShort_small _ (by omega) (by omega)
  rw [hs]
  by_cases h1 : a.length = 1
  · rw [if_pos (by omega)]
    simp [h1]
  · rw [if_neg (by omega)]
    simp only [if_true]
    have hn : ((a.length : Int) - 1).toNat = a.length - 1 := by omega
    rw [hn]
    obtain ⟨r, hr, hlen, hget⟩ := copySlots_spec a (a.length - 1) 0
      (List.replicate (a.length - 1) none) (by omega) (by simp)
    have h3 : (((0 : Nat) : Int)) = 0 := rfl
    rw [h3] at hr
    rw [hr]
    simp only []
    have : r = a.take (a.length - 1) := by
      apply List.ext_getElem?
      intro j
      rw [hget j, List.getElem?_replicate, List.getElem?_take]
      by_cases c1 : j < a.length - 1
      · rw [if_pos (by omega), if_pos c1]
      · rw [if_neg (by omega), if_neg c1, if_neg c1]
    rw [this]

end ChildArray

namespace NTreeNode

theorem insertedAt_getElem? (cs : List Nat) (m c j : Nat) (hm : m ≤ cs.length) :
    (insertedAt cs m c)[j]? =
      if j < m then cs[j]? else if j = m then some c else cs[j - 1]? := by
  unfold insertedAt
  rw [List.getElem?_append]
  have hl : (List.take m cs).length = m := by simp; omega
  rw [hl]
  by_cases c1 : j < m
  · rw [if_pos c1, if_pos c1, List.getElem?_take, if_pos c1]
  · rw [if_neg c1, if_neg c1]
    by_cases c2 : j = m
    · subst c2
      simp
    · rw [if_neg c2]
      have : j - m = (j - m - 1) + 1 := by omega
      rw [this, List.getElem?_cons_succ, List.getElem?_drop]
      congr 1
      omega

end NTreeNode

namespace ChildArray

open NTreeNode in
/-- The three ways of storing the new child give the child list with the
child put in front of position `min i n`. -/
theorem placeChild_ok (cs : List Nat) (c : Nat) (i : Int) (hi : 0 ≤ i)
    (h : cs.length + 1 < 32768) :
    placeChild { fNumChildren := (cs.length : Int) + 1, fChildren := cs.map some ++ [none] }
        c i
      = some { fNumChildren := (cs.length : Int) + 1,
               fChildren := (insertedAt cs (min i.toNat cs.length) c).map some } := by
  unfold placeChild
  simp only []
  by_cases h0 : cs.length = 0
  · have : cs = [] := List.length_eq_zero.mp h0
    subst this
    simp [setSlot, insertedAt]
  · rw [if_neg (by omega)]
    by_cases h1 : i ≥ (cs.length : Int) + 1
    · rw [if_pos h1]
      have hs : toShort ((cs.length : Int) + 1 - 1) = ((cs.length : Nat) : Int) := by
        rw [NTree.toShort_small _ (by omega) (by omega)]
        omega
      rw [hs, setSlot_nat _ _ _ (by simp)]
      have hm : min i.toNat cs.length = cs.length := by omega
      rw [hm]
      simp [insertedAt]
    · rw [if_neg h1]
      obtain ⟨m, rfl⟩ : ∃ m : Nat, i = (m : Int) := ⟨i.toNat, by omega⟩
      have hm : m ≤ cs.length := by omega
      have e1 : ((cs.length : Int) + 1 - 1 - (m : Int)).toNat = cs.length - m := by omega
      have e2 : ((cs.length : Int) + 1 - 1) = ((cs.length : Nat) : Int) := by omega
      rw [e1, e2]
      obtain ⟨r, hr, hlen, hget⟩ := shiftUp_spec (cs.length - m) cs.length
        (cs.map some ++ [none]) (by omega) (by simp)
      have hk : cs.length - (cs.length - m) = m := by omega
      have hal : (cs.map some ++ [none]).length = cs.length + 1 := by simp
      rw [hk] at hget
      rw [hal] at hlen
      rw [hr]
      simp only []
      rw [setSlot_nat _ _ _ (by omega)]
      have ht : ((m : Int)).toNat = m := by simp
      have hmin : min m cs.length = m := by omega
      rw [ht, hmin]
      simp only [Option.map_some']
      congr 2
      apply List.ext_getElem?
      intro j
      by_cases c1 : j = m
      · subst c1
        have a1 : (insertedAt cs j c)[j]? = some c := by
          rw [insertedAt_getElem? cs j c j hm, if_neg (by omega), if_pos rfl]
        have a2 : (r.set j (some c))[j]? = some (some c) := by
          rw [List.getElem?_set, if_pos rfl, if_pos (by omega)]
        rw [List.getElem?_map, a1, a2]
        rfl
      · have a0 : (r.set m (some c))[j]? = r[j]? := by
          rw [List.getElem?_set, if_neg (by omega)]
        rw [List.getElem?_map, a0, hget j]
        by_cases c2 : j < m
        · have a1 : (insertedAt cs m c)[j]? = cs[j]? := by
            rw [insertedAt_getElem? cs m c j hm, if_pos c2]
          rw [a1, if_neg (by omega),
            List.getElem?_append_left (by rw [List.length_map]; omega), List.getElem?_map]
        · have a1 : (insertedAt cs m c)[j]? = cs[j - 1]? := by
            rw [insertedAt_getElem? cs m c j hm, if_neg c2, if_neg c1]
          rw [a1]
          by_cases c3 : j ≤ cs.length
          · rw [if_pos (by omega),
              List.getElem?_append_left (by rw [List.length_map]; omega), List.getElem?_map]
          · rw [if_neg (by omega), List.getElem?_eq_none (by rw [hal]; omega),
              List.getElem?_eq_none (by omega)]
            rfl

/-- `RemoveChild(short)` on the array with a valid index and a block from
`malloc`: slot `i` is erased. -/
theorem dropChild_ok (cs : List Nat) (i : Nat) (hi : i < cs.length) (h : cs.length < 32768) :
    dropChild { fNumChildren := (cs.length : Int), fChildren := cs.map some } (i : Int) true
      = some (0, { fNumChildren := (cs.length : Int) - 1,
                   fChildren := (cs.eraseIdx i).map some }) := by
  unfold dropChild
  simp only []
  rw [if_pos (by omega)]
  have hlen : (cs.map some).length = cs.length := by simp
  by_cases h1 : (cs.length : Int) = 1 ∨ (i : Int) = (cs.length : Int) - 1
  · rw [if_pos h1]
    have hL := LessChildren_ok (cs.map some) (by omega) (by omega)
    rw [hlen] at hL
    rw [hL]
    simp only []
    congr 3
    apply List.ext_getElem?
    intro j
    rw [List.getElem?_take, List.getElem?_map, List.getElem?_map, List.getElem?_eraseIdx]
    by_cases c1 : j < cs.length - 1
    · rw [if_pos c1, if_pos (by omega)]
    · rw [if_neg c1]
      by_cases c2 : j < i
      · omega
      · rw [if_neg c2, List.getElem?_eq_none (by omega)]
        rfl
  · rw [if_neg h1]
    have e1 : ((cs.length : Int) - 1 - (i : Int)).toNat = cs.length - 1 - i := by omega
    rw [e1]
    obtain ⟨r, hr, hrl, hget⟩ := shiftDown_spec (cs.length - 1 - i) i (cs.map some)
      (by simp; omega)
    rw [hr]
    simp only []
    have hrl2 : r.length = cs.length := by rw [hrl, hlen]
    have hL := LessChildren_ok r (by omega) (by omega)
    rw [hrl2] at hL
    rw [hL]
    simp only []
    congr 3
    apply List.ext_getElem?
    intro j
    rw [List.getElem?_take, List.getElem?_map, List.getElem?_eraseIdx, hget j]
    by_cases c1 : j < cs.length - 1
    · rw [if_pos c1]
      by_cases c2 : j < i
      · rw [if_pos c2, if_neg (by omega), List.getElem?_map]
      · rw [if_neg c2, if_pos (by omega), List.getElem?_map]
    · rw [if_neg c1]
      by_cases c2 : j < i
      · omega
      · rw [if_neg c2, List.getElem?_eq_none (by omega)]
        rfl

/-- `RemoveChild(short)` with an index outside the array does nothing. -/
theorem dropChild_out (ca : ChildArray) (i : Int) (b : Bool)
    (hi : i < 0 ∨ ca.fNumChildren ≤ i) : dropChild ca i b = some (0, ca) := by
  unfold dropChild
  rw [if_neg (by omega)]

end ChildArray

/-! ## One operation on a node of the heap -/

namespace NTreeNode

theorem setNode_self (h : Nat → Option NTreeNode) (p : Nat) (nd : NTreeNode)
    (hp : h p = some nd) : setNode h p nd = h := by
  funext q
  unfold setNode
  by_cases c : q = p
  · subst c
    rw [if_pos rfl, hp]
  · rw [if_neg c]

theorem setNode_same (h : Nat → Option NTreeNode) (p : Nat) (nd : NTreeNode) :
    setNode h p nd p = some nd := by
  simp [setNode]

theorem setNode_other (h : Nat → Option NTreeNode) (p q : Nat) (nd : NTreeNode)
    (hq : q ≠ p) : setNode h p nd q = h q := by
  simp [setNode, hq]

theorem toChildren_map (cs : List Nat) (n : Int) (hn : n = (cs.length : Int)) :
    ChildArray.toChildren { fNumChildren := n, fChildren := cs.map some } = some cs := by
  unfold ChildArray.toChildren
  simp only [List.length_map]
  rw [if_pos hn, ChildArray.allSome_map]

theorem insertedAt_length (cs : List Nat) (m c : Nat) (hm : m ≤ cs.length) :
    (insertedAt cs m c).length = cs.length + 1 := by
  unfold insertedAt
  simp
  omega

theorem insertedAt_last (cs : List Nat) (c : Nat) : insertedAt cs cs.length c = cs ++ [c] := by
  simp [insertedAt]

theorem insertedAt_eraseIdx (cs : List Nat) (m c : Nat) (hm : m ≤ cs.length) :
    (insertedAt cs m c).eraseIdx m = cs := by
  apply List.ext_getElem?
  intro j
  rw [List.getElem?_eraseIdx]
  by_cases c1 : j < m
  · rw [if_pos c1, insertedAt_getElem? cs m c j hm, if_pos c1]
  · rw [if_neg c1, insertedAt_getElem? cs m c (j + 1) hm, if_neg (by omega), if_neg (by omega)]
    rfl

theorem mem_insertedAt (cs : List Nat) (m c : Nat) : c ∈ insertedAt cs m c := by
  simp [insertedAt]

/-- `InsertChild(child, i)` with `i ≥ 0` and a block from `calloc`: the heap
afterwards. -/
theorem InsertChild_ok (h : Nat → Option NTreeNode) (this c : Nat) (i : Int)
    (nd cn : NTreeNode) (hthis : h this = some nd) (hi : 0 ≤ i)
    (hn : nd.fChildren.length + 1 < 32768)
    (hc : setNode h this
        { nd with fChildren := insertedAt nd.fChildren (min i.toNat nd.fChildren.length) c } c
      = some cn) :
    InsertChild h this c i true
      = some (0, setNode (setNode h this
          { nd with fChildren := insertedAt nd.fChildren (min i.toNat nd.fChildren.length) c })
          c { cn with fParent := some this }) := by
  unfold InsertChild
  rw [hthis]
  simp only []
  have hM := ChildArray.MoreChildren_ok (nd.fChildren.map some)
    (by rw [List.length_map]; exact hn)
  rw [List.length_map] at hM
  unfold childArray
  rw [hM]
  simp only [ne_eq, not_true_eq_false, if_false]
  rw [ChildArray.placeChild_ok nd.fChildren c i hi hn]
  simp only []
  rw [toChildren_map _ _ (by rw [insertedAt_length _ _ _ (by omega)]; simp)]
  simp only []
  rw [hc]

/-- `InsertChild` without a block from `calloc`: error -1 and the heap as it
was. -/
theorem InsertChild_fail (h : Nat → Option NTreeNode) (this c : Nat) (i : Int)
    (nd : NTreeNode) (hthis : h this = some nd) :
    InsertChild h this c i false = some (-1, h) := by
  unfold InsertChild
  rw [hthis]
  simp only []
  rw [ChildArray.MoreChildren_fail]
  simp

/-- `RemoveChild(i)` with a valid index and a block from `malloc`. -/
theorem RemoveChild_ok (h : Nat → Option NTreeNode) (this i : Nat) (nd : NTreeNode)
    (hthis : h this = some nd) (hi : i < nd.fChildren.length)
    (hn : nd.fChildren.length < 32768) :
    RemoveChild h this (i : Int) true
      = some (0, setNode h this { nd with fChildren := nd.fChildren.eraseIdx i }) := by
  unfold RemoveChild
  rw [hthis]
  simp only []
  unfold childArray
  rw [ChildArray.dropChild_ok nd.fChildren i hi hn]
  simp only []
  rw [toChildren_map _ _ (by rw [List.length_eraseIdx, if_pos hi]; omega)]

/-- `RemoveChild(i)` with an index outside the array. -/
theorem RemoveChild_out (h : Nat → Option NTreeNode) (this : Nat) (i : Int) (b : Bool)
    (nd : NTreeNode) (hthis : h this = some nd)
    (hi : i < 0 ∨ (nd.fChildren.length : Int) ≤ i) :
    RemoveChild h this i b = some (0, h) := by
  unfold RemoveChild
  rw [hthis]
  simp only []
  rw [ChildArray.dropChild_out _ _ _ hi]
  simp only []
  unfold childArray
  rw [toChildren_map _ _ rfl]
  simp only []
  rw [setNode_self h this _ hthis]

/-- `FindChildIndexByAddress`: the first index of the node, or -1. -/
theorem FindChildIndexByAddress_spec (h : Nat → Option NTreeNode) (this c : Nat)
    (nd : NTreeNode) (hthis : h this = some nd) :
    FindChildIndexByAddress h this c
      = some (if c ∈ nd.fChildren then (nd.fChildren.indexOf c : Int) else -1) := by
  unfold FindChildIndexByAddress
  rw [hthis]
  exact ChildArray.findIndex_spec nd.fChildren c

/-- `RemoveChild(child)` with a block from `malloc`: the first slot that
holds the node is erased, if there is one. -/
theorem RemoveChildByAddress_ok (h : Nat → Option NTreeNode) (this c : Nat)
    (nd : NTreeNode) (hthis : h this = some nd) (hn : nd.fChildren.length < 32768) :
    RemoveChildByAddress h this c true
      = some (0, setNode h this { nd with fChildren := nd.fChildren.erase c }) := by
  unfold RemoveChildByAddress
  rw [FindChildIndexByAddress_spec h this c nd hthis]
  simp only []
  by_cases hm : c ∈ nd.fChildren
  · rw [if_pos hm, RemoveChild_ok h this _ nd hthis (List.indexOf_lt_length.mpr hm) hn,
      List.eraseIdx_indexOf_eq_erase]
  · rw [if_neg hm, RemoveChild_out h this _ _ nd hthis (Or.inl (by omega)),
      List.erase_of_not_mem hm, setNode_self h this _ hthis]

/-- `RemoveChild(child)` for a node that is not in the array: nothing is
changed, with or without a block from `malloc`. -/
theorem RemoveChildByAddress_absent (h : Nat → Option NTreeNode) (this c : Nat) (b : Bool)
    (nd : NTreeNode) (hthis : h this = some nd) (hm : c ∉ nd.fChildren) :
    RemoveChildByAddress h this c b = some (0, h) := by
  unfold RemoveChildByAddress
  rw [FindChildIndexByAddress_spec h this c nd hthis]
  simp only []
  rw [if_neg hm, RemoveChild_out h this _ _ nd hthis (Or.inl (by omega))]

/-- `RemoveChild(short)` answers 0 whenever it answers. -/
theorem RemoveChild_code (h h1 : Nat → Option NTreeNode) (this : Nat) (i error : Int)
    (b : Bool) (hr : RemoveChild h this i b = some (error, h1)) : error = 0 := by
  unfold RemoveChild at hr
  cases hthis : h this with
  | none => rw [hthis] at hr; cases hr
  | some nd =>
    rw [hthis] at hr
    simp only [] at hr
    cases hd : ChildArray.dropChild nd.childArray i b with
    | none => rw [hd] at hr; cases hr
    | some r =>
      obtain ⟨e, ca⟩ := r
      rw [hd] at hr
      simp only [] at hr
      have he : e = 0 := by
        unfold ChildArray.dropChild at hd
        split at hd
        · split at hd
          · split at hd
            · cases hd
            · cases hd; rfl
          · split at hd
            · cases hd
            · split at hd
              · cases hd
              · cases hd; rfl
        · cases hd; rfl
      cases ht : ca.toChildren with
      | none => rw [ht] at hr; cases hr
      | some cs =>
        rw [ht] at hr
        simp only [Option.some.injEq, Prod.mk.injEq] at hr
        omega

/-- `RemoveChild(child)` answers 0 whenever it answers. -/
theorem RemoveChildByAddress_code (h h1 : Nat → Option NTreeNode) (this c : Nat)
    (error : Int) (b : Bool) (hr : RemoveChildByAddress h this c b = some (error, h1)) :
    error = 0 := by
  unfold RemoveChildByAddress at hr
  cases hf : FindChildIndexByAddress h this c with
  | none => rw [hf] at hr; cases hr
  | some index =>
    rw [hf] at hr
    exact RemoveChild_code h h1 this index error b hr

/-- `Move` is `RemoveChild(this)` on the parent followed by `InsertChild` on
the new parent. -/
theorem Move_steps (h h1 : Nat → Option NTreeNode) (this np parent : Nat) (i e : Int)
    (mallocOk callocOk : Bool) (nd : NTreeNode) (hthis : h this = some nd)
    (hp : nd.fParent = some parent)
    (hr : RemoveChildByAddress h parent this mallocOk = some (e, h1)) :
    Move h this np i mallocOk callocOk = InsertChild h1 np this i callocOk := by
  have he := RemoveChildByAddress_code h h1 parent this e mallocOk hr
  subst he
  unfold Move
  rw [hthis]
  simp only []
  rw [hp]
  simp only []
  rw [hr]
  simp

/-- `Move` on a node without a parent. -/
theorem Move_orphan (h : Nat → Option NTreeNode) (this np : Nat) (i : Int)
    (mallocOk callocOk : Bool) (nd : NTreeNode) (hthis : h this = some nd)
    (hp : nd.fParent = none) : Move h this np i mallocOk callocOk = some (0, h) := by
  unfold Move
  rw [hthis]
  simp only []
  rw [hp]

end NTreeNode

/-! ## What a call can do to the heap, whatever its arguments -/

namespace ChildArray

theorem setSlot_mem (a a1 : List (Option Nat)) (i : Int) (v : Option Nat)
    (hs : setSlot a i v = some a1) : v ∈ a1 := by
  unfold setSlot at hs
  split at hs
  · rename_i hc
    cases hs
    apply List.getElem?_mem (n := i.toNat)
    rw [List.getElem?_set, if_pos rfl, if_pos hc.2]
  · cases hs

theorem allSome_mem (c : Nat) :
    ∀ (a : List (Option Nat)) (cs : List Nat), allSome a = some cs → some c ∈ a → c ∈ cs := by
  intro a
  induction a with
  | nil => intro cs _ hm; cases hm
  | cons x rest ih =>
    intro cs hs hm
    cases x with
    | none => simp [allSome] at hs
    | some p =>
      unfold allSome at hs
      cases hr : allSome rest with
      | none => rw [hr] at hs; cases hs
      | some ps =>
        rw [hr] at hs
        cases hs
        rcases List.mem_cons.mp hm with e | e
        · cases e
          exact List.mem_cons_self _ _
        · exact List.mem_cons_of_mem _ (ih ps hr e)

/-- However the new child is stored, it is in the array afterwards. -/
theorem placeChild_mem (ca ca1 : ChildArray) (c : Nat) (i : Int)
    (hp : placeChild ca c i = some ca1) : some c ∈ ca1.fChildren := by
  unfold placeChild at hp
  split at hp
  · cases hs : setSlot ca.fChildren 0 (some c) with
    | none => rw [hs] at hp; cases hp
    | some arr =>
      rw [hs] at hp
      cases hp
      exact setSlot_mem _ _ _ _ hs
  · split at hp
    · cases hs : setSlot ca.fChildren (toShort (ca.fNumChildren - 1)) (some c) with
      | none => rw [hs] at hp; cases hp
      | some arr =>
        rw [hs] at hp
        cases hp
        exact setSlot_mem _ _ _ _ hs
    · split at hp
      · cases hp
      · rename_i arr _
        cases hs : setSlot arr i (some c) with
        | none => rw [hs] at hp; cases hp
        | some arr1 =>
          rw [hs] at hp
          cases hp
          exact setSlot_mem _ _ _ _ hs

/-- The error code of `MoreChildren`: -1 without a block, with the members
as they were, and 0 with one. -/
theorem MoreChildren_code (ca ca1 : ChildArray) (add e : Int) (b : Bool)
    (hm : MoreChildren ca add b = some (e, ca1)) :
    (e = 0 ∧ b = true) ∨ (e = -1 ∧ b = false ∧ ca1 = ca) := by
  unfold MoreChildren at hm
  cases b with
  | false =>
    simp only [Bool.false_eq_true, if_false, Option.some.injEq, Prod.mk.injEq] at hm
    exact Or.inr ⟨hm.1.symm, rfl, hm.2.symm⟩
  | true =>
    simp only [if_true] at hm
    split at hm
    · cases hm
    · cases hm
      exact Or.inl ⟨rfl, rfl⟩

end ChildArray

namespace NTreeNode

/-- What `InsertChild` can answer: -1 with the heap as it was (no block from
`calloc`), or 0 with the child in the child list of the node and the parent
link of the child set. -/
theorem InsertChild_result (h h1 : Nat → Option NTreeNode) (this c : Nat) (i e : Int)
    (b : Bool) (hr : InsertChild h this c i b = some (e, h1)) :
    (e = -1 ∧ b = false ∧ h1 = h) ∨
      (e = 0 ∧ b = true ∧ ∃ nd cs cn, h this = some nd ∧ c ∈ cs ∧
        setNode h this { nd with fChildren := cs } c = some cn ∧
        h1 = setNode (setNode h this { nd with fChildren := cs }) c
          { cn with fParent := some this }) := by
  unfold InsertChild at hr
  cases hthis : h this with
  | none => rw [hthis] at hr; cases hr
  | some nd =>
    rw [hthis] at hr
    simp only [] at hr
    cases hM : ChildArray.MoreChildren nd.childArray 1 b with
    | none => rw [hM] at hr; cases hr
    | some r =>
      obtain ⟨e0, ca⟩ := r
      rw [hM] at hr
      simp only [] at hr
      rcases ChildArray.MoreChildren_code _ _ _ _ _ hM with ⟨he, hb⟩ | ⟨he, hb, _⟩
      · subst he
        simp only [ne_eq, not_true_eq_false, if_false] at hr
        cases hp : ChildArray.placeChild ca c i with
        | none => rw [hp] at hr; cases hr
        | some ca1 =>
          rw [hp] at hr
          simp only [] at hr
          cases ht : ca1.toChildren with
          | none => rw [ht] at hr; cases hr
          | some cs =>
            rw [ht] at hr
            simp only [] at hr
            cases hcn : setNode h this { nd with fChildren := cs } c with
            | none => rw [hcn] at hr; cases hr
            | some cn =>
              rw [hcn] at hr
              simp only [Option.some.injEq, Prod.mk.injEq] at hr
              refine Or.inr ⟨hr.1.symm, hb, nd, cs, cn, rfl, ?_, hcn, hr.2.symm⟩
              have hmem := ChildArray.placeChild_mem _ _ _ _ hp
              unfold ChildArray.toChildren at ht
              split at ht
              · exact ChildArray.allSome_mem c _ _ ht hmem
              · cases ht
      · subst he
        simp only [ne_eq, Int.reduceNeg, neg_eq_zero, one_ne_zero, not_false_eq_true,
          if_true, Option.some.injEq, Prod.mk.injEq] at hr
        exact Or.inl ⟨hr.1.symm, hb, hr.2.symm⟩

/-- What `RemoveChild(short)` can answer: 0, with only the child list of the
node changed. -/
theorem RemoveChild_result (h h1 : Nat → Option NTreeNode) (this : Nat) (i e : Int)
    (b : Bool) (hr : RemoveChild h this i b = some (e, h1)) :
    ∃ nd cs, h this = some nd ∧ h1 = setNode h this { nd with fChildren := cs } := by
  unfold RemoveChild at hr
  cases hthis : h this with
  | none => rw [hthis] at hr; cases hr
  | some nd =>
    rw [hthis] at hr
    simp only [] at hr
    cases hd : ChildArray.dropChild nd.childArray i b with
    | none => rw [hd] at hr; cases hr
    | some r =>
      obtain ⟨e0, ca⟩ := r
      rw [hd] at hr
      simp only [] at hr
      cases ht : ca.toChildren with
      | none => rw [ht] at hr; cases hr
      | some cs =>
        rw [ht] at hr
        simp only [Option.some.injEq, Prod.mk.injEq] at hr
        exact ⟨nd, cs, rfl, hr.2.symm⟩

theorem RemoveChildByAddress_result (h h1 : Nat → Option NTreeNode) (this c : Nat)
    (e : Int) (b : Bool) (hr : RemoveChildByAddress h this c b = some (e, h1)) :
    ∃ nd cs, h this = some nd ∧ h1 = setNode h this { nd with fChildren := cs } := by
  unfold RemoveChildByAddress at hr
  cases hf : FindChildIndexByAddress h this c with
  | none => rw [hf] at hr; cases hr
  | some index =>
    rw [hf] at hr
    exact RemoveChild_result h h1 this index e b hr

/-- What `Move` can answer on a node with a parent: the answer of
`InsertChild` on the heap that `RemoveChild(this)` on the parent left. -/
theorem Move_result (h h2 : Nat → Option NTreeNode) (this np parent : Nat) (i e : Int)
    (mallocOk callocOk : Bool) (nd : NTreeNode) (hthis : h this = some nd)
    (hp : nd.fParent = some parent)
    (hr : Move h this np i mallocOk callocOk = some (e, h2)) :
    ∃ h1, RemoveChildByAddress h parent this mallocOk = some (0, h1) ∧
      InsertChild h1 np this i callocOk = some (e, h2) := by
  cases hrm : RemoveChildByAddress h parent this mallocOk with
  | none =>
    unfold Move at hr
    rw [hthis] at hr
    simp only [] at hr
    rw [hp] at hr
    simp only [] at hr
    rw [hrm] at hr
    cases hr
  | some r =>
    obtain ⟨e0, h1⟩ := r
    have he := RemoveChildByAddress_code h h1 parent this e0 mallocOk hrm
    subst he
    refine ⟨h1, rfl, ?_⟩
    rw [← Move_steps h h1 this np parent i 0 mallocOk callocOk nd hthis hp hrm]
    exact hr

/-- A node stored with another child list or parent link keeps its id. -/
theorem setNode_ids (h : Nat → Option NTreeNode) (p : Nat) (nd nd1 : NTreeNode)
    (hp : h p = some nd) (hid : nd1.fID = nd.fID) (q : Nat) :
    (setNode h p nd1 q).map (fun x => x.fID) = (h q).map (fun x => x.fID) := by
  unfold setNode
  by_cases c : q = p
  · subst c
    rw [if_pos rfl, hp]
    simp [hid]
  · rw [if_neg c]

theorem InsertChild_ids (h h1 : Nat → Option NTreeNode) (this c : Nat) (i e : Int)
    (b : Bool) (hr : InsertChild h this c i b = some (e, h1)) (q : Nat) :
    (h1 q).map (fun x => x.fID) = (h q).map (fun x => x.fID) := by
  rcases InsertChild_result h h1 this c i e b hr with ⟨_, _, e1⟩ | ⟨_, _, nd, cs, cn, h3, _, h4, h5⟩
  · rw [e1]
  · rw [h5, setNode_ids _ c cn { cn with fParent := some this } h4 rfl q,
      setNode_ids h this nd { nd with fChildren := cs } h3 rfl q]

theorem RemoveChild_ids (h h1 : Nat → Option NTreeNode) (this : Nat) (i e : Int)
    (b : Bool) (hr : RemoveChild h this i b = some (e, h1)) (q : Nat) :
    (h1 q).map (fun x => x.fID) = (h q).map (fun x => x.fID) := by
  obtain ⟨nd, cs, h3, h4⟩ := RemoveChild_result h h1 this i e b hr
  rw [h4, setNode_ids h this nd { nd with fChildren := cs } h3 rfl q]

theorem RemoveChildByAddress_ids (h h1 : Nat → Option NTreeNode) (this c : Nat) (e : Int)
    (b : Bool) (hr : RemoveChildByAddress h this c b = some (e, h1)) (q : Nat) :
    (h1 q).map (fun x => x.fID) = (h q).map (fun x => x.fID) := by
  obtain ⟨nd, cs, h3, h4⟩ := RemoveChildByAddress_result h h1 this c e b hr
  rw [h4, setNode_ids h this nd { nd with fChildren := cs } h3 rfl q]

theorem Move_ids (h h2 : Nat → Option NTreeNode) (this np : Nat) (i e : Int)
    (mallocOk callocOk : Bool) (hr : Move h this np i mallocOk callocOk = some (e, h2))
    (q : Nat) : (h2 q).map (fun x => x.fID) = (h q).map (fun x => x.fID) := by
  cases hthis : h this with
  | none =>
    unfold Move at hr
    rw [hthis] at hr
    cases hr
  | some nd =>
    cases hp : nd.fParent with
    | none =>
      rw [Move_orphan h this np i mallocOk callocOk nd hthis hp] at hr
      cases hr
      rfl
    | some parent =>
      obtain ⟨h1, r1, r2⟩ := Move_result h h2 this np parent i e mallocOk callocOk nd hthis hp hr
      rw [InsertChild_ids h1 h2 np this i e callocOk r2 q,
        RemoveChildByAddress_ids h h1 parent this 0 mallocOk r1 q]

end NTreeNode

namespace TreeCall

/-- No call changes the id of a node, makes a node or destroys one. -/
theorem run_ids (h h1 : Nat → Option NTreeNode) (c : TreeCall) (e : Int)
    (hr : run h c = some (e, h1)) (q : Nat) :
    (h1 q).map (fun x => x.fID) = (h q).map (fun x => x.fID) := by
  cases c with
  | insertAt node child atIndex callocOk =>
    exact NTreeNode.InsertChild_ids h h1 node child atIndex e callocOk hr q
  | insertLast node child callocOk =>
    have hr1 : NTreeNode.InsertChildLast h node child callocOk = some (e, h1) := hr
    unfold NTreeNode.InsertChildLast at hr1
    cases hn : h node with
    | none => rw [hn] at hr1; cases hr1
    | some nd =>
      rw [hn] at hr1
      exact NTreeNode.InsertChild_ids h h1 node child _ e callocOk hr1 q
  | removeAt node index mallocOk =>
    exact NTreeNode.RemoveChild_ids h h1 node index e mallocOk hr q
  | removeNode node child mallocOk =>
    exact NTreeNode.RemoveChildByAddress_ids h h1 node child e mallocOk hr q
  | move node newParent index mallocOk callocOk =>
    exact NTreeNode.Move_ids h h1 node newParent index e mallocOk callocOk hr q

theorem runAll_ids :
    ∀ (calls : List TreeCall) (h h1 : Nat → Option NTreeNode),
      runAll calls h = some h1 →
      ∀ q, (h1 q).map (fun x => x.fID) = (h q).map (fun x => x.fID) := by
  intro calls
  induction calls with
  | nil =>
    intro h h1 hr q
    cases hr
    rfl
  | cons c rest ih =>
    intro h h1 hr q
    unfold runAll at hr
    cases hc : run h c with
    | none => rw [hc] at hr; cases hr
    | some r =>
      obtain ⟨e, h0⟩ := r
      rw [hc] at hr
      rw [ih h0 h1 hr q, run_ids h h0 c e hc q]

end TreeCall

/-! ## Insertion, removal and moving of children -/

namespace NTreeNode

/-- The links after `InsertChild(c, i)` with `i ≥ 0` and a block from
`calloc`. -/
theorem InsertChild_links (h : Nat → Option NTreeNode) (this c : Nat) (i : Int)
    (nd cn : NTreeNode) (hthis : h this = some nd) (hc : h c = some cn) (hi : 0 ≤ i)
    (hn : nd.fChildren.length + 1 < 32768) :
    ∃ h1, InsertChild h this c i true = some (0, h1) ∧
      (h1 this).map (fun x => x.fChildren)
        = some (insertedAt nd.fChildren (min i.toNat nd.fChildren.length) c) ∧
      (h1 c).map (fun x => x.fParent) = some (some this) ∧
      (∀ q, q ≠ this → q ≠ c → h1 q = h q) ∧
      (c ≠ this → h1 c = some { cn with fParent := some this }) := by
  by_cases hct : c = this
  · subst hct
    refine ⟨_, InsertChild_ok h c c i nd _ hthis hi hn (setNode_same _ _ _), ?_, ?_, ?_, ?_⟩
    · rw [setNode_same]
      rfl
    · rw [setNode_same]
      rfl
    · intro q hq _
      rw [setNode_other _ _ _ _ hq, setNode_other _ _ _ _ hq]
    · intro hne
      exact absurd rfl hne
  · have hc1 : setNode h this
        { nd with fChildren := insertedAt nd.fChildren (min i.toNat nd.fChildren.length) c } c
        = some cn := by
      rw [setNode_other _ _ _ _ hct, hc]
    refine ⟨_, InsertChild_ok h this c i nd cn hthis hi hn hc1, ?_, ?_, ?_, ?_⟩
    · rw [setNode_other _ _ _ _ (fun e => hct e.symm), setNode_same]
      rfl
    · rw [setNode_same]
      rfl
    · intro q hq hqc
      rw [setNode_other _ _ _ _ hqc, setNode_other _ _ _ _ hq]
    · intro _
      rw [setNode_same]

theorem indexOf_first (c : Nat) :
    ∀ (cs : List Nat) (j : Nat), j < cs.indexOf c → cs[j]? ≠ some c := by
  intro cs
  induction cs with
  | nil => intro j hj; simp at hj
  | cons x rest ih =>
    intro j hj
    rw [List.indexOf_cons] at hj
    by_cases hx : x = c
    · subst hx
      simp at hj
    · have hb : (x == c) = false := by simpa using hx
      rw [hb] at hj
      simp only [cond_false] at hj
      cases j with
      | zero =>
        simp only [List.getElem?_cons_zero, ne_eq, Option.some.injEq]
        exact hx
      | succ j =>
        rw [List.getElem?_cons_succ]
        exact ih j (by omega)

theorem indexOf_getElem? (c : Nat) (cs : List Nat) (hm : c ∈ cs) :
    cs[cs.indexOf c]? = some c := by
  induction cs with
  | nil => cases hm
  | cons x rest ih =>
    rw [List.indexOf_cons]
    by_cases hx : x = c
    · subst hx
      simp
    · have hb : (x == c) = false := by simpa using hx
      rw [hb]
      simp only [cond_false, List.getElem?_cons_succ]
      rcases List.mem_cons.mp hm with e | e
      · exact absurd e.symm hx
      · exact ih e

/-- C11: for every node with child list `cs` of length `n` (one short of the
largest `short` at most), every node `c` and every index `i ≥ 0`,
`InsertChild(c, i)` that gets its block from `calloc` returns 0, makes the
child list `cs[0..m) ++ [c] ++ cs[m..n)` with `m = min(i, n)`, sets the parent
link of `c` to the node and leaves every other node as it was; erasing
position `m` of the new list gives `cs` back, so the old children keep their
order; and `InsertChild(c)` appends: the new list is `cs ++ [c]`. -/
theorem InsertChild_inserts_at_min_index (h : Nat → Option NTreeNode) (this c : Nat)
    (i : Int) (nd cn : NTreeNode) (hthis : h this = some nd) (hc : h c = some cn)
    (hi : 0 ≤ i) (hn : nd.fChildren.length + 1 < 32768) :
    (∃ h1, InsertChild h this c i true = some (0, h1) ∧
      (h1 this).map (fun x => x.fChildren)
        = some (nd.fChildren.take (min i.toNat nd.fChildren.length) ++
            c :: nd.fChildren.drop (min i.toNat nd.fChildren.length)) ∧
      (h1 c).map (fun x => x.fParent) = some (some this) ∧
      (∀ q, q ≠ this → q ≠ c → h1 q = h q)) ∧
    (nd.fChildren.take (min i.toNat nd.fChildren.length) ++
        c :: nd.fChildren.drop (min i.toNat nd.fChildren.length)).eraseIdx
        (min i.toNat nd.fChildren.length) = nd.fChildren ∧
    (∃ h2, InsertChildLast h this c true = some (0, h2) ∧
      (h2 this).map (fun x => x.fChildren) = some (nd.fChildren ++ [c]) ∧
      (h2 c).map (fun x => x.fParent) = some (some this) ∧
      (∀ q, q ≠ this → q ≠ c → h2 q = h q)) := by
  refine ⟨?_, ?_, ?_⟩
  · obtain ⟨h1, r1, r2, r3, r4, _⟩ := InsertChild_links h this c i nd cn hthis hc hi hn
    exact ⟨h1, r1, r2, r3, r4⟩
  · exact insertedAt_eraseIdx nd.fChildren _ c (by omega)
  · obtain ⟨h2, r1, r2, r3, r4, _⟩ :=
      InsertChild_links h this c (nd.fChildren.length : Int) nd cn hthis hc (by omega) hn
    refine ⟨h2, ?_, ?_, r3, r4⟩
    · unfold InsertChildLast
      rw [hthis]
      exact r1
    · rw [r2]
      have : min ((nd.fChildren.length : Int)).toNat nd.fChildren.length
          = nd.fChildren.length := by simp
      rw [this, insertedAt_last]

theorem InsertChild_inserts_at_min_index_witness :
    (∃ h1, InsertChild workHeap 0 5 1 true = some (0, h1) ∧
      (h1 0).map (fun x => x.fChildren) = some [1, 5, 2, 4] ∧
      (h1 5).map (fun x => x.fParent) = some (some 0) ∧
      (∀ q, q ≠ 0 → q ≠ 5 → h1 q = workHeap q)) ∧
    List.eraseIdx [1, 5, 2, 4] 1 = [1, 2, 4] ∧
    (∃ h2, InsertChildLast workHeap 0 5 true = some (0, h2) ∧
      (h2 0).map (fun x => x.fChildren) = some [1, 2, 4, 5] ∧
      (h2 5).map (fun x => x.fParent) = some (some 0) ∧
      (∀ q, q ≠ 0 → q ≠ 5 → h2 q = workHeap q)) :=
  InsertChild_inserts_at_min_index workHeap 0 5 1 (NTree.mkNode 0xFFFF none [1, 2, 4])
    (create 0 5) rfl rfl (by decide) (by decide)

/-- C12: `InsertChild(child, -1)` on the root of the sample tree, which has
three children, has no defined result: the loop that moves the children up
does not stop at slot 0, its fourth round reads `*(fChildren - 1)`, in front of
the array (and `SetChild(-1, child)` would write there).  The child is not put
at position 0.  With index 0 it is, and on node 2, which has no child, any
index gives the one-child list. -/
theorem InsertChild_negative_index_out_of_bounds :
    outcome (InsertChild workHeap 0 5 (-1) true) [0, 5] = none ∧
      ChildArray.shiftUp 3 3 [some 1, some 2, some 4, none]
        = some [some 1, some 1, some 2, some 4] ∧
      ChildArray.shiftUp 4 3 [some 1, some 2, some 4, none] = none ∧
      ChildArray.getSlot [some 1, some 1, some 2, some 4] (-1) = none ∧
      outcome (InsertChild workHeap 0 5 0 true) [0, 5]
        = some (0, [some ([5, 1, 2, 4], none), some ([], some 0)]) ∧
      outcome (InsertChild workHeap 2 5 (-1) true) [2, 5]
        = some (0, [some ([5], some 0), some ([], some 2)]) :=
  ⟨by decide, by decide, by decide, by decide, by decide, by decide⟩

/-- C13: for every node with child list `cs` and every index `i` with
`0 ≤ i < |cs|`, `RemoveChild(i)` (with its block from `malloc`) returns 0 and
leaves the node with the child list `cs` without its `i`-th element and
otherwise the same fields; no other node is changed, so the removed node is
still there with its type, id, flags and child list.  For every `j` outside
`[0, |cs|)`, `RemoveChild(j)` returns 0 and changes nothing. -/
theorem RemoveChild_erases_slot (h : Nat → Option NTreeNode) (this : Nat) (i : Int)
    (nd : NTreeNode) (hthis : h this = some nd) (hn : nd.fChildren.length < 32768)
    (hi0 : 0 ≤ i) (hi1 : i < (nd.fChildren.length : Int)) :
    (∃ h1, RemoveChild h this i true = some (0, h1) ∧
      h1 this = some { nd with fChildren := nd.fChildren.eraseIdx i.toNat } ∧
      (∀ q, q ≠ this → h1 q = h q)) ∧
    (∀ (j : Int) (b : Bool), (j < 0 ∨ (nd.fChildren.length : Int) ≤ j) →
      RemoveChild h this j b = some (0, h)) := by
  refine ⟨?_, ?_⟩
  · obtain ⟨k, rfl⟩ : ∃ k : Nat, i = (k : Int) := ⟨i.toNat, by omega⟩
    refine ⟨_, RemoveChild_ok h this k nd hthis (by omega) hn, ?_, ?_⟩
    · rw [setNode_same]
      rfl
    · intro q hq
      exact setNode_other _ _ _ _ hq
  · intro j b hj
    exact RemoveChild_out h this j b nd hthis hj

theorem RemoveChild_erases_slot_witness :
    (∃ h1, RemoveChild workHeap 0 1 true = some (0, h1) ∧
      h1 0 = some (NTree.mkNode 0xFFFF none [1, 4]) ∧
      (∀ q, q ≠ 0 → h1 q = workHeap q)) ∧
    (∀ (j : Int) (b : Bool), (j < 0 ∨ ((3 : Nat) : Int) ≤ j) →
      RemoveChild workHeap 0 j b = some (0, workHeap)) :=
  RemoveChild_erases_slot workHeap 0 1 (NTree.mkNode 0xFFFF none [1, 2, 4]) rfl
    (by decide) (by decide) (by decide)

/-- C14: `RemoveChild(child)` finds the child by its address.  If the node `c`
is in the child list, `FindChildIndexByAddress` returns the first index that
holds `c`, and the call (with its block from `malloc`) returns 0 and erases
exactly that slot, changing no other node.  For a node `c0` that is not in the
child list, whatever its type and id, `FindChildIndexByAddress` returns -1 and
the call returns 0 and changes nothing. -/
theorem RemoveChildByAddress_by_identity (h : Nat → Option NTreeNode) (this c : Nat)
    (nd : NTreeNode) (hthis : h this = some nd) (hn : nd.fChildren.length < 32768)
    (hc : c ∈ nd.fChildren) :
    (FindChildIndexByAddress h this c = some (nd.fChildren.indexOf c : Int) ∧
      nd.fChildren[nd.fChildren.indexOf c]? = some c ∧
      (∀ j, j < nd.fChildren.indexOf c → nd.fChildren[j]? ≠ some c) ∧
      ∃ h1, RemoveChildByAddress h this c true = some (0, h1) ∧
        h1 this = some { nd with fChildren := nd.fChildren.eraseIdx (nd.fChildren.indexOf c) } ∧
        (∀ q, q ≠ this → h1 q = h q)) ∧
    (∀ (c0 : Nat) (b : Bool), c0 ∉ nd.fChildren →
      FindChildIndexByAddress h this c0 = some (-1) ∧
        RemoveChildByAddress h this c0 b = some (0, h)) := by
  refine ⟨⟨?_, indexOf_getElem? c _ hc, indexOf_first c _, ?_⟩, ?_⟩
  · rw [FindChildIndexByAddress_spec h this c nd hthis, if_pos hc]
  · refine ⟨_, RemoveChildByAddress_ok h this c nd hthis hn, ?_, ?_⟩
    · rw [setNode_same, List.eraseIdx_indexOf_eq_erase]
    · intro q hq
      exact setNode_other _ _ _ _ hq
  · intro c0 b hc0
    refine ⟨?_, RemoveChildByAddress_absent h this c0 b nd hthis hc0⟩
    rw [FindChildIndexByAddress_spec h this c0 nd hthis, if_neg hc0]

theorem RemoveChildByAddress_by_identity_witness :
    (FindChildIndexByAddress workHeap 0 2 = some ((1 : Nat) : Int) ∧
      [1, 2, 4][1]? = some 2 ∧
      (∀ j, j < 1 → [1, 2, 4][j]? ≠ some 2) ∧
      ∃ h1, RemoveChildByAddress workHeap 0 2 true = some (0, h1) ∧
        h1 0 = some (NTree.mkNode 0xFFFF none [1, 4]) ∧
        (∀ q, q ≠ 0 → h1 q = workHeap q)) ∧
    (∀ (c0 : Nat) (b : Bool), c0 ∉ [1, 2, 4] →
      FindChildIndexByAddress workHeap 0 c0 = some (-1) ∧
        RemoveChildByAddress workHeap 0 c0 b = some (0, workHeap)) :=
  RemoveChildByAddress_by_identity workHeap 0 2 (NTree.mkNode 0xFFFF none [1, 2, 4]) rfl
    (by decide) (by decide)

/-- C15: `Move(newParent, i)` with `i ≥ 0` on a node `n` whose parent link is
`P`, when both allocations succeed, returns 0; the child list of `newParent` is
the list it had after the removal (`npnd` is the node at `newParent` once `n`
is erased from the list of `P`) with `n` put in front of position
`min(i, length)`; the parent link of `n` is `newParent`; the child list of `P`,
if `P` is not `newParent`, is its old list with `n` erased; every other node is
as it was.  On a node without a parent, `Move` returns 0 and changes nothing,
whatever the allocations would do. -/
theorem Move_reparents (h : Nat → Option NTreeNode) (n np P : Nat) (i : Int)
    (nd Pnd npnd : NTreeNode) (hn : h n = some nd) (hP : nd.fParent = some P)
    (hPn : h P = some Pnd) (hPlen : Pnd.fChildren.length < 32768)
    (hnp : setNode h P { Pnd with fChildren := Pnd.fChildren.erase n } np = some npnd)
    (hi : 0 ≤ i) (hlen : npnd.fChildren.length + 1 < 32768) :
    (∃ h2, Move h n np i true true = some (0, h2) ∧
      (h2 np).map (fun x => x.fChildren)
        = some (npnd.fChildren.take (min i.toNat npnd.fChildren.length) ++
            n :: npnd.fChildren.drop (min i.toNat npnd.fChildren.length)) ∧
      (h2 n).map (fun x => x.fParent) = some (some np) ∧
      (P ≠ np → (h2 P).map (fun x => x.fChildren) = some (Pnd.fChildren.erase n)) ∧
      (∀ q, q ≠ P → q ≠ np → q ≠ n → h2 q = h q)) ∧
    (∀ (h0 : Nat → Option NTreeNode) (n0 np0 : Nat) (i0 : Int) (b1 b2 : Bool)
      (nd0 : NTreeNode), h0 n0 = some nd0 → nd0.fParent = none →
      Move h0 n0 np0 i0 b1 b2 = some (0, h0)) := by
  refine ⟨?_, ?_⟩
  · have hrm := RemoveChildByAddress_ok h P n Pnd hPn hPlen
    have hmv := Move_steps h _ n np P i 0 true true nd hn hP hrm
    have hn1 : ∃ nd1, setNode h P { Pnd with fChildren := Pnd.fChildren.erase n } n
        = some nd1 ∧ (n = P → nd1.fChildren = Pnd.fChildren.erase n) := by
      by_cases e : n = P
      · subst e
        exact ⟨_, setNode_same _ _ _, fun _ => rfl⟩
      · exact ⟨nd, by rw [setNode_other _ _ _ _ e, hn], fun e1 => absurd e1 e⟩
    obtain ⟨nd1, hnd1, hnd1c⟩ := hn1
    obtain ⟨h2, r1, r2, r3, r4, r5⟩ :=
      InsertChild_links _ np n i npnd nd1 hnp hnd1 hi hlen
    refine ⟨h2, ?_, r2, r3, ?_, ?_⟩
    · rw [hmv]
      exact r1
    · intro hne
      by_cases e : n = P
      · subst e
        rw [r5 hne]
        simp only [Option.map_some', Option.some.injEq]
        exact hnd1c rfl
      · rw [r4 P hne (fun e1 => e e1.symm), setNode_same]
        rfl
    · intro q q1 q2 q3
      rw [r4 q q2 q3, setNode_other _ _ _ _ q1]
  · intro h0 n0 np0 i0 b1 b2 nd0 e1 e2
    exact Move_orphan h0 n0 np0 i0 b1 b2 nd0 e1 e2

theorem Move_reparents_witness :
    (∃ h2, Move workHeap 3 0 1 true true = some (0, h2) ∧
      (h2 0).map (fun x => x.fChildren) = some [1, 3, 2, 4] ∧
      (h2 3).map (fun x => x.fParent) = some (some 0) ∧
      ((1 : Nat) ≠ 0 → (h2 1).map (fun x => x.fChildren) = some []) ∧
      (∀ q, q ≠ 1 → q ≠ 0 → q ≠ 3 → h2 q = workHeap q)) ∧
    (∀ (h0 : Nat → Option NTreeNode) (n0 np0 : Nat) (i0 : Int) (b1 b2 : Bool)
      (nd0 : NTreeNode), h0 n0 = some nd0 → nd0.fParent = none →
      Move h0 n0 np0 i0 b1 b2 = some (0, h0)) :=
  Move_reparents workHeap 3 0 1 1 (NTree.mkNode 3 (some 1) []) (NTree.mkNode 1 (some 0) [3])
    (NTree.mkNode 0xFFFF none [1, 2, 4]) rfl rfl rfl (by decide) rfl (by decide) (by decide)

/-- C16: if `calloc` gives no block, `InsertChild(c, i)` and `InsertChild(c)`
return -1 and leave the heap as it was: the child list and count of the node
and the parent link of `c` are unchanged. -/
theorem InsertChild_allocation_failure (h : Nat → Option NTreeNode) (this c : Nat)
    (i : Int) (nd : NTreeNode) (hthis : h this = some nd) :
    InsertChild h this c i false = some (-1, h) ∧
      InsertChildLast h this c false = some (-1, h) := by
  refine ⟨InsertChild_fail h this c i nd hthis, ?_⟩
  unfold InsertChildLast
  rw [hthis]
  exact InsertChild_fail h this c _ nd hthis

theorem InsertChild_allocation_failure_witness :
    InsertChild workHeap 0 5 1 false = some (-1, workHeap) ∧
      InsertChildLast workHeap 0 5 false = some (-1, workHeap) :=
  InsertChild_allocation_failure workHeap 0 5 1 (NTree.mkNode 0xFFFF none [1, 2, 4]) rfl

/-- C17: `RemoveChild(0)` on the root of the sample tree (children 1, 2, 4)
when `malloc` gives no block returns 0, not a failure code, and the child list
is 2, 4, 4: the children were moved down before `LessChildren` failed, child 1
is gone and child 4 is there twice.  `LessChildren` itself reports -1; the
caller drops that value.  With the last index the list stays 1, 2, 4 and the
answer is 0 as well. -/
theorem RemoveChild_allocation_failure_unreported :
    outcome (RemoveChild workHeap 0 0 false) [0] = some (0, [some ([2, 4, 4], none)]) ∧
      ChildArray.LessChildren
          { fNumChildren := 3, fChildren := [some 2, some 4, some 4] } 1 false
        = some (-1, { fNumChildren := 3, fChildren := [some 2, some 4, some 4] }) ∧
      outcome (RemoveChild workHeap 0 2 false) [0] = some (0, [some ([1, 2, 4], none)]) :=
  ⟨by decide, by decide, by decide⟩

/-- C18 (as stated, fails): `Move` of node 3 of the sample tree from its parent
1 to the root, when `calloc` gives no block for the array of the root, returns
-1, and node 3 is no child of node 1 any more: the child list of node 1 is
empty, the list of the root is unchanged, and the parent link of node 3 still
names node 1. -/
theorem Move_failure_leaves_node_removed :
    outcome (Move workHeap 3 0 1 true false) [1, 0, 3]
      = some (-1, [some ([], some 0), some ([1, 2, 4], none), some ([], some 1)]) := by
  decide

/-- C18 (amended): whenever `Move(newParent, i)` on a node `n` with parent
`P` returns a failure code, the code is -1, the one of the failed growth of the
array of `newParent` (`calloc` gave no block), and the heap is exactly the one
that `RemoveChild(n)` on `P` left: nothing was added to the list of
`newParent`, and the removal is not undone; when the shrinking of the array of
`P` succeeded (`malloc` gave its block), the list of `P` is its old list with
`n` erased.  Whenever it returns 0, `n` is in the child list of `newParent`. -/
theorem Move_failure_after_removal (h h2 : Nat → Option NTreeNode) (n np P : Nat)
    (i e : Int) (mallocOk callocOk : Bool) (nd : NTreeNode) (hn : h n = some nd)
    (hP : nd.fParent = some P)
    (hmove : Move h n np i mallocOk callocOk = some (e, h2)) :
    (e ≠ 0 → e = -1 ∧ callocOk = false ∧
      RemoveChildByAddress h P n mallocOk = some (0, h2) ∧
      (mallocOk = true → ∀ Pnd, h P = some Pnd → Pnd.fChildren.length < 32768 →
        h2 = setNode h P { Pnd with fChildren := Pnd.fChildren.erase n })) ∧
    (e = 0 → ∃ npnd, h2 np = some npnd ∧ n ∈ npnd.fChildren) := by
  obtain ⟨h1, r1, r2⟩ := Move_result h h2 n np P i e mallocOk callocOk nd hn hP hmove
  rcases InsertChild_result h1 h2 np n i e callocOk r2 with
    ⟨e1, e2, e3⟩ | ⟨e1, _, npnd, cs, cn, g1, g2, g3, g4⟩
  · refine ⟨fun _ => ⟨e1, e2, ?_, ?_⟩, fun e0 => ?_⟩
    · rw [e3]
      exact r1
    · intro hm Pnd hPnd hlen
      subst hm
      rw [RemoveChildByAddress_ok h P n Pnd hPnd hlen] at r1
      simp only [Option.some.injEq, Prod.mk.injEq, true_and] at r1
      rw [e3, ← r1]
    · omega
  · refine ⟨fun hne => absurd e1 hne, fun _ => ?_⟩
    by_cases c : n = np
    · subst c
      rw [setNode_same] at g3
      cases g3
      exact ⟨_, by rw [g4, setNode_same], g2⟩
    · refine ⟨{ npnd with fChildren := cs }, ?_, g2⟩
      rw [g4, setNode_other _ _ _ _ (fun e => c e.symm), setNode_same]

theorem Move_failure_after_removal_witness :
    (((-1 : Int) ≠ 0 → (-1 : Int) = -1 ∧ false = false ∧
      RemoveChildByAddress workHeap 1 3 true
        = some (0, setNode workHeap 1 (NTree.mkNode 1 (some 0) [])) ∧
      (true = true → ∀ Pnd, workHeap 1 = some Pnd → Pnd.fChildren.length < 32768 →
        setNode workHeap 1 (NTree.mkNode 1 (some 0) [])
          = setNode workHeap 1 { Pnd with fChildren := Pnd.fChildren.erase 3 })) ∧
    ((-1 : Int) = 0 → ∃ npnd, setNode workHeap 1 (NTree.mkNode 1 (some 0) []) 0 = some npnd ∧
      3 ∈ npnd.fChildren)) :=
  Move_failure_after_removal workHeap (setNode workHeap 1 (NTree.mkNode 1 (some 0) []))
    3 0 1 1 (-1) true false (NTree.mkNode 3 (some 1) []) rfl rfl rfl

/-- C19: after `InsertChild(5)` and then `RemoveChild(5)` on the root of the
sample tree (node 5 was in no tree before), the parent link of node 5 still
names the root, and node 5 is not in the child list of the root:
`RemoveChild` erases the slot and leaves the parent link of the removed node
as it was. -/
theorem RemoveChild_leaves_parent_link :
    (TreeCall.runAll [TreeCall.insertLast 0 5 true, TreeCall.removeNode 0 5 true]
        workHeap).map (fun h => [links h 0, links h 5])
      = some [some ([1, 2, 4], none), some ([], some 0)] ∧
    outcome (RemoveChild workHeap 0 1 true) [0, 2]
      = some (0, [some ([1, 4], none), some ([], some 0)]) := by
  decide

/-- C20 (as stated, fails): from the fresh tree (the root alone) three calls
of `InsertChild` on the root attach two nodes that were both made with the id
7 and one that was made with the id of the root; all three calls return 0 and
the children of the root have the ids 7, 7 and `0xFFFF`. -/
theorem InsertChild_accepts_duplicate_ids :
    (TreeCall.run freshHeap (TreeCall.insertLast 0 1 true)).map (fun r => r.1) = some 0 ∧
    (TreeCall.runAll [TreeCall.insertLast 0 1 true, TreeCall.insertLast 0 2 true,
        TreeCall.insertLast 0 3 true] freshHeap).map
        (fun h => (links h 0, childIds h 0))
      = some (some ([1, 2, 3], none), some [some 7, some 7, some 0xFFFF]) := by
  decide

/-- C20 (amended): `InsertChild`, `RemoveChild` and `Move` look at no id and
change none: after any sequence of these calls, whatever they return, every
node has the id it had before, and no node was made or destroyed.  So if no
two nodes of the starting heap, attached or not, share an id, none do
afterwards, and if only the root had the id of a root, only the root has it
afterwards. -/
theorem calls_keep_ids (calls : List TreeCall) (h h1 : Nat → Option NTreeNode)
    (hrun : TreeCall.runAll calls h = some h1) :
    (∀ q, (h1 q).map (fun x => x.fID) = (h q).map (fun x => x.fID)) ∧
      (IdsUnique h → IdsUnique h1) ∧
      (∀ root, RootIdReserved h root → RootIdReserved h1 root) := by
  have hid := TreeCall.runAll_ids calls h h1 hrun
  have hback : ∀ q n1, h1 q = some n1 → ∃ n0, h q = some n0 ∧ n0.fID = n1.fID := by
    intro q n1 e1
    have := hid q
    rw [e1] at this
    cases e0 : h q with
    | none => rw [e0] at this; cases this
    | some n0 =>
      rw [e0] at this
      simp only [Option.map_some', Option.some.injEq] at this
      exact ⟨n0, rfl, this.symm⟩
  refine ⟨hid, ?_, ?_⟩
  · intro hu q1 q2 n1 n2 e1 e2 e
    obtain ⟨m1, f1, g1⟩ := hback q1 n1 e1
    obtain ⟨m2, f2, g2⟩ := hback q2 n2 e2
    exact hu q1 q2 m1 m2 f1 f2 (by rw [g1, g2, e])
  · intro root hr q n1 e1 e
    obtain ⟨m1, f1, g1⟩ := hback q n1 e1
    exact hr q m1 f1 (by rw [g1, e])

theorem calls_keep_ids_witness :
    (∀ q, (setNode (setNode workHeap 0 (NTree.mkNode 0xFFFF none [1, 2, 4, 5])) 5
          (NTree.mkNode 5 (some 0) []) q).map (fun x => x.fID)
        = (workHeap q).map (fun x => x.fID)) ∧
      (IdsUnique workHeap → IdsUnique (setNode (setNode workHeap 0
          (NTree.mkNode 0xFFFF none [1, 2, 4, 5])) 5 (NTree.mkNode 5 (some 0) []))) ∧
      (∀ root, RootIdReserved workHeap root → RootIdReserved (setNode (setNode workHeap 0
          (NTree.mkNode 0xFFFF none [1, 2, 4, 5])) 5 (NTree.mkNode 5 (some 0) [])) root) :=
  calls_keep_ids [TreeCall.insertLast 0 5 true] workHeap _ rfl

end NTreeNode

/-! ## The record that `Write` makes -/

namespace NTreeNode

variable {φ : Type}

theorem writeField_ok (cb : NTreeNodeWriteCB φ) (hok : ∀ f v s p, (cb f v s p).1 = 0)
    (st : φ × Int × WriteLog) (value count : Nat) :
    ∃ f1, writeField cb st value count
      = (0, (f1, st.2.1 + (count : Int), st.2.2 ++ [(value, count, st.2.1)])) := by
  refine ⟨(cb st.1 value count st.2.1).2, ?_⟩
  unfold writeField
  simp only [hok, if_true]

/-- The loop over the children writes their types at consecutive offsets. -/
theorem writeChildTypes_ok (h : Nat → Option NTreeNode) (nd : NTreeNode)
    (cb : NTreeNodeWriteCB φ) (hok : ∀ f v s p, (cb f v s p).1 = 0)
    (hkids : ∀ c ∈ nd.fChildren, ∃ cn, h c = some cn) :
    ∀ (k i : Nat) (st : φ × Int × WriteLog), i + k = nd.fChildren.length →
      ∃ f1, writeChildTypes h nd cb k (i : Int) st
        = some (0, (f1, st.2.1 + 4 * (k : Int),
            st.2.2 ++ NTree.childTypeCalls h (nd.fChildren.drop i) st.2.1)) := by
  intro k
  induction k with
  | zero =>
    intro i st hik
    refine ⟨st.1, ?_⟩
    have : nd.fChildren.drop i = [] := List.drop_eq_nil_of_le (by omega)
    simp [writeChildTypes, this, NTree.childTypeCalls]
  | succ k ih =>
    intro i st hik
    have hi : i < nd.fChildren.length := by omega
    have hget : nd.GetChild (i : Int) = some nd.fChildren[i] := by
      unfold GetChild
      simp [hi]
    obtain ⟨cn, hcn⟩ := hkids _ (List.getElem_mem hi)
    obtain ⟨f1, hf1⟩ := writeField_ok cb hok st cn.fType 4
    obtain ⟨f2, hf2⟩ := ih (i + 1) (f1, st.2.1 + 4, st.2.2 ++ [(cn.fType, 4, st.2.1)])
      (by omega)
    refine ⟨f2, ?_⟩
    have hdrop : nd.fChildren.drop i = nd.fChildren[i] :: nd.fChildren.drop (i + 1) :=
      List.drop_eq_getElem_cons hi
    unfold writeChildTypes
    rw [hget]
    simp only []
    rw [hcn]
    simp only []
    have hc : ((i : Int) + 1) = ((i + 1 : Nat) : Int) := by omega
    simp only [Nat.cast_ofNat] at hf1 hf2
    rw [hf1]
    simp only [ne_eq, not_true_eq_false, if_false]
    rw [hc, hf2, hdrop]
    simp only [NTree.childTypeCalls, hcn, Option.map_some', Option.getD_some,
      List.append_assoc, List.singleton_append]
    congr 3
    push_cast
    ring_nf

theorem childTypeCalls_length (h : Nat → Option NTreeNode) :
    ∀ (cs : List Nat) (o : Int), (NTree.childTypeCalls h cs o).length = cs.length := by
  intro cs
  induction cs with
  | nil => intro o; rfl
  | cons c cs ih => intro o; simp [NTree.childTypeCalls, ih]

theorem childTypeCalls_getElem? (h : Nat → Option NTreeNode) :
    ∀ (cs : List Nat) (o : Int) (i c : Nat) (cn : NTreeNode), cs[i]? = some c →
      h c = some cn →
      (NTree.childTypeCalls h cs o)[i]? = some (cn.fType, 4, o + 4 * (i : Int)) := by
  intro cs
  induction cs with
  | nil => intro o i c cn hi; simp at hi
  | cons c0 cs ih =>
    intro o i c cn hi hc
    cases i with
    | zero =>
      simp only [List.getElem?_cons_zero, Option.some.injEq] at hi
      subst hi
      simp [NTree.childTypeCalls, hc]
    | succ i =>
      simp only [List.getElem?_cons_succ] at hi
      simp only [NTree.childTypeCalls, List.getElem?_cons_succ]
      rw [ih (o + 4) i c cn hi hc]
      congr 3
      push_cast
      ring_nf

/-- `Write` with callbacks that all succeed: the header and then the types of
the children. -/
theorem Write_ok (h : Nat → Option NTreeNode) (this : Nat) (nd : NTreeNode) (file : φ)
    (o : Int) (cb : NTreeNodeWriteCB φ) (hthis : h this = some nd)
    (hok : ∀ f v s p, (cb f v s p).1 = 0)
    (hkids : ∀ c ∈ nd.fChildren, ∃ cn, h c = some cn)
    (hlen : nd.fChildren.length < 32768) :
    ∃ f1, Write h this file o cb
      = some (0, f1, o + 10 + 4 * (nd.fChildren.length : Int),
          [(nd.fType, 4, o), (nd.fID, 2, o + 4), ((nd.fFlags % 65536).toNat, 2, o + 6),
            (nd.fChildren.length, 2, o + 8)] ++
            NTree.childTypeCalls h nd.fChildren (o + 10)) := by
  obtain ⟨f1, h1⟩ := writeField_ok cb hok (file, o, []) nd.fType 4
  obtain ⟨f2, h2⟩ := writeField_ok cb hok (f1, o + 4, [(nd.fType, 4, o)]) nd.fID 2
  obtain ⟨f3, h3⟩ := writeField_ok cb hok
    (f2, o + 4 + 2, [(nd.fType, 4, o), (nd.fID, 2, o + 4)]) (nd.fFlags % 65536).toNat 2
  obtain ⟨f4, h4⟩ := writeField_ok cb hok
    (f3, o + 4 + 2 + 2, [(nd.fType, 4, o), (nd.fID, 2, o + 4),
      ((nd.fFlags % 65536).toNat, 2, o + 4 + 2)]) (nd.GetNumChildren % 65536).toNat 2
  obtain ⟨f5, h5⟩ := writeChildTypes_ok h nd cb hok hkids nd.fChildren.length 0
    (f4, o + 4 + 2 + 2 + 2, [(nd.fType, 4, o), (nd.fID, 2, o + 4),
      ((nd.fFlags % 65536).toNat, 2, o + 4 + 2),
      ((nd.GetNumChildren % 65536).toNat, 2, o + 4 + 2 + 2)]) (by omega)
  refine ⟨f5, ?_⟩
  have hcount : (nd.GetNumChildren % 65536).toNat = nd.fChildren.length := by
    unfold GetNumChildren
    omega
  unfold Write
  rw [hthis]
  simp only [Nat.cast_ofNat, List.nil_append, List.cons_append] at h1 h2 h3 h4 h5
  simp only []
  rw [h1]
  simp only [ne_eq, not_true_eq_false, if_false]
  rw [h2]
  simp only [ne_eq, not_true_eq_false, if_false]
  rw [h3]
  simp only [ne_eq, not_true_eq_false, if_false]
  rw [h4]
  simp only [ne_eq, not_true_eq_false, if_false]
  have h0 : ((0 : Nat) : Int) = 0 := rfl
  rw [h0] at h5
  rw [h5, hcount]
  simp only [List.drop_zero, List.cons_append, List.nil_append]
  have e2 : o + 4 + 2 = o + 6 := by ring
  have e3 : o + 4 + 2 + 2 = o + 8 := by ring
  have e4 : o + 4 + 2 + 2 + 2 = o + 10 := by ring
  rw [e4, e3, e2]

end NTreeNode

/-! ## From a node up to the root -/

namespace NTree

theorem ascends_snoc (h : Nat → Option NTreeNode) :
    ∀ (n m k : Nat), Ascends h n m k → ∀ (nd : NTreeNode) (p : Nat), h m = some nd →
      nd.fParent = some p → Ascends h n p (k + 1) := by
  intro n m k ha
  induction ha with
  | here n =>
    intro nd p hm hp
    exact Ascends.up n p p 0 nd hm hp (Ascends.here p)
  | up n q t k nd0 hn hq _ ih =>
    intro nd p hm hp
    exact Ascends.up n q p (k + 1) nd0 hn hq (ih nd p hm hp)

/-- With more tests allowed than there are parent links, the loop of
`FindRoot` ends at the topmost node. -/
theorem climb_of_ascends (h : Nat → Option NTreeNode) :
    ∀ (n t k : Nat), Ascends h n t k → ∀ (tn : NTreeNode) (fuel : Nat), h t = some tn →
      tn.fParent = none → k < fuel → climb h fuel n = some t := by
  intro n t k ha
  induction ha with
  | here n =>
    intro tn fuel ht hp hk
    cases fuel with
    | zero => omega
    | succ f => simp [climb, ht, hp]
  | up n q t k nd0 hn hq _ ih =>
    intro tn fuel ht hp hk
    cases fuel with
    | zero => omega
    | succ f =>
      simp only [climb, hn, hq]
      exact ih tn f ht hp (by omega)

theorem preList_length_le (ks : List Shape) :
    ∀ k ∈ ks, k.pre.length ≤ (Shape.preList ks).length := by
  induction ks with
  | nil => intro k hk; cases hk
  | cons a ks ih =>
    intro k hk
    simp only [Shape.preList, List.length_append]
    rcases List.mem_cons.mp hk with e | e
    · subst e; omega
    · have := ih k e; omega

mutual
/-- Every node of a tree in the heap is linked to the top of the tree by
parent links, fewer than the tree has nodes. -/
theorem subtree_ascends (h : Nat → Option NTreeNode) :
    ∀ (S : Shape) (par : Option Nat), Shape.layout h par S = true →
      ∀ X ∈ S.subtrees, ∃ k, Ascends h X.ptr S.ptr k ∧ k < S.pre.length
  | .node p i ks, par, hl, X, hX => by
    obtain ⟨nd, h1, h2, h3, h4, h5, h6, h7⟩ := Shape.layout_spec _ _ _ hl
    simp only [Shape.subtrees, List.mem_cons] at hX
    rcases hX with e | e
    · subst e
      exact ⟨0, Ascends.here _, by simp [Shape.pre]⟩
    · obtain ⟨k, a, b, _⟩ := subtreeList_ascends h ks p h7 X e
      exact ⟨k, a, by simp only [Shape.pre, List.length_cons]; omega⟩
theorem subtreeList_ascends (h : Nat → Option NTreeNode) :
    ∀ (ks : List Shape) (p : Nat), Shape.layoutList h (some p) ks = true →
      ∀ X ∈ Shape.subtreesList ks, ∃ k, Ascends h X.ptr p k ∧
        k ≤ (Shape.preList ks).length ∧ 0 < k
  | [], _, _, X, hX => by simp [Shape.subtreesList] at hX
  | k0 :: ks, p, hl, X, hX => by
    rw [Shape.layoutList_cons, Bool.and_eq_true] at hl
    obtain ⟨l1, l2⟩ := hl
    simp only [Shape.subtreesList, List.mem_append] at hX
    rcases hX with e | e
    · obtain ⟨j, a, b⟩ := subtree_ascends h k0 (some p) l1 X e
      obtain ⟨nd, h1, _, _, h4, _⟩ := Shape.layout_spec _ _ _ l1
      refine ⟨j + 1, ascends_snoc h _ _ _ a nd p h1 h4, ?_, by omega⟩
      simp only [Shape.preList, List.length_append]
      omega
    · obtain ⟨j, a, b, c⟩ := subtreeList_ascends h ks p l2 X e
      refine ⟨j, a, ?_, c⟩
      simp only [Shape.preList, List.length_append]
      omega
end

/-- `FindRoot` from a node whose parent links lead to the topmost node `t`. -/
theorem FindRoot_top (h : Nat → Option NTreeNode) (n t k fuel : Nat) (tn : NTreeNode)
    (hasc : Ascends h n t k) (ht : h t = some tn) (htop : tn.fParent = none)
    (hfuel : k < fuel) :
    FindRoot h fuel (some n) = some (if tn.fType = kRootType then some t else none) := by
  unfold FindRoot
  simp only []
  rw [climb_of_ascends h n t k hasc tn fuel ht htop hfuel]
  simp only []
  rw [ht]

end NTree

/-! ## Moving a node and the hierarchy -/

namespace NTreeNode

theorem mem_insertedAt_iff (cs : List Nat) (m c x : Nat) :
    x ∈ insertedAt cs m c ↔ x = c ∨ x ∈ cs := by
  unfold insertedAt
  constructor
  · intro hx
    rcases List.mem_append.mp hx with e | e
    · exact Or.inr (List.mem_of_mem_take e)
    · rcases List.mem_cons.mp e with e1 | e1
      · exact Or.inl e1
      · exact Or.inr (List.mem_of_mem_drop e1)
  · intro hx
    rcases hx with e | e
    · subst e
      simp
    · have : x ∈ cs.take m ++ cs.drop m := by rw [List.take_append_drop]; exact e
      rcases List.mem_append.mp this with e1 | e1
      · exact List.mem_append.mpr (Or.inl e1)
      · exact List.mem_append.mpr (Or.inr (List.mem_cons_of_mem _ e1))

theorem nodup_insertedAt (cs : List Nat) (m c : Nat) (hn : cs.Nodup) (hc : c ∉ cs) :
    (insertedAt cs m c).Nodup := by
  unfold insertedAt
  have hp : List.Perm (cs.take m ++ c :: cs.drop m) (c :: (cs.take m ++ cs.drop m)) :=
    List.perm_middle
  rw [List.take_append_drop] at hp
  exact hp.nodup_iff.mpr (List.nodup_cons.mpr ⟨hc, hn⟩)

/-- The heap after `Move(newParent, i)` with `i ≥ 0` when both allocations
succeed: `npnd` is the node at `newParent` once the node is erased from the list
of its parent, `nd1` the node itself once it is in the list of `newParent`. -/
theorem Move_ok (h : Nat → Option NTreeNode) (n np P : Nat) (i : Int)
    (nd Pnd npnd nd1 : NTreeNode) (hn : h n = some nd) (hP : nd.fParent = some P)
    (hPn : h P = some Pnd) (hPlen : Pnd.fChildren.length < 32768)
    (hnp : setNode h P { Pnd with fChildren := Pnd.fChildren.erase n } np = some npnd)
    (hi : 0 ≤ i) (hlen : npnd.fChildren.length + 1 < 32768)
    (hn1 : setNode (setNode h P { Pnd with fChildren := Pnd.fChildren.erase n }) np
        { npnd with fChildren := insertedAt npnd.fChildren (min i.toNat npnd.fChildren.length) n }
        n = some nd1) :
    Move h n np i true true
      = some (0, setNode (setNode (setNode h P { Pnd with fChildren := Pnd.fChildren.erase n })
          np
          { npnd with fChildren := insertedAt npnd.fChildren (min i.toNat npnd.fChildren.length) n })
          n { nd1 with fParent := some np }) := by
  rw [Move_steps h _ n np P i 0 true true nd hn hP (RemoveChildByAddress_ok h P n Pnd hPn hPlen)]
  exact InsertChild_ok _ np n i npnd nd1 hnp hi hlen hn1

end NTreeNode

namespace NTree

open NTreeNode in
/-- A move to a node that is not the moved node and not below it keeps the
child lists a strict hierarchy. -/
theorem hierarchy_after_move (h : Nat → Option NTreeNode) (n np P : Nat)
    (nd Pnd np0 : NTreeNode) (m : Nat)
    (hH : StrictHierarchy h) (hn : h n = some nd) (hP : nd.fParent = some P)
    (hPn : h P = some Pnd) (hmem : n ∈ Pnd.fChildren) (hnp0 : h np = some np0)
    (hnot : ¬ Below h n np) :
    ∃ npnd nd1,
      setNode h P { Pnd with fChildren := Pnd.fChildren.erase n } np = some npnd ∧
      npnd.fChildren.length ≤ np0.fChildren.length ∧
      setNode (setNode h P { Pnd with fChildren := Pnd.fChildren.erase n }) np
        { npnd with fChildren := insertedAt npnd.fChildren m n } n = some nd1 ∧
      StrictHierarchy (setNode (setNode (setNode h P
          { Pnd with fChildren := Pnd.fChildren.erase n })
          np { npnd with fChildren := insertedAt npnd.fChildren m n })
          n { nd1 with fParent := some np }) := by
  obtain ⟨H1, H2, rank, H3⟩ := hH
  have hPne : P ≠ n := by
    intro e
    have := H3 P Pnd n hPn hmem
    rw [e] at this
    exact lt_irrefl _ this
  have hnpne : np ≠ n := by
    intro e
    exact hnot (e ▸ Below.self)
  -- the node at `np` after the removal
  have hnode : ∃ npnd, setNode h P { Pnd with fChildren := Pnd.fChildren.erase n } np
      = some npnd ∧ npnd.fParent = np0.fParent ∧
      npnd.fChildren = (if np = P then np0.fChildren.erase n else np0.fChildren) := by
    by_cases e : np = P
    · subst e
      rw [hPn] at hnp0
      cases hnp0
      exact ⟨_, setNode_same _ _ _, rfl, by simp⟩
    · exact ⟨np0, by rw [setNode_other _ _ _ _ e, hnp0], rfl, by simp [e]⟩
  obtain ⟨npnd, g1, g2, g3⟩ := hnode
  have hsub : ∀ c, c ∈ npnd.fChildren → c ∈ np0.fChildren ∧ c ≠ n := by
    intro c hc
    rw [g3] at hc
    by_cases e : np = P
    · rw [if_pos e] at hc
      subst e
      rw [hPn] at hnp0
      cases hnp0
      have hnd := H2 np Pnd hPn
      exact ⟨List.mem_of_mem_erase hc, fun e1 => by
        subst e1
        exact (List.Nodup.not_mem_erase hnd) hc⟩
    · rw [if_neg e] at hc
      refine ⟨hc, fun e1 => ?_⟩
      subst e1
      obtain ⟨cn, a, b⟩ := H1 np np0 c hnp0 hc
      rw [hn] at a
      cases a
      rw [hP] at b
      exact e (Option.some.inj b).symm
  have hnd1 : setNode (setNode h P { Pnd with fChildren := Pnd.fChildren.erase n }) np
      { npnd with fChildren := insertedAt npnd.fChildren m n } n = some nd := by
    rw [setNode_other _ _ _ _ (fun e => hnpne e.symm), setNode_other _ _ _ _ (fun e => hPne e.symm),
      hn]
  refine ⟨npnd, nd, g1, ?_, hnd1, ?_⟩
  · rw [g3]
    by_cases e : np = P
    · rw [if_pos e]
      exact (List.erase_sublist n np0.fChildren).length_le
    · rw [if_neg e]
  -- the heap after the move, node by node
  have look : ∀ q x, setNode (setNode (setNode h P
        { Pnd with fChildren := Pnd.fChildren.erase n })
        np { npnd with fChildren := insertedAt npnd.fChildren m n })
        n { nd with fParent := some np } q = some x →
      ∃ y, h q = some y ∧ x.fParent = (if q = n then some np else y.fParent) ∧
        (∀ c, c ∈ x.fChildren → (c = n ∧ q = np) ∨ (c ∈ y.fChildren ∧ c ≠ n) ∨
          (c ∈ y.fChildren ∧ q ≠ P ∧ q ≠ np)) ∧
        (y.fChildren.Nodup → x.fChildren.Nodup) := by
    intro q x hq
    by_cases e1 : q = n
    · subst e1
      rw [setNode_same] at hq
      cases hq
      refine ⟨nd, hn, by simp, ?_, fun hh => hh⟩
      intro c hc
      exact Or.inr (Or.inr ⟨hc, fun e => hPne e.symm, fun e => hnpne e.symm⟩)
    · rw [setNode_other _ _ _ _ e1] at hq
      by_cases e2 : q = np
      · subst e2
        rw [setNode_same] at hq
        cases hq
        refine ⟨np0, hnp0, by simp [e1, g2], ?_, ?_⟩
        · intro c hc
          rcases (mem_insertedAt_iff _ _ _ _).mp hc with e | e
          · exact Or.inl ⟨e, rfl⟩
          · exact Or.inr (Or.inl (hsub c e))
        · intro hh
          apply nodup_insertedAt
          · rw [g3]
            by_cases e : q = P
            · rw [if_pos e]
              exact hh.erase n
            · rw [if_neg e]
              exact hh
          · intro hc
            exact (hsub n hc).2 rfl
      · rw [setNode_other _ _ _ _ e2] at hq
        by_cases e3 : q = P
        · subst e3
          rw [setNode_same] at hq
          cases hq
          refine ⟨Pnd, hPn, by simp [e1], ?_, fun hh => hh.erase n⟩
          intro c hc
          have hnd := H2 q Pnd hPn
          refine Or.inr (Or.inl ⟨List.mem_of_mem_erase hc, fun e => ?_⟩)
          subst e
          exact (List.Nodup.not_mem_erase hnd) hc
        · rw [setNode_other _ _ _ _ e3] at hq
          refine ⟨x, hq, by simp [e1], ?_, fun hh => hh⟩
          intro c hc
          exact Or.inr (Or.inr ⟨hc, e3, e2⟩)
  have live : ∀ q y, h q = some y → ∃ x, setNode (setNode (setNode h P
        { Pnd with fChildren := Pnd.fChildren.erase n })
        np { npnd with fChildren := insertedAt npnd.fChildren m n })
        n { nd with fParent := some np } q = some x ∧
      x.fParent = (if q = n then some np else y.fParent) := by
    intro q y hq
    by_cases e1 : q = n
    · subst e1
      exact ⟨_, setNode_same _ _ _, by simp⟩
    · rw [setNode_other _ _ _ _ e1]
      by_cases e2 : q = np
      · subst e2
        rw [hnp0] at hq
        cases hq
        exact ⟨_, setNode_same _ _ _, by simp [e1, g2]⟩
      · rw [setNode_other _ _ _ _ e2]
        by_cases e3 : q = P
        · subst e3
          rw [hPn] at hq
          cases hq
          exact ⟨_, setNode_same _ _ _, by simp [e1]⟩
        · rw [setNode_other _ _ _ _ e3]
          exact ⟨y, hq, by simp [e1]⟩
  -- an old link that is still there does not end in the moved node
  have old : ∀ q y c, h q = some y → c ∈ y.fChildren →
      (c ≠ n ∨ (q ≠ P ∧ q ≠ np)) → c ≠ n := by
    intro q y c hq hc hor e
    rcases hor with e1 | ⟨e1, _⟩
    · exact e1 e
    · subst e
      obtain ⟨cn, a, b⟩ := H1 q y c hq hc
      rw [hn] at a
      cases a
      rw [hP] at b
      exact e1 (Option.some.inj b).symm
  refine ⟨?_, ?_, ?_⟩
  · intro p x c hp hc
    obtain ⟨y, y1, _, y3, _⟩ := look p x hp
    rcases y3 c hc with ⟨e1, e2⟩ | ⟨e1, e2⟩ | ⟨e1, e2, e3⟩
    · subst e1
      subst e2
      exact ⟨_, setNode_same _ _ _, rfl⟩
    · obtain ⟨cn, a, b⟩ := H1 p y c y1 e1
      obtain ⟨x1, a1, b1⟩ := live c cn a
      exact ⟨x1, a1, by rw [b1, if_neg e2, b]⟩
    · have hcn := old p y c y1 e1 (Or.inr ⟨e2, e3⟩)
      obtain ⟨cn, a, b⟩ := H1 p y c y1 e1
      obtain ⟨x1, a1, b1⟩ := live c cn a
      exact ⟨x1, a1, by rw [b1, if_neg hcn, b]⟩
  · intro p x hp
    obtain ⟨y, y1, _, _, y4⟩ := look p x hp
    exact y4 (H2 p y y1)
  · classical
    refine ⟨fun q => if Below h n q then rank q + rank np + 1 else rank q, ?_⟩
    intro p x c hp hc
    obtain ⟨y, y1, _, y3, _⟩ := look p x hp
    have oldlink : c ∈ y.fChildren → c ≠ n →
        (if Below h n p then rank p + rank np + 1 else rank p)
          < (if Below h n c then rank c + rank np + 1 else rank c) := by
      intro e1 _
      have hr := H3 p y c y1 e1
      by_cases hb : Below h n p
      · have hbc : Below h n c := Below.child p c y hb y1 e1
        rw [if_pos hb, if_pos hbc]
        omega
      · rw [if_neg hb]
        by_cases hbc : Below h n c
        · rw [if_pos hbc]; omega
        · rw [if_neg hbc]; exact hr
    rcases y3 c hc with ⟨e1, e2⟩ | ⟨e1, e2⟩ | ⟨e1, e2, e3⟩
    · subst e1
      subst e2
      beta_reduce
      rw [if_neg hnot, if_pos Below.self]
      omega
    · exact oldlink e1 e2
    · exact oldlink e1 (old p y c y1 e1 (Or.inr ⟨e2, e3⟩))

end NTree

/-! ## Where an iteration calls the callback -/

namespace NTree

variable {σ : Type}

theorem findAndVisit_record (onEntry : Bool) (w : World σ) (p : Nat) (nd : NTreeNode)
    (tr : Trace) (didAction : Bool) (n ci : Int) (s : Step σ)
    (h : findAndVisit none onEntry w p nd tr didAction n ci = some s) : s.record = tr := by
  rcases findAndVisit_cases none onEntry w p nd tr didAction n ci s h with
    ⟨c, rfl⟩ | ⟨i, w2, _, rfl⟩ | ⟨_, act, w1, hp, _⟩
  · rfl
  · rfl
  · cases hp

/-- After the call on a leaf the rest of the iteration makes no call. -/
theorem findAndVisit_done (act : NTreeNodeActionFunc σ) (onEntry : Bool) (w : World σ)
    (p : Nat) (nd : NTreeNode) (tr : Trace) (n ci : Int) :
    findAndVisit (some act) onEntry w p nd tr true n ci
      = findAndVisit none onEntry w p nd tr true n ci := by
  unfold findAndVisit
  simp

/-- The part of the iteration after the leaf call, when no call was made
before: it makes no call, or one call before it drops to a child. -/
theorem findAndVisit_shape (onEntry : Bool) (w : World σ) (p : Nat) (nd : NTreeNode)
    (tr : Trace) (n ci : Int) :
    (∃ R : Option (Step σ),
      (∀ act : NTreeNodeActionFunc σ,
        findAndVisit (some act) onEntry w p nd tr false n ci = R) ∧
      ∀ s, R = some s → s.record = tr) ∨
    (∃ c : Option Nat, ∀ act : NTreeNodeActionFunc σ,
      findAndVisit (some act) onEntry w p nd tr false n ci =
        match act p w with
        | none => none
        | some (true, w1) => some (Step.exit w1 true false (tr ++ [(p, true)]))
        | some (false, w1) => some (Step.next w1 c (tr ++ [(p, false)]))) := by
  unfold findAndVisit
  cases hb : scanBackward w nd (ci + 1).toNat none with
  | none =>
    left
    exact ⟨none, fun _ => rfl, fun s hs => by cases hs⟩
  | some rb =>
    obtain ⟨idx, found, child⟩ := rb
    simp only []
    generalize (if found = true then (if idx + 1 ≥ n then (0 : Int) else idx + 1) else 0) = ci1
    cases hf : scanForward w nd (n - ci1).toNat ci1 child with
    | none =>
      left
      exact ⟨none, fun _ => rfl, fun s hs => by cases hs⟩
    | some rf =>
      obtain ⟨ci2, found2, child2⟩ := rf
      simp only []
      by_cases hc : (found2 && decide (ci2 = 0) && !false && onEntry) = true
      · right
        have hf2 : found2 = true := by
          cases found2
          · simp at hc
          · rfl
        subst hf2
        refine ⟨child2, ?_⟩
        intro act
        rw [if_pos hc]
        cases ha : act p w with
        | none => simp [invoke, ha]
        | some r =>
          obtain ⟨b, w1⟩ := r
          cases b <;> simp [invoke, ha]
      · left
        refine ⟨(if found2 = true then some (Step.next w child2 tr)
            else
              match w.heap p with
              | none => none
              | some nd1 =>
                match SetVisitedBit w nd1.fID true with
                | none => none
                | some w2 => some (Step.next w2 (some p) tr)), fun act => ?_, ?_⟩
        · rw [if_neg hc]
        · intro s hs
          cases found2
          · simp only [Bool.false_eq_true, if_false] at hs
            cases hh : w.heap p with
            | none => simp [hh] at hs
            | some nd1 =>
              simp only [hh] at hs
              cases hset : SetVisitedBit w nd1.fID true with
              | none => simp [hset] at hs
              | some w2 =>
                simp only [hset, Option.some.injEq] at hs
                subst hs
                rfl
          · simp only [if_true, Option.some.injEq] at hs
            subst hs
            rfl

/-- Every iteration of the loop makes no call of the callback, or one call
on the cursor in the state of the loop head. -/
theorem loopBody_shape (start : Option Nat) (onEntry branch : Bool) (w : World σ) (p : Nat)
    (tr : Trace) : CallShape start onEntry branch w p tr := by
  cases hh : w.heap p with
  | none =>
    refine CallShape.fixed none (fun act => ?_) (fun s hs => by cases hs)
    unfold loopBody
    rw [hh]
  | some nd =>
    cases hv : Visited w nd.fID with
    | none =>
      refine CallShape.fixed none (fun act => ?_) (fun s hs => by cases hs)
      unfold loopBody
      rw [hh]
      simp only []
      rw [hv]
    | some v =>
      cases v
      · -- the cursor is not visited
        by_cases hleaf : (decide (nd.GetNumChildren = 0) && onEntry) = true
        · refine CallShape.calls
            (fun w1 =>
              match w1.heap p with
              | none => none
              | some nd1 =>
                findAndVisit none onEntry w1 p nd1 (tr ++ [(p, false)]) true
                  nd1.GetNumChildren (toShort (nd.GetNumChildren - 1)))
            (fun act => ?_) ?_
          · unfold loopBody
            rw [hh]
            simp only []
            rw [hv]
            simp only []
            unfold unvisitedBranch
            simp only []
            rw [if_pos hleaf]
            cases ha : act p w with
            | none => simp [invoke, ha]
            | some r =>
              obtain ⟨b, w1⟩ := r
              cases b
              · simp only [invoke, ha]
                cases hh1 : w1.heap p with
                | none => rfl
                | some nd1 =>
                  simp only []
                  rw [findAndVisit_done]
              · simp [invoke, ha]
          · intro w1 s hs
            simp only [] at hs
            cases hh1 : w1.heap p with
            | none => simp [hh1] at hs
            | some nd1 =>
              simp only [hh1] at hs
              exact findAndVisit_record onEntry w1 p nd1 _ true _ _ s hs
        · have hbody : ∀ act : NTreeNodeActionFunc σ,
              loopBody start (some act) onEntry branch w p tr
                = findAndVisit (some act) onEntry w p nd tr false nd.GetNumChildren
                    (toShort (nd.GetNumChildren - 1)) := by
            intro act
            unfold loopBody
            rw [hh]
            simp only []
            rw [hv]
            simp only []
            unfold unvisitedBranch
            simp only []
            rw [if_neg hleaf]
          rcases findAndVisit_shape onEntry w p nd tr nd.GetNumChildren
              (toShort (nd.GetNumChildren - 1)) with ⟨R, h1, h2⟩ | ⟨c, h1⟩
          · exact CallShape.fixed R (fun act => by rw [hbody, h1]) h2
          · refine CallShape.calls (fun w1 => some (Step.next w1 c (tr ++ [(p, false)])))
              (fun act => by rw [hbody, h1]) ?_
            intro w1 s hs
            simp only [Option.some.injEq] at hs
            subst hs
            rfl
      · -- the cursor is visited
        cases onEntry
        · refine CallShape.calls
            (fun w1 =>
              if (decide (some p = start) && branch) = true then
                some (Step.exit w1 true true (tr ++ [(p, false)]))
              else some (Step.next w1 nd.fParent (tr ++ [(p, false)])))
            (fun act => ?_) ?_
          · unfold loopBody
            rw [hh]
            simp only []
            rw [hv]
            simp only []
            unfold visitedBranch
            cases ha : act p w with
            | none => simp [invoke, ha]
            | some r =>
              obtain ⟨b, w1⟩ := r
              cases b <;> simp [invoke, ha]
          · intro w1 s hs
            simp only [] at hs
            split at hs <;> (simp only [Option.some.injEq] at hs; subst hs; rfl)
        · refine CallShape.fixed
            (if (decide (some p = start) && branch) = true then
                some (Step.exit w true true tr)
              else some (Step.next w nd.fParent tr))
            (fun act => ?_) ?_
          · unfold loopBody
            rw [hh]
            simp only []
            rw [hv]
            simp only []
            unfold visitedBranch
            simp
          · intro s hs
            split at hs <;> (simp only [Option.some.injEq] at hs; subst hs; rfl)

end NTree

/-! ## The search for an id -/

namespace NTree

variable {σ : Type}

theorem SetVisitedBit_frame (w w2 : World σ) (i : Nat) (b : Bool)
    (h : SetVisitedBit w i b = some w2) :
    w2.heap = w.heap ∧ w2.parm = w.parm ∧ w2.fRoot = w.fRoot := by
  unfold SetVisitedBit at h
  cases hv : w.fVisitedBits with
  | nil => simp [hv] at h
  | cons vb next =>
    simp only [hv, Option.some.injEq] at h
    subst h
    exact ⟨rfl, rfl, rfl⟩

/-- An iteration with the callback that does nothing leaves the heap and the
parameter block alone. -/
theorem idle_step (start : Option Nat) (onEntry branch : Bool) (w : World σ) (p : Nat)
    (tr : Trace) (s : Step σ)
    (h : loopBody start (some idle) onEntry branch w p tr = some s) :
    s.world.heap = w.heap ∧ s.world.parm = w.parm := by
  have hs := loopBody_stepOf start (some idle) onEntry branch w p tr s h
  cases hs with
  | move n => exact ⟨rfl, rfl⟩
  | mark i w2 hm =>
    obtain ⟨a, b, _⟩ := SetVisitedBit_frame w w2 i true hm
    exact ⟨a, b⟩
  | endBranch => exact ⟨rfl, rfl⟩
  | callAbort act w1 hp ha =>
    cases hp
    simp [idle] at ha
  | callMove act w1 n hp ha =>
    cases hp
    simp only [idle, Option.some.injEq, Prod.mk.injEq, true_and] at ha
    subst ha
    exact ⟨rfl, rfl⟩
  | callMark act w1 i w2 hp ha hm =>
    cases hp
    simp only [idle, Option.some.injEq, Prod.mk.injEq, true_and] at ha
    subst ha
    obtain ⟨a, b, _⟩ := SetVisitedBit_frame _ w2 i true hm
    exact ⟨a, b⟩
  | callEnd act w1 hp ha =>
    cases hp
    simp only [idle, Option.some.injEq, Prod.mk.injEq, true_and] at ha
    subst ha
    exact ⟨rfl, rfl⟩

theorem loopBody_live (start : Option Nat) (proc : Option (NTreeNodeActionFunc σ))
    (onEntry branch : Bool) (w : World σ) (p : Nat) (tr : Trace) (s : Step σ)
    (h : loopBody start proc onEntry branch w p tr = some s) : ∃ nd, w.heap p = some nd := by
  unfold loopBody at h
  cases hh : w.heap p with
  | none => simp [hh] at h
  | some nd => exact ⟨nd, rfl⟩

theorem search_miss (w : World NodeIDSearchInfo) (p : Nat) (nd : NTreeNode)
    (hp : w.heap p = some nd) (hid : nd.fID ≠ w.parm.id) :
    SearchForNodeID_ActionFunc p w = some (false, w) := by
  simp [SearchForNodeID_ActionFunc, hp, hid]

theorem search_hit (w : World NodeIDSearchInfo) (p : Nat) (nd : NTreeNode)
    (hp : w.heap p = some nd) (hid : nd.fID = w.parm.id) :
    SearchForNodeID_ActionFunc p w
      = some (true, { w with parm := { w.parm with foundNode := some p } }) := by
  simp [SearchForNodeID_ActionFunc, hp, hid]

/-- The walk with the search callback follows the walk with the callback that
does nothing up to the first node with the id looked for, and stops there. -/
theorem search_sim (start : Option Nat) (onEntry branch : Bool)
    (h0 : Nat → Option NTreeNode) (v : Nat) :
    ∀ (fuel : Nat) (w : World NodeIDSearchInfo) (node : Option Nat) (tr : Trace)
      (w1 : World NodeIDSearchInfo) (a e : Bool) (tr1 : Trace),
      w.heap = h0 → w.parm.id = v →
      walkLoop start (some idle) onEntry branch fuel w node tr = some (w1, a, e, tr1) →
      ∃ ext : List Nat, tr1 = tr ++ calm ext ∧ w1.parm = w.parm ∧
        ((∀ q ∈ ext, ∀ nd, h0 q = some nd → nd.fID ≠ v) →
          walkLoop start (some SearchForNodeID_ActionFunc) onEntry branch fuel w node tr
            = some (w1, a, e, tr1)) ∧
        (∀ pfx q rest nd, ext = pfx ++ q :: rest →
          (∀ x ∈ pfx, ∀ nx, h0 x = some nx → nx.fID ≠ v) → h0 q = some nd → nd.fID = v →
          ∃ w2, walkLoop start (some SearchForNodeID_ActionFunc) onEntry branch fuel w node tr
              = some (w2, true, false, tr ++ calm pfx ++ [(q, true)]) ∧
            w2.parm.foundNode = some q) := by
  intro fuel
  induction fuel with
  | zero =>
    intro w node tr w1 a e tr1 hh hv hrun
    cases node with
    | none =>
      rw [walkLoop_null] at hrun
      simp only [Option.some.injEq, Prod.mk.injEq] at hrun
      obtain ⟨rfl, rfl, rfl, rfl⟩ := hrun
      refine ⟨[], by simp [calm], rfl, fun _ => walkLoop_null _ _ _ _ _ _ _, ?_⟩
      intro pfx q rest nd hx
      simp at hx
    | some p => simp [walkLoop] at hrun
  | succ f ih =>
    intro w node tr w1 a e tr1 hh hv hrun
    cases node with
    | none =>
      rw [walkLoop_null] at hrun
      simp only [Option.some.injEq, Prod.mk.injEq] at hrun
      obtain ⟨rfl, rfl, rfl, rfl⟩ := hrun
      refine ⟨[], by simp [calm], rfl, fun _ => walkLoop_null _ _ _ _ _ _ _, ?_⟩
      intro pfx q rest nd hx
      simp at hx
    | some p =>
      cases hbody : loopBody start (some idle) onEntry branch w p tr with
      | none =>
        unfold walkLoop at hrun
        simp [hbody] at hrun
      | some s =>
        obtain ⟨nd, hnd⟩ := loopBody_live _ _ _ _ _ _ _ _ hbody
        obtain ⟨sw1, sw2⟩ := idle_step start onEntry branch w p tr s hbody
        have hnd0 : h0 p = some nd := by rw [← hh]; exact hnd
        -- the step of the search at a node with another id is the step of the idle walk
        have same : nd.fID ≠ v ∨ s.record = tr →
            loopBody start (some SearchForNodeID_ActionFunc) onEntry branch w p tr = some s := by
          intro hor
          cases loopBody_shape start onEntry branch w p tr with
          | fixed R h1 _ => rw [h1, ← h1 idle, hbody]
          | calls K h1 h2 =>
            have hi := h1 idle
            simp only [idle] at hi
            rw [hbody] at hi
            rcases hor with hne | hrec
            · rw [h1, search_miss w p nd hnd (by rw [hv]; exact hne)]
              exact hi.symm
            · have := h2 w s hi.symm
              rw [hrec] at this
              simp at this
        -- at the node with the id looked for the search stops if the idle walk calls
        have stop : nd.fID = v → s.record ≠ tr →
            loopBody start (some SearchForNodeID_ActionFunc) onEntry branch w p tr
              = some (Step.exit { w with parm := { w.parm with foundNode := some p } }
                  true false (tr ++ [(p, true)])) := by
          intro hid hrec
          cases loopBody_shape start onEntry branch w p tr with
          | fixed R h1 h2 =>
            have := h2 s (by rw [← h1 idle, hbody])
            exact absurd this hrec
          | calls K h1 _ =>
            rw [h1, search_hit w p nd hnd (by rw [hv]; exact hid)]
        -- the record of the idle step
        have hrecs : s.record = tr ∨ s.record = tr ++ [(p, false)] := by
          cases loopBody_shape start onEntry branch w p tr with
          | fixed R h1 h2 => exact Or.inl (h2 s (by rw [← h1 idle, hbody]))
          | calls K h1 h2 =>
            have hi := h1 idle
            simp only [idle] at hi
            rw [hbody] at hi
            exact Or.inr (h2 w s hi.symm)
        cases s with
        | exit sw sa se str =>
          simp only [Step.world, Step.record] at sw1 sw2 hrecs same stop
          rw [walkLoop_exit _ _ _ _ f w sw p sa se tr str hbody] at hrun
          simp only [Option.some.injEq, Prod.mk.injEq] at hrun
          obtain ⟨rfl, rfl, rfl, rfl⟩ := hrun
          rcases hrecs with hr | hr
          · subst hr
            refine ⟨[], by simp [calm], sw2, fun _ => ?_, ?_⟩
            · exact walkLoop_exit _ _ _ _ f w sw p sa se str str (same (Or.inr rfl))
            · intro pfx q rest nq hx
              simp at hx
          · subst hr
            refine ⟨[p], by simp [calm], sw2, fun hq => ?_, ?_⟩
            · exact walkLoop_exit _ _ _ _ f w sw p sa se tr _
                (same (Or.inl (hq p (by simp) nd hnd0)))
            · intro pfx q rest nq hx hpfx hq hid
              cases pfx with
              | nil =>
                simp only [List.nil_append, List.cons.injEq] at hx
                obtain ⟨rfl, _⟩ := hx
                rw [hnd0] at hq
                cases hq
                refine ⟨{ w with parm := { w.parm with foundNode := some p } }, ?_, rfl⟩
                rw [walkLoop_exit _ _ _ _ f w _ p true false tr _ (stop hid (by simp))]
                simp [calm]
              | cons x pfx =>
                simp only [List.cons_append, List.cons.injEq] at hx
                obtain ⟨_, hx2⟩ := hx
                simp at hx2
        | next sw sn str =>
          simp only [Step.world, Step.record] at sw1 sw2 hrecs same stop
          rw [walkLoop_next _ _ _ _ f w sw p sn tr str hbody] at hrun
          obtain ⟨ext, x1, x2, x3, x4⟩ := ih sw sn str w1 a e tr1 (by rw [sw1, hh])
            (by rw [sw2, hv]) hrun
          rcases hrecs with hr | hr
          · subst hr
            refine ⟨ext, x1, by rw [x2, sw2], fun hq => ?_, ?_⟩
            · rw [walkLoop_next _ _ _ _ f w sw p sn str str (same (Or.inr rfl))]
              exact x3 hq
            · intro pfx q rest nq hx hpfx hq hid
              rw [walkLoop_next _ _ _ _ f w sw p sn str str (same (Or.inr rfl))]
              exact x4 pfx q rest nq hx hpfx hq hid
          · subst hr
            refine ⟨p :: ext, by rw [x1]; simp [calm], by rw [x2, sw2], fun hq => ?_, ?_⟩
            · rw [walkLoop_next _ _ _ _ f w sw p sn tr _
                (same (Or.inl (hq p (by simp) nd hnd0)))]
              exact x3 (fun q hqe => hq q (List.mem_cons_of_mem _ hqe))
            · intro pfx q rest nq hx hpfx hq hid
              cases pfx with
              | nil =>
                simp only [List.nil_append, List.cons.injEq] at hx
                obtain ⟨rfl, _⟩ := hx
                rw [hnd0] at hq
                cases hq
                refine ⟨{ w with parm := { w.parm with foundNode := some p } }, ?_, rfl⟩
                rw [walkLoop_exit _ _ _ _ f w _ p true false tr _ (stop hid (by simp))]
                simp [calm]
              | cons x pfx =>
                simp only [List.cons_append, List.cons.injEq] at hx
                obtain ⟨rfl, hx2⟩ := hx
                have hne : nd.fID ≠ v := hpfx p (by simp) nd hnd0
                rw [walkLoop_next _ _ _ _ f w sw p sn tr _ (same (Or.inl hne))]
                obtain ⟨w2, y1, y2⟩ := x4 pfx q rest nq hx2
                  (fun z hz => hpfx z (List.mem_cons_of_mem _ hz)) hq hid
                refine ⟨w2, ?_, y2⟩
                rw [y1]
                simp [calm]

end NTree

namespace NTree

variable {σ : Type}

theorem exitPath_parm (w : World σ) (a e : Bool) (tr : Trace) :
    (exitPath w a e tr).2.1.parm = w.parm ∧ (exitPath w a e tr).2.2 = tr ∧
      (exitPath w a e tr).2.1.heap = w.heap ∧ (exitPath w a e tr).2.1.fRoot = w.fRoot := by
  unfold exitPath PopVisitedBits
  cases w.fVisitedBits <;> (simp only []; split_ifs <;> simp)

/-- A call of the walk that is not refused runs the loop from `loopEntry` and
then the exit path. -/
theorem VisitAllNTreeNodes_run (fuel : Nat) (start : Option Nat)
    (proc : Option (NTreeNodeActionFunc σ)) (onEntry branch : Bool) (w : World σ)
    (h0 : 0 ≤ w.entryCount) (h1 : w.entryCount < 32) :
    VisitAllNTreeNodes fuel start proc onEntry branch w
      = (walkLoop start proc onEntry branch fuel (loopEntry w) start []).map
          (fun r => exitPath r.1 r.2.1 r.2.2.1 r.2.2.2) := by
  have hnot : ¬ (toShort (w.entryCount + 1) > kMaxRecursion) := by
    rw [toShort_small _ (by omega) (by omega)]
    unfold kMaxRecursion
    omega
  unfold VisitAllNTreeNodes loopEntry
  simp only [hnot, if_false]
  cases walkLoop start proc onEntry branch fuel _ start [] with
  | none => rfl
  | some r => rfl

theorem framed_idle (h : Nat → Option NTreeNode) (c : Int) :
    Framed (idle : NTreeNodeActionFunc σ) h c := by
  intro n w h1 h2 _
  exact ⟨w, rfl, h1, h2, rfl⟩

theorem calm_injective (a b : List Nat) (h : calm a = calm b) : a = b := by
  have := congrArg (List.map Prod.fst) h
  simpa [calm, List.map_map, Function.comp_def] using this

/-- The node `FindNodeByID` returns: the first node in pre-order whose id is the
id looked for. -/
theorem FindNodeByID_find (T : Shape) (w : World σ) (v fuel : Nat)
    (h0 : 0 ≤ w.entryCount) (h1 : w.entryCount < 32) (hst : w.fVisitedBits ≠ [])
    (hroot : w.fRoot = T.ptr)
    (hlay : Shape.layout w.heap none T = true) (hnd : T.ids.Nodup)
    (hfuel : T.cost + 1 ≤ fuel) :
    ∃ w1, FindNodeByID fuel v w
      = some (T.pre.find? (fun q => decide ((w.heap q).map NTreeNode.fID = some v)), w1) := by
  let wq : World NodeIDSearchInfo := withParm w { id := v, foundNode := none }
  obtain ⟨wi, hi, _⟩ := walk_run (idle : NTreeNodeActionFunc NodeIDSearchInfo) true false T wq
    none fuel h0 h1 hst hlay hnd (framed_idle _ _) (fun _ => rfl) hfuel
  rw [VisitAllNTreeNodes_run fuel _ _ _ _ wq h0 h1] at hi
  have hrun : VisitAllNTreeNodes fuel (some w.fRoot) (some SearchForNodeID_ActionFunc) true false
      wq = (walkLoop (some T.ptr) (some SearchForNodeID_ActionFunc) true false fuel
        (loopEntry wq) (some T.ptr) []).map (fun r => exitPath r.1 r.2.1 r.2.2.1 r.2.2.2) := by
    rw [hroot]
    exact VisitAllNTreeNodes_run fuel _ _ _ _ wq h0 h1
  have hentry : (loopEntry wq).heap = w.heap ∧ (loopEntry wq).parm = wq.parm := by
    unfold loopEntry PushVisitedBits ClearVisitedBits
    simp only []
    split_ifs <;> (cases hv : wq.fVisitedBits <;> exact ⟨rfl, rfl⟩)
  cases hwl : walkLoop (some T.ptr) (some idle) true false fuel (loopEntry wq) (some T.ptr) [] with
  | none => simp [hwl] at hi
  | some r =>
    obtain ⟨w3, a, e, tr⟩ := r
    rw [hwl] at hi
    simp only [Option.map_some', Option.some.injEq] at hi
    have htr : tr = calm T.pre := by
      have := (exitPath_parm w3 a e tr).2.1
      rw [hi] at this
      simpa [order] using this.symm
    obtain ⟨ext, x1, x2, x3, x4⟩ := search_sim (some T.ptr) true false w.heap v fuel
      (loopEntry wq) (some T.ptr) [] w3 a e tr hentry.1 (by rw [hentry.2]; rfl) hwl
    have hext : ext = T.pre := by
      apply calm_injective
      rw [← htr, x1]
      simp
    subst hext
    unfold FindNodeByID
    cases hf : T.pre.find? (fun q => decide ((w.heap q).map NTreeNode.fID = some v)) with
    | none =>
      rw [List.find?_eq_none] at hf
      have hall : ∀ q ∈ T.pre, ∀ nd, w.heap q = some nd → nd.fID ≠ v := by
        intro q hq nd hq1 hid
        have := hf q hq
        simp [hq1, hid] at this
      have hs := x3 hall
      have hp := (exitPath_parm w3 a e tr).1
      have hnone : (exitPath w3 a e tr).2.1.parm.foundNode = none := by
        rw [hp, x2, hentry.2]; rfl
      refine ⟨withParm (exitPath w3 a e tr).2.1 w.parm, ?_⟩
      change (match VisitAllNTreeNodes fuel (some w.fRoot) (some SearchForNodeID_ActionFunc)
          true false wq with
        | none => none
        | some (_, w1, _) => some (w1.parm.foundNode, withParm w1 w.parm)) = _
      rw [hrun, hs]
      simp only [Option.map_some']
      rw [← hnone]
    | some q =>
      obtain ⟨hq, pfx, rest, hsplit, hpfx⟩ := List.find?_eq_some.mp hf
      have hqid : ∃ nd, w.heap q = some nd ∧ nd.fID = v := by
        cases hh : w.heap q with
        | none => simp [hh] at hq
        | some nd => exact ⟨nd, rfl, by simpa [hh] using hq⟩
      obtain ⟨nd, hq1, hq2⟩ := hqid
      obtain ⟨w2, y1, y2⟩ := x4 pfx q rest nd hsplit
        (by
          intro x hx nx hx1 hid
          have := hpfx x hx
          simp [hx1, hid] at this) hq1 hq2
      have hp := (exitPath_parm w2 true false ([] ++ calm pfx ++ [(q, true)])).1
      have hsome : (exitPath w2 true false ([] ++ calm pfx ++ [(q, true)])).2.1.parm.foundNode
          = some q := by
        rw [hp, y2]
      refine ⟨withParm (exitPath w2 true false ([] ++ calm pfx ++ [(q, true)])).2.1 w.parm, ?_⟩
      change (match VisitAllNTreeNodes fuel (some w.fRoot) (some SearchForNodeID_ActionFunc)
          true false wq with
        | none => none
        | some (_, w1, _) => some (w1.parm.foundNode, withParm w1 w.parm)) = _
      rw [hrun, y1]
      simp only [Option.map_some']
      rw [← hsome]

end NTree

/-! ## Pruning -/

namespace Shape

mutual
theorem layout_congr (h h1 : Nat → Option NTreeNode) :
    ∀ (S : Shape) (par : Option Nat), (∀ q ∈ S.pre, h1 q = h q) →
      layout h1 par S = layout h par S
  | node p i ks, par, hq => by
    unfold layout
    rw [hq p (by simp [pre])]
    cases h p with
    | none => rfl
    | some nd =>
      simp only []
      rw [layoutList_congr h h1 ks (some p) (fun q hm => hq q (by simp [pre, hm]))]
theorem layoutList_congr (h h1 : Nat → Option NTreeNode) :
    ∀ (ks : List Shape) (par : Option Nat), (∀ q ∈ preList ks, h1 q = h q) →
      layoutList h1 par ks = layoutList h par ks
  | [], _, _ => by simp [layoutList]
  | k :: ks, par, hq => by
    rw [layoutList_cons, layoutList_cons,
      layout_congr h h1 k par (fun q hm => hq q (by simp [preList, hm])),
      layoutList_congr h h1 ks par (fun q hm => hq q (by simp [preList, hm]))]
end

end Shape

namespace NTree

variable {σ : Type}

/-- The disposal callback on a node that is not the root and is in the child
list of its parent: the node leaves the list and is deleted. -/
theorem dispose_child (w : World σ) (c p : Nat) (cn pn : NTreeNode)
    (hc : w.heap c = some cn) (hid : cn.fID ≠ kRootID) (hpar : cn.fParent = some p)
    (hp : w.heap p = some pn) (hlen : pn.fChildren.length < 32768) :
    DisposeNTree_ActionFunc true c w
      = some (false, { w with heap := disposed w.heap p c pn }) := by
  unfold DisposeNTree_ActionFunc IsRoot disposed
  simp only [hc, hid, decide_False, hpar,
    NTreeNode.RemoveChildByAddress_ok w.heap p c pn hp hlen]
  simp

/-- The disposal callback on a node with the id of a root does nothing. -/
theorem dispose_root (w : World σ) (c : Nat) (cn : NTreeNode)
    (hc : w.heap c = some cn) (hid : cn.fID = kRootID) (mallocOk : Bool) :
    DisposeNTree_ActionFunc mallocOk c w = some (false, w) := by
  unfold DisposeNTree_ActionFunc IsRoot
  simp [hc, hid]

theorem node_no_children (nd : NTreeNode) (h : nd.fChildren = []) :
    { nd with fChildren := [] } = nd := by
  cases nd
  simp only [] at h
  subst h
  rfl

mutual
/-- From the arrival of the cursor of `Prune` at the top of a subtree none of
whose ids is marked, the loop deletes every node under the top and comes back
to the top, which is then marked and has no children. -/
theorem sub_prune (start : Option Nat) :
    ∀ (S : Shape) (w : World σ) (par : Option Nat) (tr : Trace),
      Shape.layout w.heap par S = true →
      S.ids.Nodup →
      S.pre.Nodup →
      kRootID ∉ Shape.idsList S.kids →
      w.fVisitedBits ≠ [] →
      (∀ i ∈ S.ids, vis w i = false) →
      (∀ q ∈ Shape.preList S.kids, some q ≠ start) →
      ∃ w1 nd, w.heap S.ptr = some nd ∧
        Pruned w w1 S.ptr nd (Shape.preList S.kids) S.ids ∧ ∀ fuel,
        walkLoop start (some (DisposeNTree_ActionFunc true)) false true (fuel + S.cost) w
            (some S.ptr) tr
          = walkLoop start (some (DisposeNTree_ActionFunc true)) false true fuel w1
              (some S.ptr) (tr ++ calm (Shape.postList S.kids))
  | .node p i ks, w, par, tr, hlay, hnd, hpn, hroot, hst, hun, hstart => by
    obtain ⟨nd, h1, h2, h3, h4, h5, h6, h7⟩ := Shape.layout_spec _ _ _ hlay
    simp only [Shape.ptr, Shape.id, Shape.kids] at h1 h2 h3 h5 h6 h7 hstart hroot
    have hun0 : vis w nd.fID = false := by rw [h2]; exact hun i (by simp [Shape.ids])
    obtain ⟨w1, hm, hw⟩ := kids_prune start ks w p nd tr h1 h5 h6 (by rw [h2]; exact h3) hun0
      h7 (by rw [h2]; simpa [Shape.ids] using hnd) (by simpa [Shape.pre] using hpn) hroot hst
      (fun j hj => hun j (by simp [Shape.ids, hj])) hstart
    refine ⟨w1, nd, h1, ?_, ?_⟩
    · rw [h2] at hm; simpa [Shape.ids, Shape.ptr, Shape.kids] using hm
    · intro fuel
      simp only [Shape.cost, Shape.ptr, Shape.kids]
      exact hw fuel
/-- The same for the children of a node that are still in its child list. -/
theorem kids_prune (start : Option Nat) :
    ∀ (rest : List Shape) (w : World σ) (p : Nat) (nd : NTreeNode) (tr : Trace),
      w.heap p = some nd →
      nd.fChildren = rest.map Shape.ptr →
      rest.length < 32768 →
      nd.fID < 65536 →
      vis w nd.fID = false →
      Shape.layoutList w.heap (some p) rest = true →
      (nd.fID :: Shape.idsList rest).Nodup →
      (p :: Shape.preList rest).Nodup →
      kRootID ∉ Shape.idsList rest →
      w.fVisitedBits ≠ [] →
      (∀ i ∈ Shape.idsList rest, vis w i = false) →
      (∀ q ∈ Shape.preList rest, some q ≠ start) →
      ∃ w1, Pruned w w1 p nd (Shape.preList rest) (nd.fID :: Shape.idsList rest) ∧ ∀ fuel,
        walkLoop start (some (DisposeNTree_ActionFunc true)) false true
            (fuel + (Shape.costList rest + 1)) w (some p) tr
          = walkLoop start (some (DisposeNTree_ActionFunc true)) false true fuel w1 (some p)
              (tr ++ calm (Shape.postList rest))
  | [], w, p, nd, tr, hheap, hch, hlen, hid, hv, hlay, hnd, hpn, hroot, hst, hun, hstart => by
    have hch0 : nd.fChildren = [] := by simpa using hch
    obtain ⟨w2, hs1, hs2⟩ := SetVisitedBit_marked w nd.fID hst hid
    obtain ⟨m1, m2, m3, m4, m5⟩ := hs2
    have hb := loopBody_mark start (some (DisposeNTree_ActionFunc true)) false true w w2 p nd tr
      hheap hst hv (by rw [hch0]; simp) (fun _ => rfl)
      (fun j hj => absurd hj (by rw [hch0]; simp)) hs1
    refine ⟨w2, ⟨?_, m2, (SetVisitedBit_frame w w2 _ _ hs1).2.2, m3, m4, ?_⟩, ?_⟩
    · intro q
      rw [m1]
      by_cases hq : q = p
      · subst hq
        rw [if_pos rfl, hheap, node_no_children nd hch0]
      · rw [if_neg hq]
        simp [Shape.preList]
    · simpa [Shape.idsList] using m5
    · intro fuel
      simp only [Shape.costList, Nat.zero_add]
      rw [walkLoop_next _ _ _ _ fuel w w2 p (some p) tr _ hb]
      simp [Shape.postList, calm]
  | k :: rest, w, p, nd, tr, hheap, hch, hlen, hid, hv, hlay, hnd, hpn, hroot, hst, hun,
      hstart => by
    -- facts about the child array
    have hclen : nd.fChildren.length = (k :: rest).length := by rw [hch, List.length_map]
    have hlenc : nd.fChildren.length < 32768 := by rw [hclen]; exact hlen
    have hklay : Shape.layout w.heap (some p) k = true :=
      Shape.layoutList_mem _ _ _ hlay k (by simp)
    have hrlay : Shape.layoutList w.heap (some p) rest = true := by
      rw [Shape.layoutList_cons, Bool.and_eq_true] at hlay
      exact hlay.2
    obtain ⟨knd, k1, k2, k3, k4, k5, k6, k7⟩ := Shape.layout_spec _ _ _ hklay
    have hcv : ∀ j (x : Shape), ([] ++ k :: rest)[j]? = some x →
        childVis w nd j = some (x.ptr, vis w x.id) :=
      fun j x hx => childVis_layout w nd (some p) _ hst (by simpa using hch)
        (by simpa using hlay) j x hx
    have hc : childVis w nd 0 = some (k.ptr, false) := by
      rw [hcv 0 k (by simp), hun k.id (by simp [Shape.idsList, Shape.id_mem_ids])]
    have hunv : ∀ j, 0 ≤ j → j < nd.fChildren.length →
        ∃ c, childVis w nd j = some (c, false) := by
      intro j _ h2
      rw [hclen] at h2
      have hx : ([] ++ k :: rest)[j]? = some (k :: rest)[j] := by
        simp only [List.nil_append]
        exact List.getElem?_eq_getElem h2
      refine ⟨(k :: rest)[j].ptr, ?_⟩
      rw [hcv j _ hx]
      rw [hun _ (Shape.ids_subset_idsList (k :: rest) _ (List.getElem_mem h2) _
        (Shape.id_mem_ids _))]
    -- first iteration: the cursor drops to `k`
    have hb1 := loopBody_descend start (some (DisposeNTree_ActionFunc true)) false true w p nd tr
      0 k.ptr hheap hst hv hlenc (by rw [hclen]; simp) hunv (fun h => absurd h (by omega)) hc
      (fun _ => rfl)
    -- pointers and ids are pairwise distinct
    have hpn1 := List.nodup_cons.mp hpn
    have hpre : Shape.preList (k :: rest) = k.pre ++ Shape.preList rest := by
      simp [Shape.preList]
    have hkpre : k.pre = k.ptr :: Shape.preList k.kids := by
      cases k with
      | node kp ki kks => simp [Shape.pre, Shape.ptr, Shape.kids]
    have hkids : k.ids = k.id :: Shape.idsList k.kids := by
      cases k with
      | node kp ki kks => simp [Shape.ids, Shape.id, Shape.kids]
    have hkcost : k.cost = Shape.costList k.kids + 1 := by
      cases k with
      | node kp ki kks => simp [Shape.cost, Shape.kids]
    have hkpost : k.post = Shape.postList k.kids ++ [k.ptr] := by
      cases k with
      | node kp ki kks => simp [Shape.post, Shape.ptr, Shape.kids]
    rw [hpre] at hpn1
    have hpk : p ∉ k.pre := fun h => hpn1.1 (List.mem_append.mpr (Or.inl h))
    have hpr : p ∉ Shape.preList rest := fun h => hpn1.1 (List.mem_append.mpr (Or.inr h))
    have hkn : k.pre.Nodup := (List.nodup_append.mp hpn1.2).1
    have hrn : (Shape.preList rest).Nodup := (List.nodup_append.mp hpn1.2).2.1
    have hdis : ∀ q, q ∈ k.pre → q ∉ Shape.preList rest :=
      fun q h1 h2 => (List.nodup_append.mp hpn1.2).2.2 h1 h2
    have hnd1 := List.nodup_cons.mp hnd
    have hids : Shape.idsList (k :: rest) = k.ids ++ Shape.idsList rest := by
      simp [Shape.idsList]
    rw [hids] at hnd1 hroot hun
    have hidk : nd.fID ∉ k.ids := fun h => hnd1.1 (List.mem_append.mpr (Or.inl h))
    have hidr : nd.fID ∉ Shape.idsList rest := fun h => hnd1.1 (List.mem_append.mpr (Or.inr h))
    have hkin : k.ids.Nodup := (List.nodup_append.mp hnd1.2).1
    have hrin : (Shape.idsList rest).Nodup := (List.nodup_append.mp hnd1.2).2.1
    have hidis : ∀ b, b ∈ k.ids → b ∉ Shape.idsList rest :=
      fun b h1 h2 => (List.nodup_append.mp hnd1.2).2.2 h1 h2
    have hkroot : k.id ≠ kRootID := fun h =>
      hroot (List.mem_append.mpr (Or.inl (h ▸ Shape.id_mem_ids k)))
    -- the subtree under `k`
    obtain ⟨w2, knd2, hk2, hm2, hw2⟩ := sub_prune start k w (some p) tr hklay hkin hkn
      (fun h => hroot (List.mem_append.mpr (Or.inl (by rw [hkids]; simp [h]))))
      hst (fun i hi => hun i (List.mem_append.mpr (Or.inl hi)))
      (fun q hq => hstart q (by rw [hpre, hkpre]; simp [hq]))
    rw [k1] at hk2
    cases hk2
    obtain ⟨g1, g2, g2r, g3, g4, g5⟩ := hm2
    -- the ascent from `k`, with the disposal of `k`
    have hk2 : w2.heap k.ptr = some { knd with fChildren := [] } := by rw [g1, if_pos rfl]
    have hp2 : w2.heap p = some nd := by
      rw [g1, if_neg (fun h => hpk (by rw [hkpre, h]; simp)),
        if_neg (fun h => hpk (by rw [hkpre]; simp [h])), hheap]
    have hkv2 : vis w2 k.id = true := by
      rw [g5 _ k3]
      simp [Shape.id_mem_ids]
    have hns : (decide (some k.ptr = start) && true) = false := by
      have := hstart k.ptr (by rw [hpre, hkpre]; simp)
      simp [this]
    have hact := dispose_child w2 k.ptr p { knd with fChildren := [] } nd hk2
      (by rw [k2]; exact hkroot) k4 hp2 hlenc
    have hb3 := loopBody_ascend_exit start (DisposeNTree_ActionFunc true) true w2 _ k.ptr
      { knd with fChildren := [] } (tr ++ calm (Shape.postList k.kids)) hk2 g3
      (by rw [k2]; exact hkv2) hact hns
    -- the state after the disposal
    have herase : nd.fChildren.erase k.ptr = rest.map Shape.ptr := by
      rw [hch]
      simp
    let w3 : World σ := { w2 with heap := disposed w2.heap p k.ptr nd }
    have hpk1 : p ≠ k.ptr := fun h => hpk (by rw [hkpre, h]; simp)
    have h3p : w3.heap p = some { nd with fChildren := rest.map Shape.ptr } := by
      simp [w3, disposed, herase, deleteNode, NTreeNode.setNode, hpk1]
    have h3q : ∀ q ∈ Shape.preList rest, w3.heap q = w.heap q := by
      intro q hq
      have a1 : q ≠ k.ptr := fun h => hdis q (by rw [hkpre, h]; simp) hq
      have a2 : q ≠ p := fun h => hpr (h ▸ hq)
      have a3 : q ∉ Shape.preList k.kids := fun h => hdis q (by rw [hkpre]; simp [h]) hq
      simp [w3, disposed, herase, deleteNode, NTreeNode.setNode, a1, a2, g1, a3]
    have hvis3 : ∀ b, b < 65536 → vis w3 b = (decide (b ∈ k.ids) || vis w b) := by
      intro b hb
      have : vis w3 b = vis w2 b := by simp [vis, w3]
      rw [this, g5 b hb]
    -- the remaining children
    obtain ⟨w4, hm4, hw4⟩ := kids_prune start rest w3 p
      { nd with fChildren := rest.map Shape.ptr }
      (tr ++ calm (Shape.postList k.kids) ++ [(k.ptr, false)]) h3p rfl
      (by simp only [List.length_cons] at hlen; omega) hid
      (by
        show vis w3 nd.fID = false
        rw [hvis3 _ hid, hv]
        simp [hidk])
      (by rw [Shape.layoutList_congr w.heap w3.heap rest (some p) h3q]; exact hrlay)
      (List.nodup_cons.mpr ⟨hidr, hrin⟩) (List.nodup_cons.mpr ⟨hpr, hrn⟩)
      (fun h => hroot (List.mem_append.mpr (Or.inr h))) g3
      (by
        intro i hi
        have hi65 : i < 65536 := Shape.idsList_lt w.heap rest (some p) hrlay i hi
        rw [hvis3 i hi65, hun i (List.mem_append.mpr (Or.inr hi))]
        have : i ∉ k.ids := fun h => hidis i h hi
        simp [this])
      (fun q hq => hstart q (by rw [hpre]; simp [hq]))
    refine ⟨w4, ?_, ?_⟩
    · obtain ⟨n1, n2, n2r, n3, n4, n5⟩ := hm4
      refine ⟨?_, n2.trans g2, n2r.trans g2r, n3, n4.trans g4, ?_⟩
      · intro q
        rw [n1 q]
        by_cases c1 : q = p
        · simp [c1]
        · rw [if_neg c1, if_neg c1]
          by_cases c2 : q ∈ Shape.preList rest
          · simp [hpre, c2]
          · rw [if_neg c2]
            by_cases c3 : q = k.ptr
            · simp [w3, disposed, herase, deleteNode, c3, hpre, hkpre]
            · by_cases c4 : q ∈ Shape.preList k.kids
              · simp [w3, disposed, herase, deleteNode, NTreeNode.setNode, c1, c3, g1, c4, hpre, hkpre]
              · simp [w3, disposed, herase, deleteNode, NTreeNode.setNode, c1, c2, c3, g1, c4, hpre, hkpre]
      · intro b hb
        rw [n5 b hb, hvis3 b hb]
        by_cases x1 : b = nd.fID <;> by_cases x2 : b ∈ k.ids <;>
          by_cases x3 : b ∈ Shape.idsList rest <;> simp [hids, x1, x2, x3]
    · intro fuel
      have hfuel : fuel + (Shape.costList (k :: rest) + 1)
          = (((fuel + (Shape.costList rest + 1)) + 1) + k.cost) + 1 := by
        simp only [Shape.costList]
        omega
      rw [hfuel, walkLoop_next _ _ _ _ _ w w p (some k.ptr) tr _ hb1, hw2,
        walkLoop_next _ _ _ _ _ w2 w3 k.ptr _ _ _ hb3]
      simp only [k4]
      rw [hw4]
      congr 1
      simp [Shape.postList, hkpost, calm, List.append_assoc]
end

end NTree

/-! ## Nodes below a node -/

namespace Shape

mutual
theorem subtree_pre_sublist : ∀ (S : Shape), ∀ X ∈ S.subtrees, List.Sublist X.pre S.pre
  | node p i ks, X, hX => by
    simp only [subtrees, List.mem_cons] at hX
    rcases hX with rfl | hX
    · exact List.Sublist.refl _
    · simp only [pre]
      exact (subtreeList_pre_sublist ks X hX).cons p
theorem subtreeList_pre_sublist : ∀ (ks : List Shape), ∀ X ∈ subtreesList ks,
    List.Sublist X.pre (preList ks)
  | [], X, hX => by simp [subtreesList] at hX
  | k :: ks, X, hX => by
    simp only [subtreesList, List.mem_append] at hX
    simp only [preList]
    rcases hX with hX | hX
    · exact (subtree_pre_sublist k X hX).trans (List.sublist_append_left _ _)
    · exact (subtreeList_pre_sublist ks X hX).trans (List.sublist_append_right _ _)
end

theorem self_mem_subtrees (S : Shape) : S ∈ S.subtrees := by
  cases S with
  | node p i ks => simp [subtrees]

theorem subtrees_eq (S : Shape) : S.subtrees = S :: subtreesList S.kids := by
  cases S with
  | node p i ks => simp [subtrees, kids]

theorem pre_eq (S : Shape) : S.pre = S.ptr :: preList S.kids := by
  cases S with
  | node p i ks => simp [pre, ptr, kids]

theorem ids_eq (S : Shape) : S.ids = S.id :: idsList S.kids := by
  cases S with
  | node p i ks => simp [ids, id, kids]

theorem post_eq (S : Shape) : S.post = postList S.kids ++ [S.ptr] := by
  cases S with
  | node p i ks => simp [post, ptr, kids]

theorem cost_eq (S : Shape) : S.cost = costList S.kids + 1 := by
  cases S with
  | node p i ks => simp [cost, kids]

theorem kids_ptr_nodup : ∀ (ks : List Shape), (preList ks).Nodup → (ks.map ptr).Nodup
  | [], _ => by simp
  | k :: ks, hn => by
    simp only [preList] at hn
    obtain ⟨_, h2, h3⟩ := List.nodup_append.mp hn
    simp only [List.map_cons, List.nodup_cons]
    refine ⟨?_, kids_ptr_nodup ks h2⟩
    intro hm
    obtain ⟨k1, hk1, e⟩ := List.mem_map.mp hm
    exact h3 (ptr_mem_pre k) (e ▸ pre_subset_preList ks k1 hk1 _ (ptr_mem_pre k1))

mutual
/-- A proper subtree of a tree in the heap lies under a node of the tree: that
node is its parent, holds it in its child list, and is not a node of the
subtree. -/
theorem locate (h : Nat → Option NTreeNode) :
    ∀ (S : Shape) (par : Option Nat), layout h par S = true → S.pre.Nodup →
      ∀ X ∈ subtreesList S.kids, ∃ P Pn, P ∈ S.pre ∧ h P = some Pn ∧ X.ptr ∈ Pn.fChildren ∧
        Pn.fChildren.Nodup ∧ Pn.fChildren.length < 32768 ∧ layout h (some P) X = true ∧
        P ∉ X.pre
  | node p i ks, par, hl, hn, X, hX => by
    obtain ⟨nd, h1, _, _, _, h5, h6, h7⟩ := layout_spec h par _ hl
    simp only [ptr, kids] at h1 h5 h6 h7 hX
    simp only [pre, List.nodup_cons] at hn
    rcases locateList h ks (some p) h7 hn.2 X hX with e | ⟨P, Pn, a, b⟩
    · refine ⟨p, nd, by simp [pre], h1, ?_, ?_, ?_, layoutList_mem h _ ks h7 X e, ?_⟩
      · rw [h5]
        exact List.mem_map.mpr ⟨X, e, rfl⟩
      · rw [h5]
        exact kids_ptr_nodup ks hn.2
      · rw [h5, List.length_map]
        exact h6
      · exact fun hp => hn.1 (pre_subset_preList ks X e p hp)
    · exact ⟨P, Pn, by simp [pre, a], b⟩
/-- The same for a list of trees: the subtree is one of them, or lies under a
node of them. -/
theorem locateList (h : Nat → Option NTreeNode) :
    ∀ (ks : List Shape) (par : Option Nat), layoutList h par ks = true → (preList ks).Nodup →
      ∀ X ∈ subtreesList ks, X ∈ ks ∨
        ∃ P Pn, P ∈ preList ks ∧ h P = some Pn ∧ X.ptr ∈ Pn.fChildren ∧
          Pn.fChildren.Nodup ∧ Pn.fChildren.length < 32768 ∧ layout h (some P) X = true ∧
          P ∉ X.pre
  | [], _, _, _, X, hX => by simp [subtreesList] at hX
  | k :: ks, par, hl, hn, X, hX => by
    rw [layoutList_cons, Bool.and_eq_true] at hl
    simp only [preList] at hn
    obtain ⟨n1, n2, _⟩ := List.nodup_append.mp hn
    simp only [subtreesList, List.mem_append] at hX
    rcases hX with hX | hX
    · rw [subtrees_eq, List.mem_cons] at hX
      rcases hX with e | hX
      · exact Or.inl (e ▸ List.mem_cons_self _ _)
      · obtain ⟨P, Pn, a, b⟩ := locate h k par hl.1 n1 X hX
        exact Or.inr ⟨P, Pn, by simp [preList, a], b⟩
    · rcases locateList h ks par hl.2 n2 X hX with e | ⟨P, Pn, a, b⟩
      · exact Or.inl (List.mem_cons_of_mem _ e)
      · exact Or.inr ⟨P, Pn, by simp [preList, a], b⟩
end

mutual
/-- The child lists of the nodes of a tree in the heap hold nodes of the tree
only, each with its parent link set to the owner of the list. -/
theorem pre_closed (h : Nat → Option NTreeNode) :
    ∀ (S : Shape) (par : Option Nat), layout h par S = true →
      ∀ p ∈ S.pre, ∀ nd, h p = some nd → ∀ c ∈ nd.fChildren,
        c ∈ S.pre ∧ ∃ cn, h c = some cn ∧ cn.fParent = some p
  | node p0 i ks, par, hl, p, hp, nd, hnd, c, hc => by
    obtain ⟨nd0, h1, _, _, _, h5, _, h7⟩ := layout_spec h par _ hl
    simp only [ptr, kids] at h1 h5 h7
    simp only [pre, List.mem_cons] at hp
    rcases hp with e | hp
    · subst e
      rw [h1] at hnd
      cases hnd
      rw [h5] at hc
      obtain ⟨k, hk, e⟩ := List.mem_map.mp hc
      subst e
      obtain ⟨kn, k1, _, _, k4, _⟩ := layout_spec h _ _ (layoutList_mem h _ ks h7 k hk)
      exact ⟨by simp [pre, pre_subset_preList ks k hk _ (ptr_mem_pre k)], kn, k1, k4⟩
    · obtain ⟨a, b⟩ := preList_closed h ks (some p0) h7 p hp nd hnd c hc
      exact ⟨by simp [pre, a], b⟩
theorem preList_closed (h : Nat → Option NTreeNode) :
    ∀ (ks : List Shape) (par : Option Nat), layoutList h par ks = true →
      ∀ p ∈ preList ks, ∀ nd, h p = some nd → ∀ c ∈ nd.fChildren,
        c ∈ preList ks ∧ ∃ cn, h c = some cn ∧ cn.fParent = some p
  | [], _, _, p, hp, _, _, _, _ => by simp [preList] at hp
  | k :: ks, par, hl, p, hp, nd, hnd, c, hc => by
    rw [layoutList_cons, Bool.and_eq_true] at hl
    simp only [preList, List.mem_append] at hp
    rcases hp with hp | hp
    · obtain ⟨a, b⟩ := pre_closed h k par hl.1 p hp nd hnd c hc
      exact ⟨by simp [preList, a], b⟩
    · obtain ⟨a, b⟩ := preList_closed h ks par hl.2 p hp nd hnd c hc
      exact ⟨by simp [preList, a], b⟩
end

end Shape

namespace NTree

theorem below_trans (h : Nat → Option NTreeNode) (a b c : Nat) (h1 : Below h a b)
    (h2 : Below h b c) : Below h a c := by
  induction h2 with
  | self => exact h1
  | child p c nd _ hp hc ih => exact Below.child p c nd ih hp hc

mutual
theorem pre_below (h : Nat → Option NTreeNode) :
    ∀ (S : Shape) (par : Option Nat), Shape.layout h par S = true →
      ∀ q ∈ S.pre, Below h S.ptr q
  | .node p i ks, par, hl, q, hq => by
    obtain ⟨nd, h1, _, _, _, h5, _, h7⟩ := Shape.layout_spec h par _ hl
    simp only [Shape.ptr, Shape.kids] at h1 h5 h7
    simp only [Shape.pre, List.mem_cons] at hq
    rcases hq with e | hq
    · subst e
      exact Below.self
    · exact preList_below h ks p nd h1 (fun k hk => by rw [h5]; exact List.mem_map.mpr ⟨k, hk, rfl⟩)
        h7 q hq
theorem preList_below (h : Nat → Option NTreeNode) :
    ∀ (ks : List Shape) (p : Nat) (nd : NTreeNode), h p = some nd →
      (∀ k ∈ ks, k.ptr ∈ nd.fChildren) → Shape.layoutList h (some p) ks = true →
      ∀ q ∈ Shape.preList ks, Below h p q
  | [], _, _, _, _, _, q, hq => by simp [Shape.preList] at hq
  | k :: ks, p, nd, hp, hm, hl, q, hq => by
    rw [Shape.layoutList_cons, Bool.and_eq_true] at hl
    simp only [Shape.preList, List.mem_append] at hq
    rcases hq with hq | hq
    · exact below_trans h p k.ptr q (Below.child p k.ptr nd Below.self hp (hm k (by simp)))
        (pre_below h k (some p) hl.1 q hq)
    · exact preList_below h ks p nd hp (fun k1 hk1 => hm k1 (List.mem_cons_of_mem _ hk1)) hl.2 q hq
end

/-- The nodes reached from the top of a tree in the heap through child lists
are the nodes of the tree. -/
theorem below_iff_pre (h : Nat → Option NTreeNode) (S : Shape) (par : Option Nat)
    (hl : Shape.layout h par S = true) (q : Nat) : Below h S.ptr q ↔ q ∈ S.pre := by
  constructor
  · intro hb
    induction hb with
    | self => exact Shape.ptr_mem_pre S
    | child p c nd _ hp hc ih => exact (Shape.pre_closed h S par hl p ih nd hp c hc).1
  · exact pre_below h S par hl q

/-- The nodes reached from `r` after the nodes `G`, those below the child `x`
of `P`, were deleted and `x` was taken out of the child list of `P`: the nodes
reached before that are not below `x`. -/
theorem reach_after_prune (h h1 : Nat → Option NTreeNode) (r x P : Nat) (Pn : NTreeNode)
    (G : List Nat)
    (hG : ∀ q, q ∈ G ↔ Below h x q)
    (hP : h P = some Pn) (hx : x ∈ Pn.fChildren) (hPn : Pn.fChildren.Nodup)
    (hrP : Below h r P) (hr : r ∉ G)
    (hpar : ∀ p pn c, Below h r p → h p = some pn → c ∈ pn.fChildren →
      ∃ cn, h c = some cn ∧ cn.fParent = some p)
    (hh1 : ∀ q, h1 q = if q ∈ G then none
      else if q = P then some { Pn with fChildren := Pn.fChildren.erase x } else h q) :
    ∀ q, Below h1 r q ↔ (Below h r q ∧ q ∉ G) := by
  have hrx : Below h r x := Below.child P x Pn hrP hP hx
  intro q
  constructor
  · intro hb
    induction hb with
    | self => exact ⟨Below.self, hr⟩
    | child p c nd1 _ hp1 hc ih =>
      obtain ⟨ihb, ihG⟩ := ih
      have e1 := hh1 p
      rw [if_neg ihG, hp1] at e1
      have key : ∃ pn, h p = some pn ∧ c ∈ pn.fChildren ∧ c ≠ x := by
        by_cases e : p = P
        · rw [if_pos e] at e1
          cases e1
          obtain ⟨a, b⟩ := (List.Nodup.mem_erase_iff hPn).mp hc
          exact ⟨Pn, e ▸ hP, b, a⟩
        · rw [if_neg e] at e1
          refine ⟨nd1, e1.symm, hc, ?_⟩
          intro ex
          subst ex
          obtain ⟨cn1, a1, a2⟩ := hpar p nd1 c ihb e1.symm hc
          obtain ⟨cn2, b1, b2⟩ := hpar P Pn c hrP hP hx
          rw [a1] at b1
          cases b1
          rw [a2] at b2
          exact e (Option.some.inj b2)
      obtain ⟨pn, hp, hcm, hcx⟩ := key
      refine ⟨Below.child p c pn ihb hp hcm, ?_⟩
      intro hcG
      have hbx := (hG c).mp hcG
      cases hbx with
      | self => exact hcx rfl
      | child p1 _ nd2 hb2 hp2 hc2 =>
        obtain ⟨cn1, a1, a2⟩ := hpar p1 nd2 c (below_trans h r x p1 hrx hb2) hp2 hc2
        obtain ⟨cn2, b1, b2⟩ := hpar p pn c ihb hp hcm
        rw [a1] at b1
        cases b1
        rw [a2] at b2
        have e := Option.some.inj b2
        subst e
        exact ihG ((hG p1).mpr hb2)
  · intro hq
    obtain ⟨hb, hqG⟩ := hq
    revert hqG
    induction hb with
    | self => exact fun _ => Below.self
    | child p c nd _ hp hc ih =>
      intro hqG
      have hpG : p ∉ G := fun hpG =>
        hqG ((hG c).mpr (Below.child p c nd ((hG p).mp hpG) hp hc))
      have hcx : c ≠ x := fun e => hqG ((hG c).mpr (e ▸ Below.self))
      have e1 := hh1 p
      rw [if_neg hpG] at e1
      by_cases e : p = P
      · rw [if_pos e] at e1
        have : nd = Pn := by
          rw [e, hP] at hp
          exact (Option.some.inj hp).symm
        subst this
        exact Below.child p c _ (ih hpG) e1 ((List.Nodup.mem_erase_iff hPn).mpr ⟨hcx, hc⟩)
      · rw [if_neg e, hp] at e1
        exact Below.child p c nd (ih hpG) e1 hc

end NTree

namespace NTree

variable {σ : Type}

theorem loopEntry_spec (w : World σ) (h0 : 0 ≤ w.entryCount) (h1 : w.entryCount < 32)
    (hst : w.fVisitedBits ≠ []) :
    (loopEntry w).heap = w.heap ∧ (loopEntry w).entryCount = w.entryCount + 1 ∧
      (loopEntry w).fVisitedBits ≠ [] ∧ (∀ b, b < 65536 → vis (loopEntry w) b = false) ∧
      (w.entryCount = 0 → (loopEntry w).fVisitedBits.tail = w.fVisitedBits.tail) ∧
      (0 < w.entryCount → (loopEntry w).fVisitedBits.tail = w.fVisitedBits) ∧
      (loopEntry w).fRoot = w.fRoot := by
  obtain ⟨w2, hw2, a1, a2, a3, a4, a5, a6⟩ := enter_world w h0 h1 hst
  have he : loopEntry w = w2 := hw2
  rw [he]
  refine ⟨a1, a2, a3, a4, a5, a6, ?_⟩
  rw [← he]
  unfold loopEntry PushVisitedBits ClearVisitedBits
  simp only []
  split_ifs <;> (cases w.fVisitedBits <;> rfl)

/-- The walk of `Prune` from the top of a subtree up to its last iteration:
every node under the top is deleted; the call returns what the exit path makes
of the state in which the disposal callback leaves the top. -/
theorem prune_top (X : Shape) (w : World σ) (par : Option Nat) (fuel : Nat)
    (h0 : 0 ≤ w.entryCount) (h1 : w.entryCount < 32) (hst : w.fVisitedBits ≠ [])
    (hlay : Shape.layout w.heap par X = true) (hids : X.ids.Nodup)
    (hroot : kRootID ∉ Shape.idsList X.kids) (hfuel : X.cost + 1 ≤ fuel) :
    ∃ w3 nd, w.heap X.ptr = some nd ∧
      Pruned (loopEntry w) w3 X.ptr nd (Shape.preList X.kids) X.ids ∧
      ∀ w4, DisposeNTree_ActionFunc true X.ptr w3 = some (false, w4) →
        Prune fuel true (some X.ptr) w = some (exitPath w4 true true (calm X.post)) := by
  obtain ⟨a1, a2, a3, a4, a5, a6, a7⟩ := loopEntry_spec w h0 h1 hst
  have hpn := Shape.pre_nodup w.heap X par hlay hids
  obtain ⟨w3, nd, hnd, hm, hw3⟩ := sub_prune (some X.ptr) X (loopEntry w) par []
    (by rw [a1]; exact hlay) hids hpn hroot a3
    (fun i hi => a4 i (Shape.ids_lt w.heap X par hlay i hi))
    (fun q hq he => Shape.top_not_below w.heap X par hlay hids q hq (Option.some.inj he))
  rw [a1] at hnd
  refine ⟨w3, nd, hnd, hm, ?_⟩
  intro w4 hact
  obtain ⟨g1, g2, g2r, g3, g4, g5⟩ := hm
  obtain ⟨nd0, n1, n2, n3, n4, _⟩ := Shape.layout_spec _ _ _ hlay
  rw [hnd] at n1
  cases n1
  have hk3 : w3.heap X.ptr = some { nd with fChildren := [] } := by rw [g1, if_pos rfl]
  have hv3 : vis w3 nd.fID = true := by
    rw [n2, g5 _ n3]
    simp [Shape.id_mem_ids]
  have hbody := loopBody_end_exit (DisposeNTree_ActionFunc true) w3 w4 X.ptr
    { nd with fChildren := [] } ([] ++ calm (Shape.postList X.kids)) hk3 g3 hv3 hact
  have hf : fuel = (fuel - X.cost - 1 + 1) + X.cost := by omega
  unfold Prune
  rw [VisitAllNTreeNodes_run fuel _ _ _ _ w h0 h1, hf, hw3,
    walkLoop_exit _ _ _ _ _ w3 w4 X.ptr _ _ _ _ hbody]
  simp only [Option.map_some']
  rw [Shape.post_eq]
  simp [calm]

theorem exitPath_flag (w : World σ) (tr : Trace) :
    (exitPath w true true tr).1 = false := by
  simp [exitPath]

/-- The state in which a call of the walk returns, when the loop has kept the
count of active walks and the buffers below the top. -/
theorem exitPath_state (w w4 : World σ) (a e : Bool) (tr : Trace)
    (h0 : 0 ≤ w.entryCount) (h1 : w.entryCount < 32) (hst : w.fVisitedBits ≠ [])
    (g2 : w4.entryCount = (loopEntry w).entryCount) (g3 : w4.fVisitedBits ≠ [])
    (g4 : w4.fVisitedBits.tail = (loopEntry w).fVisitedBits.tail) :
    (exitPath w4 a e tr).2.1.heap = w4.heap ∧ (exitPath w4 a e tr).2.1.fRoot = w4.fRoot ∧
      (exitPath w4 a e tr).2.1.entryCount = w.entryCount ∧
      (exitPath w4 a e tr).2.1.fVisitedBits.length = w.fVisitedBits.length := by
  obtain ⟨a1, a2, a3, a4, a5, a6, a7⟩ := loopEntry_spec w h0 h1 hst
  have hp := exitPath_parm w4 a e tr
  let wh : World σ := { w with heap := w4.heap }
  obtain ⟨w5, x1, x2⟩ := exitPath_returned wh (loopEntry w) w4 a e tr h0 h1 rfl
    (by rw [g2, a2]) g3 g4 a5 a6 hst
  rw [x1]
  rw [x1] at hp
  exact ⟨hp.2.2.1, hp.2.2.2, x2.2.1, x2.2.2.1⟩

/-- `Prune` of a subtree whose top is in the child list of the node `P`. -/
theorem Prune_branch (X : Shape) (w : World σ) (P : Nat) (Pn : NTreeNode) (fuel : Nat)
    (h0 : 0 ≤ w.entryCount) (h1 : w.entryCount < 32) (hst : w.fVisitedBits ≠ [])
    (hlay : Shape.layout w.heap (some P) X = true) (hids : X.ids.Nodup)
    (hroot : kRootID ∉ X.ids) (hP : w.heap P = some Pn) (hPX : P ∉ X.pre)
    (hlen : Pn.fChildren.length < 32768) (hfuel : X.cost + 1 ≤ fuel) :
    ∃ w1, Prune fuel true (some X.ptr) w = some (false, w1, calm X.post) ∧
      (∀ q, w1.heap q = if q ∈ X.pre then none
        else if q = P then some { Pn with fChildren := Pn.fChildren.erase X.ptr }
        else w.heap q) ∧
      w1.fRoot = w.fRoot ∧ w1.entryCount = w.entryCount ∧
      w1.fVisitedBits.length = w.fVisitedBits.length := by
  rw [Shape.ids_eq] at hroot
  obtain ⟨w3, nd, hnd, hm, hrun⟩ := prune_top X w (some P) fuel h0 h1 hst hlay hids
    (fun h => hroot (List.mem_cons_of_mem _ h)) hfuel
  obtain ⟨a1, a2, a3, a4, a5, a6, a7⟩ := loopEntry_spec w h0 h1 hst
  obtain ⟨g1, g2, g2r, g3, g4, g5⟩ := hm
  obtain ⟨nd0, n1, n2, n3, n4, _⟩ := Shape.layout_spec _ _ _ hlay
  rw [hnd] at n1
  cases n1
  have hk3 : w3.heap X.ptr = some { nd with fChildren := [] } := by rw [g1, if_pos rfl]
  rw [Shape.pre_eq] at hPX
  have hP1 : P ≠ X.ptr := fun h => hPX (by simp [h])
  have hP2 : P ∉ Shape.preList X.kids := fun h => hPX (List.mem_cons_of_mem _ h)
  have hp3 : w3.heap P = some Pn := by rw [g1, if_neg hP1, if_neg hP2, a1, hP]
  have hact := dispose_child w3 X.ptr P { nd with fChildren := [] } Pn hk3
    (by
      show nd.fID ≠ kRootID
      rw [n2]
      exact fun h => hroot (by simp [h]))
    n4 hp3 hlen
  have hres := hrun _ hact
  obtain ⟨s1, s2, s3, s4⟩ := exitPath_state w { w3 with heap := disposed w3.heap P X.ptr Pn }
    true true (calm X.post) h0 h1 hst g2 g3 g4
  have hfl := exitPath_flag { w3 with heap := disposed w3.heap P X.ptr Pn } (calm X.post)
  have htr := (exitPath_parm { w3 with heap := disposed w3.heap P X.ptr Pn } true true
    (calm X.post)).2.1
  refine ⟨(exitPath { w3 with heap := disposed w3.heap P X.ptr Pn } true true
    (calm X.post)).2.1, ?_, ?_, ?_, s3, s4⟩
  · rw [hres]
    exact congrArg some (Prod.ext hfl (Prod.ext rfl htr))
  · intro q
    rw [s1]
    show disposed w3.heap P X.ptr Pn q = _
    unfold disposed deleteNode NTreeNode.setNode
    rw [Shape.pre_eq]
    by_cases c1 : q = X.ptr
    · simp [c1]
    · by_cases c2 : q ∈ Shape.preList X.kids
      · have c3 : q ≠ P := fun h => hP2 (h ▸ c2)
        simp [c1, c2, c3, g1]
      · by_cases c3 : q = P
        · subst c3
          simp [hP1, hP2]
        · simp [c1, c2, c3, g1, a1]
  · rw [s2]
    exact g2r.trans a7

/-- `Prune` of a whole tree whose root has the id of a root. -/
theorem Prune_whole (T : Shape) (w : World σ) (par : Option Nat) (fuel : Nat)
    (h0 : 0 ≤ w.entryCount) (h1 : w.entryCount < 32) (hst : w.fVisitedBits ≠ [])
    (hlay : Shape.layout w.heap par T = true) (hids : T.ids.Nodup)
    (hid : T.id = kRootID) (hfuel : T.cost + 1 ≤ fuel) :
    ∃ w1 nd, w.heap T.ptr = some nd ∧
      Prune fuel true (some T.ptr) w = some (false, w1, calm T.post) ∧
      (∀ q, w1.heap q = if q = T.ptr then some { nd with fChildren := [] }
        else if q ∈ Shape.preList T.kids then none else w.heap q) ∧
      w1.fRoot = w.fRoot ∧ w1.entryCount = w.entryCount ∧
      w1.fVisitedBits.length = w.fVisitedBits.length := by
  have hroot : kRootID ∉ Shape.idsList T.kids := by
    rw [Shape.ids_eq, List.nodup_cons, hid] at hids
    exact hids.1
  obtain ⟨w3, nd, hnd, hm, hrun⟩ := prune_top T w par fuel h0 h1 hst hlay hids hroot hfuel
  obtain ⟨a1, a2, a3, a4, a5, a6, a7⟩ := loopEntry_spec w h0 h1 hst
  obtain ⟨g1, g2, g2r, g3, g4, g5⟩ := hm
  obtain ⟨nd0, n1, n2, n3, n4, _⟩ := Shape.layout_spec _ _ _ hlay
  rw [hnd] at n1
  cases n1
  have hk3 : w3.heap T.ptr = some { nd with fChildren := [] } := by rw [g1, if_pos rfl]
  have hact := dispose_root w3 T.ptr { nd with fChildren := [] } hk3
    (by
      show nd.fID = kRootID
      rw [n2, hid]) true
  have hres := hrun _ hact
  obtain ⟨s1, s2, s3, s4⟩ := exitPath_state w w3 true true (calm T.post) h0 h1 hst g2 g3 g4
  have hfl := exitPath_flag w3 (calm T.post)
  have htr := (exitPath_parm w3 true true (calm T.post)).2.1
  refine ⟨(exitPath w3 true true (calm T.post)).2.1, nd, hnd, ?_, ?_, ?_, s3, s4⟩
  · rw [hres]
    exact congrArg some (Prod.ext hfl (Prod.ext rfl htr))
  · intro q
    rw [s1, g1, a1]
  · rw [s2]
    exact g2r.trans a7

end NTree

/-! ## The strict hierarchy and `Move` -/

namespace NTree

theorem below_leaf (h : Nat → Option NTreeNode) (n q : Nat) (nd : NTreeNode)
    (hn : h n = some nd) (hc : nd.fChildren = []) (hb : Below h n q) : q = n := by
  induction hb with
  | self => rfl
  | child p c pn _ hp hm ih =>
    subst ih
    rw [hn] at hp
    cases hp
    rw [hc] at hm
    cases hm

theorem workHeap_none (q : Nat) (hq : 5 < q) : NTreeNode.workHeap q = none := by
  unfold NTreeNode.workHeap sampleHeap
  split
  · omega
  · split <;> first | omega | rfl

theorem workHeap_hierarchy : StrictHierarchy NTreeNode.workHeap := by
  have hcases : ∀ p pn, NTreeNode.workHeap p = some pn →
      (p = 0 ∧ pn.fChildren = [1, 2, 4]) ∨ (p = 1 ∧ pn.fChildren = [3]) ∨
        pn.fChildren = [] := by
    intro p pn hp
    have hp5 : p ≤ 5 := by
      by_contra hgt
      rw [workHeap_none p (by omega)] at hp
      cases hp
    interval_cases p <;>
      simp [NTreeNode.workHeap, sampleHeap, mkNode, NTreeNode.create] at hp <;> subst hp <;>
      simp
  refine ⟨?_, ?_, ⟨fun q => q, ?_⟩⟩
  · intro p pn c hp hc
    rcases hcases p pn hp with ⟨rfl, e⟩ | ⟨rfl, e⟩ | e
    · rw [e] at hc
      simp only [List.mem_cons, List.mem_singleton, List.not_mem_nil, or_false] at hc
      rcases hc with rfl | rfl | rfl <;> exact ⟨_, rfl, rfl⟩
    · rw [e] at hc
      simp only [List.mem_singleton] at hc
      subst hc
      exact ⟨_, rfl, rfl⟩
    · rw [e] at hc
      cases hc
  · intro p pn hp
    rcases hcases p pn hp with ⟨_, e⟩ | ⟨_, e⟩ | e <;> rw [e] <;> decide
  · intro p pn c hp hc
    rcases hcases p pn hp with ⟨rfl, e⟩ | ⟨rfl, e⟩ | e
    · rw [e] at hc
      simp only [List.mem_cons, List.mem_singleton, List.not_mem_nil, or_false] at hc
      rcases hc with rfl | rfl | rfl <;> decide
    · rw [e] at hc
      simp only [List.mem_singleton] at hc
      subst hc
      decide
    · rw [e] at hc
      cases hc

/-- C21 (as stated, refuted): `Move` of node 3 of the sample tree under itself,
and of node 1 under its child 3, both return 0 and leave a cycle: the heap is
no strict hierarchy any more. -/
theorem Move_under_itself_breaks_hierarchy :
    StrictHierarchy NTreeNode.workHeap ∧
      (∃ h2, NTreeNode.Move NTreeNode.workHeap 3 3 0 true true = some (0, h2) ∧
        NTreeNode.links h2 3 = some ([3], some 3) ∧ ¬ StrictHierarchy h2) ∧
      (∃ h2, NTreeNode.Move NTreeNode.workHeap 1 3 0 true true = some (0, h2) ∧
        NTreeNode.links h2 1 = some ([3], some 3) ∧
        NTreeNode.links h2 3 = some ([1], some 1) ∧ ¬ StrictHierarchy h2) := by
  refine ⟨workHeap_hierarchy, ?_, ?_⟩
  · have ho : NTreeNode.outcome (NTreeNode.Move NTreeNode.workHeap 3 3 0 true true) [3]
        = some (0, [some ([3], some 3)]) := by decide
    cases hm : NTreeNode.Move NTreeNode.workHeap 3 3 0 true true with
    | none => simp [NTreeNode.outcome, hm] at ho
    | some r =>
      obtain ⟨e, h2⟩ := r
      simp only [NTreeNode.outcome, hm, Option.map_some', Option.some.injEq, Prod.mk.injEq,
        List.map_cons, List.map_nil, List.cons.injEq, and_true] at ho
      obtain ⟨rfl, hl⟩ := ho
      refine ⟨h2, rfl, hl, ?_⟩
      intro hH
      obtain ⟨_, _, rank, hr⟩ := hH
      unfold NTreeNode.links at hl
      cases h3 : h2 3 with
      | none => simp [h3] at hl
      | some nd =>
        simp only [h3, Option.map_some', Option.some.injEq, Prod.mk.injEq] at hl
        have := hr 3 nd 3 h3 (by rw [hl.1]; simp)
        omega
  · have ho : NTreeNode.outcome (NTreeNode.Move NTreeNode.workHeap 1 3 0 true true) [1, 3]
        = some (0, [some ([3], some 3), some ([1], some 1)]) := by decide
    cases hm : NTreeNode.Move NTreeNode.workHeap 1 3 0 true true with
    | none => simp [NTreeNode.outcome, hm] at ho
    | some r =>
      obtain ⟨e, h2⟩ := r
      simp only [NTreeNode.outcome, hm, Option.map_some', Option.some.injEq, Prod.mk.injEq,
        List.map_cons, List.map_nil, List.cons.injEq, and_true] at ho
      obtain ⟨rfl, hl1, hl3⟩ := ho
      refine ⟨h2, rfl, hl1, hl3, ?_⟩
      intro hH
      obtain ⟨_, _, rank, hr⟩ := hH
      unfold NTreeNode.links at hl1 hl3
      cases h1 : h2 1 with
      | none => simp [h1] at hl1
      | some n1 =>
        cases h3 : h2 3 with
        | none => simp [h3] at hl3
        | some n3 =>
          simp only [h1, h3, Option.map_some', Option.some.injEq, Prod.mk.injEq] at hl1 hl3
          have a := hr 1 n1 3 h1 (by rw [hl1.1]; simp)
          have b := hr 3 n3 1 h3 (by rw [hl3.1]; simp)
          omega

/-- C21 (amended): from a strict hierarchy, `Move` of a node that is in the
child list of its parent to a new parent that is neither the node itself nor
below it, at an index that is not negative and with both allocations
succeeding, returns 0 and leaves a strict hierarchy. -/
theorem Move_keeps_hierarchy (h : Nat → Option NTreeNode) (n np P : Nat) (i : Int)
    (nd Pnd np0 : NTreeNode)
    (hH : StrictHierarchy h) (hn : h n = some nd) (hP : nd.fParent = some P)
    (hPn : h P = some Pnd) (hmem : n ∈ Pnd.fChildren) (hnp0 : h np = some np0)
    (hnot : ¬ Below h n np) (hi : 0 ≤ i)
    (hPlen : Pnd.fChildren.length < 32768) (hlen : np0.fChildren.length + 1 < 32768) :
    ∃ h2, NTreeNode.Move h n np i true true = some (0, h2) ∧ StrictHierarchy h2 := by
  obtain ⟨npnd, _, e1, e2, _, _⟩ := hierarchy_after_move h n np P nd Pnd np0 0 hH hn hP hPn
    hmem hnp0 hnot
  obtain ⟨npnd1, nd1, f1, _, f3, f4⟩ := hierarchy_after_move h n np P nd Pnd np0
    (min i.toNat npnd.fChildren.length) hH hn hP hPn hmem hnp0 hnot
  rw [e1] at f1
  cases f1
  exact ⟨_, NTreeNode.Move_ok h n np P i nd Pnd npnd nd1 hn hP hPn hPlen e1 hi (by omega) f3,
    f4⟩

theorem Move_keeps_hierarchy_witness :
    StrictHierarchy NTreeNode.workHeap ∧ ¬ Below NTreeNode.workHeap 3 0 ∧
      ∃ h2, NTreeNode.Move NTreeNode.workHeap 3 0 0 true true = some (0, h2) ∧
        StrictHierarchy h2 :=
  ⟨workHeap_hierarchy,
    fun hb => absurd (below_leaf NTreeNode.workHeap 3 0 (mkNode 3 (some 1) []) rfl rfl hb)
      (by decide),
    Move_keeps_hierarchy NTreeNode.workHeap 3 0 1 0 (mkNode 3 (some 1) [])
      (mkNode 1 (some 0) [3]) (mkNode 0xFFFF none [1, 2, 4]) workHeap_hierarchy rfl rfl rfl
      (by decide)
      rfl (fun hb => absurd (below_leaf NTreeNode.workHeap 3 0 (mkNode 3 (some 1) []) rfl rfl hb)
        (by decide))
      (by decide) (by decide) (by decide)⟩

end NTree

/-! ## The tree object -/

namespace NTree

variable {σ : Type}

/-- C22: on a tree with pairwise distinct ids, `FindNodeByID(v)` returns the
first node in pre-order whose id is `v`.  That is the only node of the tree
with the id `v` if there is one, the root for the id of the root, and null if
no node of the tree has the id `v`; a node that is returned has the id `v`. -/
theorem FindNodeByID_returns_first_match (T : Shape) (w : World σ) (v fuel : Nat)
    (hcount0 : 0 ≤ w.entryCount) (hcount : w.entryCount < 32)
    (hbits : w.fVisitedBits ≠ []) (hroot : w.fRoot = T.ptr)
    (hlay : Shape.layout w.heap none T = true) (hids : T.ids.Nodup)
    (hfuel : T.cost + 1 ≤ fuel) :
    ∃ r w1, FindNodeByID fuel v w = some (r, w1) ∧
      r = T.pre.find? (fun q => decide ((w.heap q).map NTreeNode.fID = some v)) ∧
      (v ∉ T.ids → r = none) ∧
      (v ∈ T.ids → ∃ q nd, r = some q ∧ q ∈ T.pre ∧ w.heap q = some nd ∧ nd.fID = v ∧
        ∀ q1 ∈ T.pre, ∀ n1, w.heap q1 = some n1 → n1.fID = v → q1 = q) ∧
      (v = T.id → r = some T.ptr) ∧
      (∀ q, r = some q → ∃ nd, w.heap q = some nd ∧ nd.fID = v) := by
  obtain ⟨w1, hrun⟩ := FindNodeByID_find T w v fuel hcount0 hcount hbits hroot hlay hids hfuel
  have hmap := Shape.pre_map_id w.heap T none hlay
  have hfound : ∀ q, T.pre.find? (fun q => decide ((w.heap q).map NTreeNode.fID = some v))
      = some q → q ∈ T.pre ∧ ∃ nd, w.heap q = some nd ∧ nd.fID = v := by
    intro q hq
    have h1 := List.find?_some hq
    have h2 := List.mem_of_find?_eq_some hq
    refine ⟨h2, ?_⟩
    cases hh : w.heap q with
    | none => simp [hh] at h1
    | some nd => exact ⟨nd, rfl, by simpa [hh] using h1⟩
  have hinj : ∀ q1 ∈ T.pre, ∀ q2 ∈ T.pre,
      (w.heap q1).map NTreeNode.fID = (w.heap q2).map NTreeNode.fID → q1 = q2 := by
    have hn : (T.pre.map (fun q => (w.heap q).map NTreeNode.fID)).Nodup := by
      rw [hmap]
      exact hids.map (Option.some_injective Nat)
    intro q1 h1 q2 h2 he
    exact List.inj_on_of_nodup_map hn h1 h2 he
  refine ⟨_, w1, hrun, rfl, ?_, ?_, ?_, ?_⟩
  · intro hv
    rw [List.find?_eq_none]
    intro q hq hp
    have h1 : (w.heap q).map NTreeNode.fID ∈ T.pre.map (fun q => (w.heap q).map NTreeNode.fID) :=
      List.mem_map.mpr ⟨q, hq, rfl⟩
    rw [hmap] at h1
    simp only [decide_eq_true_eq] at hp
    rw [hp] at h1
    obtain ⟨i, hi, e⟩ := List.mem_map.mp h1
    cases e
    exact hv hi
  · intro hv
    have h1 : some v ∈ T.ids.map some := List.mem_map.mpr ⟨v, hv, rfl⟩
    rw [← hmap] at h1
    obtain ⟨q0, hq0, e0⟩ := List.mem_map.mp h1
    cases hf : T.pre.find? (fun q => decide ((w.heap q).map NTreeNode.fID = some v)) with
    | none =>
      rw [List.find?_eq_none] at hf
      exact absurd (by simpa using e0) (hf q0 hq0)
    | some q =>
      obtain ⟨a, nd, b, c⟩ := hfound q hf
      refine ⟨q, nd, rfl, a, b, c, ?_⟩
      intro q1 hq1 n1 hn1 hid1
      exact hinj q1 hq1 q a (by rw [hn1, b]; simp [hid1, c])
  · intro hv
    obtain ⟨nd, n1, n2, _⟩ := Shape.layout_spec _ _ _ hlay
    rw [Shape.pre_eq, List.find?_cons]
    simp [n1, n2, hv]
  · intro q hq
    exact (hfound q hq).2

theorem FindNodeByID_returns_first_match_witness :
    (0 ≤ rootedWorld.entryCount ∧ rootedWorld.entryCount < 32 ∧
      Shape.layout rootedWorld.heap none sampleTree = true ∧ sampleTree.ids.Nodup) ∧
      ∃ r w1, FindNodeByID 50 3 rootedWorld = some (r, w1) ∧
        r = sampleTree.pre.find?
          (fun q => decide ((rootedWorld.heap q).map NTreeNode.fID = some 3)) ∧
        (3 ∉ sampleTree.ids → r = none) ∧
        (3 ∈ sampleTree.ids → ∃ q nd, r = some q ∧ q ∈ sampleTree.pre ∧
          rootedWorld.heap q = some nd ∧ nd.fID = 3 ∧
          ∀ q1 ∈ sampleTree.pre, ∀ n1, rootedWorld.heap q1 = some n1 → n1.fID = 3 → q1 = q) ∧
        (3 = sampleTree.id → r = some sampleTree.ptr) ∧
        (∀ q, r = some q → ∃ nd, rootedWorld.heap q = some nd ∧ nd.fID = 3) :=
  ⟨⟨by decide, by decide, by decide, by decide⟩,
    FindNodeByID_returns_first_match sampleTree rootedWorld 3 50 (by decide) (by decide)
      (by simp [rootedWorld]) rfl (by decide) (by decide) (by decide)⟩

/-- C25: `FindRoot` from a node follows the parent links to the topmost node
`t` and returns `t` if the type of `t` is `'ROOT'`, null otherwise; from every
node of a tree in the heap whose root has the type `'ROOT'` it returns the
root of the tree. -/
theorem FindRoot_returns_topmost (h : Nat → Option NTreeNode) (n t k fuel : Nat)
    (tn : NTreeNode) (hasc : Ascends h n t k) (ht : h t = some tn)
    (htop : tn.fParent = none) (hfuel : k < fuel) :
    FindRoot h fuel (some n) = some (if tn.fType = kRootType then some t else none) ∧
      ∀ (T X : Shape), Shape.layout h none T = true → T.ptr = t → X ∈ T.subtrees →
        tn.fType = kRootType → T.pre.length ≤ fuel →
        FindRoot h fuel (some X.ptr) = some (some t) := by
  refine ⟨FindRoot_top h n t k fuel tn hasc ht htop hfuel, ?_⟩
  intro T X hlay hT hX hty hf
  obtain ⟨j, a, b⟩ := subtree_ascends h T none hlay X hX
  rw [hT] at a
  rw [FindRoot_top h X.ptr t j fuel tn a ht htop (by omega), if_pos hty]

theorem FindRoot_returns_topmost_witness :
    Ascends rootedHeap 3 0 2 ∧
      (FindRoot rootedHeap 10 (some 3)
          = some (if rootedTop.fType = kRootType then some 0 else none) ∧
        ∀ (T X : Shape), Shape.layout rootedHeap none T = true → T.ptr = 0 → X ∈ T.subtrees →
          rootedTop.fType = kRootType → T.pre.length ≤ 10 →
          FindRoot rootedHeap 10 (some X.ptr) = some (some 0)) :=
  ⟨Ascends.up 3 1 0 1 (mkNode 3 (some 1) []) rfl rfl
      (Ascends.up 1 0 0 0 (mkNode 1 (some 0) [3]) rfl rfl (Ascends.here 0)),
    FindRoot_returns_topmost rootedHeap 3 0 2 10 rootedTop
      (Ascends.up 3 1 0 1 (mkNode 3 (some 1) []) rfl rfl
        (Ascends.up 1 0 0 0 (mkNode 1 (some 0) [3]) rfl rfl (Ascends.here 0)))
      rfl rfl (by decide)⟩

/-- C26: after `RemoveChild(0)` on the root of the sample tree, node 1 is in no
child list any more, but `FindRoot` from node 1 and from its child 3 still
returns the root, and `GetTreeFromNode` still returns the tree: the parent
link of the removed node is left as it was. -/
theorem FindRoot_of_removed_node_is_root :
    ∃ h1, NTreeNode.RemoveChild rootedHeap 0 0 true = some (0, h1) ∧
      NTreeNode.links h1 0 = some ([2, 4], none) ∧
      NTreeNode.links h1 1 = some ([3], some 0) ∧
      FindRoot h1 10 (some 1) = some (some 0) ∧
      FindRoot h1 10 (some 3) = some (some 0) ∧
      GetTreeFromNode h1 (fun q => if q = 0 then some (some 100) else none) 10 (some 1)
        = some (some 100) ∧
      GetTreeFromNode h1 (fun q => if q = 0 then some (some 100) else none) 10 (some 3)
        = some (some 100) :=
  ⟨_, NTreeNode.RemoveChild_ok rootedHeap 0 0 rootedTop rfl (by decide) (by decide),
    by decide, by decide, by decide, by decide, by decide, by decide⟩

/-- C27: a tree made by `NTree::NTree()` is what `GetTreeFromNode` returns for
its root, but for a tree made by `NTree::NTree(NTreeNodeRoot*)` around a root
made by `NTreeNodeRoot()`, `GetTreeFromNode` returns null for the root: that
constructor does not set the member `fTree` of the root. -/
theorem GetTreeFromNode_of_supplied_root_is_null :
    GetTreeFromNode (construct emptyHeap noTrees 0 100 0).1.heap
        (construct emptyHeap noTrees 0 100 0).2 10 (some 0) = some (some 100) ∧
      (constructWith (newRoot emptyHeap noTrees 0 none).1 (newRoot emptyHeap noTrees 0 none).2
        0 100 0).1.fRoot = 0 ∧
      GetTreeFromNode
        (constructWith (newRoot emptyHeap noTrees 0 none).1 (newRoot emptyHeap noTrees 0 none).2
          0 100 0).1.heap
        (constructWith (newRoot emptyHeap noTrees 0 none).1 (newRoot emptyHeap noTrees 0 none).2
          0 100 0).2 10 (some 0) = some none :=
  ⟨by decide, by decide, by decide⟩

end NTree

namespace NTreeNode

variable {φ : Type}

/-- C30: `Write` on a node with `k` children, with a callback that returns 0
on every call, makes `4 + k` calls: the type (4 bytes at `o`), the id (2 bytes
at `o + 4`), the flags (2 bytes at `o + 6`), the number of children (2 bytes at
`o + 8`), then the type of child `i` (4 bytes at `o + 10 + 4 i`) for each
child in order; it returns 0 and leaves the offset at `o + 10 + 4 k`. -/
theorem Write_record_layout (h : Nat → Option NTreeNode) (this : Nat) (nd : NTreeNode)
    (file : φ) (o : Int) (cb : NTreeNodeWriteCB φ) (hthis : h this = some nd)
    (hok : ∀ f v s p, (cb f v s p).1 = 0)
    (hkids : ∀ c ∈ nd.fChildren, ∃ cn, h c = some cn)
    (hlen : nd.fChildren.length < 32768) :
    ∃ f1 log, Write h this file o cb
        = some (0, f1, o + 10 + 4 * (nd.fChildren.length : Int), log) ∧
      log.length = 4 + nd.fChildren.length ∧
      log.take 4 = [(nd.fType, 4, o), (nd.fID, 2, o + 4),
        ((nd.fFlags % 65536).toNat, 2, o + 6), (nd.fChildren.length, 2, o + 8)] ∧
      ∀ (i c : Nat) (cn : NTreeNode), nd.fChildren[i]? = some c → h c = some cn →
        log[4 + i]? = some (cn.fType, 4, o + 10 + 4 * (i : Int)) := by
  obtain ⟨f1, hw⟩ := Write_ok h this nd file o cb hthis hok hkids hlen
  refine ⟨f1, _, hw, ?_, ?_, ?_⟩
  · rw [List.length_append, childTypeCalls_length]
    rfl
  · simp
  · intro i c cn hi hc
    have := childTypeCalls_getElem? h nd.fChildren (o + 10) i c cn hi hc
    rw [List.getElem?_append_right (by simp)]
    simpa using this

theorem Write_record_layout_witness :
    NTree.rootedHeap 0 = some NTree.rootedTop ∧
      ∃ f1 log, Write NTree.rootedHeap 0 () 100 NTree.acceptWrite
          = some (0, f1, 100 + 10 + 4 * (NTree.rootedTop.fChildren.length : Int), log) ∧
        log.length = 4 + NTree.rootedTop.fChildren.length ∧
        log.take 4 = [(NTree.rootedTop.fType, 4, 100), (NTree.rootedTop.fID, 2, 100 + 4),
          ((NTree.rootedTop.fFlags % 65536).toNat, 2, 100 + 6),
          (NTree.rootedTop.fChildren.length, 2, 100 + 8)] ∧
        ∀ (i c : Nat) (cn : NTreeNode), NTree.rootedTop.fChildren[i]? = some c →
          NTree.rootedHeap c = some cn →
          log[4 + i]? = some (cn.fType, 4, 100 + 10 + 4 * (i : Int)) :=
  ⟨rfl, Write_record_layout NTree.rootedHeap 0 NTree.rootedTop () 100 NTree.acceptWrite rfl
    (fun _ _ _ _ => rfl)
    (by
      intro c hc
      simp only [NTree.rootedTop, List.mem_cons, List.mem_singleton, List.not_mem_nil,
        or_false] at hc
      rcases hc with rfl | rfl | rfl <;> exact ⟨_, rfl⟩)
    (by decide)⟩

end NTreeNode

/-! ## Pruning, reading and writing a tree -/

namespace NTree

variable {σ : Type}

/-- C23: on a tree with pairwise distinct ids whose root has the id of a root,
`Prune` of a node `X` other than the root returns `false`, having run the
disposal on `X` and the nodes below it, each after the nodes below it.
Afterwards the nodes reached from the root are those reached before that are
not `X` or below `X`; `X` and the nodes below it are deleted; the parent of
`X` has lost `X` from its child list and nothing else; every other node is as
it was. -/
theorem Prune_removes_branch (T X : Shape) (w : World σ) (fuel : Nat)
    (hcount0 : 0 ≤ w.entryCount) (hcount : w.entryCount < 32)
    (hbits : w.fVisitedBits ≠ [])
    (hlay : Shape.layout w.heap none T = true) (hids : T.ids.Nodup)
    (hrootid : T.id = kRootID) (hX : X ∈ Shape.subtreesList T.kids)
    (hfuel : X.cost + 1 ≤ fuel) :
    ∃ w1 P Pn, Prune fuel true (some X.ptr) w = some (false, w1, calm X.post) ∧
      w.heap P = some Pn ∧ X.ptr ∈ Pn.fChildren ∧ Pn.fChildren.Nodup ∧
      Below w.heap T.ptr P ∧ ¬ Below w.heap X.ptr P ∧
      (∀ q, Below w1.heap T.ptr q ↔ (Below w.heap T.ptr q ∧ ¬ Below w.heap X.ptr q)) ∧
      (∀ q, Below w.heap X.ptr q → w1.heap q = none) ∧
      w1.heap P = some { Pn with fChildren := Pn.fChildren.erase X.ptr } ∧
      (∀ q, ¬ Below w.heap X.ptr q → q ≠ P → w1.heap q = w.heap q) ∧
      w1.fRoot = w.fRoot := by
  have hpn := Shape.pre_nodup w.heap T none hlay hids
  obtain ⟨P, Pn, hPT, hP, hxm, hPnn, hPlen, hXlay, hPX⟩ := Shape.locate w.heap T none hlay hpn X hX
  have hsub := Shape.subtreeList_ids_sublist T.kids X hX
  have hsubp := Shape.subtreeList_pre_sublist T.kids X hX
  rw [Shape.ids_eq, List.nodup_cons, hrootid] at hids
  rw [Shape.pre_eq, List.nodup_cons] at hpn
  have hXids : X.ids.Nodup := List.Nodup.sublist hsub hids.2
  have hXroot : kRootID ∉ X.ids := fun h => hids.1 (hsub.subset h)
  obtain ⟨w1, hrun, hheap, hr, _, _⟩ := Prune_branch X w P Pn fuel hcount0 hcount hbits hXlay
    hXids hXroot hP hPX hPlen hfuel
  have hG : ∀ q, q ∈ X.pre ↔ Below w.heap X.ptr q :=
    fun q => (below_iff_pre w.heap X (some P) hXlay q).symm
  have hTb : ∀ q, Below w.heap T.ptr q ↔ q ∈ T.pre :=
    fun q => below_iff_pre w.heap T none hlay q
  have hreach := reach_after_prune w.heap w1.heap T.ptr X.ptr P Pn X.pre hG hP hxm hPnn
    ((hTb P).mpr hPT) (fun h => hpn.1 (hsubp.subset h))
    (fun p pn c hb hp hc => (Shape.pre_closed w.heap T none hlay p ((hTb p).mp hb) pn hp c hc).2)
    hheap
  refine ⟨w1, P, Pn, hrun, hP, hxm, hPnn, (hTb P).mpr hPT, fun h => hPX ((hG P).mpr h), ?_, ?_,
    ?_, ?_, hr⟩
  · intro q
    rw [hreach q, hG q]
  · intro q hq
    rw [hheap q, if_pos ((hG q).mpr hq)]
  · rw [hheap P, if_neg hPX, if_pos rfl]
  · intro q hq hqP
    rw [hheap q, if_neg (fun h => hq ((hG q).mp h)), if_neg hqP]

theorem Prune_removes_branch_witness :
    (Shape.layout rootedWorld.heap none sampleTree = true ∧ sampleTree.ids.Nodup ∧
      sampleTree.id = kRootID ∧ sampleBranch ∈ Shape.subtreesList sampleTree.kids) ∧
      ∃ w1 P Pn, Prune 50 true (some sampleBranch.ptr) rootedWorld
          = some (false, w1, calm sampleBranch.post) ∧
        rootedWorld.heap P = some Pn ∧ sampleBranch.ptr ∈ Pn.fChildren ∧ Pn.fChildren.Nodup ∧
        Below rootedWorld.heap sampleTree.ptr P ∧ ¬ Below rootedWorld.heap sampleBranch.ptr P ∧
        (∀ q, Below w1.heap sampleTree.ptr q ↔
          (Below rootedWorld.heap sampleTree.ptr q ∧
            ¬ Below rootedWorld.heap sampleBranch.ptr q)) ∧
        (∀ q, Below rootedWorld.heap sampleBranch.ptr q → w1.heap q = none) ∧
        w1.heap P = some { Pn with fChildren := Pn.fChildren.erase sampleBranch.ptr } ∧
        (∀ q, ¬ Below rootedWorld.heap sampleBranch.ptr q → q ≠ P →
          w1.heap q = rootedWorld.heap q) ∧
        w1.fRoot = rootedWorld.fRoot :=
  ⟨⟨by decide, by decide, by decide,
      by simp [Shape.subtreesList, Shape.subtrees, sampleTree, sampleBranch, Shape.kids]⟩,
    Prune_removes_branch sampleTree sampleBranch rootedWorld 50 (by decide) (by decide)
      (by simp [rootedWorld]) (by decide) (by decide) (by decide)
      (by simp [Shape.subtreesList, Shape.subtrees, sampleTree, sampleBranch, Shape.kids])
      (by decide)⟩

/-- C24: on a tree with pairwise distinct ids whose root has the id of a root,
`Prune` of the root runs the disposal once on every node, each after the nodes
below it, and returns `false`; every node other than the root is deleted, and
the root is still there, still the root of the tree, with an empty child list
and the id of a root.  The disposal callback never deletes a node with the id
of a root. -/
theorem Prune_root_keeps_root (T : Shape) (w : World σ) (fuel : Nat)
    (hcount0 : 0 ≤ w.entryCount) (hcount : w.entryCount < 32)
    (hbits : w.fVisitedBits ≠ []) (hroot : w.fRoot = T.ptr)
    (hlay : Shape.layout w.heap none T = true) (hids : T.ids.Nodup)
    (hrootid : T.id = kRootID) (hfuel : T.cost + 1 ≤ fuel) :
    ∃ w1 nd, w.heap T.ptr = some nd ∧
      Prune fuel true (some T.ptr) w = some (false, w1, calm T.post) ∧ T.post.Nodup ∧
      (∀ q ∈ Shape.preList T.kids, w1.heap q = none) ∧
      w1.fRoot = T.ptr ∧ w1.heap T.ptr = some { nd with fChildren := [] } ∧
      IsRoot w1.heap w1.fRoot = some true ∧
      (∀ q, Below w1.heap T.ptr q ↔ q = T.ptr) ∧
      (∀ q, q ∉ T.pre → w1.heap q = w.heap q) ∧
      ∀ (s : World σ) (c : Nat) (cn : NTreeNode) (b : Bool), s.heap c = some cn →
        cn.fID = kRootID → DisposeNTree_ActionFunc b c s = some (false, s) := by
  have hpn := Shape.pre_nodup w.heap T none hlay hids
  obtain ⟨w1, nd, hnd, hrun, hheap, hr, _, _⟩ := Prune_whole T w none fuel hcount0 hcount hbits
    hlay hids hrootid hfuel
  obtain ⟨nd0, n1, n2, _⟩ := Shape.layout_spec _ _ _ hlay
  rw [hnd] at n1
  cases n1
  have htop : w1.heap T.ptr = some { nd with fChildren := [] } := by rw [hheap, if_pos rfl]
  rw [Shape.pre_eq, List.nodup_cons] at hpn
  refine ⟨w1, nd, hnd, hrun, (Shape.post_perm_pre T).nodup_iff.mpr
    (Shape.pre_nodup w.heap T none hlay hids), ?_, hr.trans hroot, htop, ?_, ?_, ?_, ?_⟩
  · intro q hq
    rw [hheap, if_neg (fun (h : q = T.ptr) => hpn.1 (h ▸ hq)), if_pos hq]
  · rw [hr.trans hroot]
    unfold IsRoot
    rw [htop]
    simp [n2, hrootid]
  · intro q
    constructor
    · intro hb
      exact below_leaf w1.heap T.ptr q _ htop rfl hb
    · intro e
      rw [e]
      exact Below.self
  · intro q hq
    rw [Shape.pre_eq] at hq
    rw [hheap, if_neg (fun h => hq (by simp [h])), if_neg (fun h => hq (List.mem_cons_of_mem _ h))]
  · intro s c cn b hc hid
    exact dispose_root s c cn hc hid b

theorem Prune_root_keeps_root_witness :
    (Shape.layout rootedWorld.heap none sampleTree = true ∧ sampleTree.ids.Nodup ∧
      sampleTree.id = kRootID) ∧
      ∃ w1 nd, rootedWorld.heap sampleTree.ptr = some nd ∧
        Prune 50 true (some sampleTree.ptr) rootedWorld
          = some (false, w1, calm sampleTree.post) ∧ sampleTree.post.Nodup ∧
        (∀ q ∈ Shape.preList sampleTree.kids, w1.heap q = none) ∧
        w1.fRoot = sampleTree.ptr ∧
        w1.heap sampleTree.ptr = some { nd with fChildren := [] } ∧
        IsRoot w1.heap w1.fRoot = some true ∧
        (∀ q, Below w1.heap sampleTree.ptr q ↔ q = sampleTree.ptr) ∧
        (∀ q, q ∉ sampleTree.pre → w1.heap q = rootedWorld.heap q) ∧
        ∀ (s : World Unit) (c : Nat) (cn : NTreeNode) (b : Bool), s.heap c = some cn →
          cn.fID = kRootID → DisposeNTree_ActionFunc b c s = some (false, s) :=
  ⟨⟨by decide, by decide, by decide⟩,
    Prune_root_keeps_root sampleTree rootedWorld 50 (by decide) (by decide)
      (by simp [rootedWorld]) rfl (by decide) (by decide) (by decide) (by decide)⟩

/-- C28: `NTree::Read` on the sample tree with a read callback that reports an
error returns 0 and leaves the root with the id 0 (`kUnassignedID`) and no
children: `IsRoot(GetRoot())` was true before the call and is false after
it. -/
theorem Read_failure_leaves_root_without_root_id :
    IsRoot rootedWorld.heap rootedWorld.fRoot = some true ∧
      (Read 50 [] 0 plainFactory failRead true true rootedWorld).map (fun r => r.1)
        = some 0 ∧
      (Read 50 [] 0 plainFactory failRead true true rootedWorld).map
          (fun r => rootView r.2.2.2 [0]) = some (some (0, kRootType), [some []]) ∧
      (Read 50 [] 0 plainFactory failRead true true rootedWorld).map
          (fun r => IsRoot r.2.2.2.heap r.2.2.2.fRoot) = some (some false) :=
  ⟨by decide, by decide, by decide, by decide⟩

/-- C29: the sample tree (five nodes) is written into a byte store by
`NTree::Write` with a callback that stores the bytes (66 bytes, result 0) and
read back from the same offset by `NTree::Read` into a new tree, with a
callback that fetches the bytes and a factory that makes a node of the type
asked for.  `Read` returns 0 after 10 bytes, and the tree read is the root
alone: no child was made, and the factory has made no node (the address 10,
the first it would use, is empty). -/
theorem Read_after_Write_makes_no_children :
    (rootedWorld.heap 0).map (fun nd => nd.fChildren) = some [1, 2, 4] ∧
      (Write 50 [] 0 memWrite rootedWorld).map (fun r => (r.1, r.2.2.1)) = some (0, 66) ∧
      (Write 50 [] 0 memWrite rootedWorld).bind
          (fun r => (Read 50 r.2.1 0 plainFactory memRead true true
            (construct emptyHeap noTrees 0 100 0).1).map (fun s => (s.1, s.2.2.1)))
        = some (0, 10) ∧
      (Write 50 [] 0 memWrite rootedWorld).bind
          (fun r => (Read 50 r.2.1 0 plainFactory memRead true true
            (construct emptyHeap noTrees 0 100 0).1).map (fun s => rootView s.2.2.2 [0, 10]))
        = some (some (kRootID, kRootType), [some [], none]) :=
  ⟨by decide, by decide, by decide, by decide⟩

end NTree

/-! ## The addressing of the visited bits -/

namespace NTree

variable {σ : Type}

theorem vbit_unset (vb : Nat → Nat) (a b : Nat) (ha : a < 65536) (hb : b < 65536) :
    vbit (fun i => if i = byteNum a then vb (byteNum a) &&& (255 ^^^ mask a) else vb i) b
      = (!decide (b = a) && vbit vb b) := by
  rw [vbit_eq_testBit _ b hb, vbit_eq_testBit _ b hb, mask_eq a]
  unfold byteNum
  by_cases hbyte : b / 8 = a / 8
  · rw [if_pos hbyte, Nat.testBit_and, Nat.testBit_xor, Nat.testBit_two_pow,
      show (255 : Nat) = 2 ^ 8 - 1 from rfl, Nat.testBit_two_pow_sub_one, hbyte]
    have h8 : 7 - b % 8 < 8 := by omega
    by_cases hab : b = a
    · subst hab
      simp [h8]
    · have hne : ¬ (7 - a % 8 = 7 - b % 8) := by omega
      simp [h8, hab, hne]
  · rw [if_neg hbyte]
    have hab : ¬ (b = a) := fun h => hbyte (by rw [h])
    simp [hab]

/-- C35: for every id `a` of the 16-bit id space the byte index is `a / 8`,
below 8192, and the bit index is `a mod 8`, the casts to `short`
notwithstanding.  After `ClearVisitedBits` no id is visited; `SetVisitedBit(a,
true)` makes `a` visited and `SetVisitedBit(a, false)` makes it not visited,
and both leave `Visited(b)` as it was for every other id `b`. -/
theorem visited_bits_addressing (w : World σ) (a : Nat) (ha : a < 65536)
    (hbits : w.fVisitedBits ≠ []) :
    byteNum a = a / 8 ∧ byteNum a < kNumVisitedBytes ∧ bitNum a = ((a % 8 : Nat) : Int) ∧
      (∀ b, b < 65536 → Visited (ClearVisitedBits w) b = some false) ∧
      (∃ w1, SetVisitedBit w a true = some w1 ∧ Visited w1 a = some true ∧
        ∀ b, b < 65536 → b ≠ a → Visited w1 b = Visited w b) ∧
      (∃ w0, SetVisitedBit w a false = some w0 ∧ Visited w0 a = some false ∧
        ∀ b, b < 65536 → b ≠ a → Visited w0 b = Visited w b) := by
  refine ⟨rfl, by unfold byteNum kNumVisitedBytes; omega, bitNum_eq a, ?_, ?_, ?_⟩
  · intro b hb
    unfold ClearVisitedBits Visited
    cases hv : w.fVisitedBits with
    | nil => exact absurd hv hbits
    | cons vb next =>
      simp only [Option.some.injEq]
      exact vbit_clear vb b hb
  · unfold SetVisitedBit Visited
    cases hv : w.fVisitedBits with
    | nil => exact absurd hv hbits
    | cons vb next =>
      refine ⟨_, rfl, ?_, ?_⟩
      · simp only [if_true, Option.some.injEq]
        have := vbit_set vb a a ha ha
        simpa [vbit] using this
      · intro b hb hne
        simp only [if_true, Option.some.injEq]
        have := vbit_set vb a b ha hb
        simpa [vbit, hne] using this
  · unfold SetVisitedBit Visited
    cases hv : w.fVisitedBits with
    | nil => exact absurd hv hbits
    | cons vb next =>
      refine ⟨_, rfl, ?_, ?_⟩
      · simp only [Bool.false_eq_true, if_false, Option.some.injEq]
        have := vbit_unset vb a a ha ha
        simpa [vbit] using this
      · intro b hb hne
        simp only [Bool.false_eq_true, if_false, Option.some.injEq]
        have := vbit_unset vb a b ha hb
        simpa [vbit, hne] using this

theorem visited_bits_addressing_witness :
    (40000 < 65536 ∧ sampleWorld.fVisitedBits ≠ []) ∧
      (byteNum 40000 = 40000 / 8 ∧ byteNum 40000 < kNumVisitedBytes ∧
        bitNum 40000 = ((40000 % 8 : Nat) : Int) ∧
        (∀ b, b < 65536 → Visited (ClearVisitedBits sampleWorld) b = some false) ∧
        (∃ w1, SetVisitedBit sampleWorld 40000 true = some w1 ∧ Visited w1 40000 = some true ∧
          ∀ b, b < 65536 → b ≠ 40000 → Visited w1 b = Visited sampleWorld b) ∧
        (∃ w0, SetVisitedBit sampleWorld 40000 false = some w0 ∧
          Visited w0 40000 = some false ∧
          ∀ b, b < 65536 → b ≠ 40000 → Visited w0 b = Visited sampleWorld b)) :=
  ⟨⟨by decide, by simp [sampleWorld]⟩,
    visited_bits_addressing sampleWorld 40000 (by decide) (by simp [sampleWorld])⟩

end NTree

/-! ## Walks with two callbacks that agree, and the parameter block of a walk -/

namespace NTree

variable {σ : Type}

/-- The record of a walk only grows. -/
theorem walkLoop_trace (start : Option Nat) (proc : Option (NTreeNodeActionFunc σ))
    (onEntry branch : Bool) :
    ∀ (fuel : Nat) (w : World σ) (node : Option Nat) (tr : Trace) (w1 : World σ) (a e : Bool)
      (tr1 : Trace),
      walkLoop start proc onEntry branch fuel w node tr = some (w1, a, e, tr1) →
      ∃ ext, tr1 = tr ++ ext := by
  intro fuel
  induction fuel with
  | zero =>
    intro w node tr w1 a e tr1 h
    cases node with
    | none =>
      rw [walkLoop_null] at h
      simp only [Option.some.injEq, Prod.mk.injEq] at h
      exact ⟨[], by simp [h.2.2.2]⟩
    | some p => simp [walkLoop] at h
  | succ fuel ih =>
    intro w node tr w1 a e tr1 h
    cases node with
    | none =>
      rw [walkLoop_null] at h
      simp only [Option.some.injEq, Prod.mk.injEq] at h
      exact ⟨[], by simp [h.2.2.2]⟩
    | some p =>
      cases hb : loopBody start proc onEntry branch w p tr with
      | none => simp [walkLoop, hb] at h
      | some s =>
        have hs := loopBody_stepOf start proc onEntry branch w p tr s hb
        cases hs with
        | move n =>
          rw [walkLoop_next _ _ _ _ _ _ _ _ _ _ _ hb] at h
          exact ih _ _ _ _ _ _ _ h
        | mark i w2 hm =>
          rw [walkLoop_next _ _ _ _ _ _ _ _ _ _ _ hb] at h
          exact ih _ _ _ _ _ _ _ h
        | endBranch =>
          rw [walkLoop_exit _ _ _ _ _ _ _ _ _ _ _ _ hb] at h
          simp only [Option.some.injEq, Prod.mk.injEq] at h
          exact ⟨[], by simp [h.2.2.2]⟩
        | callAbort act w2 hp ha =>
          rw [walkLoop_exit _ _ _ _ _ _ _ _ _ _ _ _ hb] at h
          simp only [Option.some.injEq, Prod.mk.injEq] at h
          exact ⟨[(p, true)], h.2.2.2.symm⟩
        | callMove act w2 n hp ha =>
          rw [walkLoop_next _ _ _ _ _ _ _ _ _ _ _ hb] at h
          obtain ⟨ext, he⟩ := ih _ _ _ _ _ _ _ h
          exact ⟨(p, false) :: ext, by rw [he]; simp⟩
        | callMark act w2 i w3 hp ha hm =>
          rw [walkLoop_next _ _ _ _ _ _ _ _ _ _ _ hb] at h
          obtain ⟨ext, he⟩ := ih _ _ _ _ _ _ _ h
          exact ⟨(p, false) :: ext, by rw [he]; simp⟩
        | callEnd act w2 hp ha =>
          rw [walkLoop_exit _ _ _ _ _ _ _ _ _ _ _ _ hb] at h
          simp only [Option.some.injEq, Prod.mk.injEq] at h
          exact ⟨[(p, false)], h.2.2.2.symm⟩

/-- A walk is the same walk with any other callback that does the same on the
nodes of its record. -/
theorem walkLoop_congr (start : Option Nat) (onEntry branch : Bool)
    (act act2 : NTreeNodeActionFunc σ) (w1 : World σ) (a e : Bool) (tr1 : Trace)
    (hag : ∀ q b, (q, b) ∈ tr1 → ∀ u, act q u = act2 q u) :
    ∀ (fuel : Nat) (w : World σ) (node : Option Nat) (tr : Trace),
      walkLoop start (some act2) onEntry branch fuel w node tr = some (w1, a, e, tr1) →
      walkLoop start (some act) onEntry branch fuel w node tr = some (w1, a, e, tr1) := by
  intro fuel
  induction fuel with
  | zero =>
    intro w node tr h
    cases node with
    | none =>
      rw [walkLoop_null] at h
      rw [walkLoop_null, h]
    | some p => simp [walkLoop] at h
  | succ fuel ih =>
    intro w node tr h
    cases node with
    | none =>
      rw [walkLoop_null] at h
      rw [walkLoop_null, h]
    | some p =>
      cases hb : loopBody start (some act2) onEntry branch w p tr with
      | none => simp [walkLoop, hb] at h
      | some s =>
        -- the record of the step is part of the final record
        have hrec : ∀ x ∈ s.record, x ∈ tr1 := by
          intro x hx
          cases s with
          | next sw sn str =>
            rw [walkLoop_next _ _ _ _ _ _ _ _ _ _ _ hb] at h
            obtain ⟨ext, he⟩ := walkLoop_trace _ _ _ _ _ _ _ _ _ _ _ _ h
            rw [he]
            exact List.mem_append_left _ hx
          | exit sw sa se str =>
            rw [walkLoop_exit _ _ _ _ _ _ _ _ _ _ _ _ hb] at h
            simp only [Option.some.injEq, Prod.mk.injEq] at h
            rw [← h.2.2.2]
            exact hx
        have same : loopBody start (some act) onEntry branch w p tr = some s := by
          cases loopBody_shape start onEntry branch w p tr with
          | fixed R h1 _ => rw [h1, ← h1 act2, hb]
          | calls K h1 h2 =>
            have hi := h1 act2
            rw [hb] at hi
            rw [h1]
            have hcall : ∃ b, (p, b) ∈ s.record := by
              cases hc : act2 p w with
              | none => simp [hc] at hi
              | some r =>
                obtain ⟨b, u⟩ := r
                cases b
                · simp only [hc] at hi
                  exact ⟨false, by rw [h2 u s hi.symm]; simp⟩
                · simp only [hc, Option.some.injEq] at hi
                  exact ⟨true, by rw [hi]; simp [Step.record]⟩
            obtain ⟨b, hb1⟩ := hcall
            rw [hag p b (hrec _ hb1) w]
            exact hi.symm
        cases s with
        | next sw sn str =>
          rw [walkLoop_next _ _ _ _ _ _ _ _ _ _ _ hb] at h
          rw [walkLoop_next _ _ _ _ _ _ _ _ _ _ _ same]
          exact ih _ _ _ h
        | exit sw sa se str =>
          rw [walkLoop_exit _ _ _ _ _ _ _ _ _ _ _ _ hb] at h
          rw [walkLoop_exit _ _ _ _ _ _ _ _ _ _ _ _ same]
          exact h

/-- The parameter block after a walk whose callback leaves the heap alone and
changes the parameter block by `g`: `g` applied along the record. -/
theorem walkLoop_parm (start : Option Nat) (act : NTreeNodeActionFunc σ)
    (onEntry branch : Bool) (h0 : Nat → Option NTreeNode) (g : Nat → σ → σ)
    (hact : ∀ n u r u1, u.heap = h0 → act n u = some (r, u1) →
      u1.heap = h0 ∧ u1.parm = g n u.parm) :
    ∀ (fuel : Nat) (w : World σ) (node : Option Nat) (tr : Trace) (w1 : World σ) (a e : Bool)
      (tr1 : Trace), w.heap = h0 →
      walkLoop start (some act) onEntry branch fuel w node tr = some (w1, a, e, tr1) →
      ∃ ext, tr1 = tr ++ ext ∧ w1.heap = h0 ∧
        w1.parm = ext.foldl (fun s x => g x.1 s) w.parm := by
  intro fuel
  induction fuel with
  | zero =>
    intro w node tr w1 a e tr1 hh h
    cases node with
    | none =>
      rw [walkLoop_null] at h
      simp only [Option.some.injEq, Prod.mk.injEq] at h
      obtain ⟨rfl, _, _, rfl⟩ := h
      exact ⟨[], by simp, hh, rfl⟩
    | some p => simp [walkLoop] at h
  | succ fuel ih =>
    intro w node tr w1 a e tr1 hh h
    cases node with
    | none =>
      rw [walkLoop_null] at h
      simp only [Option.some.injEq, Prod.mk.injEq] at h
      obtain ⟨rfl, _, _, rfl⟩ := h
      exact ⟨[], by simp, hh, rfl⟩
    | some p =>
      cases hb : loopBody start (some act) onEntry branch w p tr with
      | none => simp [walkLoop, hb] at h
      | some s =>
        have hs := loopBody_stepOf start (some act) onEntry branch w p tr s hb
        cases hs with
        | move n =>
          rw [walkLoop_next _ _ _ _ _ _ _ _ _ _ _ hb] at h
          exact ih _ _ _ _ _ _ _ hh h
        | mark i w2 hm =>
          rw [walkLoop_next _ _ _ _ _ _ _ _ _ _ _ hb] at h
          obtain ⟨f1, f2, _⟩ := SetVisitedBit_frame w w2 i true hm
          obtain ⟨ext, x1, x2, x3⟩ := ih _ _ _ _ _ _ _ (f1.trans hh) h
          exact ⟨ext, x1, x2, by rw [x3, f2]⟩
        | endBranch =>
          rw [walkLoop_exit _ _ _ _ _ _ _ _ _ _ _ _ hb] at h
          simp only [Option.some.injEq, Prod.mk.injEq] at h
          obtain ⟨rfl, _, _, rfl⟩ := h
          exact ⟨[], by simp, hh, rfl⟩
        | callAbort act1 w2 hp ha =>
          cases hp
          rw [walkLoop_exit _ _ _ _ _ _ _ _ _ _ _ _ hb] at h
          simp only [Option.some.injEq, Prod.mk.injEq] at h
          obtain ⟨rfl, _, _, rfl⟩ := h
          obtain ⟨c1, c2⟩ := hact p w true _ hh ha
          exact ⟨[(p, true)], rfl, c1, by simp [c2]⟩
        | callMove act1 w2 n hp ha =>
          cases hp
          rw [walkLoop_next _ _ _ _ _ _ _ _ _ _ _ hb] at h
          obtain ⟨c1, c2⟩ := hact p w false _ hh ha
          obtain ⟨ext, x1, x2, x3⟩ := ih _ _ _ _ _ _ _ c1 h
          exact ⟨(p, false) :: ext, by rw [x1]; simp, x2, by rw [x3, c2]; simp⟩
        | callMark act1 w2 i w3 hp ha hm =>
          cases hp
          rw [walkLoop_next _ _ _ _ _ _ _ _ _ _ _ hb] at h
          obtain ⟨c1, c2⟩ := hact p w false _ hh ha
          obtain ⟨f1, f2, _⟩ := SetVisitedBit_frame w2 w3 i true hm
          obtain ⟨ext, x1, x2, x3⟩ := ih _ _ _ _ _ _ _ (f1.trans c1) h
          exact ⟨(p, false) :: ext, by rw [x1]; simp, x2, by rw [x3, f2, c2]; simp⟩
        | callEnd act1 w2 hp ha =>
          cases hp
          rw [walkLoop_exit _ _ _ _ _ _ _ _ _ _ _ _ hb] at h
          simp only [Option.some.injEq, Prod.mk.injEq] at h
          obtain ⟨rfl, _, _, rfl⟩ := h
          obtain ⟨c1, c2⟩ := hact p w false _ hh ha
          exact ⟨[(p, false)], rfl, c1, by simp [c2]⟩

end NTree

namespace NTree

variable {σ : Type}

/-- The loop of a walk whose callback leaves the tree alone leaves the tree
alone. -/
theorem walkLoop_keepsTree (start : Option Nat) (proc : Option (NTreeNodeActionFunc σ))
    (onEntry branch : Bool) (hk : ∀ a, proc = some a → KeepsTree a) :
    ∀ (fuel : Nat) (w : World σ) (node : Option Nat) (tr : Trace) (w1 : World σ) (a e : Bool)
      (tr1 : Trace),
      walkLoop start proc onEntry branch fuel w node tr = some (w1, a, e, tr1) →
      w1.heap = w.heap ∧ w1.fRoot = w.fRoot := by
  intro fuel
  induction fuel with
  | zero =>
    intro w node tr w1 a e tr1 h
    cases node with
    | none =>
      rw [walkLoop_null] at h
      simp only [Option.some.injEq, Prod.mk.injEq] at h
      rw [← h.1]
      exact ⟨rfl, rfl⟩
    | some p => simp [walkLoop] at h
  | succ fuel ih =>
    intro w node tr w1 a e tr1 h
    cases node with
    | none =>
      rw [walkLoop_null] at h
      simp only [Option.some.injEq, Prod.mk.injEq] at h
      rw [← h.1]
      exact ⟨rfl, rfl⟩
    | some p =>
      cases hb : loopBody start proc onEntry branch w p tr with
      | none => simp [walkLoop, hb] at h
      | some s =>
        have hs := loopBody_stepOf start proc onEntry branch w p tr s hb
        cases hs with
        | move n =>
          rw [walkLoop_next _ _ _ _ _ _ _ _ _ _ _ hb] at h
          exact ih _ _ _ _ _ _ _ h
        | mark i w2 hm =>
          rw [walkLoop_next _ _ _ _ _ _ _ _ _ _ _ hb] at h
          obtain ⟨f1, _, f3⟩ := SetVisitedBit_frame w w2 i true hm
          obtain ⟨x1, x2⟩ := ih _ _ _ _ _ _ _ h
          exact ⟨x1.trans f1, x2.trans f3⟩
        | endBranch =>
          rw [walkLoop_exit _ _ _ _ _ _ _ _ _ _ _ _ hb] at h
          simp only [Option.some.injEq, Prod.mk.injEq] at h
          rw [← h.1]
          exact ⟨rfl, rfl⟩
        | callAbort act w2 hp ha =>
          rw [walkLoop_exit _ _ _ _ _ _ _ _ _ _ _ _ hb] at h
          simp only [Option.some.injEq, Prod.mk.injEq] at h
          rw [← h.1]
          exact hk act hp p w w2 true ha
        | callMove act w2 n hp ha =>
          rw [walkLoop_next _ _ _ _ _ _ _ _ _ _ _ hb] at h
          obtain ⟨c1, c2⟩ := hk act hp p w w2 false ha
          obtain ⟨x1, x2⟩ := ih _ _ _ _ _ _ _ h
          exact ⟨x1.trans c1, x2.trans c2⟩
        | callMark act w2 i w3 hp ha hm =>
          rw [walkLoop_next _ _ _ _ _ _ _ _ _ _ _ hb] at h
          obtain ⟨c1, c2⟩ := hk act hp p w w2 false ha
          obtain ⟨f1, _, f3⟩ := SetVisitedBit_frame w2 w3 i true hm
          obtain ⟨x1, x2⟩ := ih _ _ _ _ _ _ _ h
          exact ⟨x1.trans (f1.trans c1), x2.trans (f3.trans c2)⟩
        | callEnd act w2 hp ha =>
          rw [walkLoop_exit _ _ _ _ _ _ _ _ _ _ _ _ hb] at h
          simp only [Option.some.injEq, Prod.mk.injEq] at h
          rw [← h.1]
          exact hk act hp p w w2 false ha

/-- A walk whose callback leaves the tree alone leaves the tree alone,
whatever the start node, the timing, the scope and the count of active
walks. -/
theorem walk_keepsTree (fuel : Nat) (start : Option Nat)
    (proc : Option (NTreeNodeActionFunc σ)) (onEntry branch : Bool) (w : World σ)
    (hk : ∀ a, proc = some a → KeepsTree a) (r : Bool) (w1 : World σ) (tr : Trace)
    (h : VisitAllNTreeNodes fuel start proc onEntry branch w = some (r, w1, tr)) :
    w1.heap = w.heap ∧ w1.fRoot = w.fRoot := by
  unfold VisitAllNTreeNodes at h
  simp only [] at h
  split at h
  · simp only [Option.some.injEq] at h
    have hp := exitPath_parm { w with entryCount := toShort (w.entryCount + 1) } false false []
    rw [h] at hp
    exact ⟨hp.2.2.1, hp.2.2.2⟩
  · generalize hw2 : (if toShort (w.entryCount + 1) > 1
      then PushVisitedBits { w with entryCount := toShort (w.entryCount + 1) }
      else ClearVisitedBits { w with entryCount := toShort (w.entryCount + 1) }) = w2 at h
    have hw2c : w2.heap = w.heap ∧ w2.fRoot = w.fRoot := by
      rw [← hw2]
      unfold PushVisitedBits ClearVisitedBits
      simp only []
      split_ifs <;> (cases hv : w.fVisitedBits <;> exact ⟨rfl, rfl⟩)
    cases hl : walkLoop start proc onEntry branch fuel w2 start [] with
    | none => simp [hl] at h
    | some res =>
      obtain ⟨w3, a, e, tr1⟩ := res
      obtain ⟨x1, x2⟩ := walkLoop_keepsTree start proc onEntry branch hk fuel w2 start [] w3 a e
        tr1 hl
      simp only [hl, Option.some.injEq] at h
      have hp := exitPath_parm w3 a e tr1
      rw [h] at hp
      exact ⟨hp.2.2.1.trans (x1.trans hw2c.1), hp.2.2.2.trans (x2.trans hw2c.2)⟩

theorem keepsTree_write {φ : Type} (cb : NTreeNodeWriteCB φ) :
    KeepsTree (WriteNTreeNode_ActionFunc cb) := by
  intro n w w1 r h
  unfold WriteNTreeNode_ActionFunc at h
  cases hw : NTreeNode.Write w.heap n w.parm.file w.parm.offset cb with
  | none => simp [hw] at h
  | some res =>
    obtain ⟨e, f, o, l⟩ := res
    simp only [hw, Option.some.injEq, Prod.mk.injEq] at h
    obtain ⟨_, rfl⟩ := h
    exact ⟨rfl, rfl⟩

theorem keepsTree_search : KeepsTree SearchForNodeID_ActionFunc := by
  intro n w w1 r h
  unfold SearchForNodeID_ActionFunc at h
  cases hw : w.heap n with
  | none => simp [hw] at h
  | some nd =>
    simp only [hw] at h
    split at h <;>
      (simp only [Option.some.injEq, Prod.mk.injEq] at h
       obtain ⟨_, rfl⟩ := h
       exact ⟨rfl, rfl⟩)

end NTree

/-! ## Writing a tree -/

namespace Shape

mutual
theorem pre_live (h : Nat → Option NTreeNode) :
    ∀ (S : Shape) (par : Option Nat), layout h par S = true →
      ∀ q ∈ S.pre, ∃ nd, h q = some nd ∧ nd.fChildren.length < 32768 ∧ nd.fID < 65536
  | node p i ks, par, hl, q, hq => by
    obtain ⟨nd, h1, h2, h3, _, h5, h6, h7⟩ := layout_spec h par _ hl
    simp only [ptr, kids, id] at h1 h2 h3 h5 h6 h7
    simp only [pre, List.mem_cons] at hq
    rcases hq with e | hq
    · subst e
      exact ⟨nd, h1, by rw [h5, List.length_map]; exact h6, by rw [h2]; exact h3⟩
    · exact preList_live h ks (some p) h7 q hq
theorem preList_live (h : Nat → Option NTreeNode) :
    ∀ (ks : List Shape) (par : Option Nat), layoutList h par ks = true →
      ∀ q ∈ preList ks, ∃ nd, h q = some nd ∧ nd.fChildren.length < 32768 ∧ nd.fID < 65536
  | [], _, _, q, hq => by simp [preList] at hq
  | k :: ks, par, hl, q, hq => by
    rw [layoutList_cons, Bool.and_eq_true] at hl
    simp only [preList, List.mem_append] at hq
    rcases hq with hq | hq
    · exact pre_live h k par hl.1 q hq
    · exact preList_live h ks par hl.2 q hq
end

mutual
/-- The records of a tree have 14 bytes for each node but 4 for the top: 10
for each node and 4 for each node that is a child. -/
theorem recordBytes_pre (h : Nat → Option NTreeNode) :
    ∀ (S : Shape) (par : Option Nat), layout h par S = true →
      ∀ (qs : List Nat), NTree.recordBytes h (S.pre ++ qs)
        = 14 * (S.pre.length : Int) - 4 + NTree.recordBytes h qs
  | node p i ks, par, hl, qs => by
    obtain ⟨nd, h1, _, _, _, h5, _, h7⟩ := layout_spec h par _ hl
    simp only [ptr, kids] at h1 h5 h7
    simp only [pre, List.cons_append, NTree.recordBytes, h1, Option.map_some', Option.getD_some,
      List.length_cons, List.append_eq]
    rw [recordBytes_preList h ks (some p) h7 qs, h5, List.length_map]
    push_cast
    ring
theorem recordBytes_preList (h : Nat → Option NTreeNode) :
    ∀ (ks : List Shape) (par : Option Nat), layoutList h par ks = true →
      ∀ (qs : List Nat), NTree.recordBytes h (preList ks ++ qs)
        = 14 * ((preList ks).length : Int) - 4 * (ks.length : Int) + NTree.recordBytes h qs
  | [], _, _, qs => by simp [preList]
  | k :: ks, par, hl, qs => by
    rw [layoutList_cons, Bool.and_eq_true] at hl
    simp only [preList, List.append_assoc, List.length_append, List.length_cons]
    rw [recordBytes_pre h k par hl.1 (preList ks ++ qs), recordBytes_preList h ks par hl.2 qs]
    push_cast
    ring
end

end Shape

namespace NTree

variable {σ : Type} {φ : Type}

/-- The write callback of the tree on a live node with live children, with a
file callback that accepts every call. -/
theorem writeAction_ok (cb : NTreeNodeWriteCB φ) (hok : ∀ f v s p, (cb f v s p).1 = 0)
    (w : World (TreeFileInfo φ)) (q : Nat) (nd : NTreeNode) (hq : w.heap q = some nd)
    (hkids : ∀ c ∈ nd.fChildren, ∃ cn, w.heap c = some cn)
    (hlen : nd.fChildren.length < 32768) :
    WriteNTreeNode_ActionFunc cb q w
      = some (false, { w with parm := writeStep w.heap cb q w.parm }) := by
  obtain ⟨f1, hw⟩ := NTreeNode.Write_ok w.heap q nd w.parm.file w.parm.offset cb hq hok hkids hlen
  unfold WriteNTreeNode_ActionFunc writeStep
  rw [hw]
  simp

theorem writeAction_step (cb : NTreeNodeWriteCB φ) (h0 : Nat → Option NTreeNode)
    (n : Nat) (u u1 : World (TreeFileInfo φ)) (r : Bool) (hh : u.heap = h0)
    (h : WriteNTreeNode_ActionFunc cb n u = some (r, u1)) :
    u1.heap = h0 ∧ u1.parm = writeStep h0 cb n u.parm := by
  unfold WriteNTreeNode_ActionFunc at h
  unfold writeStep
  rw [← hh]
  cases hw : NTreeNode.Write u.heap n u.parm.file u.parm.offset cb with
  | none => simp [hw] at h
  | some res =>
    obtain ⟨e, f, o, l⟩ := res
    simp only [hw, Option.some.injEq, Prod.mk.injEq] at h
    obtain ⟨_, rfl⟩ := h
    exact ⟨rfl, rfl⟩

/-- Writing live nodes one after the other moves the offset over their
records. -/
theorem writeNodes_ok (h : Nat → Option NTreeNode) (cb : NTreeNodeWriteCB φ)
    (hok : ∀ f v s p, (cb f v s p).1 = 0) :
    ∀ (qs : List Nat) (file : φ) (o : Int),
      (∀ q ∈ qs, ∃ nd, h q = some nd ∧ nd.fChildren.length < 32768 ∧
        ∀ c ∈ nd.fChildren, ∃ cn, h c = some cn) →
      ∃ f1, writeNodes h cb qs (file, o) = some (f1, o + recordBytes h qs) ∧
        (qs.foldl (fun s q => writeStep h cb q s) { file := file, offset := o }
          : TreeFileInfo φ) = { file := f1, offset := o + recordBytes h qs } := by
  intro qs
  induction qs with
  | nil =>
    intro file o _
    exact ⟨file, by simp [writeNodes, recordBytes], by simp [recordBytes]⟩
  | cons q qs ih =>
    intro file o hl
    obtain ⟨nd, h1, h2, h3⟩ := hl q (by simp)
    obtain ⟨f1, hw⟩ := NTreeNode.Write_ok h q nd file o cb h1 hok h3 h2
    obtain ⟨f2, g1, g2⟩ := ih f1 (o + 10 + 4 * (nd.fChildren.length : Int))
      (fun q1 hq1 => hl q1 (List.mem_cons_of_mem _ hq1))
    have e : o + 10 + 4 * (nd.fChildren.length : Int) + recordBytes h qs
        = o + recordBytes h (q :: qs) := by
      simp only [recordBytes, h1, Option.map_some', Option.getD_some]
      ring
    refine ⟨f2, ?_, ?_⟩
    · simp only [writeNodes, hw]
      rw [g1, e]
    · simp only [List.foldl_cons, writeStep, hw]
      rw [← e]
      exact g2

end NTree

namespace NTree

variable {σ : Type} {φ : Type}

theorem tree_nodes_live (h : Nat → Option NTreeNode) (T : Shape) (par : Option Nat)
    (hlay : Shape.layout h par T = true) :
    ∀ q ∈ T.pre, ∃ nd, h q = some nd ∧ nd.fChildren.length < 32768 ∧
      ∀ c ∈ nd.fChildren, ∃ cn, h c = some cn := by
  intro q hq
  obtain ⟨nd, h1, h2, _⟩ := Shape.pre_live h T par hlay q hq
  refine ⟨nd, h1, h2, ?_⟩
  intro c hc
  obtain ⟨_, cn, a, _⟩ := Shape.pre_closed h T par hlay q hq nd h1 c hc
  exact ⟨cn, a⟩

theorem framed_onNodes_write (T : Shape) (h : Nat → Option NTreeNode) (par : Option Nat)
    (hlay : Shape.layout h par T = true) (cb : NTreeNodeWriteCB φ)
    (hok : ∀ f v s p, (cb f v s p).1 = 0) (c : Int) :
    Framed (onNodes T.pre (WriteNTreeNode_ActionFunc cb)) h c := by
  intro n w hh hc _
  unfold onNodes
  by_cases hn : n ∈ T.pre
  · rw [if_pos hn]
    obtain ⟨nd, h1, h2, h3⟩ := tree_nodes_live h T par hlay n hn
    exact ⟨_, writeAction_ok cb hok w n nd (by rw [hh]; exact h1) (by rw [hh]; exact h3) h2,
      hh, hc, rfl⟩
  · rw [if_neg hn]
    exact ⟨w, rfl, hh, hc, rfl⟩

theorem loopEntry_parm (w : World σ) :
    (loopEntry w).heap = w.heap ∧ (loopEntry w).parm = w.parm ∧
      (loopEntry w).fRoot = w.fRoot := by
  unfold loopEntry PushVisitedBits ClearVisitedBits
  simp only []
  split_ifs <;> (cases hv : w.fVisitedBits <;> exact ⟨rfl, rfl, rfl⟩)

/-- `NTree::Write` with a file callback that accepts every call: the nodes are
written one after the other in pre-order. -/
theorem Write_tree (T : Shape) (w : World σ) (file : φ) (o : Int) (cb : NTreeNodeWriteCB φ)
    (fuel : Nat)
    (h0 : 0 ≤ w.entryCount) (h1 : w.entryCount < 32) (hst : w.fVisitedBits ≠ [])
    (hroot : w.fRoot = T.ptr)
    (hlay : Shape.layout w.heap none T = true) (hnd : T.ids.Nodup)
    (hok : ∀ f v s p, (cb f v s p).1 = 0) (hfuel : T.cost + 1 ≤ fuel) :
    ∃ f1 w1, Write fuel file o cb w = some (0, f1, o + recordBytes w.heap T.pre, w1) ∧
      writeNodes w.heap cb T.pre (file, o) = some (f1, o + recordBytes w.heap T.pre) ∧
      w1.heap = w.heap ∧ w1.fRoot = w.fRoot ∧ w1.parm = w.parm := by
  let wq : World (TreeFileInfo φ) := withParm w { file := file, offset := o }
  obtain ⟨wi, hi, _⟩ := walk_run (onNodes T.pre (WriteNTreeNode_ActionFunc cb)) true false T wq
    none fuel h0 h1 hst hlay hnd (framed_onNodes_write T w.heap none hlay cb hok _)
    (fun _ => rfl) hfuel
  rw [VisitAllNTreeNodes_run fuel _ _ _ _ wq h0 h1] at hi
  obtain ⟨e1, e2, e3⟩ := loopEntry_parm wq
  cases hwl : walkLoop (some T.ptr) (some (onNodes T.pre (WriteNTreeNode_ActionFunc cb))) true
      false fuel (loopEntry wq) (some T.ptr) [] with
  | none => simp [hwl] at hi
  | some r =>
    obtain ⟨w3, a, e, tr⟩ := r
    rw [hwl] at hi
    simp only [Option.map_some', Option.some.injEq] at hi
    have htr : tr = calm T.pre := by
      have := (exitPath_parm w3 a e tr).2.1
      rw [hi] at this
      simpa [order] using this.symm
    have hreal := walkLoop_congr (some T.ptr) true false (WriteNTreeNode_ActionFunc cb)
      (onNodes T.pre (WriteNTreeNode_ActionFunc cb)) w3 a e tr
      (by
        intro q b hq u
        rw [htr] at hq
        have hq1 : q ∈ T.pre := by
          simp only [calm, List.mem_map, Prod.mk.injEq] at hq
          obtain ⟨x, hx, rfl, _⟩ := hq
          exact hx
        simp [onNodes, hq1])
      fuel (loopEntry wq) (some T.ptr) [] hwl
    obtain ⟨ext, x1, x2, x3⟩ := walkLoop_parm (some T.ptr) (WriteNTreeNode_ActionFunc cb) true
      false w.heap (writeStep w.heap cb) (fun n u r u1 => writeAction_step cb w.heap n u u1 r) fuel
      (loopEntry wq)
      (some T.ptr) [] w3 a e tr e1 hreal
    simp only [List.nil_append] at x1
    rw [← x1, htr] at x3
    obtain ⟨f1, g1, g2⟩ := writeNodes_ok w.heap cb hok T.pre file o
      (tree_nodes_live w.heap T none hlay)
    have hparm : w3.parm = { file := f1, offset := o + recordBytes w.heap T.pre } := by
      rw [x3, e2]
      simp only [calm, List.foldl_map]
      exact g2
    obtain ⟨p1, _, p3, p4⟩ := exitPath_parm w3 a e tr
    refine ⟨f1, withParm (exitPath w3 a e tr).2.1 w.parm, ?_, g1, ?_, ?_, rfl⟩
    · obtain ⟨k1, k2⟩ := walkLoop_keepsTree (some T.ptr) (some (WriteNTreeNode_ActionFunc cb))
        true false (fun a ha => by cases ha; exact keepsTree_write cb) fuel (loopEntry wq)
        (some T.ptr) [] w3 a e tr hreal
      have hv : VisitAllNTreeNodes fuel (some w.fRoot) (some (WriteNTreeNode_ActionFunc cb))
          true false wq = some (exitPath w3 a e tr) := by
        rw [hroot, VisitAllNTreeNodes_run fuel _ _ _ _ wq h0 h1, hreal]
        rfl
      unfold Write
      rw [hv]
      simp only []
      rw [p1, hparm]
    · show (exitPath w3 a e tr).2.1.heap = w.heap
      rw [p3, x2]
    · show (exitPath w3 a e tr).2.1.fRoot = w.fRoot
      obtain ⟨k1, k2⟩ := walkLoop_keepsTree (some T.ptr) (some (WriteNTreeNode_ActionFunc cb))
        true false (fun a ha => by cases ha; exact keepsTree_write cb) fuel (loopEntry wq)
        (some T.ptr) [] w3 a e tr hreal
      rw [p4, k2, e3]
      rfl

end NTree

namespace NTree

variable {σ : Type} {φ : Type}

/-- C31: `NTree::Write` on a tree with `N` nodes and pairwise distinct ids,
with a file callback that accepts every call, returns 0 and moves the offset
by `14 N - 4`.  The file is the one that `NTreeNode::Write` leaves when it is
called once on every node in pre-order, each call from the offset where the
call before ended: the record of a node starts where the records of the nodes
before it in pre-order end, 10 bytes for each of them and 4 for each of their
children. -/
theorem Write_records_in_preorder (T : Shape) (w : World σ) (file : φ) (o : Int)
    (cb : NTreeNodeWriteCB φ) (fuel : Nat)
    (hcount0 : 0 ≤ w.entryCount) (hcount : w.entryCount < 32)
    (hbits : w.fVisitedBits ≠ []) (hroot : w.fRoot = T.ptr)
    (hlay : Shape.layout w.heap none T = true) (hids : T.ids.Nodup)
    (hok : ∀ f v s p, (cb f v s p).1 = 0) (hfuel : T.cost + 1 ≤ fuel) :
    ∃ f1 w1, Write fuel file o cb w
        = some (0, f1, o + (14 * (T.pre.length : Int) - 4), w1) ∧
      T.pre.Nodup ∧
      writeNodes w.heap cb T.pre (file, o) = some (f1, o + (14 * (T.pre.length : Int) - 4)) ∧
      ∀ pfx q rest, T.pre = pfx ++ q :: rest →
        ∃ f0 f2 nd log, w.heap q = some nd ∧
          writeNodes w.heap cb pfx (file, o) = some (f0, o + recordBytes w.heap pfx) ∧
          NTreeNode.Write w.heap q f0 (o + recordBytes w.heap pfx) cb
            = some (0, f2, o + recordBytes w.heap pfx + 10 + 4 * (nd.fChildren.length : Int),
                log) := by
  obtain ⟨f1, w1, a1, a2, _⟩ := Write_tree T w file o cb fuel hcount0 hcount hbits hroot hlay
    hids hok hfuel
  have hb : recordBytes w.heap T.pre = 14 * (T.pre.length : Int) - 4 := by
    have := Shape.recordBytes_pre w.heap T none hlay []
    simpa [recordBytes] using this
  rw [hb] at a1 a2
  refine ⟨f1, w1, a1, Shape.pre_nodup w.heap T none hlay hids, a2, ?_⟩
  intro pfx q rest hsplit
  have hlive := tree_nodes_live w.heap T none hlay
  obtain ⟨f0, g1, _⟩ := writeNodes_ok w.heap cb hok pfx file o
    (fun x hx => hlive x (by rw [hsplit]; simp [hx]))
  obtain ⟨nd, n1, n2, n3⟩ := hlive q (by rw [hsplit]; simp)
  obtain ⟨f2, hw⟩ := NTreeNode.Write_ok w.heap q nd f0 (o + recordBytes w.heap pfx) cb n1 hok
    n3 n2
  exact ⟨f0, f2, nd, _, n1, g1, hw⟩

theorem Write_records_in_preorder_witness :
    (Shape.layout rootedWorld.heap none sampleTree = true ∧ sampleTree.ids.Nodup ∧
      (Write 50 [] 0 logWrite rootedWorld).map (fun r => (r.2.1.length, r.2.2.1))
        = some (24, 66)) ∧
      ∃ f1 w1, Write 50 [] 0 logWrite rootedWorld
          = some (0, f1, 0 + (14 * (sampleTree.pre.length : Int) - 4), w1) ∧
        sampleTree.pre.Nodup ∧
        writeNodes rootedWorld.heap logWrite sampleTree.pre ([], 0)
          = some (f1, 0 + (14 * (sampleTree.pre.length : Int) - 4)) ∧
        ∀ pfx q rest, sampleTree.pre = pfx ++ q :: rest →
          ∃ f0 f2 nd log, rootedWorld.heap q = some nd ∧
            writeNodes rootedWorld.heap logWrite pfx ([], 0)
              = some (f0, 0 + recordBytes rootedWorld.heap pfx) ∧
            NTreeNode.Write rootedWorld.heap q f0 (0 + recordBytes rootedWorld.heap pfx) logWrite
              = some (0, f2,
                  0 + recordBytes rootedWorld.heap pfx + 10 + 4 * (nd.fChildren.length : Int),
                  log) :=
  ⟨⟨by decide, by decide, by decide⟩,
    Write_records_in_preorder sampleTree rootedWorld [] 0 logWrite 50 (by decide) (by decide)
      (by simp [rootedWorld]) rfl (by decide) (by decide) (fun _ _ _ _ => rfl) (by decide)⟩

end NTree

/-! ## The frame of a walk -/

namespace NTree

variable {σ : Type} {φ : Type}

theorem FindNodeByID_keepsTree (fuel v : Nat) (w w1 : World σ) (r : Option Nat)
    (h : FindNodeByID fuel v w = some (r, w1)) :
    w1.heap = w.heap ∧ w1.fRoot = w.fRoot ∧ w1.parm = w.parm := by
  unfold FindNodeByID at h
  cases hv : VisitAllNTreeNodes fuel (some w.fRoot) (some SearchForNodeID_ActionFunc) true false
      (withParm w { id := v, foundNode := none }) with
  | none => simp [hv] at h
  | some res =>
    obtain ⟨b, u, tr⟩ := res
    obtain ⟨x1, x2⟩ := walk_keepsTree fuel _ _ true false _
      (fun a ha => by cases ha; exact keepsTree_search) b u tr hv
    simp only [hv, Option.some.injEq, Prod.mk.injEq] at h
    obtain ⟨_, rfl⟩ := h
    exact ⟨x1, x2, rfl⟩

theorem Write_keepsTree (fuel : Nat) (file : φ) (o : Int) (cb : NTreeNodeWriteCB φ)
    (w w1 : World σ) (e : Int) (f1 : φ) (o1 : Int)
    (h : Write fuel file o cb w = some (e, f1, o1, w1)) :
    w1.heap = w.heap ∧ w1.fRoot = w.fRoot ∧ w1.parm = w.parm := by
  unfold Write at h
  cases hv : VisitAllNTreeNodes fuel (some w.fRoot) (some (WriteNTreeNode_ActionFunc cb)) true
      false (withParm w { file := file, offset := o }) with
  | none => simp [hv] at h
  | some res =>
    obtain ⟨b, u, tr⟩ := res
    obtain ⟨x1, x2⟩ := walk_keepsTree fuel _ _ true false _
      (fun a ha => by cases ha; exact keepsTree_write cb) b u tr hv
    simp only [hv, Option.some.injEq, Prod.mk.injEq] at h
    obtain ⟨_, _, _, rfl⟩ := h
    exact ⟨x1, x2, rfl⟩

/-- C38: a walk whose callback leaves the tree alone returns with every node
as it was (type, id, flags, parent link and child list) and with the same
root, whatever the start node, the timing and the scope; so do `FindNodeByID`
and `NTree::Write`, with any file callback.  On a tree with pairwise distinct
ids these calls do return: the walk from the root with a callback that never
aborts, `FindNodeByID`, and `NTree::Write` with a file callback that accepts
every call. -/
theorem walk_leaves_tree_unchanged (T : Shape) (w : World σ) (v fuel : Nat) (file : φ)
    (o : Int) (cb : NTreeNodeWriteCB φ)
    (hcount0 : 0 ≤ w.entryCount) (hcount : w.entryCount < 32)
    (hbits : w.fVisitedBits ≠ []) (hroot : w.fRoot = T.ptr)
    (hlay : Shape.layout w.heap none T = true) (hids : T.ids.Nodup)
    (hok : ∀ f x s p, (cb f x s p).1 = 0) (hfuel : T.cost + 1 ≤ fuel) :
    (∀ (start : Option Nat) (proc : Option (NTreeNodeActionFunc σ)) (onEntry branch : Bool)
        (f : Nat) (u u1 : World σ) (r : Bool) (tr : Trace),
        (∀ a, proc = some a → KeepsTree a) →
        VisitAllNTreeNodes f start proc onEntry branch u = some (r, u1, tr) →
        u1.heap = u.heap ∧ u1.fRoot = u.fRoot) ∧
      (∀ (f x : Nat) (u u1 : World σ) (r : Option Nat), FindNodeByID f x u = some (r, u1) →
        u1.heap = u.heap ∧ u1.fRoot = u.fRoot ∧ u1.parm = u.parm) ∧
      (∀ (f : Nat) (file1 : φ) (o1 : Int) (cb1 : NTreeNodeWriteCB φ) (u u1 : World σ) (e : Int)
        (f2 : φ) (o2 : Int), Write f file1 o1 cb1 u = some (e, f2, o2, u1) →
        u1.heap = u.heap ∧ u1.fRoot = u.fRoot ∧ u1.parm = u.parm) ∧
      (∀ (act : NTreeNodeActionFunc σ) (onEntry : Bool),
        Framed act w.heap (w.entryCount + 1) →
        ∃ w1, VisitAllNTreeNodes fuel (some T.ptr) (some act) onEntry false w
            = some (false, w1, calm (order onEntry T)) ∧ w1.heap = w.heap) ∧
      (∃ r w1, FindNodeByID fuel v w = some (r, w1) ∧ w1.heap = w.heap ∧
        w1.fRoot = w.fRoot ∧ w1.parm = w.parm) ∧
      (∃ e f1 o1 w1, Write fuel file o cb w = some (e, f1, o1, w1) ∧ w1.heap = w.heap ∧
        w1.fRoot = w.fRoot ∧ w1.parm = w.parm) := by
  refine ⟨?_, ?_, ?_, ?_, ?_, ?_⟩
  · intro start proc onEntry branch f u u1 r tr hk h
    exact walk_keepsTree f start proc onEntry branch u hk r u1 tr h
  · intro f x u u1 r h
    exact FindNodeByID_keepsTree f x u u1 r h
  · intro f file1 o1 cb1 u u1 e f2 o2 h
    exact Write_keepsTree f file1 o1 cb1 u u1 e f2 o2 h
  · intro act onEntry hfr
    obtain ⟨w1, h1, h2⟩ := walk_run act onEntry false T w none fuel hcount0 hcount hbits hlay
      hids hfr (fun _ => rfl) hfuel
    exact ⟨w1, h1, h2.1⟩
  · obtain ⟨w1, h1⟩ := FindNodeByID_find T w v fuel hcount0 hcount hbits hroot hlay hids hfuel
    exact ⟨_, w1, h1, FindNodeByID_keepsTree fuel v w w1 _ h1⟩
  · obtain ⟨f1, w1, h1, _, h3, h4, h5⟩ := Write_tree T w file o cb fuel hcount0 hcount hbits
      hroot hlay hids hok hfuel
    exact ⟨0, f1, _, w1, h1, h3, h4, h5⟩

theorem walk_leaves_tree_unchanged_witness :
    (Shape.layout rootedWorld.heap none sampleTree = true ∧ sampleTree.ids.Nodup) ∧
      ((∀ (start : Option Nat) (proc : Option (NTreeNodeActionFunc Unit)) (onEntry branch : Bool)
          (f : Nat) (u u1 : World Unit) (r : Bool) (tr : Trace),
          (∀ a, proc = some a → KeepsTree a) →
          VisitAllNTreeNodes f start proc onEntry branch u = some (r, u1, tr) →
          u1.heap = u.heap ∧ u1.fRoot = u.fRoot) ∧
        (∀ (f x : Nat) (u u1 : World Unit) (r : Option Nat),
          FindNodeByID f x u = some (r, u1) →
          u1.heap = u.heap ∧ u1.fRoot = u.fRoot ∧ u1.parm = u.parm) ∧
        (∀ (f : Nat) (file1 : WriteLog) (o1 : Int) (cb1 : NTreeNodeWriteCB WriteLog)
          (u u1 : World Unit) (e : Int) (f2 : WriteLog) (o2 : Int),
          Write f file1 o1 cb1 u = some (e, f2, o2, u1) →
          u1.heap = u.heap ∧ u1.fRoot = u.fRoot ∧ u1.parm = u.parm) ∧
        (∀ (act : NTreeNodeActionFunc Unit) (onEntry : Bool),
          Framed act rootedWorld.heap (rootedWorld.entryCount + 1) →
          ∃ w1, VisitAllNTreeNodes 50 (some sampleTree.ptr) (some act) onEntry false rootedWorld
              = some (false, w1, calm (order onEntry sampleTree)) ∧
            w1.heap = rootedWorld.heap) ∧
        (∃ r w1, FindNodeByID 50 3 rootedWorld = some (r, w1) ∧ w1.heap = rootedWorld.heap ∧
          w1.fRoot = rootedWorld.fRoot ∧ w1.parm = rootedWorld.parm) ∧
        (∃ e f1 o1 w1, Write 50 [] 0 logWrite rootedWorld = some (e, f1, o1, w1) ∧
          w1.heap = rootedWorld.heap ∧ w1.fRoot = rootedWorld.fRoot ∧
          w1.parm = rootedWorld.parm)) :=
  ⟨⟨by decide, by decide⟩,
    walk_leaves_tree_unchanged sampleTree rootedWorld 3 50 [] 0 logWrite (by decide) (by decide)
      (by simp [rootedWorld]) rfl (by decide) (by decide) (fun _ _ _ _ => rfl) (by decide)⟩

end NTree

/-! ## Every iteration of the loop makes progress -/

namespace NTree

variable {σ : Type}

/-- The backward scan over children that can all be read returns: either it
finds nothing and all children are unvisited, or it stops at the last visited
child. -/
theorem scanBackward_total (w : World σ) (nd : NTreeNode) :
    ∀ (k : Nat) (ch : Option Nat),
      (∀ j, j < k → ∃ c v, childVis w nd j = some (c, v)) →
      ∃ ch1, (scanBackward w nd k ch = some (-1, false, ch1) ∧
          ∀ j, j < k → ∃ c, childVis w nd j = some (c, false)) ∨
        (∃ m, m < k ∧ scanBackward w nd k ch = some ((m : Int), true, ch1) ∧
          ∀ j, m < j → j < k → ∃ c, childVis w nd j = some (c, false)) := by
  intro k
  induction k with
  | zero =>
    intro ch _
    exact ⟨ch, Or.inl ⟨rfl, fun j hj => absurd hj (by omega)⟩⟩
  | succ k ih =>
    intro ch hdef
    obtain ⟨c, v, hc⟩ := hdef k (by omega)
    cases v
    · rw [childVis_back_false w nd k c ch hc]
      obtain ⟨ch1, h1 | ⟨m, hm, h1, h2⟩⟩ := ih (some c) (fun j hj => hdef j (by omega))
      · refine ⟨ch1, Or.inl ⟨h1.1, ?_⟩⟩
        intro j hj
        by_cases e : j = k
        · subst e; exact ⟨c, hc⟩
        · exact h1.2 j (by omega)
      · refine ⟨ch1, Or.inr ⟨m, by omega, h1, ?_⟩⟩
        intro j h3 h4
        by_cases e : j = k
        · subst e; exact ⟨c, hc⟩
        · exact h2 j h3 (by omega)
    · rw [childVis_back_true w nd k c ch hc]
      exact ⟨some c, Or.inr ⟨k, by omega, rfl, fun j h3 h4 => absurd h3 (by omega)⟩⟩

/-- The forward scan over children that can all be read returns: either it
finds nothing and all children it looked at are visited, or it stops at the
first child that is not. -/
theorem scanForward_total (w : World σ) (nd : NTreeNode) :
    ∀ (r i : Nat) (ch : Option Nat),
      (∀ j, i ≤ j → j < i + r → ∃ c v, childVis w nd j = some (c, v)) →
      (∃ ch1, scanForward w nd r (i : Int) ch = some (((i + r : Nat) : Int), false, ch1) ∧
          ∀ j, i ≤ j → j < i + r → ∃ c, childVis w nd j = some (c, true)) ∨
        (∃ m c, i ≤ m ∧ m < i + r ∧
          scanForward w nd r (i : Int) ch = some ((m : Int), true, some c) ∧
          childVis w nd m = some (c, false)) := by
  intro r
  induction r with
  | zero =>
    intro i ch _
    exact Or.inl ⟨ch, rfl, fun j h1 h2 => absurd h1 (by omega)⟩
  | succ r ih =>
    intro i ch hdef
    obtain ⟨c, v, hc⟩ := hdef i (by omega) (by omega)
    cases v
    · rw [childVis_fwd_false w nd r i c ch hc]
      exact Or.inr ⟨i, c, by omega, by omega, rfl, hc⟩
    · rw [childVis_fwd_true w nd r i c ch hc]
      rcases ih (i + 1) (some c) (fun j h1 h2 => hdef j (by omega) (by omega)) with
        ⟨ch1, h1, h2⟩ | ⟨m, c1, h1, h2, h3, h4⟩
      · refine Or.inl ⟨ch1, ?_, ?_⟩
        · rw [h1]
          have : i + 1 + r = i + (r + 1) := by omega
          rw [this]
        · intro j h3 h4
          by_cases e : j = i
          · subst e; exact ⟨c, hc⟩
          · exact h2 j (by omega) (by omega)
      · exact Or.inr ⟨m, c1, by omega, by omega, h3, h4⟩

theorem kept_refl (w : World σ) : Kept w w := ⟨rfl, rfl, rfl⟩

theorem kept_vis (w w1 : World σ) (h : Kept w w1) (i : Nat) : vis w1 i = vis w i := by
  unfold vis
  rw [h.2.2]

theorem kept_childVis (w w1 : World σ) (h : Kept w w1) (nd : NTreeNode) (j : Nat) :
    childVis w1 nd j = childVis w nd j := by
  unfold childVis Visited
  rw [h.1, h.2.2]

/-- The two scans and what follows them, when the children of the cursor can
all be read and the callback returns without touching the tree: the iteration
ends the walk on an abort, or goes down to a child that is not visited, or
marks the cursor when all its children are visited. -/
theorem findAndVisit_progress (act : NTreeNodeActionFunc σ) (onEntry : Bool)
    (w : World σ) (p : Nat) (nd : NTreeNode) (tr : Trace) (didAction : Bool) (n : Nat)
    (hdef : ∀ j, j < n → ∃ c v, childVis w nd j = some (c, v))
    (hheap : w.heap p = some nd) (hst : w.fVisitedBits ≠ []) (hid : nd.fID < 65536)
    (hcall : ∃ r w1, act p w = some (r, w1) ∧ Kept w w1) :
    ∃ s, findAndVisit (some act) onEntry w p nd tr didAction (n : Int) ((n : Int) - 1) = some s ∧
      ((∃ w1 tr1, s = Step.exit w1 true false tr1 ∧ Kept w w1) ∨
       (∃ w1 c j tr1, s = Step.next w1 (some c) tr1 ∧ j < n ∧
          childVis w nd j = some (c, false) ∧ Kept w w1) ∨
       (∃ w2, s = Step.next w2 (some p) tr ∧ Marked w w2 [nd.fID] ∧
          ∀ j, j < n → ∃ c, childVis w nd j = some (c, true))) := by
  -- the state after both scans
  have hscan : (∃ ch2, ∃ ci1 : Int, ∃ idx found ch1,
        scanBackward w nd n none = some (idx, found, ch1) ∧
        (if found = true then (if idx + 1 ≥ (n : Int) then (0 : Int) else idx + 1) else 0) = ci1 ∧
        scanForward w nd ((n : Int) - ci1).toNat ci1 ch1 = some (((n : Nat) : Int), false, ch2) ∧
        ∀ j, j < n → ∃ c, childVis w nd j = some (c, true)) ∨
      (∃ m c, ∃ ci1 : Int, ∃ idx found ch1, m < n ∧
        scanBackward w nd n none = some (idx, found, ch1) ∧
        (if found = true then (if idx + 1 ≥ (n : Int) then (0 : Int) else idx + 1) else 0) = ci1 ∧
        scanForward w nd ((n : Int) - ci1).toNat ci1 ch1 = some ((m : Int), true, some c) ∧
        childVis w nd m = some (c, false)) := by
    obtain ⟨ch1, ⟨hb, hun⟩ | ⟨m, hm, hb, hun⟩⟩ := scanBackward_total w nd n none hdef
    · -- no visited child: the forward scan starts at 0
      have e3 : ((n : Int) - (0 : Int)).toNat = n := by omega
      rcases scanForward_total w nd n 0 ch1 (fun j _ h2 => hdef j (by omega)) with
        ⟨ch2, h1, h2⟩ | ⟨m, c, h1, h2, h3, h4⟩
      · refine Or.inl ⟨ch2, 0, _, _, _, hb, by simp, ?_, fun j hj => h2 j (by omega) (by omega)⟩
        rw [e3]
        simpa using h1
      · refine Or.inr ⟨m, c, 0, _, _, _, by omega, hb, by simp, ?_, h4⟩
        rw [e3]
        simpa using h3
    · by_cases hlast : m + 1 = n
      · -- the last child is visited: the forward scan starts at 0 again
        have e3 : ((n : Int) - (0 : Int)).toNat = n := by omega
        have eci : (if true = true then (if (m : Int) + 1 ≥ (n : Int) then (0 : Int)
            else (m : Int) + 1) else 0) = 0 := by
          simp only [if_true]
          rw [if_pos (by omega)]
        rcases scanForward_total w nd n 0 ch1 (fun j _ h2 => hdef j (by omega)) with
          ⟨ch2, h1, h2⟩ | ⟨m1, c, h1, h2, h3, h4⟩
        · refine Or.inl ⟨ch2, 0, _, _, _, hb, eci, ?_, fun j hj => h2 j (by omega) (by omega)⟩
          rw [e3]
          simpa using h1
        · refine Or.inr ⟨m1, c, 0, _, _, _, by omega, hb, eci, ?_, h4⟩
          rw [e3]
          simpa using h3
      · -- the child after the last visited one is not visited
        have eci : (if true = true then (if (m : Int) + 1 ≥ (n : Int) then (0 : Int)
            else (m : Int) + 1) else 0) = ((m + 1 : Nat) : Int) := by
          simp only [if_true]
          rw [if_neg (by omega)]
          simp
        obtain ⟨c, hc⟩ := hun (m + 1) (by omega) (by omega)
        have e3 : ((n : Int) - ((m + 1 : Nat) : Int)).toNat = (n - (m + 1) - 1) + 1 := by omega
        refine Or.inr ⟨m + 1, c, ((m + 1 : Nat) : Int), _, _, _, by omega, hb, eci, ?_, hc⟩
        rw [e3, childVis_fwd_false w nd _ (m + 1) c ch1 hc]
  have e1 : ((n : Int) - 1 + 1).toNat = n := by omega
  unfold findAndVisit
  rw [e1]
  rcases hscan with ⟨ch2, ci1, idx, found, ch1, hb, hci, hf, hall⟩ |
    ⟨m, c, ci1, idx, found, ch1, hm, hb, hci, hf, hc⟩
  · obtain ⟨w2, hs, hmk⟩ := SetVisitedBit_marked w nd.fID hst hid
    refine ⟨Step.next w2 (some p) tr, ?_, Or.inr (Or.inr ⟨w2, rfl, hmk, hall⟩)⟩
    rw [hb]
    simp only []
    rw [hci, hf]
    simp [hheap, hs]
  · rw [hb]
    simp only []
    rw [hci, hf]
    simp only []
    by_cases hbc : (true && decide ((m : Int) = 0) && !didAction && onEntry) = true
    · obtain ⟨r, w1, ha, hk⟩ := hcall
      simp only [hbc, if_true, invoke, ha]
      cases r
      · exact ⟨_, rfl, Or.inr (Or.inl ⟨w1, c, m, _, rfl, hm, hc, hk⟩)⟩
      · exact ⟨_, rfl, Or.inl ⟨w1, _, rfl, hk⟩⟩
    · simp only [hbc, if_false, if_true]
      exact ⟨_, rfl, Or.inr (Or.inl ⟨w, c, m, _, rfl, hm, hc, kept_refl w⟩)⟩

end NTree

namespace NTree

variable {σ : Type}

theorem kept_trans (w w1 w2 : World σ) (h1 : Kept w w1) (h2 : Kept w1 w2) : Kept w w2 :=
  ⟨h2.1.trans h1.1, h2.2.1.trans h1.2.1, h2.2.2.trans h1.2.2⟩

theorem marked_of_kept (w w1 w2 : World σ) (l : List Nat) (h1 : Kept w w1)
    (h2 : Marked w1 w2 l) : Marked w w2 l := by
  obtain ⟨a1, a2, a3, a4, a5⟩ := h2
  refine ⟨a1.trans h1.1, a2.trans h1.2.1, a3, ?_, ?_⟩
  · rw [a4, h1.2.2]
  · intro b hb
    rw [a5 b hb, kept_vis w w1 h1]

/-- One iteration of the loop at a cursor whose children can all be read, with
a callback that returns without touching the tree: the iteration has a result,
and it is the end of the walk, the move up from a visited cursor, the move down
from an unvisited cursor to an unvisited child, or the mark on an unvisited
cursor whose children are all visited. -/
theorem loopBody_progress (start : Option Nat) (act : NTreeNodeActionFunc σ)
    (onEntry branch : Bool) (w : World σ) (p : Nat) (nd : NTreeNode) (tr : Trace)
    (hheap : w.heap p = some nd) (hst : w.fVisitedBits ≠ []) (hid : nd.fID < 65536)
    (hlen : nd.fChildren.length < 32768)
    (hdef : ∀ j, j < nd.fChildren.length → ∃ c v, childVis w nd j = some (c, v))
    (hcall : ∀ u, Kept w u → ∃ r w1, act p u = some (r, w1) ∧ Kept u w1) :
    ∃ s, loopBody start (some act) onEntry branch w p tr = some s ∧
      ((∃ w1 a e tr1, s = Step.exit w1 a e tr1 ∧ Kept w w1) ∨
       (vis w nd.fID = true ∧ ∃ w1 tr1, s = Step.next w1 nd.fParent tr1 ∧ Kept w w1) ∨
       (vis w nd.fID = false ∧ ∃ w1 c j tr1, s = Step.next w1 (some c) tr1 ∧
          j < nd.fChildren.length ∧ childVis w nd j = some (c, false) ∧ Kept w w1) ∨
       (vis w nd.fID = false ∧ ∃ w2 tr1, s = Step.next w2 (some p) tr1 ∧
          Marked w w2 [nd.fID] ∧
          ∀ j, j < nd.fChildren.length → ∃ c, childVis w nd j = some (c, true))) := by
  unfold loopBody
  rw [hheap]
  simp only []
  rw [Visited_eq_vis w _ hst]
  cases hv : vis w nd.fID
  · -- the cursor is not visited
    simp only []
    unfold unvisitedBranch NTreeNode.GetNumChildren
    simp only []
    rw [toShort_pred _ hlen]
    by_cases hleaf : (decide ((nd.fChildren.length : Int) = 0) && onEntry) = true
    · simp only [hleaf, if_true]
      obtain ⟨r, w1, ha, hk⟩ := hcall w (kept_refl w)
      simp only [invoke, ha]
      cases r
      · simp only []
        have hh1 : w1.heap p = some nd := by rw [hk.1]; exact hheap
        rw [hh1]
        simp only []
        obtain ⟨s, hs, hcase⟩ := findAndVisit_progress act onEntry w1 p nd (tr ++ [(p, false)])
          true nd.fChildren.length
          (fun j hj => by rw [kept_childVis w w1 hk]; exact hdef j hj)
          hh1 (by rw [hk.2.2]; exact hst) hid
          (by
            obtain ⟨r2, w2, ha2, hk2⟩ := hcall w1 hk
            exact ⟨r2, w2, ha2, hk2⟩)
        refine ⟨s, hs, ?_⟩
        rcases hcase with ⟨w2, tr1, rfl, hk2⟩ | ⟨w2, c, j, tr1, rfl, hj, hc, hk2⟩ |
          ⟨w2, rfl, hm, hall⟩
        · exact Or.inl ⟨w2, _, _, tr1, rfl, kept_trans w w1 w2 hk hk2⟩
        · refine Or.inr (Or.inr (Or.inl ⟨by first | rfl | trivial, w2, c, j, tr1, rfl, hj, ?_,
            kept_trans w w1 w2 hk hk2⟩))
          rw [← kept_childVis w w1 hk]
          exact hc
        · refine Or.inr (Or.inr (Or.inr ⟨by first | rfl | trivial, w2, _, rfl, marked_of_kept w w1 w2 _ hk hm, ?_⟩))
          intro j hj
          rw [← kept_childVis w w1 hk]
          exact hall j hj
      · exact ⟨_, rfl, Or.inl ⟨w1, _, _, _, rfl, hk⟩⟩
    · simp only [hleaf, if_false]
      obtain ⟨s, hs, hcase⟩ := findAndVisit_progress act onEntry w p nd tr false
        nd.fChildren.length hdef hheap hst hid
        (by
          obtain ⟨r2, w2, ha2, hk2⟩ := hcall w (kept_refl w)
          exact ⟨r2, w2, ha2, hk2⟩)
      refine ⟨s, hs, ?_⟩
      rcases hcase with ⟨w2, tr1, rfl, hk2⟩ | ⟨w2, c, j, tr1, rfl, hj, hc, hk2⟩ |
        ⟨w2, rfl, hm, hall⟩
      · exact Or.inl ⟨w2, _, _, tr1, rfl, hk2⟩
      · exact Or.inr (Or.inr (Or.inl ⟨by first | rfl | trivial, w2, c, j, tr1, rfl, hj, hc, hk2⟩))
      · exact Or.inr (Or.inr (Or.inr ⟨by first | rfl | trivial, w2, _, rfl, hm, hall⟩))
  · -- the cursor is visited
    simp only []
    unfold visitedBranch
    simp only []
    cases onEntry
    · obtain ⟨r, w1, ha, hk⟩ := hcall w (kept_refl w)
      simp only [Bool.not_false, if_true, invoke, ha]
      cases r
      · simp only []
        by_cases hb : (decide (some p = start) && branch) = true
        · simp only [hb, if_true]
          exact ⟨_, rfl, Or.inl ⟨w1, _, _, _, rfl, hk⟩⟩
        · simp only [hb, if_false]
          exact ⟨_, rfl, Or.inr (Or.inl ⟨by first | rfl | trivial, w1, _, rfl, hk⟩)⟩
      · exact ⟨_, rfl, Or.inl ⟨w1, _, _, _, rfl, hk⟩⟩
    · simp only [Bool.not_true, Bool.false_eq_true, if_false]
      by_cases hb : (decide (some p = start) && branch) = true
      · simp only [hb, if_true]
        exact ⟨_, rfl, Or.inl ⟨w, _, _, _, rfl, kept_refl w⟩⟩
      · simp only [hb, if_false]
        exact ⟨_, rfl, Or.inr (Or.inl ⟨by first | rfl | trivial, w, _, rfl, kept_refl w⟩)⟩

end NTree

/-! ## The nodes above and below the cursor -/

namespace Shape

theorem mem_subtreesList (ks : List Shape) : ∀ k ∈ ks, ∀ X ∈ k.subtrees, X ∈ subtreesList ks := by
  induction ks with
  | nil => intro k hk; cases hk
  | cons a ks ih =>
    intro k hk X hX
    simp only [subtreesList, List.mem_append]
    rcases List.mem_cons.mp hk with rfl | hk1
    · exact Or.inl hX
    · exact Or.inr (ih k hk1 X hX)

mutual
theorem subtrees_kid : ∀ (S : Shape), ∀ X ∈ S.subtrees, ∀ k ∈ X.kids, k ∈ S.subtrees
  | node p i ks, X, hX, k, hk => by
    simp only [subtrees, List.mem_cons] at hX ⊢
    rcases hX with rfl | hX
    · exact Or.inr (mem_subtreesList ks k hk k (self_mem_subtrees k))
    · exact Or.inr (subtreesList_kid ks X hX k hk)
theorem subtreesList_kid : ∀ (ks : List Shape), ∀ X ∈ subtreesList ks, ∀ k ∈ X.kids,
    k ∈ subtreesList ks
  | [], X, hX, _, _ => by simp [subtreesList] at hX
  | a :: ks, X, hX, k, hk => by
    simp only [subtreesList, List.mem_append] at hX ⊢
    rcases hX with hX | hX
    · exact Or.inl (subtrees_kid a X hX k hk)
    · exact Or.inr (subtreesList_kid ks X hX k hk)
end

mutual
theorem subtree_parent : ∀ (S : Shape), ∀ X ∈ subtreesList S.kids,
    ∃ Y ∈ S.subtrees, X ∈ Y.kids
  | node p i ks, X, hX => by
    simp only [kids] at hX
    obtain ⟨Y, hY, hXY⟩ := subtreeList_parent ks X hX
    by_cases hm : X ∈ ks
    · exact ⟨node p i ks, self_mem_subtrees _, by simpa [kids] using hm⟩
    · refine ⟨Y, ?_, hXY.resolve_left hm⟩
      simp only [subtrees, List.mem_cons]
      exact Or.inr (hY.resolve_left hm)
theorem subtreeList_parent : ∀ (ks : List Shape), ∀ X ∈ subtreesList ks,
    ∃ Y, (X ∈ ks ∨ Y ∈ subtreesList ks) ∧ (X ∈ ks ∨ X ∈ Y.kids)
  | [], X, hX => by simp [subtreesList] at hX
  | a :: ks, X, hX => by
    simp only [subtreesList, List.mem_append] at hX
    rcases hX with hX | hX
    · rw [subtrees_eq, List.mem_cons] at hX
      rcases hX with rfl | hX
      · exact ⟨X, Or.inl (List.mem_cons_self _ _), Or.inl (List.mem_cons_self _ _)⟩
      · obtain ⟨Y, hY, hXY⟩ := subtree_parent a X hX
        refine ⟨Y, Or.inr ?_, Or.inr hXY⟩
        simp only [subtreesList, List.mem_append]
        exact Or.inl hY
    · obtain ⟨Y, h1, h2⟩ := subtreeList_parent ks X hX
      by_cases hm : X ∈ ks
      · exact ⟨Y, Or.inl (List.mem_cons_of_mem _ hm), Or.inl (List.mem_cons_of_mem _ hm)⟩
      · refine ⟨Y, Or.inr ?_, Or.inr (h2.resolve_left hm)⟩
        simp only [subtreesList, List.mem_append]
        exact Or.inr (h1.resolve_left hm)
end

theorem kids_pre_length_le (ks : List Shape) : ∀ k ∈ ks, k.pre.length ≤ (preList ks).length := by
  induction ks with
  | nil => intro k hk; cases hk
  | cons a ks ih =>
    intro k hk
    simp only [preList, List.length_append]
    rcases List.mem_cons.mp hk with rfl | hk1
    · omega
    · have := ih k hk1
      omega

theorem kid_pre_length (X k : Shape) (hk : k ∈ X.kids) : k.pre.length < X.pre.length := by
  rw [pre_eq X, List.length_cons]
  have := kids_pre_length_le X.kids k hk
  omega

theorem pre_length_pos (X : Shape) : 0 < X.pre.length := by
  rw [pre_eq X, List.length_cons]
  omega

end Shape

/-! ## The loop ends -/

namespace Shape

mutual
theorem ids_length : ∀ (S : Shape), S.ids.length = S.pre.length
  | node p i ks => by
    simp only [ids, pre, List.length_cons]
    rw [idsList_length ks]
theorem idsList_length : ∀ (ks : List Shape), (idsList ks).length = (preList ks).length
  | [] => rfl
  | k :: ks => by
    simp only [idsList, preList, List.length_append]
    rw [ids_length k, idsList_length ks]
end

end Shape

namespace NTree

variable {σ : Type}

theorem unvisited_kept (w w1 : World σ) (h : Kept w w1) (l : List Nat) :
    unvisited w1 l = unvisited w l := by
  unfold unvisited
  congr 2
  funext i
  rw [kept_vis w w1 h]

theorem unvisited_le (w : World σ) (l : List Nat) : unvisited w l ≤ l.length :=
  List.length_filter_le _ _

theorem unvisited_other (w w2 : World σ) (a : Nat) (hm : Marked w w2 [a]) :
    ∀ (l : List Nat), (∀ i ∈ l, i < 65536) → a ∉ l → unvisited w2 l = unvisited w l := by
  intro l
  induction l with
  | nil => intro _ _; rfl
  | cons b l ih =>
    intro hl ha
    have hb : vis w2 b = vis w b := by
      rw [hm.2.2.2.2 b (hl b (List.mem_cons_self _ _))]
      have : b ≠ a := fun e => ha (e ▸ List.mem_cons_self _ _)
      simp [this]
    have hrec := ih (fun i hi => hl i (List.mem_cons_of_mem _ hi))
      (fun h => ha (List.mem_cons_of_mem _ h))
    unfold unvisited at hrec ⊢
    simp only [List.filter_cons, hb]
    split_ifs <;> simp [hrec]

/-- The mark on an unvisited id of a list without repetition makes the number
of unvisited ids smaller by one. -/
theorem unvisited_marked (w w2 : World σ) (a : Nat) (hm : Marked w w2 [a])
    (hv : vis w a = false) :
    ∀ (l : List Nat), (∀ i ∈ l, i < 65536) → l.Nodup → a ∈ l →
      unvisited w2 l + 1 = unvisited w l := by
  intro l
  induction l with
  | nil => intro _ _ ha; cases ha
  | cons b l ih =>
    intro hl hnd ha
    rw [List.nodup_cons] at hnd
    by_cases e : b = a
    · subst e
      have h2 : vis w2 b = true := by
        rw [hm.2.2.2.2 b (hl b (List.mem_cons_self _ _))]
        simp
      have hrec := unvisited_other w w2 b hm l (fun i hi => hl i (List.mem_cons_of_mem _ hi))
        hnd.1
      unfold unvisited at hrec ⊢
      simp [List.filter_cons, h2, hv, hrec]
    · have hb : vis w2 b = vis w b := by
        rw [hm.2.2.2.2 b (hl b (List.mem_cons_self _ _))]
        simp [e]
      have ha1 : a ∈ l := by
        rcases List.mem_cons.mp ha with h | h
        · exact absurd h.symm e
        · exact h
      have hrec := ih (fun i hi => hl i (List.mem_cons_of_mem _ hi)) hnd.2 ha1
      unfold unvisited at hrec ⊢
      simp only [List.filter_cons, hb]
      split_ifs
      · simp only [List.length_cons]
        omega
      · exact hrec

end NTree

namespace NTree

variable {σ : Type}

/-- One iteration of the loop with the cursor at the top of a subtree `X` of a
tree `T` laid out in the heap, with a callback that leaves the tree alone: the
iteration has a result; it changes the visited bits only by the mark on the
cursor, which it sets when the cursor is not marked and all its children are;
and when the loop goes on, the cursor is again at the top of a subtree of `T`
and the potential is smaller. -/
theorem tree_step (T : Shape) (act : NTreeNodeActionFunc σ) (start : Option Nat)
    (onEntry branch : Bool) (w : World σ) (X : Shape) (tr : Trace)
    (hlay : Shape.layout w.heap none T = true) (hids : T.ids.Nodup)
    (hst : w.fVisitedBits ≠ [])
    (hact : Harmless T.pre act w.heap w.entryCount) (hX : X ∈ T.subtrees) :
    ∃ s, loopBody start (some act) onEntry branch w X.ptr tr = some s ∧
      (Kept w s.world ∨
        (Marked w s.world [X.id] ∧ vis w X.id = false ∧ ∀ k ∈ X.kids, vis w k.id = true)) ∧
      (∀ w1 q tr1, s = Step.next w1 (some q) tr1 →
        ∃ Y ∈ T.subtrees, Y.ptr = q ∧ potential w1 T Y < potential w T X) := by
  obtain ⟨par1, hlX⟩ := Shape.subtree_layout w.heap T none hlay X hX
  obtain ⟨nd, h1, h2, h3, h4, h5, h6, h7⟩ := Shape.layout_spec w.heap par1 X hlX
  have hlen : nd.fChildren.length = X.kids.length := by rw [h5, List.length_map]
  have hsizeX : X.pre.length ≤ T.pre.length := (Shape.subtree_pre_sublist T X hX).length_le
  have hposX := Shape.pre_length_pos X
  have hkid : ∀ j, j < nd.fChildren.length → ∃ k, k ∈ X.kids ∧
      childVis w nd j = some (k.ptr, vis w k.id) := by
    intro j hj
    have hj1 : j < X.kids.length := by rw [← hlen]; exact hj
    refine ⟨X.kids[j], List.getElem_mem hj1, ?_⟩
    exact childVis_layout w nd (some X.ptr) X.kids hst h5 h7 j _ (List.getElem?_eq_getElem hj1)
  have hptr : X.ptr ∈ T.pre :=
    (Shape.subtree_pre_sublist T X hX).subset (Shape.ptr_mem_pre X)
  obtain ⟨s, hs, hcase⟩ := loopBody_progress start act onEntry branch w X.ptr nd tr h1 hst
    (by rw [h2]; exact h3) (by rw [hlen]; exact h6)
    (fun j hj => by
      obtain ⟨k, _, hk⟩ := hkid j hj
      exact ⟨_, _, hk⟩)
    (fun u hu => by
      obtain ⟨r, w1, ha, b1, b2, b3⟩ := hact X.ptr u hptr hu.1 hu.2.1
        (by rw [hu.2.2]; exact hst)
      exact ⟨r, w1, ha, by rw [hu.1]; exact b1, by rw [hu.2.1]; exact b2, b3⟩)
  refine ⟨s, hs, ?_⟩
  rw [h2] at hcase
  rcases hcase with ⟨w1, a, e, tr1, rfl, hk⟩ | ⟨hv, w1, tr1, rfl, hk⟩ |
    ⟨hv, w1, c, j, tr1, rfl, hj, hc, hk⟩ | ⟨hv, w2, tr1, rfl, hm, hall⟩
  · exact ⟨Or.inl hk, fun w1 q tr1 h => by cases h⟩
  · -- the move up
    refine ⟨Or.inl hk, ?_⟩
    intro w0 q tr0 hq
    simp only [Step.next.injEq] at hq
    obtain ⟨rfl, hq, rfl⟩ := hq
    rw [Shape.subtrees_eq, List.mem_cons] at hX
    rcases hX with rfl | hX
    · obtain ⟨nd0, k1, _, _, k4, _⟩ := Shape.layout_spec w.heap none X hlay
      rw [h1] at k1
      cases k1
      rw [k4] at hq
      cases hq
    · obtain ⟨Y, hY, hXY⟩ := Shape.subtree_parent T X hX
      obtain ⟨par2, hlY⟩ := Shape.subtree_layout w.heap T none hlay Y hY
      obtain ⟨ndY, _, _, _, _, _, _, k7⟩ := Shape.layout_spec w.heap par2 Y hlY
      obtain ⟨nd0, k1, _, _, k4, _⟩ := Shape.layout_spec w.heap (some Y.ptr) X
        (Shape.layoutList_mem _ _ _ k7 X hXY)
      rw [h1] at k1
      cases k1
      rw [k4] at hq
      cases hq
      refine ⟨Y, hY, rfl, ?_⟩
      have hsizeY : Y.pre.length ≤ T.pre.length := (Shape.subtree_pre_sublist T Y hY).length_le
      have hlt := Shape.kid_pre_length Y X hXY
      unfold potential
      rw [unvisited_kept w w1 hk, kept_vis w w1 hk, hv]
      simp only [if_true]
      split_ifs <;> omega
  · -- the move down
    refine ⟨Or.inl hk, ?_⟩
    intro w0 q tr0 hq
    simp only [Step.next.injEq, Option.some.injEq] at hq
    obtain ⟨rfl, rfl, rfl⟩ := hq
    obtain ⟨k, hkm, hkc⟩ := hkid j hj
    rw [hc] at hkc
    simp only [Option.some.injEq, Prod.mk.injEq] at hkc
    obtain ⟨rfl, hkv⟩ := hkc
    refine ⟨k, Shape.subtrees_kid T X hX k hkm, rfl, ?_⟩
    have hlt := Shape.kid_pre_length X k hkm
    unfold potential
    rw [unvisited_kept w w1 hk, kept_vis w w1 hk, hv, ← hkv]
    simp only [Bool.false_eq_true, if_false]
    omega
  · -- the mark
    refine ⟨Or.inr ⟨hm, hv, ?_⟩, ?_⟩
    · intro k hkm
      obtain ⟨j, hj, hjk⟩ := List.getElem_of_mem hkm
      have hj1 : j < nd.fChildren.length := by rw [hlen]; exact hj
      obtain ⟨c, hc⟩ := hall j hj1
      have := childVis_layout w nd (some X.ptr) X.kids hst h5 h7 j k
        (by rw [List.getElem?_eq_getElem hj, hjk])
      rw [hc] at this
      simp only [Option.some.injEq, Prod.mk.injEq] at this
      exact this.2.symm
    · intro w0 q tr0 hq
      simp only [Step.next.injEq, Option.some.injEq] at hq
      obtain ⟨rfl, rfl, rfl⟩ := hq
      refine ⟨X, hX, rfl, ?_⟩
      have hidm : X.id ∈ T.ids :=
        (Shape.subtree_ids_sublist T X hX).subset (Shape.id_mem_ids X)
      have hdec := unvisited_marked w w2 X.id hm hv T.ids
        (Shape.ids_lt w.heap T none hlay) hids hidm
      have hv2 : vis w2 X.id = true := by
        rw [hm.2.2.2.2 X.id h3]
        simp
      unfold potential
      rw [hv, hv2, ← hdec, Nat.add_mul]
      simp only [Bool.false_eq_true, if_false, if_true]
      generalize unvisited w2 T.ids * (2 * T.pre.length + 2) = z
      omega

theorem step_state (w : World σ) (s : Step σ) (l : List Nat)
    (hst : w.fVisitedBits ≠ []) (h : Kept w s.world ∨ Marked w s.world l) :
    s.world.heap = w.heap ∧ s.world.entryCount = w.entryCount ∧ s.world.fVisitedBits ≠ [] := by
  rcases h with h | h
  · exact ⟨h.1, h.2.1, by rw [h.2.2]; exact hst⟩
  · exact ⟨h.1, h.2.1, h.2.2.1⟩

/-- The loop over a tree laid out in the heap ends, wherever the cursor is and
whatever bits are set, when the callback leaves the tree alone: the fuel needed
is bounded by the potential. -/
theorem walkLoop_terminates (T : Shape) (act : NTreeNodeActionFunc σ) (start : Option Nat)
    (onEntry branch : Bool) (h0 : Nat → Option NTreeNode) (c : Int)
    (hlay : Shape.layout h0 none T = true) (hids : T.ids.Nodup)
    (hact : Harmless T.pre act h0 c) :
    ∀ (m : Nat) (w : World σ) (X : Shape) (tr : Trace),
      w.heap = h0 → w.entryCount = c → w.fVisitedBits ≠ [] → X ∈ T.subtrees →
      potential w T X ≤ m → ∀ fuel, m < fuel →
      ∃ res, walkLoop start (some act) onEntry branch fuel w (some X.ptr) tr = some res := by
  intro m
  induction m with
  | zero =>
    intro w X tr hh hc hst hX hpot fuel hfuel
    obtain ⟨s, hs, hw, hnext⟩ := tree_step T act start onEntry branch w X tr
      (by rw [hh]; exact hlay) hids hst (by rw [hh, hc]; exact hact) hX
    obtain ⟨f, rfl⟩ : ∃ f, fuel = f + 1 := ⟨fuel - 1, by omega⟩
    cases s with
    | exit w1 a e tr1 => exact ⟨_, walkLoop_exit start _ onEntry branch f w w1 X.ptr a e tr tr1 hs⟩
    | next w1 q tr1 =>
      rw [walkLoop_next start _ onEntry branch f w w1 X.ptr q tr tr1 hs]
      cases q with
      | none => exact ⟨_, walkLoop_null start _ onEntry branch f w1 tr1⟩
      | some q =>
        obtain ⟨Y, _, _, hlt⟩ := hnext w1 q tr1 rfl
        omega
  | succ m ih =>
    intro w X tr hh hc hst hX hpot fuel hfuel
    obtain ⟨s, hs, hw, hnext⟩ := tree_step T act start onEntry branch w X tr
      (by rw [hh]; exact hlay) hids hst (by rw [hh, hc]; exact hact) hX
    obtain ⟨f, rfl⟩ : ∃ f, fuel = f + 1 := ⟨fuel - 1, by omega⟩
    cases s with
    | exit w1 a e tr1 => exact ⟨_, walkLoop_exit start _ onEntry branch f w w1 X.ptr a e tr tr1 hs⟩
    | next w1 q tr1 =>
      rw [walkLoop_next start _ onEntry branch f w w1 X.ptr q tr tr1 hs]
      cases q with
      | none => exact ⟨_, walkLoop_null start _ onEntry branch f w1 tr1⟩
      | some q =>
        obtain ⟨Y, hY, rfl, hlt⟩ := hnext w1 _ tr1 rfl
        have hstate := step_state w (Step.next w1 (some Y.ptr) tr1) [X.id] hst
          (hw.imp id (fun h => h.1))
        simp only [Step.world] at hstate
        exact ih w1 Y tr1 (hstate.1.trans hh) (hstate.2.1.trans hc) hstate.2.2 hY
          (by omega) f (by omega)

theorem potential_le (w : World σ) (T X : Shape) (hX : X ∈ T.subtrees) :
    potential w T X + 1 ≤ stepBound T := by
  have hsizeX : X.pre.length ≤ T.pre.length := (Shape.subtree_pre_sublist T X hX).length_le
  have hposX := Shape.pre_length_pos X
  have hu : unvisited w T.ids ≤ T.pre.length := by
    rw [← Shape.ids_length T]
    exact unvisited_le w T.ids
  unfold potential stepBound
  have hmul := Nat.mul_le_mul_right (2 * T.pre.length + 2) hu
  rw [Nat.add_mul]
  generalize unvisited w T.ids * (2 * T.pre.length + 2) = z at hmul ⊢
  generalize T.pre.length * (2 * T.pre.length + 2) = y at hmul ⊢
  split_ifs <;> omega

end NTree

namespace NTree

variable {σ : Type}

/-- While the loop runs over a tree with a callback that leaves the tree
alone, the heap stays as it is and the cursor stays on the tree. -/
theorem walkState_tree (T : Shape) (act : NTreeNodeActionFunc σ) (start : Option Nat)
    (onEntry branch : Bool) (h0 : Nat → Option NTreeNode) (c : Int)
    (hlay : Shape.layout h0 none T = true) (hids : T.ids.Nodup)
    (hact : Harmless T.pre act h0 c) :
    ∀ (k : Nat) (w : World σ) (X : Shape) (tr : Trace) (wk : World σ) (p : Nat) (trk : Trace),
      w.heap = h0 → w.entryCount = c → w.fVisitedBits ≠ [] → X ∈ T.subtrees →
      walkState start (some act) onEntry branch k w (some X.ptr) tr = some (wk, some p, trk) →
      wk.heap = h0 ∧ wk.entryCount = c ∧ wk.fVisitedBits ≠ [] ∧ ∃ Y ∈ T.subtrees, Y.ptr = p := by
  intro k
  induction k with
  | zero =>
    intro w X tr wk p trk hh hc hst hX h
    simp only [walkState, Option.some.injEq, Prod.mk.injEq] at h
    obtain ⟨rfl, rfl, rfl⟩ := h
    exact ⟨hh, hc, hst, X, hX, rfl⟩
  | succ k ih =>
    intro w X tr wk p trk hh hc hst hX h
    obtain ⟨s, hs, hw, hnext⟩ := tree_step T act start onEntry branch w X tr
      (by rw [hh]; exact hlay) hids hst (by rw [hh, hc]; exact hact) hX
    unfold walkState at h
    rw [hs] at h
    cases s with
    | exit w1 a e tr1 => simp at h
    | next w1 q tr1 =>
      simp only [] at h
      cases q with
      | none =>
        cases k <;> simp [walkState] at h
      | some q =>
        obtain ⟨Y, hY, rfl, _⟩ := hnext w1 _ tr1 rfl
        have hstate := step_state w (Step.next w1 (some Y.ptr) tr1) [X.id] hst
          (hw.imp id (fun h => h.1))
        simp only [Step.world] at hstate
        exact ih w1 Y tr1 wk p trk (hstate.1.trans hh) (hstate.2.1.trans hc) hstate.2.2 hY h

theorem harmless_abortAt (ps : List Nat) (k : Nat) (h : Nat → Option NTreeNode) (c : Int) :
    Harmless ps (abortAt k) h c := by
  intro n w _ hh hc _
  exact ⟨decide (n = k), w, rfl, hh, hc, rfl⟩

/-- C36: termination.  For a tree `T` with pairwise distinct ids laid out in
the heap, a start node anywhere on it (the top of a subtree `X`), either timing
and either scope, and a callback that leaves the tree alone (it may abort), the
loop ends within `stepBound T` iterations and the walk returns: either no call
aborted and the loop ended at a null cursor or at the end of the branch, or the
last call made aborted.  In every iteration a bit that is set stays set, and a
bit that gets set is the bit of the cursor, whose children are all marked
already: a node is marked at most once, and only after all of its children. -/
theorem walk_terminates (T X : Shape) (act : NTreeNodeActionFunc σ) (onEntry branch : Bool)
    (w : World σ)
    (hcount0 : 0 ≤ w.entryCount) (hcount : w.entryCount < 32) (hbits : w.fVisitedBits ≠ [])
    (hlay : Shape.layout w.heap none T = true) (hids : T.ids.Nodup) (hX : X ∈ T.subtrees)
    (hact : Harmless T.pre act w.heap (w.entryCount + 1)) :
    (∀ fuel, stepBound T ≤ fuel →
      ∃ w3 a e tr, walkLoop (some X.ptr) (some act) onEntry branch fuel (loopEntry w)
          (some X.ptr) [] = some (w3, a, e, tr) ∧ AbortLast tr a e ∧
        VisitAllNTreeNodes fuel (some X.ptr) (some act) onEntry branch w
          = some (exitPath w3 a e tr)) ∧
    (∀ (k : Nat) (wk : World σ) (p : Nat) (trk : Trace),
      walkState (some X.ptr) (some act) onEntry branch k (loopEntry w) (some X.ptr) []
        = some (wk, some p, trk) →
      ∃ s, loopBody (some X.ptr) (some act) onEntry branch wk p trk = some s ∧
        (∀ i, i < 65536 → vis wk i = true → vis s.world i = true) ∧
        (∀ i, i < 65536 → vis wk i = false → vis s.world i = true →
          ∃ Y ∈ T.subtrees, Y.ptr = p ∧ Y.id = i ∧ ∀ kid ∈ Y.kids, vis wk kid.id = true)) := by
  obtain ⟨e1, e2, e3, _, _, _, _⟩ := loopEntry_spec w hcount0 hcount hbits
  constructor
  · intro fuel hfuel
    rw [VisitAllNTreeNodes_run fuel _ _ onEntry branch w hcount0 hcount]
    obtain ⟨res, hres⟩ := walkLoop_terminates T act (some X.ptr) onEntry branch w.heap
      (w.entryCount + 1) hlay hids hact (potential (loopEntry w) T X) (loopEntry w) X []
      e1 e2 e3 hX (le_refl _) fuel
      (by have := potential_le (loopEntry w) T X hX; omega)
    obtain ⟨w3, a, e, tr⟩ := res
    refine ⟨w3, a, e, tr, hres, ?_, ?_⟩
    · exact walkLoop_abortLast (some X.ptr) (some act) onEntry branch fuel (loopEntry w)
        (some X.ptr) [] w3 a e tr (fun x hx => by cases hx) hres
    · rw [hres]
      rfl
  · intro k wk p trk hk
    obtain ⟨a1, a2, a3, Y, hY, rfl⟩ := walkState_tree T act (some X.ptr) onEntry branch w.heap
      (w.entryCount + 1) hlay hids hact k (loopEntry w) X [] wk _ trk e1 e2 e3 hX hk
    obtain ⟨s, hs, hw, _⟩ := tree_step T act (some X.ptr) onEntry branch wk Y trk
      (by rw [a1]; exact hlay) hids a3 (by rw [a1, a2]; exact hact) hY
    refine ⟨s, hs, ?_, ?_⟩
    · intro i hi hv
      rcases hw with hw | ⟨hm, _, _⟩
      · rw [kept_vis wk _ hw, hv]
      · rw [hm.2.2.2.2 i hi, hv]
        simp
    · intro i hi hv hv2
      rcases hw with hw | ⟨hm, hvY, hall⟩
      · rw [kept_vis wk _ hw, hv] at hv2
        cases hv2
      · rw [hm.2.2.2.2 i hi, hv] at hv2
        simp only [List.mem_singleton, Bool.or_false, decide_eq_true_eq] at hv2
        exact ⟨Y, hY, rfl, hv2.symm, hall⟩

theorem walk_terminates_witness :
    (Shape.layout sampleWorld.heap none sampleTree = true ∧ sampleTree.ids.Nodup ∧
      sampleBranch ∈ sampleTree.subtrees) ∧
    (∀ fuel, stepBound sampleTree ≤ fuel →
      ∃ w3 a e tr, walkLoop (some sampleBranch.ptr) (some (abortAt 3)) false true fuel
          (loopEntry sampleWorld) (some sampleBranch.ptr) [] = some (w3, a, e, tr) ∧
        AbortLast tr a e ∧
        VisitAllNTreeNodes fuel (some sampleBranch.ptr) (some (abortAt 3)) false true sampleWorld
          = some (exitPath w3 a e tr)) ∧
    (∀ (k : Nat) (wk : World Unit) (p : Nat) (trk : Trace),
      walkState (some sampleBranch.ptr) (some (abortAt 3)) false true k (loopEntry sampleWorld)
        (some sampleBranch.ptr) [] = some (wk, some p, trk) →
      ∃ s, loopBody (some sampleBranch.ptr) (some (abortAt 3)) false true wk p trk = some s ∧
        (∀ i, i < 65536 → vis wk i = true → vis s.world i = true) ∧
        (∀ i, i < 65536 → vis wk i = false → vis s.world i = true →
          ∃ Y ∈ sampleTree.subtrees, Y.ptr = p ∧ Y.id = i ∧
            ∀ kid ∈ Y.kids, vis wk kid.id = true)) :=
  ⟨⟨by decide, by decide, by simp [sampleTree, sampleBranch, Shape.subtrees, Shape.subtreesList]⟩,
    walk_terminates sampleTree sampleBranch (abortAt 3) false true sampleWorld
      (by decide) (by decide) (by simp [sampleWorld]) (by decide) (by decide)
      (by simp [sampleTree, sampleBranch, Shape.subtrees, Shape.subtreesList])
      (harmless_abortAt _ _ _ _)⟩

end NTree

/-! ## Insertion in front of visited children, and the record read back -/

namespace NTree

/-- C39: an entry-timed whole-tree walk from the root of the sample tree (the
root has the children 1, 2 and 4) with the callback `insertFirst`, which on its
first call on the root inserts a new node 5 with a fresh id at index 0 of the
root and does nothing else.  The callback runs on the root twice: when the root
is first met, and again after the children 1, 2 and 4 have been visited, when
the scan wraps to index 0 and finds the new first child unvisited. -/
theorem entry_action_runs_again_after_insert_at_front :
    (sampleWorld.heap 0).map (fun nd => nd.fChildren) = some [1, 2, 4] ∧
      observe (VisitAllNTreeNodes 40 (some 0) (some insertFirst) true false sampleWorld)
        = some (false, [(0, false), (1, false), (3, false), (2, false), (4, false),
            (0, false), (5, false)]) ∧
      (VisitAllNTreeNodes 40 (some 0) (some insertFirst) true false sampleWorld).map
          (fun r => (r.2.1.heap 0).map (fun nd => nd.fChildren)) = some (some [5, 1, 2, 4]) :=
  ⟨by decide, by decide, by decide⟩

/-- C33: the root of `rootedHeap` (type `'ROOT'`, id `0xFFFF`, three children)
is written by `NTreeNode::Write` at offset 100 into a byte store (result 0, 22
bytes), and the record is read back from offset 100 by `NTreeNode::Read` into a
node fresh from the constructor, with a callback that fetches the bytes and a
factory that makes a node of the type asked for.  `Read` returns 0 and the node
has the type, id and flags written, but it has no children, the offset is 110
and not 122, and the factory has made no node (the address 10, the first it
would use, is empty). -/
theorem record_read_back_has_no_children :
    nodeView rootedHeap 0 = some (kRootType, kRootID, 0, [1, 2, 4]) ∧
      (NTreeNode.Write rootedHeap 0 ([] : Bytes) 100 memWrite).map (fun r => (r.1, r.2.2.1))
        = some (0, 122) ∧
      nodeView (NTreeNode.setNode emptyHeap 6 (NTreeNode.create 0 0)) 6 = some (0, 0, 0, []) ∧
      (NTreeNode.Write rootedHeap 0 ([] : Bytes) 100 memWrite).bind
          (fun r => (NTreeNode.Read (NTreeNode.setNode emptyHeap 6 (NTreeNode.create 0 0)) 6
            r.2.1 100 plainFactory memRead true).map (fun s => (s.1, s.2.2.2)))
        = some (0, 110) ∧
      (NTreeNode.Write rootedHeap 0 ([] : Bytes) 100 memWrite).bind
          (fun r => (NTreeNode.Read (NTreeNode.setNode emptyHeap 6 (NTreeNode.create 0 0)) 6
            r.2.1 100 plainFactory memRead true).map (fun s => nodeView s.2.1 6))
        = some (some (kRootType, kRootID, 0, [])) ∧
      (NTreeNode.Write rootedHeap 0 ([] : Bytes) 100 memWrite).bind
          (fun r => (NTreeNode.Read (NTreeNode.setNode emptyHeap 6 (NTreeNode.create 0 0)) 6
            r.2.1 100 plainFactory memRead true).map (fun s => (s.2.1 10).isNone))
        = some true :=
  ⟨by decide, by decide, by decide, by decide, by decide, by decide⟩

end NTree

/-! ## Nodes destroyed during a walk -/

namespace NTree

variable {σ : Type}

theorem loopBody_scope (start : Option Nat) (proc : Option (NTreeNodeActionFunc σ))
    (onEntry : Bool) (w : World σ) (p : Nat) (tr : Trace) :
    loopBody start proc onEntry false w p tr = loopBody none proc onEntry true w p tr := by
  unfold loopBody visitedBranch
  simp

/-- A walk over the entire tree is a walk over a branch that has no start node. -/
theorem walkLoop_scope (start : Option Nat) (proc : Option (NTreeNodeActionFunc σ))
    (onEntry : Bool) :
    ∀ (fuel : Nat) (w : World σ) (node : Option Nat) (tr : Trace),
      walkLoop start proc onEntry false fuel w node tr
        = walkLoop none proc onEntry true fuel w node tr := by
  intro fuel
  induction fuel with
  | zero =>
    intro w node tr
    cases node <;> rfl
  | succ f ih =>
    intro w node tr
    cases node with
    | none => rfl
    | some p =>
      unfold walkLoop
      rw [loopBody_scope]
      cases loopBody none proc onEntry true w p tr with
      | none => rfl
      | some s =>
        cases s with
        | exit w1 a e tr1 => rfl
        | next w1 n1 tr1 => exact ih w1 n1 tr1

/-- An iteration of an exit-timed walk at a marked cursor, whatever the
callback does to the heap. -/
theorem loopBody_exit_call (start : Option Nat) (act : NTreeNodeActionFunc σ) (branch : Bool)
    (w w1 : World σ) (p : Nat) (nd : NTreeNode) (tr : Trace) (r : Bool)
    (hheap : w.heap p = some nd) (hst : w.fVisitedBits ≠ []) (hv : vis w nd.fID = true)
    (hact : act p w = some (r, w1)) :
    loopBody start (some act) false branch w p tr
      = some (afterExitCall start branch p nd tr r w1) := by
  unfold loopBody afterExitCall
  rw [hheap]
  simp only []
  rw [Visited_eq_vis w _ hst, hv]
  simp only []
  unfold visitedBranch
  cases r
  · simp only [invoke, hact, Bool.not_false, if_true, Bool.false_eq_true, if_false]
    split_ifs <;> rfl
  · simp [invoke, hact]

/-- An iteration of an exit-timed walk at a cursor that is not marked makes no
call. -/
theorem loopBody_exit_silent (start : Option Nat) (act act2 : NTreeNodeActionFunc σ)
    (branch : Bool) (w : World σ) (p : Nat) (nd : NTreeNode) (tr : Trace)
    (hheap : w.heap p = some nd) (hst : w.fVisitedBits ≠ []) (hv : vis w nd.fID = false) :
    loopBody start (some act) false branch w p tr
      = loopBody start (some act2) false branch w p tr := by
  unfold loopBody
  rw [hheap]
  simp only []
  rw [Visited_eq_vis w _ hst, hv]
  simp only []
  unfold unvisitedBranch findAndVisit
  simp

theorem popAll_spec : ∀ (fuel : Nat) (w : World σ), w.fVisitedBits.length ≤ fuel →
    ∃ w2, popAll fuel w = some w2 ∧ w2.fVisitedBits = [] ∧ w2.heap = w.heap ∧
      w2.fRoot = w.fRoot := by
  intro fuel
  induction fuel with
  | zero =>
    intro w hl
    cases hb : w.fVisitedBits with
    | nil => exact ⟨w, by simp [popAll, hb], hb, rfl, rfl⟩
    | cons b bs => rw [hb] at hl; simp at hl
  | succ f ih =>
    intro w hl
    cases hb : w.fVisitedBits with
    | nil => exact ⟨w, by simp [popAll, hb], hb, rfl, rfl⟩
    | cons b bs =>
      obtain ⟨w2, h1, h2, h3, h4⟩ := ih (PopVisitedBits w) (by
        simp only [PopVisitedBits, hb]
        rw [hb] at hl
        simp only [List.length_cons] at hl
        omega)
      refine ⟨w2, ?_, h2, ?_, ?_⟩
      · simp only [popAll, hb]
        exact h1
      · rw [h3]; simp [PopVisitedBits, hb]
      · rw [h4]; simp [PopVisitedBits, hb]

/-- The walk of `NTree::~NTree` over a tree whose root has the id of a root. -/
theorem dispose_walk (T : Shape) (w : World σ) (fuel : Nat)
    (h0 : 0 ≤ w.entryCount) (h1 : w.entryCount < 32) (hst : w.fVisitedBits ≠ [])
    (hlay : Shape.layout w.heap none T = true) (hids : T.ids.Nodup)
    (hid : T.id = kRootID) (hfuel : T.cost + 1 ≤ fuel) :
    ∃ w1 nd, w.heap T.ptr = some nd ∧
      VisitAllNTreeNodes fuel (some T.ptr) (some (DisposeNTree_ActionFunc true)) false false w
        = some (false, w1, calm T.post) ∧
      (∀ q, w1.heap q = if q = T.ptr then some { nd with fChildren := [] }
        else if q ∈ Shape.preList T.kids then none else w.heap q) ∧
      w1.fRoot = w.fRoot ∧ w1.entryCount = w.entryCount ∧
      w1.fVisitedBits.length = w.fVisitedBits.length := by
  have hroot : kRootID ∉ Shape.idsList T.kids := by
    rw [Shape.ids_eq, List.nodup_cons, hid] at hids
    exact hids.1
  obtain ⟨a1, a2, a3, a4, a5, a6, a7⟩ := loopEntry_spec w h0 h1 hst
  have hpn := Shape.pre_nodup w.heap T none hlay hids
  obtain ⟨w3, nd, hnd, hm, hw3⟩ := sub_prune none T (loopEntry w) none []
    (by rw [a1]; exact hlay) hids hpn hroot a3
    (fun i hi => a4 i (Shape.ids_lt w.heap T none hlay i hi))
    (fun q _ he => by cases he)
  rw [a1] at hnd
  obtain ⟨g1, g2, g2r, g3, g4, g5⟩ := hm
  obtain ⟨nd0, n1, n2, n3, n4, _⟩ := Shape.layout_spec _ _ _ hlay
  rw [hnd] at n1
  cases n1
  have hk3 : w3.heap T.ptr = some { nd with fChildren := [] } := by rw [g1, if_pos rfl]
  have hv3 : vis w3 nd.fID = true := by
    rw [n2, g5 _ n3]
    simp [Shape.id_mem_ids]
  have hact := dispose_root w3 T.ptr { nd with fChildren := [] } hk3
    (by
      show nd.fID = kRootID
      rw [n2, hid]) true
  have hbody := loopBody_exit_call none (DisposeNTree_ActionFunc true) true w3 w3 T.ptr
    { nd with fChildren := [] } ([] ++ calm (Shape.postList T.kids)) false hk3 g3 hv3 hact
  have hstep : afterExitCall none true T.ptr { nd with fChildren := [] }
      ([] ++ calm (Shape.postList T.kids)) false w3
      = Step.next w3 none (calm T.post) := by
    unfold afterExitCall
    simp only [Bool.false_eq_true, if_false]
    rw [if_neg (by simp)]
    rw [Shape.post_eq]
    simp [calm, n4]
  rw [hstep] at hbody
  have hf : fuel = (fuel - T.cost - 1 + 1) + T.cost := by omega
  obtain ⟨s1, s2, s3, s4⟩ := exitPath_state w w3 false false (calm T.post) h0 h1 hst g2 g3 g4
  have htr := (exitPath_parm w3 false false (calm T.post)).2.1
  have hfl : (exitPath w3 false false (calm T.post)).1 = false := by simp [exitPath]
  refine ⟨(exitPath w3 false false (calm T.post)).2.1, nd, hnd, ?_, ?_, ?_, s3, s4⟩
  · rw [VisitAllNTreeNodes_run fuel _ _ _ _ w h0 h1, walkLoop_scope, hf, hw3,
      walkLoop_next _ _ _ _ _ w3 w3 T.ptr none _ _ hbody, walkLoop_null]
    simp only [Option.map_some']
    exact congrArg some (Prod.ext hfl (Prod.ext rfl htr))
  · intro q
    rw [s1, g1, a1]
  · rw [s2]
    exact g2r.trans a7

end NTree

namespace NTree

variable {σ : Type}

/-- C37: destroy-during-walk safety.  In an exit-timed walk the callback runs
only in an iteration whose cursor is marked visited, and what that iteration
does after the call (`afterExitCall`) is fixed by the node read before the call
(its parent link, whether it is the start node) and the result of the call:
the state the callback leaves is passed on unread, so the cursor node may be
destroyed in it.  On a tree with pairwise distinct ids whose root has the id of
a root, `Prune` of a node `X` under the root, `Prune` of the root and the
teardown `~NTree` all have a result (a read of a destroyed node has none),
although the callback has destroyed the nodes it ran on: afterwards every node
of `X`, every node under the root, and every node of the tree is deleted. -/
theorem destroy_during_walk_is_safe (T X : Shape) (w : World σ) (fuel : Nat)
    (hcount0 : 0 ≤ w.entryCount) (hcount : w.entryCount < 32)
    (hbits : w.fVisitedBits ≠ []) (hroot : w.fRoot = T.ptr)
    (hlay : Shape.layout w.heap none T = true) (hids : T.ids.Nodup)
    (hrootid : T.id = kRootID) (hX : X ∈ Shape.subtreesList T.kids)
    (hfuelX : X.cost + 1 ≤ fuel) (hfuel : T.cost + 1 ≤ fuel)
    (hpop : w.fVisitedBits.length ≤ fuel) :
    (∀ (start : Option Nat) (act : NTreeNodeActionFunc σ) (branch : Bool) (u u1 : World σ)
        (p : Nat) (nd : NTreeNode) (tr : Trace) (r : Bool),
        u.heap p = some nd → u.fVisitedBits ≠ [] → vis u nd.fID = true →
        act p u = some (r, u1) →
        loopBody start (some act) false branch u p tr
          = some (afterExitCall start branch p nd tr r u1)) ∧
    (∀ (start : Option Nat) (act act2 : NTreeNodeActionFunc σ) (branch : Bool) (u : World σ)
        (p : Nat) (nd : NTreeNode) (tr : Trace),
        u.heap p = some nd → u.fVisitedBits ≠ [] → vis u nd.fID = false →
        loopBody start (some act) false branch u p tr
          = loopBody start (some act2) false branch u p tr) ∧
    (∃ w1, Prune fuel true (some X.ptr) w = some (false, w1, calm X.post) ∧
      ∀ q ∈ X.pre, w1.heap q = none) ∧
    (∃ w1, Prune fuel true (some T.ptr) w = some (false, w1, calm T.post) ∧
      ∀ q ∈ Shape.preList T.kids, w1.heap q = none) ∧
    (∃ w1, destructor fuel true w = some w1 ∧ ∀ q ∈ T.pre, w1.heap q = none) := by
  have hpn := Shape.pre_nodup w.heap T none hlay hids
  refine ⟨?_, ?_, ?_, ?_, ?_⟩
  · intro start act branch u u1 p nd tr r hh hst hv hact
    exact loopBody_exit_call start act branch u u1 p nd tr r hh hst hv hact
  · intro start act act2 branch u p nd tr hh hst hv
    exact loopBody_exit_silent start act act2 branch u p nd tr hh hst hv
  · obtain ⟨P, Pn, hPT, hP, hxm, hPnn, hPlen, hXlay, hPX⟩ :=
      Shape.locate w.heap T none hlay hpn X hX
    have hsub := Shape.subtreeList_ids_sublist T.kids X hX
    have hids2 := hids
    rw [Shape.ids_eq, List.nodup_cons, hrootid] at hids2
    obtain ⟨w1, hrun, hheap, _⟩ := Prune_branch X w P Pn fuel hcount0 hcount hbits hXlay
      (List.Nodup.sublist hsub hids2.2) (fun h => hids2.1 (hsub.subset h)) hP hPX hPlen hfuelX
    refine ⟨w1, hrun, ?_⟩
    intro q hq
    rw [hheap q, if_pos hq]
  · obtain ⟨w1, nd, _, hrun, hheap, _⟩ := Prune_whole T w none fuel hcount0 hcount hbits
      hlay hids hrootid hfuel
    refine ⟨w1, hrun, ?_⟩
    intro q hq
    rw [Shape.pre_eq, List.nodup_cons] at hpn
    rw [hheap, if_neg (fun (h : q = T.ptr) => hpn.1 (h ▸ hq)), if_pos hq]
  · obtain ⟨w1, nd, _, hrun, hheap, hr, _, hlen⟩ := dispose_walk T w fuel hcount0 hcount hbits
      hlay hids hrootid hfuel
    obtain ⟨w2, hp1, _, hp3, hp4⟩ := popAll_spec fuel w1 (by rw [hlen]; exact hpop)
    have htop : w2.heap w2.fRoot = some { nd with fChildren := [] } := by
      rw [hp3, hp4, hr, hroot, hheap, if_pos rfl]
    refine ⟨{ w2 with heap := deleteNode w2.heap w2.fRoot }, ?_, ?_⟩
    · unfold destructor
      rw [hroot, hrun]
      simp only []
      rw [hp1]
      simp only []
      rw [htop]
    · intro q hq
      show deleteNode w2.heap w2.fRoot q = none
      unfold deleteNode
      rw [hp4, hr, hroot]
      by_cases e : q = T.ptr
      · rw [if_pos e]
      · rw [if_neg e, hp3, hheap, if_neg e]
        rw [Shape.pre_eq] at hq
        rcases List.mem_cons.mp hq with h | h
        · exact absurd h e
        · rw [if_pos h]

theorem destroy_during_walk_is_safe_witness :
    (Shape.layout rootedWorld.heap none sampleTree = true ∧ sampleTree.ids.Nodup ∧
      sampleTree.id = kRootID ∧ sampleBranch ∈ Shape.subtreesList sampleTree.kids ∧
      rootedWorld.fRoot = sampleTree.ptr) ∧
    ((∀ (start : Option Nat) (act : NTreeNodeActionFunc Unit) (branch : Bool)
        (u u1 : World Unit) (p : Nat) (nd : NTreeNode) (tr : Trace) (r : Bool),
        u.heap p = some nd → u.fVisitedBits ≠ [] → vis u nd.fID = true →
        act p u = some (r, u1) →
        loopBody start (some act) false branch u p tr
          = some (afterExitCall start branch p nd tr r u1)) ∧
    (∀ (start : Option Nat) (act act2 : NTreeNodeActionFunc Unit) (branch : Bool)
        (u : World Unit) (p : Nat) (nd : NTreeNode) (tr : Trace),
        u.heap p = some nd → u.fVisitedBits ≠ [] → vis u nd.fID = false →
        loopBody start (some act) false branch u p tr
          = loopBody start (some act2) false branch u p tr) ∧
    (∃ w1, Prune 50 true (some sampleBranch.ptr) rootedWorld
        = some (false, w1, calm sampleBranch.post) ∧
      ∀ q ∈ sampleBranch.pre, w1.heap q = none) ∧
    (∃ w1, Prune 50 true (some sampleTree.ptr) rootedWorld
        = some (false, w1, calm sampleTree.post) ∧
      ∀ q ∈ Shape.preList sampleTree.kids, w1.heap q = none) ∧
    (∃ w1, destructor 50 true rootedWorld = some w1 ∧
      ∀ q ∈ sampleTree.pre, w1.heap q = none)) :=
  ⟨⟨by decide, by decide, by decide,
      by simp [Shape.subtreesList, Shape.subtrees, sampleTree, sampleBranch, Shape.kids],
      by decide⟩,
    destroy_during_walk_is_safe sampleTree sampleBranch rootedWorld 50 (by decide) (by decide)
      (by simp [rootedWorld]) (by decide) (by decide) (by decide) (by decide)
      (by simp [Shape.subtreesList, Shape.subtrees, sampleTree, sampleBranch, Shape.kids])
      (by decide) (by decide) (by decide)⟩

end NTree

/-! ## Failing file callbacks -/

namespace NTree

variable {σ φ : Type}

theorem allZero_nil : AllZero [] := by
  intro z hz
  cases hz

theorem allZero_append (l zs : List Int) (h1 : AllZero l) (h2 : AllZero zs) :
    AllZero (l ++ zs) := by
  intro z hz
  rcases List.mem_append.mp hz with h | h
  · exact h1 z h
  · exact h2 z h

theorem stops_of_allZero (l : List Int) (h : AllZero l) : StopsAtFailure l := by
  intro j hj
  have hj1 : j < l.length := by omega
  rw [List.getElem?_eq_getElem hj1]
  exact congrArg some (h _ (List.getElem_mem hj1))

theorem stops_of_failed (l : List Int) (e : Int) (h : AllZero l) : StopsAtFailure (l ++ [e]) := by
  intro j hj
  simp only [List.length_append, List.length_singleton] at hj
  have hj1 : j < l.length := by omega
  rw [List.getElem?_append_left hj1, List.getElem?_eq_getElem hj1]
  exact congrArg some (h _ (List.getElem_mem hj1))

/-- What `NTreeNode::Write` does to the record of codes: it goes on while the
calls succeed and returns the code of the first call that fails. -/
theorem writeChildTypes_codes (h : Nat → Option NTreeNode) (nd : NTreeNode)
    (cb : NTreeNodeWriteCB φ) :
    ∀ (k : Nat) (i : Int) (st : (φ × List Int) × Int × WriteLog)
      (r : Int × ((φ × List Int) × Int × WriteLog)),
      NTreeNode.writeChildTypes h nd (codesWrite cb) k i st = some r →
      ∃ zs, AllZero zs ∧ r.2.1.2 = st.1.2 ++ zs ++ (if r.1 = 0 then [] else [r.1]) := by
  intro k
  induction k with
  | zero =>
    intro i st r hr
    simp only [NTreeNode.writeChildTypes, Option.some.injEq] at hr
    subst hr
    exact ⟨[], allZero_nil, by simp⟩
  | succ k ih =>
    intro i st r hr
    unfold NTreeNode.writeChildTypes at hr
    cases hg : nd.GetChild i with
    | none => simp [hg] at hr
    | some c =>
      simp only [hg] at hr
      cases hc : h c with
      | none => simp [hc] at hr
      | some cn =>
        simp only [hc] at hr
        by_cases he : (NTreeNode.writeField (codesWrite cb) st cn.fType 4).1 = 0
        · simp only [he, ne_eq, not_true_eq_false, if_false] at hr
          obtain ⟨zs, hz, hl⟩ := ih _ _ _ hr
          refine ⟨0 :: zs, ?_, ?_⟩
          · intro z hzm
            rcases List.mem_cons.mp hzm with h0 | h0
            · exact h0
            · exact hz z h0
          · rw [hl]
            have : (NTreeNode.writeField (codesWrite cb) st cn.fType 4).2.1.2
                = st.1.2 ++ [0] := by
              have e1 : (NTreeNode.writeField (codesWrite cb) st cn.fType 4).2.1.2
                  = st.1.2 ++ [(NTreeNode.writeField (codesWrite cb) st cn.fType 4).1] := rfl
              rw [e1, he]
            rw [this]
            simp
        · simp only [he, ne_eq, not_false_eq_true, if_true, Option.some.injEq] at hr
          subst hr
          refine ⟨[], allZero_nil, ?_⟩
          rw [if_neg he]
          simp only [List.append_nil]
          rfl

theorem Write_codes (h : Nat → Option NTreeNode) (this : Nat) (f : φ) (l : List Int)
    (o : Int) (cb : NTreeNodeWriteCB φ) (r : Int × (φ × List Int) × Int × WriteLog)
    (hr : NTreeNode.Write h this (f, l) o (codesWrite cb) = some r) :
    ∃ zs, AllZero zs ∧ r.2.1.2 = l ++ zs ++ (if r.1 = 0 then [] else [r.1]) := by
  unfold NTreeNode.Write at hr
  cases hh : h this with
  | none => simp [hh] at hr
  | some nd =>
    simp only [hh] at hr
    have hfail : ∀ (st : (φ × List Int) × Int × WriteLog) (v c : Nat) (zs : List Int),
        AllZero zs → st.1.2 = l ++ zs →
        ¬ (NTreeNode.writeField (codesWrite cb) st v c).1 = 0 →
        ∃ zs1, AllZero zs1 ∧ (NTreeNode.writeField (codesWrite cb) st v c).2.1.2
          = l ++ zs1 ++ (if (NTreeNode.writeField (codesWrite cb) st v c).1 = 0 then []
              else [(NTreeNode.writeField (codesWrite cb) st v c).1]) := by
      intro st v c zs hz hst he
      refine ⟨zs, hz, ?_⟩
      rw [if_neg he, ← hst]
      rfl
    have hgo : ∀ (st : (φ × List Int) × Int × WriteLog) (v c : Nat) (zs : List Int),
        AllZero zs → st.1.2 = l ++ zs →
        (NTreeNode.writeField (codesWrite cb) st v c).1 = 0 →
        AllZero (zs ++ [0]) ∧
          (NTreeNode.writeField (codesWrite cb) st v c).2.1.2 = l ++ (zs ++ [0]) := by
      intro st v c zs hz hst he
      refine ⟨allZero_append zs [0] hz (by intro z hzm; simpa using hzm), ?_⟩
      have e1 : (NTreeNode.writeField (codesWrite cb) st v c).2.1.2
          = st.1.2 ++ [(NTreeNode.writeField (codesWrite cb) st v c).1] := rfl
      rw [e1, he, hst, List.append_assoc]
    by_cases e1 : (NTreeNode.writeField (codesWrite cb) ((f, l), o, []) nd.fType 4).1 = 0
    · obtain ⟨z1, s1⟩ := hgo ((f, l), o, []) nd.fType 4 [] allZero_nil (by simp) e1
      simp only [e1, ne_eq, not_true_eq_false, if_false] at hr
      by_cases e2 : (NTreeNode.writeField (codesWrite cb)
          (NTreeNode.writeField (codesWrite cb) ((f, l), o, []) nd.fType 4).2 nd.fID 2).1 = 0
      · obtain ⟨z2, s2⟩ := hgo _ nd.fID 2 _ z1 s1 e2
        simp only [e2, ne_eq, not_true_eq_false, if_false] at hr
        by_cases e3 : (NTreeNode.writeField (codesWrite cb)
            (NTreeNode.writeField (codesWrite cb)
              (NTreeNode.writeField (codesWrite cb) ((f, l), o, []) nd.fType 4).2 nd.fID 2).2
            (nd.fFlags % 65536).toNat 2).1 = 0
        · obtain ⟨z3, s3⟩ := hgo _ (nd.fFlags % 65536).toNat 2 _ z2 s2 e3
          simp only [e3, ne_eq, not_true_eq_false, if_false] at hr
          by_cases e4 : (NTreeNode.writeField (codesWrite cb)
              (NTreeNode.writeField (codesWrite cb)
                (NTreeNode.writeField (codesWrite cb)
                  (NTreeNode.writeField (codesWrite cb) ((f, l), o, []) nd.fType 4).2
                  nd.fID 2).2
                (nd.fFlags % 65536).toNat 2).2
              (nd.GetNumChildren % 65536).toNat 2).1 = 0
          · obtain ⟨z4, s4⟩ := hgo _ (nd.GetNumChildren % 65536).toNat 2 _ z3 s3 e4
            simp only [e4, ne_eq, not_true_eq_false, if_false] at hr
            obtain ⟨zs, hz, hl⟩ := writeChildTypes_codes h nd cb _ _ _ r hr
            refine ⟨([] ++ [0] ++ [0] ++ [0] ++ [0]) ++ zs, allZero_append _ _ z4 hz, ?_⟩
            rw [hl, s4]
            simp
          · simp only [e4, ne_eq, not_false_eq_true, if_true, Option.some.injEq] at hr
            subst hr
            exact hfail _ _ _ _ z3 s3 e4
        · simp only [e3, ne_eq, not_false_eq_true, if_true, Option.some.injEq] at hr
          subst hr
          exact hfail _ _ _ _ z2 s2 e3
      · simp only [e2, ne_eq, not_false_eq_true, if_true, Option.some.injEq] at hr
        subst hr
        exact hfail _ _ _ _ z1 s1 e2
    · simp only [e1, ne_eq, not_false_eq_true, if_true, Option.some.injEq] at hr
      subst hr
      exact hfail _ _ _ [] allZero_nil (by simp) e1

end NTree

namespace NTree

variable {σ φ : Type}

theorem readField_codes (cb : NTreeNodeReadCB φ) (file : φ × List Int) (o : Int) (count : Nat) :
    (NTreeNode.readField (codesRead cb) file o count).2.2.1.2
      = file.2 ++ [(NTreeNode.readField (codesRead cb) file o count).1] := rfl

/-- What the child loop of `NTreeNode::Read` does to the record of codes. -/
theorem readChildren_codes (this : Nat) (factory : NTreeNodeReanimateFunc)
    (cb : NTreeNodeReadCB φ) (callocOk : Bool) :
    ∀ (k : Nat) (h : Nat → Option NTreeNode) (file : φ × List Int) (o : Int)
      (res : Int × (Nat → Option NTreeNode) × (φ × List Int) × Int),
      NTreeNode.readChildren this factory (codesRead cb) callocOk k h file o = some res →
      ∃ zs, AllZero zs ∧ (res.2.2.1.2 = file.2 ++ zs ∨
        (res.1 ≠ 0 ∧ res.2.2.1.2 = file.2 ++ zs ++ [res.1])) := by
  intro k
  induction k with
  | zero =>
    intro h file o res hr
    simp only [NTreeNode.readChildren, Option.some.injEq] at hr
    subst hr
    exact ⟨[], allZero_nil, Or.inl (by simp)⟩
  | succ k ih =>
    intro h file o res hr
    unfold NTreeNode.readChildren at hr
    simp only [] at hr
    have hcodes := readField_codes cb file o 4
    by_cases he : (NTreeNode.readField (codesRead cb) file o 4).1 = 0
    · simp only [he, ne_eq, not_true_eq_false, if_false] at hr
      rw [he] at hcodes
      have hz1 : AllZero [(0 : Int)] := by intro z hz; simpa using hz
      split at hr
      · simp only [Option.some.injEq] at hr
        subst hr
        exact ⟨[0], hz1, Or.inl hcodes⟩
      · split at hr
        · split at hr
          · simp at hr
          · split at hr
            · simp only [Option.some.injEq] at hr
              subst hr
              exact ⟨[0], hz1, Or.inl hcodes⟩
            · obtain ⟨zs, hz, hl⟩ := ih _ _ _ _ hr
              refine ⟨0 :: zs, ?_, ?_⟩
              · intro z hzm
                rcases List.mem_cons.mp hzm with h0 | h0
                · exact h0
                · exact hz z h0
              · rw [hcodes] at hl
                rcases hl with hl | ⟨h1, hl⟩
                · exact Or.inl (by rw [hl]; simp)
                · exact Or.inr ⟨h1, by rw [hl]; simp⟩
        · simp at hr
    · simp only [he, ne_eq, not_false_eq_true, if_true, Option.some.injEq] at hr
      subst hr
      exact ⟨[], allZero_nil, Or.inr ⟨he, by simpa using hcodes⟩⟩

end NTree

namespace NTree

variable {σ φ : Type}

/-- What `NTreeNode::Read` does to the record of codes: it goes on while the
calls succeed; when a call fails it is the last one and its code is returned. -/
theorem Read_codes (h : Nat → Option NTreeNode) (this : Nat) (f : φ) (l : List Int) (o : Int)
    (factory : NTreeNodeReanimateFunc) (cb : NTreeNodeReadCB φ) (callocOk : Bool)
    (res : Int × (Nat → Option NTreeNode) × (φ × List Int) × Int)
    (hr : NTreeNode.Read h this (f, l) o factory (codesRead cb) callocOk = some res) :
    ∃ zs, AllZero zs ∧ (res.2.2.1.2 = l ++ zs ∨
      (res.1 ≠ 0 ∧ res.2.2.1.2 = l ++ zs ++ [res.1])) := by
  unfold NTreeNode.Read at hr
  cases hh : h this with
  | none => simp [hh] at hr
  | some nd =>
    simp only [hh] at hr
    have hfail : ∀ (file : φ × List Int) (p : Int) (c : Nat) (zs : List Int),
        AllZero zs → file.2 = l ++ zs →
        ¬ (NTreeNode.readField (codesRead cb) file p c).1 = 0 →
        ∃ zs1, AllZero zs1 ∧
          ((NTreeNode.readField (codesRead cb) file p c).2.2.1.2 = l ++ zs1 ∨
          ((NTreeNode.readField (codesRead cb) file p c).1 ≠ 0 ∧
            (NTreeNode.readField (codesRead cb) file p c).2.2.1.2
              = l ++ zs1 ++ [(NTreeNode.readField (codesRead cb) file p c).1])) := by
      intro file p c zs hz hst he
      refine ⟨zs, hz, Or.inr ⟨he, ?_⟩⟩
      rw [readField_codes, hst]
    have hgo : ∀ (file : φ × List Int) (p : Int) (c : Nat) (zs : List Int),
        AllZero zs → file.2 = l ++ zs →
        (NTreeNode.readField (codesRead cb) file p c).1 = 0 →
        AllZero (zs ++ [0]) ∧
          (NTreeNode.readField (codesRead cb) file p c).2.2.1.2 = l ++ (zs ++ [0]) := by
      intro file p c zs hz hst he
      refine ⟨allZero_append zs [0] hz (by intro z hzm; simpa using hzm), ?_⟩
      rw [readField_codes, he, hst, List.append_assoc]
    by_cases e1 : (NTreeNode.readField (codesRead cb) (f, l) o 4).1 = 0
    · obtain ⟨z1, s1⟩ := hgo (f, l) o 4 [] allZero_nil (by simp) e1
      simp only [e1, ne_eq, not_true_eq_false, if_false] at hr
      by_cases e2 : (NTreeNode.readField (codesRead cb)
          (NTreeNode.readField (codesRead cb) (f, l) o 4).2.2.1
          (NTreeNode.readField (codesRead cb) (f, l) o 4).2.2.2 2).1 = 0
      · obtain ⟨z2, s2⟩ := hgo _ _ 2 _ z1 s1 e2
        simp only [e2, ne_eq, not_true_eq_false, if_false] at hr
        generalize hf2 : NTreeNode.readField (codesRead cb)
          (NTreeNode.readField (codesRead cb) (f, l) o 4).2.2.1
          (NTreeNode.readField (codesRead cb) (f, l) o 4).2.2.2 2 = r2 at hr s2 e2
        by_cases e3 : (NTreeNode.readField (codesRead cb) r2.2.2.1 r2.2.2.2 2).1 = 0
        · obtain ⟨z3, s3⟩ := hgo _ _ 2 _ z2 s2 e3
          simp only [e3, ne_eq, not_true_eq_false, if_false] at hr
          generalize hf3 : NTreeNode.readField (codesRead cb) r2.2.2.1 r2.2.2.2 2 = r3
            at hr s3 e3
          by_cases e4 : (NTreeNode.readField (codesRead cb) r3.2.2.1 r3.2.2.2 2).1 = 0
          · obtain ⟨z4, s4⟩ := hgo _ _ 2 _ z3 s3 e4
            simp only [e4, ne_eq, not_true_eq_false, if_false] at hr
            obtain ⟨zs, hz, hl⟩ := readChildren_codes this factory cb callocOk _ _ _ _ res hr
            refine ⟨([] ++ [0] ++ [0] ++ [0] ++ [0]) ++ zs, allZero_append _ _ z4 hz, ?_⟩
            rw [s4] at hl
            rcases hl with hl | ⟨h1, hl⟩
            · exact Or.inl (by rw [hl]; simp)
            · exact Or.inr ⟨h1, by rw [hl]; simp⟩
          · simp only [e4, ne_eq, not_false_eq_true, if_true, Option.some.injEq] at hr
            subst hr
            exact hfail _ _ _ _ z3 s3 e4
        · simp only [e3, ne_eq, not_false_eq_true, if_true, Option.some.injEq] at hr
          subst hr
          exact hfail _ _ _ _ z2 s2 e3
      · simp only [e2, ne_eq, not_false_eq_true, if_true, Option.some.injEq] at hr
        subst hr
        exact hfail _ _ _ _ z1 s1 e2
    · simp only [e1, ne_eq, not_false_eq_true, if_true, Option.some.injEq] at hr
      subst hr
      exact hfail _ _ _ [] allZero_nil (by simp) e1

/-- The loop of a walk whose callback keeps a property `P` of the parameter
block while it does not abort, and leaves the block with the property `Q` when
it aborts: the block has one of the properties when the loop ends. -/
theorem walkLoop_guard (start : Option Nat) (act : NTreeNodeActionFunc σ)
    (onEntry branch : Bool) (P Q : σ → Prop)
    (hact : ∀ (n : Nat) (u u1 : World σ) (r : Bool), P u.parm → act n u = some (r, u1) →
      (r = false → P u1.parm) ∧ (r = true → Q u1.parm)) :
    ∀ (fuel : Nat) (w : World σ) (node : Option Nat) (tr : Trace) (w1 : World σ) (a e : Bool)
      (tr1 : Trace), P w.parm →
      walkLoop start (some act) onEntry branch fuel w node tr = some (w1, a, e, tr1) →
      P w1.parm ∨ Q w1.parm := by
  intro fuel
  induction fuel with
  | zero =>
    intro w node tr w1 a e tr1 hP h
    cases node with
    | none =>
      rw [walkLoop_null] at h
      simp only [Option.some.injEq, Prod.mk.injEq] at h
      rw [← h.1]
      exact Or.inl hP
    | some p => simp [walkLoop] at h
  | succ fuel ih =>
    intro w node tr w1 a e tr1 hP h
    cases node with
    | none =>
      rw [walkLoop_null] at h
      simp only [Option.some.injEq, Prod.mk.injEq] at h
      rw [← h.1]
      exact Or.inl hP
    | some p =>
      cases hb : loopBody start (some act) onEntry branch w p tr with
      | none => simp [walkLoop, hb] at h
      | some s =>
        have hs := loopBody_stepOf start (some act) onEntry branch w p tr s hb
        cases hs with
        | move n =>
          rw [walkLoop_next _ _ _ _ _ _ _ _ _ _ _ hb] at h
          exact ih _ _ _ _ _ _ _ hP h
        | mark i w2 hm =>
          rw [walkLoop_next _ _ _ _ _ _ _ _ _ _ _ hb] at h
          obtain ⟨_, f2, _⟩ := SetVisitedBit_frame w w2 i true hm
          exact ih _ _ _ _ _ _ _ (by rw [f2]; exact hP) h
        | endBranch =>
          rw [walkLoop_exit _ _ _ _ _ _ _ _ _ _ _ _ hb] at h
          simp only [Option.some.injEq, Prod.mk.injEq] at h
          rw [← h.1]
          exact Or.inl hP
        | callAbort act2 w2 hp ha =>
          cases hp
          rw [walkLoop_exit _ _ _ _ _ _ _ _ _ _ _ _ hb] at h
          simp only [Option.some.injEq, Prod.mk.injEq] at h
          rw [← h.1]
          exact Or.inr ((hact p w w2 true hP ha).2 rfl)
        | callMove act2 w2 n hp ha =>
          cases hp
          rw [walkLoop_next _ _ _ _ _ _ _ _ _ _ _ hb] at h
          exact ih _ _ _ _ _ _ _ ((hact p w w2 false hP ha).1 rfl) h
        | callMark act2 w2 i w3 hp ha hm =>
          cases hp
          rw [walkLoop_next _ _ _ _ _ _ _ _ _ _ _ hb] at h
          obtain ⟨_, f2, _⟩ := SetVisitedBit_frame w2 w3 i true hm
          exact ih _ _ _ _ _ _ _ (by rw [f2]; exact (hact p w w2 false hP ha).1 rfl) h
        | callEnd act2 w2 hp ha =>
          cases hp
          rw [walkLoop_exit _ _ _ _ _ _ _ _ _ _ _ _ hb] at h
          simp only [Option.some.injEq, Prod.mk.injEq] at h
          rw [← h.1]
          exact Or.inl ((hact p w w2 false hP ha).1 rfl)

/-- The same for a call of the walk, whatever the count of active walks. -/
theorem walk_guard (fuel : Nat) (start : Option Nat) (act : NTreeNodeActionFunc σ)
    (onEntry branch : Bool) (w : World σ) (P Q : σ → Prop)
    (hact : ∀ (n : Nat) (u u1 : World σ) (r : Bool), P u.parm → act n u = some (r, u1) →
      (r = false → P u1.parm) ∧ (r = true → Q u1.parm))
    (hP : P w.parm) (r : Bool) (w1 : World σ) (tr : Trace)
    (h : VisitAllNTreeNodes fuel start (some act) onEntry branch w = some (r, w1, tr)) :
    P w1.parm ∨ Q w1.parm := by
  unfold VisitAllNTreeNodes at h
  simp only [] at h
  split at h
  · simp only [Option.some.injEq] at h
    have hp := exitPath_parm { w with entryCount := toShort (w.entryCount + 1) } false false []
    rw [h] at hp
    left
    rw [hp.1]
    exact hP
  · generalize hw2 : (if toShort (w.entryCount + 1) > 1
      then PushVisitedBits { w with entryCount := toShort (w.entryCount + 1) }
      else ClearVisitedBits { w with entryCount := toShort (w.entryCount + 1) }) = w2 at h
    have hw2p : w2.parm = w.parm := by
      rw [← hw2]
      unfold PushVisitedBits ClearVisitedBits
      simp only []
      split_ifs <;> (cases hv : w.fVisitedBits <;> rfl)
    cases hl : walkLoop start (some act) onEntry branch fuel w2 start [] with
    | none => simp [hl] at h
    | some res =>
      obtain ⟨w3, a, e, tr1⟩ := res
      have hg := walkLoop_guard start act onEntry branch P Q hact fuel w2 start [] w3 a e tr1
        (by rw [hw2p]; exact hP) hl
      simp only [hl, Option.some.injEq] at h
      have hp := exitPath_parm w3 a e tr1
      rw [h] at hp
      rw [hp.1]
      exact hg

end NTree

namespace NTree

variable {σ φ : Type}

theorem writeChildTypes_total (h : Nat → Option NTreeNode) (nd : NTreeNode)
    (cb : NTreeNodeWriteCB φ) (hkids : ∀ c ∈ nd.fChildren, ∃ cn, h c = some cn) :
    ∀ (k i : Nat) (st : φ × Int × WriteLog), i + k ≤ nd.fChildren.length →
      ∃ r, NTreeNode.writeChildTypes h nd cb k (i : Int) st = some r := by
  intro k
  induction k with
  | zero =>
    intro i st _
    exact ⟨_, rfl⟩
  | succ k ih =>
    intro i st hik
    have hi : i < nd.fChildren.length := by omega
    have hget : nd.GetChild (i : Int) = some nd.fChildren[i] := by
      unfold NTreeNode.GetChild
      simp [hi]
    obtain ⟨cn, hcn⟩ := hkids _ (List.getElem_mem hi)
    unfold NTreeNode.writeChildTypes
    rw [hget]
    simp only []
    rw [hcn]
    simp only []
    split_ifs
    · exact ⟨_, rfl⟩
    · have hc : ((i : Int) + 1) = ((i + 1 : Nat) : Int) := by omega
      rw [hc]
      exact ih (i + 1) _ (by omega)

/-- `NTreeNode::Write` on a node whose children are all in the heap returns,
whatever the callback answers. -/
theorem Write_total (h : Nat → Option NTreeNode) (this : Nat) (nd : NTreeNode) (file : φ)
    (o : Int) (cb : NTreeNodeWriteCB φ) (hthis : h this = some nd)
    (hkids : ∀ c ∈ nd.fChildren, ∃ cn, h c = some cn) :
    ∃ r, NTreeNode.Write h this file o cb = some r := by
  unfold NTreeNode.Write
  rw [hthis]
  simp only []
  split_ifs
  · exact ⟨_, rfl⟩
  · exact ⟨_, rfl⟩
  · exact ⟨_, rfl⟩
  · exact ⟨_, rfl⟩
  · have h0 : (0 : Int) = ((0 : Nat) : Int) := rfl
    rw [h0]
    exact writeChildTypes_total h nd cb hkids nd.fChildren.length 0 _ (by omega)

/-- The write callback of `NTree::Write` leaves the tree alone on every node of
a tree laid out in the heap, whatever the file callback answers. -/
theorem harmless_write (T : Shape) (h : Nat → Option NTreeNode) (par : Option Nat)
    (hlay : Shape.layout h par T = true) (cb : NTreeNodeWriteCB φ) (c : Int) :
    Harmless T.pre (WriteNTreeNode_ActionFunc cb) h c := by
  intro n w hn hh hc _
  obtain ⟨nd, h1, _, h3⟩ := tree_nodes_live h T par hlay n hn
  obtain ⟨r, hr⟩ := Write_total w.heap n nd w.parm.file w.parm.offset cb (by rw [hh]; exact h1)
    (by rw [hh]; exact h3)
  obtain ⟨e, f, o, l⟩ := r
  refine ⟨decide (e ≠ 0), { w with parm := { file := f, offset := o } }, ?_, hh, hc, rfl⟩
  unfold WriteNTreeNode_ActionFunc
  rw [hr]

theorem writeAction_guard (cb : NTreeNodeWriteCB φ) (n : Nat)
    (u u1 : World (TreeFileInfo (φ × List Int))) (r : Bool)
    (hP : AllZero u.parm.file.2)
    (h : WriteNTreeNode_ActionFunc (codesWrite cb) n u = some (r, u1)) :
    (r = false → AllZero u1.parm.file.2) ∧ (r = true → StopsAtFailure u1.parm.file.2) := by
  unfold WriteNTreeNode_ActionFunc at h
  cases hw : NTreeNode.Write u.heap n u.parm.file u.parm.offset (codesWrite cb) with
  | none => simp [hw] at h
  | some res =>
    obtain ⟨zs, hz, hl⟩ := Write_codes u.heap n u.parm.file.1 u.parm.file.2 u.parm.offset cb
      res hw
    obtain ⟨e, f, o, l⟩ := res
    simp only [hw, Option.some.injEq, Prod.mk.injEq] at h
    obtain ⟨rfl, rfl⟩ := h
    simp only [] at hl ⊢
    constructor
    · intro he
      have he0 : e = 0 := by simpa using he
      rw [hl, if_pos he0, List.append_nil]
      exact allZero_append _ _ hP hz
    · intro he
      have he0 : ¬ e = 0 := by simpa using he
      rw [hl, if_neg he0]
      exact stops_of_failed _ e (allZero_append _ _ hP hz)

theorem readAction_guard (factory : NTreeNodeReanimateFunc) (cb : NTreeNodeReadCB φ)
    (callocOk : Bool) (n : Nat) (u u1 : World (TreeFileInfo (φ × List Int))) (r : Bool)
    (hP : AllZero u.parm.file.2)
    (h : ReadNTreeNode_ActionFunc factory (codesRead cb) callocOk n u = some (r, u1)) :
    (r = false → AllZero u1.parm.file.2) ∧ (r = true → StopsAtFailure u1.parm.file.2) := by
  unfold ReadNTreeNode_ActionFunc at h
  cases hh : u.heap n with
  | none => simp [hh] at h
  | some nd =>
    simp only [hh] at h
    split_ifs at h
    · cases hw : NTreeNode.Read u.heap n u.parm.file u.parm.offset factory (codesRead cb)
        callocOk with
      | none => simp [hw] at h
      | some res =>
        obtain ⟨zs, hz, hl⟩ := Read_codes u.heap n u.parm.file.1 u.parm.file.2 u.parm.offset
          factory cb callocOk res hw
        obtain ⟨e, h1, f, o⟩ := res
        simp only [hw, Option.some.injEq, Prod.mk.injEq] at h
        obtain ⟨rfl, rfl⟩ := h
        simp only [] at hl ⊢
        constructor
        · intro he
          have he0 : e = 0 := by simpa using he
          rcases hl with hl | ⟨h2, _⟩
          · rw [hl]
            exact allZero_append _ _ hP hz
          · exact absurd he0 h2
        · intro _
          rcases hl with hl | ⟨_, hl⟩
          · rw [hl]
            exact stops_of_allZero _ (allZero_append _ _ hP hz)
          · rw [hl]
            exact stops_of_failed _ e (allZero_append _ _ hP hz)
    · simp only [Option.some.injEq, Prod.mk.injEq] at h
      obtain ⟨rfl, rfl⟩ := h
      exact ⟨fun _ => hP, fun h => by cases h⟩

theorem stops_or (l : List Int) (h : AllZero l ∨ StopsAtFailure l) : StopsAtFailure l := by
  rcases h with h | h
  · exact stops_of_allZero l h
  · exact h

end NTree

namespace NTree

variable {σ φ : Type}

/-- A walk over a tree laid out in the heap returns when the callback leaves
the tree alone. -/
theorem walk_returns (T X : Shape) (act : NTreeNodeActionFunc σ) (onEntry branch : Bool)
    (w : World σ) (fuel : Nat)
    (hcount0 : 0 ≤ w.entryCount) (hcount : w.entryCount < 32) (hbits : w.fVisitedBits ≠ [])
    (hlay : Shape.layout w.heap none T = true) (hids : T.ids.Nodup) (hX : X ∈ T.subtrees)
    (hact : Harmless T.pre act w.heap (w.entryCount + 1)) (hfuel : stepBound T ≤ fuel) :
    ∃ r w1 tr, VisitAllNTreeNodes fuel (some X.ptr) (some act) onEntry branch w
      = some (r, w1, tr) := by
  obtain ⟨e1, e2, e3, _, _, _, _⟩ := loopEntry_spec w hcount0 hcount hbits
  rw [VisitAllNTreeNodes_run fuel _ _ onEntry branch w hcount0 hcount]
  obtain ⟨res, hres⟩ := walkLoop_terminates T act (some X.ptr) onEntry branch w.heap
    (w.entryCount + 1) hlay hids hact (potential (loopEntry w) T X) (loopEntry w) X []
    e1 e2 e3 hX (le_refl _) fuel
    (by have := potential_le (loopEntry w) T X hX; omega)
  rw [hres]
  exact ⟨_, _, _, rfl⟩

/-- C32: a write callback and a read callback that refuse every call with the
code 5.  `NTreeNode::Write` on the root of the sample tree returns 5, but
`NTree::Write` and `NTree::Read` on the tree return 0, after the one call that
failed (the record of the codes is `[5]`) and with the offset where it was. -/
theorem failed_callback_is_not_reported :
    (NTreeNode.Write rootedHeap 0 () 100 (refuseWrite 5)).map (fun r => r.1) = some 5 ∧
      (Write 50 () 100 (refuseWrite 5) rootedWorld).map (fun r => (r.1, r.2.2.1))
        = some (0, 100) ∧
      (Write 50 ((), []) 100 (codesWrite (refuseWrite 5)) rootedWorld).map (fun r => r.2.1.2)
        = some [5] ∧
      (Read 50 () 100 plainFactory (refuseRead 5) true true rootedWorld).map
          (fun r => (r.1, r.2.2.1)) = some (0, 100) ∧
      (Read 50 ((), []) 100 plainFactory (codesRead (refuseRead 5)) true true rootedWorld).map
          (fun r => r.2.1.2) = some [5] :=
  ⟨by decide, by decide, by decide, by decide, by decide⟩

/-- The first failing call of a file callback ends the operation, and the
node-level operation returns its code verbatim.  For every
write callback `cb` and read callback `rcb`, run with a record of the codes
they return: `NTree::Write` on a tree with pairwise distinct ids returns, and
no call of `cb` was made after one that returned a code other than 0; the same
holds for the calls of `rcb` whenever `NTree::Read` returns; `NTreeNode::Write`
on a node of the tree returns the code of the failing call, and 0 only if every
call succeeded; `NTreeNode::Read` returns the code of the failing call. -/
theorem io_failure_ends_operation (T : Shape) (w : World σ) (fuel : Nat) (file : φ) (o : Int)
    (cb : NTreeNodeWriteCB φ) (rcb : NTreeNodeReadCB φ) (factory : NTreeNodeReanimateFunc)
    (mallocOk callocOk : Bool)
    (hcount0 : 0 ≤ w.entryCount) (hcount : w.entryCount < 32) (hbits : w.fVisitedBits ≠ [])
    (hroot : w.fRoot = T.ptr)
    (hlay : Shape.layout w.heap none T = true) (hids : T.ids.Nodup)
    (hfuel : stepBound T ≤ fuel) :
    (∃ res, Write fuel (file, []) o (codesWrite cb) w = some res ∧
      StopsAtFailure res.2.1.2) ∧
    (∀ res, Read fuel (file, []) o factory (codesRead rcb) mallocOk callocOk w = some res →
      StopsAtFailure res.2.1.2) ∧
    (∀ q ∈ T.pre, ∃ res, NTreeNode.Write w.heap q (file, []) o (codesWrite cb) = some res ∧
      StopsAtFailure res.2.1.2 ∧ (∀ e ∈ res.2.1.2, e ≠ 0 → res.1 = e) ∧
      (res.1 ≠ 0 → res.1 ∈ res.2.1.2)) ∧
    (∀ (h : Nat → Option NTreeNode) (q : Nat) res,
      NTreeNode.Read h q (file, []) o factory (codesRead rcb) callocOk = some res →
      StopsAtFailure res.2.2.1.2 ∧ (∀ e ∈ res.2.2.1.2, e ≠ 0 → res.1 = e)) := by
  refine ⟨?_, ?_, ?_, ?_⟩
  · obtain ⟨r, w1, tr, hrun⟩ := walk_returns T T (WriteNTreeNode_ActionFunc (codesWrite cb))
      true false (withParm w ({ file := (file, []), offset := o } : TreeFileInfo (φ × List Int)))
      fuel hcount0 hcount hbits hlay hids (Shape.self_mem_subtrees T)
      (harmless_write T w.heap none hlay (codesWrite cb) _) hfuel
    have hg := walk_guard fuel (some T.ptr) (WriteNTreeNode_ActionFunc (codesWrite cb)) true
      false (withParm w ({ file := (file, []), offset := o } : TreeFileInfo (φ × List Int)))
      (fun p => AllZero p.file.2) (fun p => StopsAtFailure p.file.2)
      (fun n u u1 r hP h => writeAction_guard cb n u u1 r hP h) allZero_nil r w1 tr hrun
    refine ⟨(0, w1.parm.file, w1.parm.offset, withParm w1 w.parm), ?_, stops_or _ hg⟩
    unfold Write
    rw [hroot, hrun]
  · intro res hres
    unfold Read at hres
    cases h1 : removeChildren mallocOk w.fRoot fuel w.heap with
    | none => simp [h1] at hres
    | some hp =>
      simp only [h1] at hres
      cases h2 : hp w.fRoot with
      | none => simp [h2] at hres
      | some nd =>
        simp only [h2] at hres
        split at hres
        next => simp at hres
        next r w1 tr h3 =>
          have hg := walk_guard fuel _ _ true false _
            (fun p => AllZero p.file.2) (fun p => StopsAtFailure p.file.2)
            (fun n u u1 r hP h => readAction_guard factory rcb callocOk n u u1 r hP h)
            allZero_nil r w1 tr h3
          simp only [Option.some.injEq] at hres
          subst hres
          exact stops_or _ hg
  · intro q hq
    obtain ⟨nd, h1, _, h3⟩ := tree_nodes_live w.heap T none hlay q hq
    obtain ⟨res, hres⟩ := Write_total w.heap q nd (file, ([] : List Int)) o (codesWrite cb) h1 h3
    obtain ⟨zs, hz, hl⟩ := Write_codes w.heap q file [] o cb res hres
    simp only [List.nil_append] at hl
    refine ⟨res, hres, ?_, ?_, ?_⟩
    · rw [hl]
      split_ifs
      · rw [List.append_nil]
        exact stops_of_allZero _ hz
      · exact stops_of_failed _ _ hz
    · intro e he hne
      rw [hl] at he
      rcases List.mem_append.mp he with h | h
      · exact absurd (hz e h) hne
      · split_ifs at h with h0
        · cases h
        · exact (List.mem_singleton.mp h).symm
    · intro hne
      rw [hl, if_neg hne]
      simp
  · intro h q res hres
    obtain ⟨zs, hz, hl⟩ := Read_codes h q file [] o factory rcb callocOk res hres
    simp only [List.nil_append] at hl
    constructor
    · rcases hl with hl | ⟨_, hl⟩
      · rw [hl]
        exact stops_of_allZero _ hz
      · rw [hl]
        exact stops_of_failed _ _ hz
    · intro e he hne
      rcases hl with hl | ⟨_, hl⟩
      · rw [hl] at he
        exact absurd (hz e he) hne
      · rw [hl] at he
        rcases List.mem_append.mp he with h | h
        · exact absurd (hz e h) hne
        · exact (List.mem_singleton.mp h).symm

theorem io_failure_ends_operation_witness :
    (Shape.layout rootedWorld.heap none sampleTree = true ∧ sampleTree.ids.Nodup ∧
      rootedWorld.fRoot = sampleTree.ptr ∧ stepBound sampleTree ≤ 80) ∧
    ((∃ res, Write 80 ((), []) 100 (codesWrite (refuseWrite 5)) rootedWorld = some res ∧
      StopsAtFailure res.2.1.2) ∧
    (∀ res, Read 80 ((), []) 100 plainFactory (codesRead (refuseRead 5)) true true rootedWorld
        = some res → StopsAtFailure res.2.1.2) ∧
    (∀ q ∈ sampleTree.pre, ∃ res,
      NTreeNode.Write rootedWorld.heap q ((), []) 100 (codesWrite (refuseWrite 5)) = some res ∧
      StopsAtFailure res.2.1.2 ∧ (∀ e ∈ res.2.1.2, e ≠ 0 → res.1 = e) ∧
      (res.1 ≠ 0 → res.1 ∈ res.2.1.2)) ∧
    (∀ (h : Nat → Option NTreeNode) (q : Nat) res,
      NTreeNode.Read h q ((), []) 100 plainFactory (codesRead (refuseRead 5)) true = some res →
      StopsAtFailure res.2.2.1.2 ∧ (∀ e ∈ res.2.2.1.2, e ≠ 0 → res.1 = e))) :=
  ⟨⟨by decide, by decide, by decide, by decide⟩,
    io_failure_ends_operation sampleTree rootedWorld 80 () 100 (refuseWrite 5) (refuseRead 5)
      plainFactory true true (by decide) (by decide) (by simp [rootedWorld]) (by decide)
      (by decide) (by decide) (by decide)⟩

end NTree

/-! ## The sample spell checker -/

namespace SpellChecker

open NTree

/-- C34: the spell checker made from the dictionary `"dog dogged"`.  The tree
is the path root (0), `d` (1), `o` (2), `g` (3) of letter nodes; the node `g`
(3) has a `WORD` child (4) holding `"dog"` and a letter child `g` (5), from
which the path goes on with `e` (6) and `d` (7), and the node `d` (7) has a
`WORD` child (8) holding `"dogged"`; there is no other node.  `CheckSpelling`
returns `true` for `"dog"` and `"dogged"` and `false` for `"doge"` and
`"cat"`. -/
theorem dictionary_dog_dogged :
    MakeStringVector (codes "dog dogged") = [codes "dog", codes "dogged"] ∧
      (SpellChecker 100 true (codes "dog dogged")).map
          (fun w => (List.range 10).map (look w))
        = some [some (kRootType, none, [1]), some (kLetterType, some 0, [2]),
            some (kLetterType, some 1, [3]), some (kLetterType, some 2, [4, 5]),
            some (kWordType, some 3, []), some (kLetterType, some 3, [6]),
            some (kLetterType, some 5, [7]), some (kLetterType, some 6, [8]),
            some (kWordType, some 7, []), none] ∧
      (SpellChecker 100 true (codes "dog dogged")).map
          (fun w => [1, 2, 3, 5, 6, 7].map (letterOf w.parm.letters))
        = some ((codes "dogged").map some) ∧
      (SpellChecker 100 true (codes "dog dogged")).map
          (fun w => [4, 8].map (wordOf w.parm.words))
        = some [some (codes "dog"), some (codes "dogged")] ∧
      (SpellChecker 100 true (codes "dog dogged")).bind (fun w => CheckSpelling w (codes "dog"))
        = some true ∧
      (SpellChecker 100 true (codes "dog dogged")).bind
          (fun w => CheckSpelling w (codes "dogged")) = some true ∧
      (SpellChecker 100 true (codes "dog dogged")).bind (fun w => CheckSpelling w (codes "doge"))
        = some false ∧
      (SpellChecker 100 true (codes "dog dogged")).bind (fun w => CheckSpelling w (codes "cat"))
        = some false :=
  ⟨by decide, by decide, by decide, by decide, by decide, by decide, by decide, by decide⟩

end SpellChecker

/-! ## An abort ends the walk -/

namespace NTree

variable {σ : Type}

/-- A call of the walk that is not refused runs the loop from `loopEntry` and
then the exit path, whether the push succeeds or not. -/
theorem VisitAllNTreeNodes_steps (fuel : Nat) (start : Option Nat)
    (proc : Option (NTreeNodeActionFunc σ)) (onEntry branch : Bool) (w : World σ)
    (pushOk : Bool) (h0 : 0 ≤ w.entryCount) (h1 : w.entryCount < 32) :
    VisitAllNTreeNodes fuel start proc onEntry branch w pushOk
      = (walkLoop start proc onEntry branch fuel (loopEntry w pushOk) start []).map
          (fun r => exitPath r.1 r.2.1 r.2.2.1 r.2.2.2) := by
  have hnot : ¬ (toShort (w.entryCount + 1) > kMaxRecursion) := by
    rw [toShort_small _ (by omega) (by omega)]
    unfold kMaxRecursion
    omega
  unfold VisitAllNTreeNodes loopEntry
  simp only [hnot, if_false]
  cases walkLoop start proc onEntry branch fuel _ start [] with
  | none => rfl
  | some r => rfl

/-- The loop that has made `k` iterations goes on from the state they left. -/
theorem walkLoop_of_walkState (start : Option Nat) (proc : Option (NTreeNodeActionFunc σ))
    (onEntry branch : Bool) :
    ∀ (k : Nat) (w : World σ) (node : Option Nat) (tr : Trace) (wk : World σ)
      (nk : Option Nat) (trk : Trace),
      walkState start proc onEntry branch k w node tr = some (wk, nk, trk) →
      ∀ fuel, walkLoop start proc onEntry branch (fuel + k) w node tr
        = walkLoop start proc onEntry branch fuel wk nk trk := by
  intro k
  induction k with
  | zero =>
    intro w node tr wk nk trk h fuel
    simp only [walkState, Option.some.injEq, Prod.mk.injEq] at h
    obtain ⟨rfl, rfl, rfl⟩ := h
    rfl
  | succ k ih =>
    intro w node tr wk nk trk h fuel
    cases node with
    | none => simp [walkState] at h
    | some p =>
      unfold walkState at h
      cases hb : loopBody start proc onEntry branch w p tr with
      | none => simp [hb] at h
      | some s =>
        cases s with
        | exit w1 a e tr1 => simp [hb] at h
        | next w1 n1 tr1 =>
          simp only [hb] at h
          have e : fuel + (k + 1) = (fuel + k) + 1 := by omega
          rw [e, walkLoop_next _ _ _ _ _ _ _ _ _ _ _ hb]
          exact ih w1 n1 tr1 wk nk trk h fuel

/-- An iteration in which the callback is called and returns abort jumps to
`Exit:` with `abort` set and `endOfBranchCausedAbort` not set. -/
theorem abort_step (start : Option Nat) (proc : Option (NTreeNodeActionFunc σ))
    (onEntry branch : Bool) (w : World σ) (p : Nat) (tr : Trace) (s : Step σ)
    (hs : loopBody start proc onEntry branch w p tr = some s)
    (hab : s.record = tr ++ [(p, true)]) :
    s = Step.exit s.world true false (tr ++ [(p, true)]) := by
  have hlen : ∀ (x : Nat × Bool), tr ≠ tr ++ [x] := by
    intro x h
    have := congrArg List.length h
    simp at this
  have hne : ∀ (q : Nat), tr ++ [(q, false)] ≠ tr ++ [(p, true)] := by
    intro q h
    have := List.append_cancel_left h
    simp at this
  cases loopBody_stepOf start proc onEntry branch w p tr s hs with
  | move n => exact absurd hab (hlen _)
  | mark i w2 hm => exact absurd hab (hlen _)
  | endBranch => exact absurd hab (hlen _)
  | callAbort act w1 hp ha => rfl
  | callMove act w1 n hp ha => exact absurd hab (hne p)
  | callMark act w1 i w2 hp ha hm => exact absurd hab (hne p)
  | callEnd act w1 hp ha => exact absurd hab (hne p)

/-- When the callback returns abort in iteration `k` of the loop, the walk
returns `true` with every fuel above `k`, and that call is the last on the
record. -/
theorem abort_ends_walk (start : Option Nat) (proc : Option (NTreeNodeActionFunc σ))
    (onEntry branch pushOk : Bool) (w : World σ)
    (h0 : 0 ≤ w.entryCount) (h1 : w.entryCount < 32)
    (k : Nat) (wk : World σ) (p : Nat) (trk : Trace) (s : Step σ)
    (hk : walkState start proc onEntry branch k (loopEntry w pushOk) start []
      = some (wk, some p, trk))
    (hs : loopBody start proc onEntry branch wk p trk = some s)
    (hab : s.record = trk ++ [(p, true)]) (fuel : Nat) (hfuel : k < fuel) :
    VisitAllNTreeNodes fuel start proc onEntry branch w pushOk
      = some (true, (exitPath s.world true false (trk ++ [(p, true)])).2.1,
          trk ++ [(p, true)]) := by
  have hexit := abort_step start proc onEntry branch wk p trk s hs hab
  rw [hexit] at hs
  have hf : fuel = (fuel - k - 1 + 1) + k := by omega
  rw [VisitAllNTreeNodes_steps fuel start proc onEntry branch w pushOk h0 h1, hf,
    walkLoop_of_walkState start proc onEntry branch k _ _ _ wk (some p) trk hk,
    walkLoop_exit _ _ _ _ _ _ _ _ _ _ _ _ hs]
  simp only [Option.map_some']
  have hp := exitPath_parm s.world true false (trk ++ [(p, true)])
  exact congrArg some (Prod.ext (by simp [exitPath]) (Prod.ext rfl hp.2.1))

/-- On the record of a walk that has returned, a call that aborted is the last
one, and the walk has returned `true`. -/
theorem abort_is_last (fuel : Nat) (start : Option Nat)
    (proc : Option (NTreeNodeActionFunc σ)) (onEntry branch : Bool) (w : World σ)
    (pushOk : Bool) (r : Bool) (w1 : World σ) (tr : Trace)
    (h : VisitAllNTreeNodes fuel start proc onEntry branch w pushOk = some (r, w1, tr))
    (i : Nat) (n : Nat) (hab : tr[i]? = some (n, true)) :
    i + 1 = tr.length ∧ r = true := by
  rcases walk_abortLast fuel start proc onEntry branch w pushOk r tr
      (by unfold observe; rw [h]; rfl) with ⟨_, hq⟩ | ⟨hr, tr0, m, rfl, hq⟩
  · have := hq (n, true) (List.getElem?_mem hab)
    simp at this
  · refine ⟨?_, hr⟩
    by_cases hi : i < tr0.length
    · rw [List.getElem?_append_left hi] at hab
      have := hq (n, true) (List.getElem?_mem hab)
      simp at this
    · have hlen : i < (tr0 ++ [(m, true)]).length := by
        by_contra hge
        rw [List.getElem?_eq_none (by omega)] at hab
        cases hab
      simp only [List.length_append, List.length_singleton] at hlen ⊢
      omega

/-- C6: in every walk that is not refused (any start node, timing and scope,
any callback), when the callback is called on a node `p` in iteration `k` of
the loop and returns abort, the walk returns `true` with every fuel above `k`,
and its record ends with that call: no call before it aborted and none is made
after it.  On the record of any walk that has returned, a call that aborted is
the last one and the walk has returned `true`. -/
theorem walk_abort_stops (start : Option Nat) (proc : Option (NTreeNodeActionFunc σ))
    (onEntry branch pushOk : Bool) (w : World σ)
    (hcount0 : 0 ≤ w.entryCount) (hcount : w.entryCount < 32)
    (k : Nat) (wk : World σ) (p : Nat) (trk : Trace) (s : Step σ)
    (hk : walkState start proc onEntry branch k (loopEntry w pushOk) start []
      = some (wk, some p, trk))
    (hs : loopBody start proc onEntry branch wk p trk = some s)
    (hab : s.record = trk ++ [(p, true)]) :
    (∀ fuel, k < fuel → ∃ w1, VisitAllNTreeNodes fuel start proc onEntry branch w pushOk
      = some (true, w1, trk ++ [(p, true)])) ∧
    Quiet trk ∧
    (∀ (fuel : Nat) (r : Bool) (w1 : World σ) (tr : Trace),
      VisitAllNTreeNodes fuel start proc onEntry branch w pushOk = some (r, w1, tr) →
      ∀ i n, tr[i]? = some (n, true) → i + 1 = tr.length ∧ r = true) := by
  have hrun := abort_ends_walk start proc onEntry branch pushOk w hcount0 hcount k wk p trk s
    hk hs hab
  refine ⟨fun fuel hf => ⟨_, hrun fuel hf⟩, ?_, ?_⟩
  · intro x hx
    obtain ⟨i, hi, hix⟩ := List.getElem_of_mem hx
    obtain ⟨n, b⟩ := x
    cases b
    · rfl
    · have hget : (trk ++ [(p, true)])[i]? = some (n, true) := by
        rw [List.getElem?_append_left hi, List.getElem?_eq_getElem hi, hix]
      have := (abort_is_last (k + 1) start proc onEntry branch w pushOk true _ _
        (hrun (k + 1) (by omega)) i n hget).1
      simp only [List.length_append, List.length_singleton] at this
      omega
  · intro fuel r w1 tr h i n hab1
    exact abort_is_last fuel start proc onEntry branch w pushOk r w1 tr h i n hab1

theorem walk_abort_stops_witness :
    (∀ fuel, 2 < fuel → ∃ w1, VisitAllNTreeNodes fuel (some 0) (some (abortAt 3)) true false
      sampleWorld true = some (true, w1, [(0, false), (1, false)] ++ [(3, true)])) ∧
    Quiet [(0, false), (1, false)] ∧
    (∀ (fuel : Nat) (r : Bool) (w1 : World Unit) (tr : Trace),
      VisitAllNTreeNodes fuel (some 0) (some (abortAt 3)) true false sampleWorld true
        = some (r, w1, tr) →
      ∀ i n, tr[i]? = some (n, true) → i + 1 = tr.length ∧ r = true) :=
  walk_abort_stops (some 0) (some (abortAt 3)) true false true sampleWorld (by decide)
    (by decide) 2 (loopEntry sampleWorld true) 3 [(0, false), (1, false)]
    (Step.exit (loopEntry sampleWorld true) true false [(0, false), (1, false), (3, true)])
    rfl rfl rfl

/-- C7 (amended): in a `ThisBranchOnly` walk that is not refused an abort of the
callback is always reported: when the callback is called on a node `p`, the
start node included, in iteration `k` of the loop and returns abort, the walk
returns `true` with every fuel above `k`; and a walk that has returned has
returned `true` exactly when a call of the callback aborted, and `false`
exactly when no call aborted. -/
theorem walk_branch_result_iff_abort (start : Option Nat)
    (proc : Option (NTreeNodeActionFunc σ)) (onEntry pushOk : Bool) (w : World σ)
    (hcount0 : 0 ≤ w.entryCount) (hcount : w.entryCount < 32)
    (k : Nat) (wk : World σ) (p : Nat) (trk : Trace) (s : Step σ)
    (hk : walkState start proc onEntry true k (loopEntry w pushOk) start []
      = some (wk, some p, trk))
    (hs : loopBody start proc onEntry true wk p trk = some s)
    (hab : s.record = trk ++ [(p, true)]) :
    (∀ fuel, k < fuel → ∃ w1, VisitAllNTreeNodes fuel start proc onEntry true w pushOk
      = some (true, w1, trk ++ [(p, true)])) ∧
    (∀ (fuel : Nat) (r : Bool) (w1 : World σ) (tr : Trace),
      VisitAllNTreeNodes fuel start proc onEntry true w pushOk = some (r, w1, tr) →
      (r = true ↔ ∃ x ∈ tr, x.2 = true) ∧ (r = false ↔ Quiet tr)) := by
  have hrun := abort_ends_walk start proc onEntry true pushOk w hcount0 hcount k wk p trk s
    hk hs hab
  refine ⟨fun fuel hf => ⟨_, hrun fuel hf⟩, ?_⟩
  intro fuel r w1 tr h
  rcases walk_abortLast fuel start proc onEntry true w pushOk r tr
      (by unfold observe; rw [h]; rfl) with ⟨hr, hq⟩ | ⟨hr, tr0, m, rfl, hq⟩
  · subst hr
    refine ⟨⟨fun h => absurd h (by simp), ?_⟩, ⟨fun _ => hq, fun _ => rfl⟩⟩
    rintro ⟨x, hx, hx2⟩
    rw [hq x hx] at hx2
    exact absurd hx2 (by simp)
  · subst hr
    refine ⟨⟨fun _ => ⟨(m, true), by simp, rfl⟩, fun _ => rfl⟩,
      ⟨fun h => absurd h (by simp), ?_⟩⟩
    intro hq2
    have := hq2 (m, true) (by simp)
    simp at this

theorem walk_branch_result_iff_abort_witness :
    (∀ fuel, 4 < fuel → ∃ w1, VisitAllNTreeNodes fuel (some 1) (some (abortAt 1)) false true
      sampleWorld true = some (true, w1, [(3, false)] ++ [(1, true)])) ∧
    (∀ (fuel : Nat) (r : Bool) (w1 : World Unit) (tr : Trace),
      VisitAllNTreeNodes fuel (some 1) (some (abortAt 1)) false true sampleWorld true
        = some (r, w1, tr) →
      (r = true ↔ ∃ x ∈ tr, x.2 = true) ∧ (r = false ↔ Quiet tr)) :=
  walk_branch_result_iff_abort (some 1) (some (abortAt 1)) false true sampleWorld (by decide)
    (by decide) 4
    (((SetVisitedBit (loopEntry sampleWorld true) 3 true).bind
      (fun w => SetVisitedBit w 1 true)).getD sampleWorld) 1
    [(3, false)]
    (Step.exit (((SetVisitedBit (loopEntry sampleWorld true) 3 true).bind
      (fun w => SetVisitedBit w 1 true)).getD sampleWorld) true false
      [(3, false), (1, true)])
    rfl rfl rfl

/-- A loop that reaches, after `k` iterations, an iteration without a result has
no result, whatever the fuel. -/
theorem walkLoop_stuck (start : Option Nat) (proc : Option (NTreeNodeActionFunc σ))
    (onEntry branch : Bool) :
    ∀ (k : Nat) (w : World σ) (node : Option Nat) (tr : Trace) (wk : World σ)
      (p : Nat) (trk : Trace),
      walkState start proc onEntry branch k w node tr = some (wk, some p, trk) →
      loopBody start proc onEntry branch wk p trk = none →
      ∀ fuel, walkLoop start proc onEntry branch fuel w node tr = none := by
  intro k
  induction k with
  | zero =>
    intro w node tr wk p trk h hb fuel
    simp only [walkState, Option.some.injEq, Prod.mk.injEq] at h
    obtain ⟨rfl, rfl, rfl⟩ := h
    cases fuel with
    | zero => rfl
    | succ f => simp [walkLoop, hb]
  | succ k ih =>
    intro w node tr wk p trk h hb fuel
    cases node with
    | none => simp [walkState] at h
    | some q =>
      unfold walkState at h
      cases hq : loopBody start proc onEntry branch w q tr with
      | none => simp [hq] at h
      | some s =>
        cases s with
        | exit w1 a e tr1 => simp [hq] at h
        | next w1 n1 tr1 =>
          simp only [hq] at h
          cases fuel with
          | zero => rfl
          | succ f =>
            rw [walkLoop_next _ _ _ _ _ _ _ _ _ _ _ hq]
            exact ih w1 n1 tr1 wk p trk h hb f

/-- C10: on the sample tree (one buffer, no walk active) an entry-timed walk of
the whole tree whose callback runs a walk of its own, with the push of the
buffer for that walk failing.  The inner walk sets its marks in the one buffer
there is, the buffer of the outer walk (after three iterations the bit of node
3 is set in it), runs its callback on all five nodes and pops that buffer on
its way out; the outer walk, back from its first call, finds no buffer: its
cursor is on node 1, only the root has had its call, and the next iteration
reads the visited bit through a null pointer, so that the outer walk has no
result whatever the fuel.  With the push succeeding the same walk runs its
callback once on every node and returns with the buffer in place. -/
theorem nested_walk_failed_push_breaks_outer_walk :
    (sampleWorld.fVisitedBits.length = 1 ∧ sampleWorld.entryCount = 0) ∧
    (walkState (some 0) (some noAction) true false 3 (loopEntry (loopEntry sampleWorld) false)
        (some 0) []).map (fun s => (s.1.fVisitedBits.length, vis s.1 3))
      = some (1, true) ∧
    (VisitAllNTreeNodes 20 (some 0) (some noAction) true false (loopEntry sampleWorld) false).map
        (fun r => (r.1, r.2.2, r.2.1.fVisitedBits.length, r.2.1.entryCount))
      = some (false, calm [0, 1, 3, 2, 4], 0, 1) ∧
    (walkState (some 0) (some (nested 20 noAction (fun _ => some 0) true false false)) true false
        1 (loopEntry sampleWorld) (some 0) []).map
        (fun s => (s.2.1, s.2.2, s.1.fVisitedBits.length, s.1.entryCount))
      = some (some 1, [(0, false)], 0, 1) ∧
    (∀ fuel, VisitAllNTreeNodes fuel (some 0)
        (some (nested 20 noAction (fun _ => some 0) true false false)) true false sampleWorld
      = none) ∧
    (VisitAllNTreeNodes 20 (some 0)
        (some (nested 20 noAction (fun _ => some 0) true false true)) true false sampleWorld).map
        (fun r => (r.1, r.2.2, r.2.1.fVisitedBits.length, r.2.1.entryCount))
      = some (false, calm [0, 1, 3, 2, 4], 1, 0) := by
  refine ⟨⟨by decide, by decide⟩, by decide, by decide, by decide, ?_, by decide⟩
  intro fuel
  rw [VisitAllNTreeNodes_steps fuel _ _ _ _ _ _ (by decide) (by decide),
    walkLoop_stuck (some 0) (some (nested 20 noAction (fun _ => some 0) true false false))
      true false 1 (loopEntry sampleWorld) (some 0) []
      { sampleWorld with fVisitedBits := [], entryCount := 1 } 1 [(0, false)] rfl rfl fuel]
  rfl

end NTree

/-! ## Walks whose callback inserts children: the calls on the inserted children -/

namespace NTree

variable {σ : Type}

/-- At top level, or when the push succeeds, the loop starts in the state it
starts in with a successful push. -/
theorem loopEntry_push (w : World σ) (pushOk : Bool)
    (h : w.entryCount = 0 ∨ pushOk = true) : loopEntry w pushOk = loopEntry w true := by
  rcases h with h | h
  · have e1 : toShort (w.entryCount + 1) = 1 := by rw [h]; decide
    have e2 : ¬ ((1 : Int) > 1) := by decide
    unfold loopEntry
    simp only [e1, e2, if_false]
  · rw [h]

/-- The two scans over children that can all be read: either all children are
visited, or the forward scan stops at a child that is not. -/
theorem scans_total (w : World σ) (nd : NTreeNode) (n : Nat)
    (hdef : ∀ j, j < n → ∃ c v, childVis w nd j = some (c, v)) :
    (∃ ch2, ∃ ci1 : Int, ∃ idx found ch1,
      scanBackward w nd n none = some (idx, found, ch1) ∧
      (if found = true then (if idx + 1 ≥ (n : Int) then (0 : Int) else idx + 1) else 0) = ci1 ∧
      scanForward w nd ((n : Int) - ci1).toNat ci1 ch1 = some (((n : Nat) : Int), false, ch2) ∧
      ∀ j, j < n → ∃ c, childVis w nd j = some (c, true)) ∨
    (∃ m c, ∃ ci1 : Int, ∃ idx found ch1, m < n ∧
      scanBackward w nd n none = some (idx, found, ch1) ∧
      (if found = true then (if idx + 1 ≥ (n : Int) then (0 : Int) else idx + 1) else 0) = ci1 ∧
      scanForward w nd ((n : Int) - ci1).toNat ci1 ch1 = some ((m : Int), true, some c) ∧
      childVis w nd m = some (c, false)) := by
  obtain ⟨ch1, ⟨hb, hun⟩ | ⟨m, hm, hb, hun⟩⟩ := scanBackward_total w nd n none hdef
  · -- no visited child: the forward scan starts at 0
    have e3 : ((n : Int) - (0 : Int)).toNat = n := by omega
    rcases scanForward_total w nd n 0 ch1 (fun j _ h2 => hdef j (by omega)) with
      ⟨ch2, h1, h2⟩ | ⟨m, c, h1, h2, h3, h4⟩
    · refine Or.inl ⟨ch2, 0, _, _, _, hb, by simp, ?_, fun j hj => h2 j (by omega) (by omega)⟩
      rw [e3]
      simpa using h1
    · refine Or.inr ⟨m, c, 0, _, _, _, by omega, hb, by simp, ?_, h4⟩
      rw [e3]
      simpa using h3
  · by_cases hlast : m + 1 = n
    · -- the last child is visited: the forward scan starts at 0 again
      have e3 : ((n : Int) - (0 : Int)).toNat = n := by omega
      have eci : (if true = true then (if (m : Int) + 1 ≥ (n : Int) then (0 : Int)
          else (m : Int) + 1) else 0) = 0 := by
        simp only [if_true]
        rw [if_pos (by omega)]
      rcases scanForward_total w nd n 0 ch1 (fun j _ h2 => hdef j (by omega)) with
        ⟨ch2, h1, h2⟩ | ⟨m1, c, h1, h2, h3, h4⟩
      · refine Or.inl ⟨ch2, 0, _, _, _, hb, eci, ?_, fun j hj => h2 j (by omega) (by omega)⟩
        rw [e3]
        simpa using h1
      · refine Or.inr ⟨m1, c, 0, _, _, _, by omega, hb, eci, ?_, h4⟩
        rw [e3]
        simpa using h3
    · -- the child after the last visited one is not visited
      have eci : (if true = true then (if (m : Int) + 1 ≥ (n : Int) then (0 : Int)
          else (m : Int) + 1) else 0) = ((m + 1 : Nat) : Int) := by
        simp only [if_true]
        rw [if_neg (by omega)]
        simp
      obtain ⟨c, hc⟩ := hun (m + 1) (by omega) (by omega)
      have e3 : ((n : Int) - ((m + 1 : Nat) : Int)).toNat = (n - (m + 1) - 1) + 1 := by omega
      refine Or.inr ⟨m + 1, c, ((m + 1 : Nat) : Int), _, _, _, by omega, hb, eci, ?_, hc⟩
      rw [e3, childVis_fwd_false w nd _ (m + 1) c ch1 hc]

/-- The two scans and what follows them, when the children of the cursor can
all be read and the callback returns: the iteration ends the walk on an abort,
or goes down to a child that is not visited, after a call of the callback or
without one, or marks the cursor when all its children are visited. -/
theorem findAndVisit_outcome (act : NTreeNodeActionFunc σ) (onEntry : Bool)
    (w : World σ) (p : Nat) (nd : NTreeNode) (tr : Trace) (didAction : Bool) (n : Nat)
    (hdef : ∀ j, j < n → ∃ c v, childVis w nd j = some (c, v))
    (hheap : w.heap p = some nd) (hst : w.fVisitedBits ≠ []) (hid : nd.fID < 65536)
    (hcall : ∃ r w1, act p w = some (r, w1)) :
    ∃ s, findAndVisit (some act) onEntry w p nd tr didAction (n : Int) ((n : Int) - 1) = some s ∧
      ((∃ w1, s = Step.exit w1 true false (tr ++ [(p, true)]) ∧ act p w = some (true, w1)) ∨
       (∃ w1 c j, s = Step.next w1 (some c) (tr ++ [(p, false)]) ∧ j < n ∧
          childVis w nd j = some (c, false) ∧ act p w = some (false, w1)) ∨
       (∃ c j, s = Step.next w (some c) tr ∧ j < n ∧ childVis w nd j = some (c, false)) ∨
       (∃ w2, s = Step.next w2 (some p) tr ∧ Marked w w2 [nd.fID] ∧
          ∀ j, j < n → ∃ c, childVis w nd j = some (c, true))) := by
  have e1 : ((n : Int) - 1 + 1).toNat = n := by omega
  unfold findAndVisit
  rw [e1]
  rcases scans_total w nd n hdef with ⟨ch2, ci1, idx, found, ch1, hb, hci, hf, hall⟩ |
    ⟨m, c, ci1, idx, found, ch1, hm, hb, hci, hf, hc⟩
  · obtain ⟨w2, hs, hmk⟩ := SetVisitedBit_marked w nd.fID hst hid
    refine ⟨Step.next w2 (some p) tr, ?_, Or.inr (Or.inr (Or.inr ⟨w2, rfl, hmk, hall⟩))⟩
    rw [hb]
    simp only []
    rw [hci, hf]
    simp [hheap, hs]
  · rw [hb]
    simp only []
    rw [hci, hf]
    simp only []
    by_cases hbc : (true && decide ((m : Int) = 0) && !didAction && onEntry) = true
    · obtain ⟨r, w1, ha⟩ := hcall
      simp only [hbc, if_true, invoke, ha]
      cases r
      · exact ⟨_, rfl, Or.inr (Or.inl ⟨w1, c, m, rfl, hm, hc, rfl⟩)⟩
      · exact ⟨_, rfl, Or.inl ⟨w1, rfl, rfl⟩⟩
    · simp only [hbc, if_false, if_true]
      exact ⟨_, rfl, Or.inr (Or.inr (Or.inl ⟨c, m, rfl, hm, hc⟩))⟩

/-- The scans after the entry call on a cursor that had no child before the
call: the backward scan does not run, the forward scan runs over the children
the cursor has now, and no second call is made. -/
theorem findAndVisit_fresh (act : NTreeNodeActionFunc σ) (onEntry : Bool)
    (w : World σ) (p : Nat) (nd : NTreeNode) (tr : Trace) (n : Nat) (ci : Int) (hci : ci = -1)
    (hdef : ∀ j, j < n → ∃ c v, childVis w nd j = some (c, v))
    (hheap : w.heap p = some nd) (hst : w.fVisitedBits ≠ []) (hid : nd.fID < 65536) :
    ∃ s, findAndVisit (some act) onEntry w p nd tr true (n : Int) ci = some s ∧
      ((∃ c j, s = Step.next w (some c) tr ∧ j < n ∧ childVis w nd j = some (c, false)) ∨
       (∃ w2, s = Step.next w2 (some p) tr ∧ Marked w w2 [nd.fID] ∧
          ∀ j, j < n → ∃ c, childVis w nd j = some (c, true))) := by
  subst hci
  unfold findAndVisit
  have e0 : ((-1 : Int) + 1).toNat = 0 := by decide
  rw [e0]
  have hb : scanBackward w nd 0 none = some (-1, false, none) := rfl
  rw [hb]
  simp only [Bool.false_eq_true, if_false]
  have e3 : ((n : Int) - (0 : Int)).toNat = n := by omega
  rw [e3]
  rcases scanForward_total w nd n 0 none (fun j _ h2 => hdef j (by omega)) with
    ⟨ch2, h1, h2⟩ | ⟨m, c, h1, h2, h3, h4⟩
  · obtain ⟨w2, hs, hmk⟩ := SetVisitedBit_marked w nd.fID hst hid
    refine ⟨Step.next w2 (some p) tr, ?_,
      Or.inr ⟨w2, rfl, hmk, fun j hj => h2 j (by omega) (by omega)⟩⟩
    have hf : scanForward w nd n 0 none = some ((n : Int), false, ch2) := by simpa using h1
    rw [hf]
    simp [hheap, hs]
  · have hf : scanForward w nd n 0 none = some ((m : Int), true, some c) := by simpa using h3
    rw [hf]
    simp only [Bool.not_true, Bool.and_false, Bool.false_and, Bool.false_eq_true, if_false,
      if_true]
    exact ⟨_, rfl, Or.inl ⟨c, m, rfl, by omega, h4⟩⟩

theorem above_level (level : Nat → Nat) (D : Nat) (h : Nat → Option NTreeNode)
    (hl : Levelled level D h) (X : Nat) :
    ∀ p, Above h X p → level X ≤ level p ∧ (level X = level p → X = p) := by
  intro p ha
  induction ha with
  | self => exact ⟨le_refl _, fun _ => rfl⟩
  | up p q nd hp hq _ ih =>
    obtain ⟨pn, _, hlev⟩ := hl.2.2 p nd q hp hq
    exact ⟨by omega, fun e => absurd e (by omega)⟩

theorem above_inv (h : Nat → Option NTreeNode) (X p : Nat) (ha : Above h X p) (hne : X ≠ p) :
    ∃ q nd, h p = some nd ∧ nd.fParent = some q ∧ Above h X q := by
  cases ha with
  | self => exact absurd rfl hne
  | up _ q nd hp hq ha1 => exact ⟨q, nd, hp, hq, ha1⟩

/-- What is left of a node when children are inserted somewhere: its id, its
parent link and the children it had. -/
theorem grows_node (h h1 : Nat → Option NTreeNode) (n : Nat) (hg : GrowsAt h h1 n)
    (q : Nat) (nd : NTreeNode) (hq : h q = some nd) :
    ∃ nd1, h1 q = some nd1 ∧ nd1.fID = nd.fID ∧ nd1.fParent = nd.fParent ∧
      ∀ c ∈ nd.fChildren, c ∈ nd1.fChildren := by
  by_cases e : q = n
  · subst e
    obtain ⟨cs, hcs, hsub⟩ := hg.2.1 nd hq
    exact ⟨_, hcs, rfl, rfl, hsub⟩
  · exact ⟨nd, hg.1 q nd hq e, rfl, rfl, fun c hc => hc⟩

theorem above_grows (h h1 : Nat → Option NTreeNode) (n : Nat) (hg : GrowsAt h h1 n) (X : Nat) :
    ∀ p, Above h X p → Above h1 X p := by
  intro p ha
  induction ha with
  | self => exact Above.self
  | up p q nd hp hq _ ih =>
    obtain ⟨nd1, h1p, _, hpar, _⟩ := grows_node h h1 n hg p nd hp
    exact Above.up p q nd1 h1p (by rw [hpar]; exact hq) ih

theorem called_spec (I : (Nat → Option NTreeNode) → Prop) (act : NTreeNodeActionFunc σ)
    (hact : Growing I act) (w : World σ) (p : Nat) (tr : Trace) (w1 : World σ) (tr1 : Trace)
    (hIw : I w.heap) (hc : Called act w p tr w1 tr1) :
    I w1.heap ∧ w1.fVisitedBits = w.fVisitedBits ∧ GrowsAt w.heap w1.heap p := by
  rcases hc with ⟨rfl, _⟩ | ⟨ha, _⟩
  · exact ⟨hIw, rfl, growsAt_refl _ _⟩
  · obtain ⟨_, hb, _, hI1, hg⟩ := hact p w w1 false hIw ha
    exact ⟨hI1, hb, hg⟩

theorem childVis_live (w : World σ) (nd : NTreeNode) (hst : w.fVisitedBits ≠ [])
    (hkids : ∀ c ∈ nd.fChildren, ∃ cn, w.heap c = some cn) :
    ∀ j, j < nd.fChildren.length → ∃ c v, childVis w nd j = some (c, v) := by
  intro j hj
  obtain ⟨cn, hcn⟩ := hkids (nd.fChildren[j]) (List.getElem_mem hj)
  refine ⟨nd.fChildren[j], vis w cn.fID, ?_⟩
  unfold childVis
  rw [List.getElem?_eq_getElem hj]
  simp only [hcn]
  rw [Visited_eq_vis w _ hst]

/-- One iteration of an entry-timed walk whose callback only inserts children,
on a heap that is a forest: the iteration has a result, and it is the end of
the branch at the marked start node, the move up from a marked cursor, the move
down from an unmarked cursor to an unmarked child, or the mark on an unmarked
cursor whose children are all marked; the last two after at most one call of
the callback on the cursor. -/
theorem grow_step (I : (Nat → Option NTreeNode) → Prop) (act : NTreeNodeActionFunc σ)
    (level : Nat → Nat) (D : Nat) (start : Option Nat) (branch : Bool)
    (hI : ∀ h, I h → WellFormed h ∧ Levelled level D h) (hact : Growing I act)
    (htot : ∀ (n : Nat) (u : World σ), I u.heap → ∃ r u1, act n u = some (r, u1))
    (w : World σ) (p : Nat) (nd : NTreeNode) (tr : Trace)
    (hIw : I w.heap) (hst : w.fVisitedBits ≠ []) (hp : w.heap p = some nd) :
    ∃ s, loopBody start (some act) true branch w p tr = some s ∧
      ((vis w nd.fID = true ∧ (some p = start ∧ branch = true) ∧
          s = Step.exit w true true tr) ∨
       (vis w nd.fID = true ∧ ¬ (some p = start ∧ branch = true) ∧
          s = Step.next w nd.fParent tr) ∨
       (vis w nd.fID = false ∧ ∃ w1 tr1 nd1, Called act w p tr w1 tr1 ∧
          w1.heap p = some nd1 ∧
          ((∃ c cn, c ∈ nd1.fChildren ∧ w1.heap c = some cn ∧ vis w1 cn.fID = false ∧
              s = Step.next w1 (some c) tr1) ∨
           (∃ w2, (∀ c ∈ nd1.fChildren, ∃ cn, w1.heap c = some cn ∧ vis w1 cn.fID = true) ∧
              Marked w1 w2 [nd1.fID] ∧ s = Step.next w2 (some p) tr1)))) := by
  obtain ⟨hwf, hlev⟩ := hI _ hIw
  have hid := (hwf.1 p nd hp).1
  have hlen := (hwf.1 p nd hp).2
  have hkids : ∀ (u : World σ) (ndu : NTreeNode), I u.heap → u.heap p = some ndu →
      ∀ c ∈ ndu.fChildren, ∃ cn, u.heap c = some cn := by
    intro u ndu hIu hpu c hc
    obtain ⟨cn, h1, _⟩ := (hI _ hIu).2.2.1 p ndu c hpu hc
    exact ⟨cn, h1⟩
  -- what a scan result tells about the child
  have hchild : ∀ (u : World σ) (ndu : NTreeNode) (j c : Nat) (v : Bool),
      childVis u ndu j = some (c, v) →
      c ∈ ndu.fChildren ∧ ∃ cn, u.heap c = some cn ∧ vis u cn.fID = v := by
    intro u ndu j c v hc
    obtain ⟨h1, h2⟩ := childVis_inv u ndu j c v hc
    exact ⟨List.getElem?_mem h1, h2⟩
  have hallv : ∀ (u : World σ) (ndu : NTreeNode),
      (∀ j, j < ndu.fChildren.length → ∃ c, childVis u ndu j = some (c, true)) →
      ∀ c ∈ ndu.fChildren, ∃ cn, u.heap c = some cn ∧ vis u cn.fID = true := by
    intro u ndu hall c hc
    obtain ⟨j, hj, hjc⟩ := List.getElem_of_mem hc
    obtain ⟨c1, hc1⟩ := hall j hj
    obtain ⟨h1, h2⟩ := childVis_inv u ndu j c1 true hc1
    rw [List.getElem?_eq_getElem hj, hjc] at h1
    cases h1
    exact h2
  unfold loopBody
  rw [hp]
  simp only []
  rw [Visited_eq_vis w _ hst]
  cases hv : vis w nd.fID
  · -- the cursor is not visited
    simp only []
    unfold unvisitedBranch NTreeNode.GetNumChildren
    simp only []
    rw [toShort_pred _ hlen]
    by_cases hleaf : (decide ((nd.fChildren.length : Int) = 0) && true) = true
    · simp only [hleaf, if_true]
      have hlen0 : nd.fChildren.length = 0 := by
        simp only [Bool.and_true, decide_eq_true_eq] at hleaf
        omega
      obtain ⟨r, w1, ha⟩ := htot p w hIw
      obtain ⟨hr, hb, _, hI1, hg⟩ := hact p w w1 r hIw ha
      subst hr
      obtain ⟨nd1, hp1, hid1, _, _⟩ := grows_node w.heap w1.heap p hg p nd hp
      have hst1 : w1.fVisitedBits ≠ [] := by rw [hb]; exact hst
      simp only [invoke, ha]
      rw [hp1]
      simp only []
      obtain ⟨s, hs, hcase⟩ := findAndVisit_fresh act true w1 p nd1 (tr ++ [(p, false)])
        nd1.fChildren.length ((nd.fChildren.length : Int) - 1) (by omega)
        (childVis_live w1 nd1 hst1 (hkids w1 nd1 hI1 hp1)) hp1 hst1 (by rw [hid1]; exact hid)
      refine ⟨s, hs, Or.inr (Or.inr ⟨by first | rfl | trivial, w1, _, nd1, Or.inr ⟨ha, rfl⟩,
        hp1, ?_⟩)⟩
      rcases hcase with ⟨c, j, rfl, _, hc⟩ | ⟨w2, rfl, hm, hall⟩
      · obtain ⟨m1, cn, m2, m3⟩ := hchild w1 nd1 j c false hc
        exact Or.inl ⟨c, cn, m1, m2, m3, rfl⟩
      · exact Or.inr ⟨w2, hallv w1 nd1 hall, hm, rfl⟩
    · simp only [hleaf, if_false]
      obtain ⟨s, hs, hcase⟩ := findAndVisit_outcome act true w p nd tr false
        nd.fChildren.length (childVis_live w nd hst (hkids w nd hIw hp)) hp hst hid
        (htot p w hIw)
      refine ⟨s, hs, Or.inr (Or.inr ⟨by first | rfl | trivial, ?_⟩)⟩
      rcases hcase with ⟨w1, _, ha⟩ | ⟨w1, c, j, rfl, _, hc, ha⟩ | ⟨c, j, rfl, _, hc⟩ |
        ⟨w2, rfl, hm, hall⟩
      · obtain ⟨hr, _⟩ := hact p w w1 true hIw ha
        cases hr
      · obtain ⟨_, hb, _, hI1, hg⟩ := hact p w w1 false hIw ha
        obtain ⟨nd1, hp1, _, _, hsub⟩ := grows_node w.heap w1.heap p hg p nd hp
        obtain ⟨m1, cn, m2, m3⟩ := hchild w nd j c false hc
        obtain ⟨cn1, hc1, hcid, _, _⟩ := grows_node w.heap w1.heap p hg c cn m2
        refine ⟨w1, _, nd1, Or.inr ⟨ha, rfl⟩, hp1, Or.inl ⟨c, cn1, hsub c m1, hc1, ?_, rfl⟩⟩
        rw [hcid, vis_congr w w1 hb]
        exact m3
      · obtain ⟨m1, cn, m2, m3⟩ := hchild w nd j c false hc
        exact ⟨w, tr, nd, Or.inl ⟨rfl, rfl⟩, hp, Or.inl ⟨c, cn, m1, m2, m3, rfl⟩⟩
      · exact ⟨w, tr, nd, Or.inl ⟨rfl, rfl⟩, hp, Or.inr ⟨w2, hallv w nd hall, hm, rfl⟩⟩
  · -- the cursor is visited
    simp only []
    unfold visitedBranch
    simp only [Bool.not_true, Bool.false_eq_true, if_false]
    by_cases hb : (decide (some p = start) && branch) = true
    · simp only [hb, if_true]
      refine ⟨_, rfl, Or.inl ⟨by first | rfl | trivial, ?_, rfl⟩⟩
      simpa using hb
    · simp only [hb, if_false]
      refine ⟨_, rfl, Or.inr (Or.inl ⟨by first | rfl | trivial, ?_, rfl⟩)⟩
      simpa using hb

theorem unvisited_congr (w w1 : World σ) (h : w1.fVisitedBits = w.fVisitedBits) (l : List Nat) :
    unvisited w1 l = unvisited w l := by
  unfold unvisited
  congr 2
  funext i
  rw [vis_congr w w1 h]

theorem growPotential_lt (level : Nat → Nat) (D : Nat) (w : World σ) (p : Nat)
    (hD : level p ≤ D) : growPotential level D w p < growBound D := by
  have hu := unvisited_le w (List.range 65536)
  rw [List.length_range] at hu
  have hmul : unvisited w (List.range 65536) * (2 * D + 2) ≤ 65536 * (2 * D + 2) :=
    Nat.mul_le_mul_right _ hu
  unfold growPotential growBound
  generalize unvisited w (List.range 65536) * (2 * D + 2) = a at hmul ⊢
  generalize level p = l at hD ⊢
  cases w.heap p with
  | none =>
    show a + 0 < 65537 * (2 * D + 2)
    omega
  | some nd =>
    simp only []
    split_ifs
    · show a + (D + 1 + l) < 65537 * (2 * D + 2)
      omega
    · show a + (D - l) < 65537 * (2 * D + 2)
      omega

theorem growPotential_up (level : Nat → Nat) (D : Nat) (w : World σ) (p q : Nat)
    (nd qn : NTreeNode) (hp : w.heap p = some nd) (hv : vis w nd.fID = true)
    (hq : w.heap q = some qn) (hlev : level p = level q + 1) (hD : level p ≤ D) :
    growPotential level D w q < growPotential level D w p := by
  unfold growPotential
  rw [hp, hq]
  simp only [hv, if_true]
  generalize unvisited w (List.range 65536) * (2 * D + 2) = a
  generalize level p = l at hlev hD ⊢
  generalize level q = m at hlev ⊢
  split_ifs
  · show a + (D + 1 + m) < a + (D + 1 + l)
    omega
  · show a + (D - m) < a + (D + 1 + l)
    omega

theorem growPotential_down (level : Nat → Nat) (D : Nat) (w w1 : World σ) (p c : Nat)
    (nd cn : NTreeNode) (hp : w.heap p = some nd) (hv : vis w nd.fID = false)
    (hb : w1.fVisitedBits = w.fVisitedBits) (hc : w1.heap c = some cn)
    (hvc : vis w1 cn.fID = false) (hlev : level c = level p + 1) (hD : level c ≤ D) :
    growPotential level D w1 c < growPotential level D w p := by
  unfold growPotential
  rw [hp, hc, unvisited_congr w w1 hb]
  simp only [hv, hvc, Bool.false_eq_true, if_false]
  generalize unvisited w (List.range 65536) * (2 * D + 2) = a
  generalize level p = l at hlev ⊢
  generalize level c = m at hlev hD ⊢
  show a + (D - m) < a + (D - l)
  omega

theorem growPotential_mark (level : Nat → Nat) (D : Nat) (w w1 w2 : World σ) (p : Nat)
    (nd nd1 : NTreeNode) (hp : w.heap p = some nd) (hv : vis w nd.fID = false)
    (hb : w1.fVisitedBits = w.fVisitedBits) (hp1 : w1.heap p = some nd1)
    (hid : nd1.fID = nd.fID) (hid1 : nd.fID < 65536) (hm : Marked w1 w2 [nd1.fID])
    (hD : level p ≤ D) :
    growPotential level D w2 p < growPotential level D w p := by
  have hv1 : vis w1 nd1.fID = false := by rw [hid, vis_congr w w1 hb]; exact hv
  have hcount := unvisited_marked w1 w2 nd1.fID hm hv1 (List.range 65536)
    (fun i hi => List.mem_range.mp hi) (List.nodup_range _)
    (List.mem_range.mpr (by rw [hid]; exact hid1))
  rw [unvisited_congr w w1 hb] at hcount
  have hp2 : w2.heap p = some nd1 := by rw [hm.1]; exact hp1
  have hv2 : vis w2 nd1.fID = true := by
    rw [hm.2.2.2.2 _ (by rw [hid]; exact hid1)]
    simp
  have hk : unvisited w (List.range 65536) * (2 * D + 2)
      = unvisited w2 (List.range 65536) * (2 * D + 2) + (2 * D + 2) := by
    rw [← hcount]
    ring
  unfold growPotential
  rw [hp, hp2]
  simp only [hv, hv2, Bool.false_eq_true, if_false, if_true]
  rw [hk]
  generalize unvisited w2 (List.range 65536) * (2 * D + 2) = a
  generalize level p = l at hD ⊢
  show a + (D + 1 + l) < a + (2 * D + 2) + (D - l)
  omega

theorem walkState_next (start : Option Nat) (proc : Option (NTreeNodeActionFunc σ))
    (onEntry branch : Bool) (k : Nat) (w w1 : World σ) (p : Nat) (n1 : Option Nat)
    (tr tr1 : Trace)
    (h : loopBody start proc onEntry branch w p tr = some (Step.next w1 n1 tr1)) :
    walkState start proc onEntry branch (k + 1) w (some p) tr
      = walkState start proc onEntry branch k w1 n1 tr1 := by
  conv_lhs => unfold walkState
  simp only [h]

/-- The state after `j` iterations and then `m` more is the state after
`m + j` iterations. -/
theorem walkState_add (start : Option Nat) (proc : Option (NTreeNodeActionFunc σ))
    (onEntry branch : Bool) :
    ∀ (j : Nat) (w : World σ) (node : Option Nat) (tr : Trace) (wj : World σ)
      (nj : Option Nat) (trj : Trace),
      walkState start proc onEntry branch j w node tr = some (wj, nj, trj) →
      ∀ m, walkState start proc onEntry branch (m + j) w node tr
        = walkState start proc onEntry branch m wj nj trj := by
  intro j
  induction j with
  | zero =>
    intro w node tr wj nj trj h m
    simp only [walkState, Option.some.injEq, Prod.mk.injEq] at h
    obtain ⟨rfl, rfl, rfl⟩ := h
    rfl
  | succ j ih =>
    intro w node tr wj nj trj h m
    cases node with
    | none => simp [walkState] at h
    | some p =>
      unfold walkState at h
      cases hb : loopBody start proc onEntry branch w p tr with
      | none => simp [hb] at h
      | some s =>
        cases s with
        | exit w1 a e tr1 => simp [hb] at h
        | next w1 n1 tr1 =>
          simp only [hb] at h
          have e : m + (j + 1) = (m + j) + 1 := by omega
          rw [e, walkState_next _ _ _ _ _ _ _ _ _ _ _ hb]
          exact ih w1 n1 tr1 wj nj trj h m

/-- An entry-timed walk whose callback only inserts children, on a heap that is
a forest, comes to its end: from every state of the loop with potential below
`n`, the loop returns with every fuel from `n` on, and `abort` is set only
together with `endOfBranchCausedAbort`. -/
theorem grow_terminates (I : (Nat → Option NTreeNode) → Prop) (act : NTreeNodeActionFunc σ)
    (level : Nat → Nat) (D : Nat) (start : Option Nat) (branch : Bool)
    (hI : ∀ h, I h → WellFormed h ∧ Levelled level D h) (hact : Growing I act)
    (htot : ∀ (n : Nat) (u : World σ), I u.heap → ∃ r u1, act n u = some (r, u1)) :
    ∀ (n : Nat) (w : World σ) (p : Nat) (tr : Trace) (nd : NTreeNode),
      I w.heap → w.fVisitedBits ≠ [] → w.heap p = some nd →
      growPotential level D w p < n → ∀ fuel, n ≤ fuel →
      ∃ wE a e trE, walkLoop start (some act) true branch fuel w (some p) tr
        = some (wE, a, e, trE) ∧ (a = true → e = true) := by
  intro n
  induction n with
  | zero => intro w p tr nd _ _ _ hpot; omega
  | succ n ih =>
    intro w p tr nd hIw hst hp hpot fuel hfuel
    obtain ⟨f, rfl⟩ : ∃ f, fuel = f + 1 := ⟨fuel - 1, by omega⟩
    obtain ⟨hwf, hlev⟩ := hI _ hIw
    have hDp := hlev.1 p nd hp
    obtain ⟨s, hs, hcase⟩ := grow_step I act level D start branch hI hact htot w p nd tr hIw
      hst hp
    rcases hcase with ⟨_, _, rfl⟩ | ⟨hv, _, rfl⟩ | ⟨hv, w1, tr1, nd1, hcall, hp1, hsub⟩
    · rw [walkLoop_exit _ _ _ _ _ _ _ _ _ _ _ _ hs]
      exact ⟨_, _, _, _, rfl, fun _ => rfl⟩
    · rw [walkLoop_next _ _ _ _ _ _ _ _ _ _ _ hs]
      cases hpar : nd.fParent with
      | none =>
        rw [walkLoop_null]
        exact ⟨_, _, _, _, rfl, fun h => by cases h⟩
      | some q =>
        obtain ⟨qn, hq, hl⟩ := hlev.2.2 p nd q hp hpar
        have hlt := growPotential_up level D w p q nd qn hp hv hq hl hDp
        exact ih w q tr qn hIw hst hq (by omega) f (by omega)
    · obtain ⟨hI1, hb, hg⟩ := called_spec I act hact w p tr w1 tr1 hIw hcall
      obtain ⟨hwf1, hlev1⟩ := hI _ hI1
      have hst1 : w1.fVisitedBits ≠ [] := by rw [hb]; exact hst
      obtain ⟨nd1a, hp1a, hid1, _, _⟩ := grows_node w.heap w1.heap p hg p nd hp
      rw [hp1] at hp1a
      cases hp1a
      rcases hsub with ⟨c, cn, hc, hcn, hvc, rfl⟩ | ⟨w2, _, hm, rfl⟩
      · rw [walkLoop_next _ _ _ _ _ _ _ _ _ _ _ hs]
        obtain ⟨cn1, hcn1, _, hl⟩ := hlev1.2.1 p nd1 c hp1 hc
        have hlt := growPotential_down level D w w1 p c nd cn hp hv hb hcn hvc hl
          (hlev1.1 c cn hcn)
        exact ih w1 c tr1 cn hI1 hst1 hcn (by omega) f (by omega)
      · rw [walkLoop_next _ _ _ _ _ _ _ _ _ _ _ hs]
        have hlt := growPotential_mark level D w w1 w2 p nd nd1 hp hv hb hp1 hid1
          (hwf.1 p nd hp).1 hm hDp
        exact ih w2 p tr1 nd1 (by rw [hm.1]; exact hI1) hm.2.2.1 (by rw [hm.1]; exact hp1)
          (by omega) f (by omega)

theorem above_heap (h h1 : Nat → Option NTreeNode) (e : h1 = h) (X p : Nat)
    (ha : Above h X p) : Above h1 X p := by
  rw [e]
  exact ha

/-- From a state of the loop in which the node `X` is not marked and the cursor
is on `X` or below it, the loop reaches the state in which `X` has just been
marked, with the cursor on `X`; the children `X` had are still its children,
and `X` is not marked in any state before. -/
theorem grow_reaches_mark (I : (Nat → Option NTreeNode) → Prop) (act : NTreeNodeActionFunc σ)
    (level : Nat → Nat) (D : Nat) (start : Nat) (branch : Bool)
    (hI : ∀ h, I h → WellFormed h ∧ Levelled level D h) (hact : Growing I act)
    (htot : ∀ (n : Nat) (u : World σ), I u.heap → ∃ r u1, act n u = some (r, u1))
    (X c : Nat) :
    ∀ (n : Nat) (w : World σ) (p : Nat) (tr : Trace) (nd ndX : NTreeNode),
      I w.heap → w.fVisitedBits ≠ [] → w.heap p = some nd →
      w.heap X = some ndX → vis w ndX.fID = false → c ∈ ndX.fChildren →
      Above w.heap X p → (branch = true → Above w.heap start X) →
      growPotential level D w p < n →
      ∃ (m : Nat) (wm : World σ) (trm : Trace) (ndm : NTreeNode),
        walkState (some start) (some act) true branch m w (some p) tr
          = some (wm, some X, trm) ∧
        wm.heap X = some ndm ∧ vis wm ndm.fID = true ∧ c ∈ ndm.fChildren ∧
        ∀ (i : Nat) (wi : World σ) (ni : Option Nat) (tri : Trace), i < m →
          walkState (some start) (some act) true branch i w (some p) tr = some (wi, ni, tri) →
          ∃ ndi, wi.heap X = some ndi ∧ vis wi ndi.fID = false := by
  intro n
  induction n with
  | zero => intro w p tr nd ndX _ _ _ _ _ _ _ _ hpot; omega
  | succ n ih =>
    intro w p tr nd ndX hIw hst hp hX hvX hcX habove hbr hpot
    obtain ⟨hwf, hlev⟩ := hI _ hIw
    have hDp := hlev.1 p nd hp
    -- the states before the one reached through the next state
    have hbefore : ∀ (w1 : World σ) (n1 : Option Nat) (tr1 : Trace) (m : Nat),
        loopBody (some start) (some act) true branch w p tr = some (Step.next w1 n1 tr1) →
        (∀ (i : Nat) (wi : World σ) (ni : Option Nat) (tri : Trace), i < m →
          walkState (some start) (some act) true branch i w1 n1 tr1 = some (wi, ni, tri) →
          ∃ ndi, wi.heap X = some ndi ∧ vis wi ndi.fID = false) →
        ∀ (i : Nat) (wi : World σ) (ni : Option Nat) (tri : Trace), i < m + 1 →
          walkState (some start) (some act) true branch i w (some p) tr = some (wi, ni, tri) →
          ∃ ndi, wi.heap X = some ndi ∧ vis wi ndi.fID = false := by
      intro w1 n1 tr1 m hs hrec i wi ni tri hi hwi
      cases i with
      | zero =>
        simp only [walkState, Option.some.injEq, Prod.mk.injEq] at hwi
        obtain ⟨rfl, _, _⟩ := hwi
        exact ⟨ndX, hX, hvX⟩
      | succ i =>
        rw [walkState_next _ _ _ _ _ _ _ _ _ _ _ hs] at hwi
        exact hrec i wi ni tri (by omega) hwi
    obtain ⟨s, hs, hcase⟩ := grow_step I act level D (some start) branch hI hact htot w p nd tr
      hIw hst hp
    rcases hcase with ⟨hv, ⟨hps, hb⟩, rfl⟩ | ⟨hv, _, rfl⟩ | ⟨hv, w1, tr1, nd1, hcall, hp1, hsub⟩
    · -- the end of the branch: the cursor is the start node, and `X` is not above it
      exfalso
      have hps1 : p = start := by simpa using hps
      subst hps1
      have h1 := above_level level D w.heap hlev X p habove
      have h2 := above_level level D w.heap hlev p X (hbr hb)
      have hXp : X = p := h1.2 (by omega)
      subst hXp
      rw [hp] at hX
      cases hX
      rw [hv] at hvX
      cases hvX
    · -- the move up
      have hne : X ≠ p := by
        intro e
        subst e
        rw [hp] at hX
        cases hX
        rw [hv] at hvX
        cases hvX
      obtain ⟨q, nd2, hp2, hq, haq⟩ := above_inv w.heap X p habove hne
      rw [hp] at hp2
      cases hp2
      obtain ⟨qn, hqn, hl⟩ := hlev.2.2 p nd q hp hq
      have hlt := growPotential_up level D w p q nd qn hp hv hqn hl hDp
      rw [hq] at hs
      obtain ⟨m, wm, trm, ndm, g1, g2, g3, g4, g5⟩ := ih w q tr qn ndX hIw hst hqn hX hvX hcX
        haq hbr (by omega)
      refine ⟨m + 1, wm, trm, ndm, ?_, g2, g3, g4, hbefore w (some q) tr m hs g5⟩
      rw [walkState_next _ _ _ _ _ _ _ _ _ _ _ hs]
      exact g1
    · obtain ⟨hI1, hb, hg⟩ := called_spec I act hact w p tr w1 tr1 hIw hcall
      obtain ⟨hwf1, hlev1⟩ := hI _ hI1
      have hst1 : w1.fVisitedBits ≠ [] := by rw [hb]; exact hst
      obtain ⟨nd1a, hp1a, hid1, _, _⟩ := grows_node w.heap w1.heap p hg p nd hp
      rw [hp1] at hp1a
      cases hp1a
      obtain ⟨ndX1, hX1, hidX, _, hsubX⟩ := grows_node w.heap w1.heap p hg X ndX hX
      have hvX1 : vis w1 ndX1.fID = false := by rw [hidX, vis_congr w w1 hb]; exact hvX
      have habove1 := above_grows w.heap w1.heap p hg X p habove
      have hbr1 : branch = true → Above w1.heap start X :=
        fun e => above_grows w.heap w1.heap p hg start X (hbr e)
      rcases hsub with ⟨c1, cn, hc, hcn, hvc, rfl⟩ | ⟨w2, _, hm, rfl⟩
      · -- the move down
        obtain ⟨cn1, hcn1, hpar, hl⟩ := hlev1.2.1 p nd1 c1 hp1 hc
        rw [hcn] at hcn1
        cases hcn1
        have hlt := growPotential_down level D w w1 p c1 nd cn hp hv hb hcn hvc hl
          (hlev1.1 c1 cn hcn)
        obtain ⟨m, wm, trm, ndm, g1, g2, g3, g4, g5⟩ := ih w1 c1 tr1 cn ndX1 hI1 hst1 hcn hX1
          hvX1 (hsubX c hcX) (Above.up c1 p cn hcn hpar habove1) hbr1 (by omega)
        refine ⟨m + 1, wm, trm, ndm, ?_, g2, g3, g4, hbefore w1 (some c1) tr1 m hs g5⟩
        rw [walkState_next _ _ _ _ _ _ _ _ _ _ _ hs]
        exact g1
      · -- the mark
        have hheap2 : w2.heap = w1.heap := hm.1
        have hX2 : w2.heap X = some ndX1 := by rw [hheap2]; exact hX1
        by_cases e : X = p
        · subst e
          rw [hp1] at hX1
          cases hX1
          have hv2 : vis w2 nd1.fID = true := by
            rw [hm.2.2.2.2 _ (hwf1.1 X nd1 hp1).1]
            simp
          refine ⟨1, w2, tr1, nd1, ?_, hX2, hv2, hsubX c hcX, hbefore w2 (some X) tr1 0 hs
            (fun i _ _ _ hi => absurd hi (by omega))⟩
          rw [walkState_next _ _ _ _ _ _ _ _ _ _ _ hs]
          rfl
        · have hidne : ndX1.fID ≠ nd1.fID := by
            intro hid
            exact e (hwf1.2 X p ndX1 nd1 hX1 hp1 hid)
          have hvX2 : vis w2 ndX1.fID = false := by
            rw [hm.2.2.2.2 _ (hwf1.1 X ndX1 hX1).1, hvX1]
            simp [hidne]
          have hlt := growPotential_mark level D w w1 w2 p nd nd1 hp hv hb hp1 hid1
            (hwf.1 p nd hp).1 hm hDp
          obtain ⟨m, wm, trm, ndm, g1, g2, g3, g4, g5⟩ := ih w2 p tr1 nd1 ndX1
            (by rw [hheap2]; exact hI1) hm.2.2.1 (by rw [hheap2]; exact hp1) hX2 hvX2
            (hsubX c hcX) (above_heap w1.heap w2.heap hheap2 X p habove1)
            (fun e1 => above_heap w1.heap w2.heap hheap2 start X (hbr1 e1)) (by omega)
          refine ⟨m + 1, wm, trm, ndm, ?_, g2, g3, g4, hbefore w2 (some p) tr1 m hs g5⟩
          rw [walkState_next _ _ _ _ _ _ _ _ _ _ _ hs]
          exact g1

/-- What holds in every state of the loop of an entry-timed walk whose callback
only inserts children, on a heap that is a forest: the heap satisfies the
invariant of the callback, there is a buffer, the cursor and the nodes on the
record are nodes of the heap, in a walk of one branch the cursor is the start
node or below it, and no node has left the heap. -/
theorem grow_walkState (I : (Nat → Option NTreeNode) → Prop) (act : NTreeNodeActionFunc σ)
    (level : Nat → Nat) (D : Nat) (start : Nat) (branch : Bool)
    (hI : ∀ h, I h → WellFormed h ∧ Levelled level D h) (hact : Growing I act)
    (htot : ∀ (n : Nat) (u : World σ), I u.heap → ∃ r u1, act n u = some (r, u1)) :
    ∀ (k : Nat) (w : World σ) (node : Option Nat) (tr : Trace) (wk : World σ)
      (nk : Option Nat) (trk : Trace),
      I w.heap → w.fVisitedBits ≠ [] →
      (∀ p, node = some p → ∃ nd, w.heap p = some nd) →
      (branch = true → ∀ p, node = some p → Above w.heap start p) →
      (∀ Y ∈ tr.map Prod.fst, ∃ nd, w.heap Y = some nd) →
      walkState (some start) (some act) true branch k w node tr = some (wk, nk, trk) →
      (I wk.heap ∧ wk.fVisitedBits ≠ [] ∧
        (∀ p, nk = some p → ∃ nd, wk.heap p = some nd) ∧
        (branch = true → ∀ p, nk = some p → Above wk.heap start p) ∧
        (∀ Y ∈ trk.map Prod.fst, ∃ nd, wk.heap Y = some nd)) ∧
      (∀ q nd, w.heap q = some nd → ∃ nd1, wk.heap q = some nd1) := by
  intro k
  induction k with
  | zero =>
    intro w node tr wk nk trk hIw hst hlive hbr htr h
    simp only [walkState, Option.some.injEq, Prod.mk.injEq] at h
    obtain ⟨rfl, rfl, rfl⟩ := h
    exact ⟨⟨hIw, hst, hlive, hbr, htr⟩, fun q nd hq => ⟨nd, hq⟩⟩
  | succ k ih =>
    intro w node tr wk nk trk hIw hst hlive hbr htr h
    cases node with
    | none => simp [walkState] at h
    | some p =>
      obtain ⟨nd, hp⟩ := hlive p rfl
      obtain ⟨hwf, hlev⟩ := hI _ hIw
      obtain ⟨s, hs, hcase⟩ := grow_step I act level D (some start) branch hI hact htot w p nd
        tr hIw hst hp
      rcases hcase with ⟨_, _, rfl⟩ | ⟨hv, hns, rfl⟩ | ⟨hv, w1, tr1, nd1, hcall, hp1, hsub⟩
      · unfold walkState at h
        simp [hs] at h
      · rw [walkState_next _ _ _ _ _ _ _ _ _ _ _ hs] at h
        refine ih w nd.fParent tr wk nk trk hIw hst ?_ ?_ htr h
        · intro q hq
          obtain ⟨qn, hqn, _⟩ := hlev.2.2 p nd q hp hq
          exact ⟨qn, hqn⟩
        · intro hb q hq
          have hne : start ≠ p := by
            intro e
            exact hns ⟨by rw [e], hb⟩
          obtain ⟨q1, nd2, hp2, hq1, haq⟩ := above_inv w.heap start p (hbr hb p rfl) hne
          rw [hp] at hp2
          cases hp2
          rw [hq] at hq1
          cases hq1
          exact haq
      · obtain ⟨hI1, hb1, hg⟩ := called_spec I act hact w p tr w1 tr1 hIw hcall
        obtain ⟨hwf1, hlev1⟩ := hI _ hI1
        have hst1 : w1.fVisitedBits ≠ [] := by rw [hb1]; exact hst
        have hkeep : ∀ q ndq, w.heap q = some ndq → ∃ ndq1, w1.heap q = some ndq1 := by
          intro q ndq hq
          obtain ⟨ndq1, h1, _⟩ := grows_node w.heap w1.heap p hg q ndq hq
          exact ⟨ndq1, h1⟩
        have htr1 : ∀ Y ∈ tr1.map Prod.fst, ∃ ndy, w1.heap Y = some ndy := by
          intro Y hY
          rcases hcall with ⟨_, rfl⟩ | ⟨_, rfl⟩
          · obtain ⟨ndy, hy⟩ := htr Y hY
            exact hkeep Y ndy hy
          · simp only [List.map_append, List.map_cons, List.map_nil, List.mem_append,
              List.mem_singleton] at hY
            rcases hY with hY | rfl
            · obtain ⟨ndy, hy⟩ := htr Y hY
              exact hkeep Y ndy hy
            · exact ⟨nd1, hp1⟩
        have hbr1 : branch = true → Above w1.heap start p :=
          fun e => above_grows w.heap w1.heap p hg start p (hbr e p rfl)
        rcases hsub with ⟨c1, cn, hc, hcn, hvc, rfl⟩ | ⟨w2, _, hm, rfl⟩
        · rw [walkState_next _ _ _ _ _ _ _ _ _ _ _ hs] at h
          obtain ⟨cn1, hcn1, hpar, _⟩ := hlev1.2.1 p nd1 c1 hp1 hc
          obtain ⟨r1, r2⟩ := ih w1 (some c1) tr1 wk nk trk hI1 hst1
            (fun q hq => by cases hq; exact ⟨cn, hcn⟩)
            (fun e q hq => by cases hq; exact Above.up c1 p cn1 hcn1 hpar (hbr1 e))
            htr1 h
          refine ⟨r1, ?_⟩
          intro q ndq hq
          obtain ⟨ndq1, h1⟩ := hkeep q ndq hq
          exact r2 q ndq1 h1
        · rw [walkState_next _ _ _ _ _ _ _ _ _ _ _ hs] at h
          have hheap2 : w2.heap = w1.heap := hm.1
          obtain ⟨r1, r2⟩ := ih w2 (some p) tr1 wk nk trk (by rw [hheap2]; exact hI1) hm.2.2.1
            (fun q hq => by cases hq; rw [hheap2]; exact ⟨nd1, hp1⟩)
            (fun e q hq => by
              cases hq
              exact above_heap w1.heap w2.heap hheap2 start p (hbr1 e))
            (fun Y hY => by rw [hheap2]; exact htr1 Y hY) h
          refine ⟨r1, ?_⟩
          intro q ndq hq
          obtain ⟨ndq1, h1⟩ := hkeep q ndq hq
          exact r2 q ndq1 (by rw [hheap2]; exact h1)

/-- C5: an entry-timed walk (whole tree or one branch, at top level or nested
with a successful push) over a heap that is a forest of bounded depth, with a
callback that returns on every node and only inserts new children, with ids
distinct from all others, into the node it is called on.  The walk returns
`false` with every fuel from `growBound D` on.  Whenever an iteration calls the
callback on the cursor `X` and a node `c` that was not in the heap before the
call is a child of `X` after it, the callback has not been called on `c`
before, and the loop reaches a later state with the cursor on `X` and `X`
marked visited, the state from which the cursor moves up to the parent of `X`
or the walk ends, in which the callback has been called on `c`; between the
call and that state `X` is not marked, so the cursor has not moved up from it.
And in every state of the loop with the cursor on a marked node, the callback
has been called on every child of that node that was not in the heap when the
walk was called. -/
theorem inserted_children_called_before_ascent (I : (Nat → Option NTreeNode) → Prop)
    (act : NTreeNodeActionFunc σ) (level : Nat → Nat) (D : Nat) (start : Nat)
    (branch pushOk : Bool) (w : World σ)
    (hcount0 : 0 ≤ w.entryCount) (hcount : w.entryCount < 32)
    (hpush : w.entryCount = 0 ∨ pushOk = true)
    (hbits : w.fVisitedBits ≠ [])
    (hI : ∀ h, I h → WellFormed h ∧ Levelled level D h) (hI0 : I w.heap)
    (hact : Growing I act)
    (htot : ∀ (n : Nat) (u : World σ), I u.heap → ∃ r u1, act n u = some (r, u1))
    (hstart : ∃ nd, w.heap start = some nd) :
    WalkReturnsFalse act start branch pushOk w (growBound D) ∧
      InsertedCalledAfterInsertion act start branch pushOk w ∧
      InsertedCalledBeforeAscent act (some start) branch pushOk w := by
  have hIwf : ∀ h, I h → WellFormed h := fun h hh => (hI h hh).1
  have hle := loopEntry_push w pushOk hpush
  obtain ⟨e1, e2⟩ := growInv_entry w hcount0 hcount hbits (hIwf _ hI0)
  obtain ⟨_, _, s3, _, _⟩ := loopEntry_spec w hcount0 hcount hbits
  obtain ⟨nd0, hnd0⟩ := hstart
  have hI1 : I (loopEntry w).heap := by rw [e2]; exact hI0
  have hp0 : (loopEntry w).heap start = some nd0 := by rw [e2]; exact hnd0
  have hsafe : InsertedCalledBeforeAscent act (some start) branch pushOk w := by
    intro k wk X trk nd hreach hX hv c hc hc0
    rw [hle] at hreach
    obtain ⟨⟨_, _, hK, hJ, _⟩, _⟩ := growInv_walkState I act w.heap (some start) branch hIwf
      hact k (loopEntry w) (some start) [] wk (some X) trk e1 hI1 hreach
    obtain ⟨cn, h1, h2⟩ := hK X nd hX hv c hc
    exact hJ c cn h1 hc0 h2
  refine ⟨?_, ?_, hsafe⟩
  · intro fuel hfuel
    rw [VisitAllNTreeNodes_steps fuel _ _ _ _ w pushOk hcount0 hcount, hle]
    obtain ⟨wE, a, e, trE, hres, hae⟩ := grow_terminates I act level D (some start) branch hI
      hact htot (growBound D) (loopEntry w) start [] nd0 hI1 s3 hp0
      (growPotential_lt level D _ start ((hI _ hI1).2.1 start nd0 hp0)) fuel hfuel
    rw [hres]
    simp only [Option.map_some']
    refine ⟨(exitPath wE a e trE).2.1, trE, ?_⟩
    cases a
    · rfl
    · have he := hae rfl
      subst he
      rfl
  · intro j wj X trj s nd1 c hj hs hrec hX1 hc hc0
    rw [hle] at hj ⊢
    obtain ⟨⟨hIj, hstj, hlivej, hbrj, htrj⟩, hkeep⟩ := grow_walkState I act level D start
      branch hI hact htot j (loopEntry w) (some start) [] wj (some X) trj hI1 s3
      (fun p hp => by cases hp; exact ⟨nd0, hp0⟩)
      (fun _ p hp => by cases hp; exact Above.self)
      (fun Y hY => by simp at hY) hj
    have hc00 : w.heap c = none := by
      cases hwc : w.heap c with
      | none => rfl
      | some ndc =>
        obtain ⟨ndc1, h1⟩ := hkeep c ndc (by rw [e2]; exact hwc)
        rw [hc0] at h1
        cases h1
    have hnot : c ∉ trj.map Prod.fst := by
      intro hmem
      obtain ⟨ndc, h1⟩ := htrj c hmem
      rw [hc0] at h1
      cases h1
    refine ⟨hnot, ?_⟩
    obtain ⟨ndX, hX⟩ := hlivej X rfl
    obtain ⟨s1, hs1, hcase⟩ := grow_step I act level D (some start) branch hI hact htot wj X
      ndX trj hIj hstj hX
    rw [hs] at hs1
    cases hs1
    have hlenne : trj ≠ trj ++ [(X, false)] := by
      intro h
      have := congrArg List.length h
      simp at this
    rcases hcase with ⟨_, _, rfl⟩ | ⟨_, _, rfl⟩ | ⟨hv, w1, tr1, ndn, hcall, hp1, hsub⟩
    · exact absurd hrec hlenne
    · exact absurd hrec hlenne
    · obtain ⟨hI1j, hb1, hg⟩ := called_spec I act hact wj X trj w1 tr1 hIj hcall
      obtain ⟨hwf1, hlev1⟩ := hI _ hI1j
      have hst1 : w1.fVisitedBits ≠ [] := by rw [hb1]; exact hstj
      obtain ⟨ndn1, hpn1, hidn, _, _⟩ := grows_node wj.heap w1.heap X hg X ndX hX
      rw [hp1] at hpn1
      cases hpn1
      have hvn : vis w1 ndn.fID = false := by rw [hidn, vis_congr wj w1 hb1]; exact hv
      have hstep1 : ∀ (w2 : World σ) (n2 : Option Nat),
          loopBody (some start) (some act) true branch wj X trj = some (Step.next w2 n2 tr1) →
          walkState (some start) (some act) true branch (1 + j) (loopEntry w) (some start) []
            = some (w2, n2, tr1) := by
        intro w2 n2 h2
        rw [walkState_add _ _ _ _ j _ _ _ _ _ _ hj 1, walkState_next _ _ _ _ _ _ _ _ _ _ _ h2]
        rfl
      rcases hsub with ⟨c1, cn, hc1, hcn, hvc, rfl⟩ | ⟨w2, _, hm, rfl⟩
      · -- the call is followed by the move down to a child
        have hX1a : w1.heap X = some nd1 := hX1
        rw [hp1] at hX1a
        have hnd : ndn = nd1 := Option.some.inj hX1a
        have hc : c ∈ ndn.fChildren := by rw [hnd]; exact hc
        obtain ⟨cn1, hcn1, hpar, _⟩ := hlev1.2.1 X ndn c1 hp1 hc1
        obtain ⟨m, wm, trm, ndm, g1, g2, g3, g4, g5⟩ := grow_reaches_mark I act level D start
          branch hI hact htot X c (growBound D) w1 c1 tr1 cn ndn hI1j hst1 hcn hp1 hvn hc
          (Above.up c1 X cn1 hcn1 hpar Above.self)
          (fun e => above_grows wj.heap w1.heap X hg start X (hbrj e X rfl))
          (growPotential_lt level D _ c1 (hlev1.1 c1 cn hcn))
        have hj1 := hstep1 w1 (some c1) hs
        have hk : walkState (some start) (some act) true branch (m + (1 + j)) (loopEntry w)
            (some start) [] = some (wm, some X, trm) := by
          rw [walkState_add _ _ _ _ (1 + j) _ _ _ _ _ _ hj1 m]
          exact g1
        refine ⟨m + (1 + j), wm, trm, ndm, by omega, hk, g2, g3, g4,
          hsafe (m + (1 + j)) wm X trm ndm (by rw [hle]; exact hk) g2 g3 c g4 hc00, ?_⟩
        intro i wi ni tri hji hik hwi
        have hi : i = (i - (1 + j)) + (1 + j) := by omega
        rw [hi, walkState_add _ _ _ _ (1 + j) _ _ _ _ _ _ hj1 (i - (1 + j))] at hwi
        exact g5 (i - (1 + j)) wi ni tri (by omega) hwi
      · -- the call is followed by the mark
        have hheap2 : w2.heap = w1.heap := hm.1
        have hX1a : w2.heap X = some nd1 := hX1
        rw [hheap2, hp1] at hX1a
        have hnd : ndn = nd1 := Option.some.inj hX1a
        have hc : c ∈ ndn.fChildren := by rw [hnd]; exact hc
        have hv2 : vis w2 ndn.fID = true := by
          rw [hm.2.2.2.2 _ (hwf1.1 X ndn hp1).1]
          simp
        have hk := hstep1 w2 (some X) hs
        have hX2 : w2.heap X = some ndn := by rw [hheap2]; exact hp1
        refine ⟨1 + j, w2, tr1, ndn, by omega, hk, hX2, hv2, hc,
          hsafe (1 + j) w2 X tr1 ndn (by rw [hle]; exact hk) hX2 hv2 c hc hc00, ?_⟩
        intro i _ _ _ hji hik _
        omega

theorem grownInv_sampleInv (h : Nat → Option NTreeNode) (hg : grownInv h) : sampleInv h := by
  rcases hg with rfl | rfl
  · exact sampleInv_sampleHeap
  · intro q nd hq
    have hq5 : q ≤ 5 := by
      by_contra hgt
      have : growHeap sampleHeap (mkNode 2 (some 0) []) q = none := by
        unfold growHeap
        rw [if_neg (by omega), if_neg (by omega)]
        unfold sampleHeap
        split <;> first | omega | rfl
      rw [this] at hq
      cases hq
    interval_cases q <;> simp [growHeap, sampleHeap, mkNode] at hq <;> subst hq <;>
      simp [sampleID]

theorem grownInv_levelled (h : Nat → Option NTreeNode) (hg : grownInv h) :
    Levelled sampleLevel 2 h := by
  have hs := grownInv_sampleInv h hg
  have hlv : ∀ q, q ≤ 5 → sampleLevel q ≤ 2 := by
    intro q hq
    interval_cases q <;> decide
  refine ⟨fun q nd hq => hlv q (hs q nd hq).1, ?_, ?_⟩
  · intro p pn c hp hc
    have hp5 := (hs p pn hp).1
    rcases hg with rfl | rfl
    · interval_cases p <;> simp [sampleHeap, mkNode] at hp <;> subst hp <;>
        simp at hc <;> (try rcases hc with rfl | rfl | rfl) <;>
        simp [sampleHeap, mkNode, sampleLevel]
    · interval_cases p <;> simp [growHeap, sampleHeap, mkNode] at hp <;> subst hp <;>
        simp at hc <;> (try rcases hc with rfl | rfl | rfl) <;>
        simp [growHeap, sampleHeap, mkNode, sampleLevel]
  · intro q nd p hq hpar
    have hq5 := (hs q nd hq).1
    rcases hg with rfl | rfl
    · interval_cases q <;> simp [sampleHeap, mkNode] at hq <;> subst hq <;>
        simp at hpar <;> subst hpar <;> simp [sampleHeap, mkNode, sampleLevel]
    · interval_cases q <;> simp [growHeap, sampleHeap, mkNode] at hq <;> subst hq <;>
        simp at hpar <;> subst hpar <;> simp [growHeap, sampleHeap, mkNode, sampleLevel]

theorem growAction_total (n : Nat) (u : World Unit) : ∃ r u1, growAction n u = some (r, u1) := by
  unfold growAction
  split
  · split_ifs
    · exact ⟨_, _, rfl⟩
    · exact ⟨_, _, rfl⟩
  · exact ⟨_, _, rfl⟩

theorem growing_grownInv : Growing grownInv growAction := by
  intro n w w1 r hI ha
  obtain ⟨a1, a2, a3, _, a5⟩ := growing_growAction n w w1 r (grownInv_sampleInv _ hI) ha
  refine ⟨a1, a2, a3, ?_, a5⟩
  unfold growAction at ha
  rcases hI with e | e
  · have h2 : w.heap 2 = some (mkNode 2 (some 0) []) := by rw [e]; rfl
    have h5 : w.heap 5 = none := by rw [e]; rfl
    rw [h2, h5] at ha
    simp only [] at ha
    split_ifs at ha
    · simp only [Option.some.injEq, Prod.mk.injEq] at ha
      obtain ⟨_, rfl⟩ := ha
      exact Or.inr (by simp only []; rw [e])
    · simp only [Option.some.injEq, Prod.mk.injEq] at ha
      obtain ⟨_, rfl⟩ := ha
      exact Or.inl e
  · have h5 : w.heap 5 = some (mkNode 5 (some 2) []) := by rw [e]; rfl
    have hsame : some (false, w) = some (r, w1) := by
      cases h2 : w.heap 2 with
      | none => simpa [h2, h5] using ha
      | some nd2 => simpa [h2, h5] using ha
    simp only [Option.some.injEq, Prod.mk.injEq] at hsame
    obtain ⟨_, rfl⟩ := hsame
    exact Or.inr e

theorem inserted_children_called_before_ascent_witness :
    WalkReturnsFalse growAction 0 false true sampleWorld (growBound 2) ∧
      InsertedCalledAfterInsertion growAction 0 false true sampleWorld ∧
      InsertedCalledBeforeAscent growAction (some 0) false true sampleWorld :=
  inserted_children_called_before_ascent grownInv growAction sampleLevel 2 0 false true
    sampleWorld (by decide) (by decide) (Or.inr rfl) (by simp [sampleWorld])
    (fun h hh => ⟨sampleInv_wellFormed h (grownInv_sampleInv h hh), grownInv_levelled h hh⟩)
    (Or.inl rfl) growing_grownInv (fun n u _ => growAction_total n u) ⟨_, rfl⟩

/-- The call that inserts a child is made in the walk of the sample tree with
`growAction`: after 7 iterations the cursor is on node 2, the callback has run
on the nodes 0, 1 and 3, and pointer 5 holds no node; the next iteration calls
the callback on node 2, and after it node 5 is the child of node 2. -/
theorem growAction_inserts :
    (walkState (some 0) (some growAction) true false 7 (loopEntry sampleWorld) (some 0) []).map
        (fun s => (s.2.1, s.2.2, (s.1.heap 5).isSome))
      = some (some 2, calm [0, 1, 3], false) ∧
    ((walkState (some 0) (some growAction) true false 7 (loopEntry sampleWorld) (some 0) []).bind
        (fun s => loopBody (some 0) (some growAction) true false s.1 2 s.2.2)).map
        (fun s => (s.record, (s.world.heap 2).map (fun nd => nd.fChildren)))
      = some (calm [0, 1, 3, 2], some [5]) := by
  decide

end NTree
